import Mathlib

/-!
# Filestate backend: stack references and the storage layout

A shallow embedding of `pkg/backend/filestate/store.go` (the two
`referenceStore` implementations) and of `pkg/backend/filestate/backend.go`
(`localBackendReference` and the functions of `localBackend`).

Go strings are modelled as lists of characters (`Str`); `len` counts UTF-8
bytes as Go does.  Errors are values of small inductive types, one
constructor per `errors.New` / `fmt.Errorf` site of the source.  In the pure
functions of `store.go` a `contract.Requiref` failure (a panic) is the `none`
of an `Option`.  The functions of `backend.go` are programs (`Prog`) that call
the bucket, the engine and the helpers of the package; a run of a program in a
world records every call with its answer.
-/

set_option autoImplicit false

/-- Go `string`, as the list of its characters. -/
abbrev Str := List Char

/-- Go `len(s)`: the number of bytes of the UTF-8 encoding of the string. -/
def len (s : Str) : Nat := (s.map Char.utf8Size).sum

/-! ## Standard library (`strings`, `path`, `path/filepath`, unix) -/

/-- Go `os.PathSeparator` on unix. -/
def os.PathSeparator : Char := '/'

/-- Go `strings.Split(s, sep)` for a separator `sep` of one character:
the pieces of `s` between the occurrences of `sep`; never the empty list. -/
def strings.Split (sep : Char) : Str → List Str
  | [] => [[]]
  | c :: cs =>
    if c = sep then [] :: strings.Split sep cs
    else
      match strings.Split sep cs with
      | [] => [[c]]
      | x :: xs => (c :: x) :: xs

/-- Go `strings.HasPrefix`. -/
def strings.HasPrefix : Str → Str → Bool
  | _, [] => true
  | [], _ :: _ => false
  | c :: cs, d :: ds => c == d && strings.HasPrefix cs ds

/-- Go `strings.TrimPrefix`: `s` without the leading `pre`, or `s` itself. -/
def strings.TrimPrefix (s pre : Str) : Str :=
  if strings.HasPrefix s pre then s.drop pre.length else s

/-- Go `strings.HasSuffix`. -/
def strings.HasSuffix (s suf : Str) : Bool :=
  strings.HasPrefix s.reverse suf.reverse

/-- Go `strings.TrimSuffix`: `s` without the trailing `suf`, or `s` itself. -/
def strings.TrimSuffix (s suf : Str) : Str :=
  if strings.HasSuffix s suf then s.take (s.length - suf.length) else s

/-- Go `strings.Join(elems, sep)`. -/
def strings.Join (elems : List Str) (sep : Str) : Str :=
  sep.intercalate elems

/-- Go `filepath.Ext`: the suffix beginning at the final dot of the final
slash-separated element of the path, empty if there is no dot.  The scan runs
from the end of the path, so it works on the reversed string: `acc` holds the
characters already passed, in path order. -/
def filepath.Ext.scan : Str → Str → Str
  | [], _ => []
  | c :: rest, acc =>
    if c = os.PathSeparator then []
    else if c = '.' then c :: acc
    else filepath.Ext.scan rest (c :: acc)

/-- Go `filepath.Ext`. -/
def filepath.Ext (path : Str) : Str := filepath.Ext.scan path.reverse []

/-- Go `path.Split` second result: everything after the final slash. -/
def path.Split.file (p : Str) : Str :=
  (p.reverse.takeWhile (fun c => c != '/')).reverse

/-- Go `filepath.ToSlash` on unix: the separator already is a slash. -/
def filepath.ToSlash (p : Str) : Str :=
  p.map (fun c => if c = os.PathSeparator then '/' else c)

/-- The `..` case of the loop of `filepath.Clean` when the buffer can
backtrack: `out.w--` and then `out.w--` again while `out.w > dotdot` and the
byte at index `out.w` is not a separator.  The buffer is kept reversed (its
head is the byte at index `w - 1`), so the byte at the new index `w` is the
one just dropped. -/
def filepath.Clean.backtrack (dotdot : Nat) : Str → Str
  | [] => []
  | c :: rest =>
    if rest.length > dotdot ∧ c ≠ os.PathSeparator then
      filepath.Clean.backtrack dotdot rest
    else rest

/-- The main loop of Go `filepath.Clean`.  `path` is the unread part of the
input (`path[r:]`), `out` the reversed output buffer, `dotdot` the index where
`..` must stop.  Every iteration reads at least one byte, so a fuel of the
length of the path is enough. -/
def filepath.Clean.loop (rooted : Bool) : Nat → Str → Str → Nat → Str
  | 0, _, out, _ => out
  | _ + 1, [], out, _ => out
  | fuel + 1, c :: cs, out, dotdot =>
    if c = os.PathSeparator then
      -- empty path element
      filepath.Clean.loop rooted fuel cs out dotdot
    else if c = '.' ∧ (cs = [] ∨ cs.head? = some os.PathSeparator) then
      -- . element
      filepath.Clean.loop rooted fuel cs out dotdot
    else if c = '.' ∧ cs.head? = some '.' ∧
        (cs.tail = [] ∨ cs.tail.head? = some os.PathSeparator) then
      -- .. element: remove to last separator
      if out.length > dotdot then
        filepath.Clean.loop rooted fuel cs.tail (filepath.Clean.backtrack dotdot out) dotdot
      else if !rooted then
        let out1 := if out.length > 0 then os.PathSeparator :: out else out
        let out2 := '.' :: '.' :: out1
        filepath.Clean.loop rooted fuel cs.tail out2 out2.length
      else
        filepath.Clean.loop rooted fuel cs.tail out dotdot
    else
      -- real path element: add slash if needed, copy element
      let out1 :=
        if (rooted ∧ out.length ≠ 1) ∨ (¬ rooted ∧ out.length ≠ 0) then os.PathSeparator :: out
        else out
      let elem := (c :: cs).takeWhile (fun x => x != os.PathSeparator)
      filepath.Clean.loop rooted fuel ((c :: cs).dropWhile (fun x => x != os.PathSeparator))
        (elem.reverse ++ out1) dotdot

/-- Go `filepath.Clean` on unix (no volume name). -/
def filepath.Clean (path : Str) : Str :=
  if path = [] then ['.']
  else
    let rooted : Bool := path.head? = some os.PathSeparator
    let out :=
      if rooted then filepath.Clean.loop rooted path.length path.tail [os.PathSeparator] 1
      else filepath.Clean.loop rooted path.length path [] 0
    -- Turn empty string into "."
    if out = [] then ['.'] else out.reverse

/-- Go `filepath.Join` on unix: the elements from the first non-empty one on,
joined by the separator and cleaned; empty if every element is empty. -/
def filepath.Join : List Str → Str
  | [] => []
  | e :: rest =>
    if e ≠ [] then filepath.Clean (strings.Join (e :: rest) [os.PathSeparator])
    else filepath.Join rest

/-! ## Helpers of the repository that `store.go` calls -/

/-- Modelled from the spec: one character of the name grammar
`[A-Za-z0-9._-]`, the character class that `tokens.IsName` admits. -/
def tokens.isNameChar (c : Char) : Bool :=
  ('A' ≤ c && c ≤ 'Z') || ('a' ≤ c && c ≤ 'z') || ('0' ≤ c && c ≤ '9') ||
    c == '_' || c == '.' || c == '-'

/-- Modelled from the spec: `tokens.IsName` (package `sdk/go/common/tokens`)
is called by `store.go` but its body is not part of the sources at hand.  The
spec gives the name grammar as `[A-Za-z0-9._-]{1,100}` with the length bound
checked by the callers: a name is a non-empty string of characters of that
class. -/
def tokens.IsName (s : Str) : Bool :=
  s ≠ [] && s.all tokens.isNameChar

/-- Modelled from the spec: `tokens.QNameDelimiter`, the slash that separates
the parts of a qualified name (`organization/project/name`). -/
def tokens.QNameDelimiter : Char := '/'

/-- Modelled from the spec: `fsutil.NamePath` (package
`sdk/go/common/util/fsutil`) is not part of the sources at hand.  It makes a
name usable as a path by turning the qualified-name delimiter into the path
separator; the persisted layout `stacks/<project>/<name>` of the spec has the
name verbatim as a path segment. -/
def fsutil.NamePath (nm : Str) : Str :=
  nm.map (fun c => if c = tokens.QNameDelimiter then os.PathSeparator else c)

/-- Modelled from the spec: `workspace.BookkeepingDir`, the directory of the
state's root under which everything is kept (the source names
`.pulumi/meta.yaml`). -/
def workspace.BookkeepingDir : Str := ".pulumi".toList

/-- Modelled from the spec: `workspace.StackDir`, root directory `stacks/`. -/
def workspace.StackDir : Str := "stacks".toList

/-- Modelled from the spec: `workspace.HistoryDir`, root directory `history/`. -/
def workspace.HistoryDir : Str := "history".toList

/-- Modelled from the spec: `workspace.BackupDir`, root directory `backups/`. -/
def workspace.BackupDir : Str := "backups".toList

/-- Modelled from the spec: `encoding.GZIPExt`, the recognized compression
extension. -/
def encoding.GZIPExt : Str := ".gz".toList

/-- Modelled from the spec: the key set of `encoding.Marshalers`, the
recognized serialization extensions. -/
def encoding.Marshalers.has (ext : Str) : Bool :=
  ext == ".json".toList || ext == ".yaml".toList

/-- The part of `workspace.Project` that the store reads. -/
structure workspace.Project where
  Name : Str

/-- One entry of a bucket listing (`blob.ListObject`). -/
structure blob.ListObject where
  Key : Str
  IsDir : Bool
deriving DecidableEq

/-- The options of a bucket listing (`blob.ListOptions`). -/
structure blob.ListOptions where
  Prefix : Str
  Delimiter : Str
deriving DecidableEq

/-- Go `gcerrors.ErrorCode`: the kind of failure that an error of the blob
store stands for. -/
inductive gcerrors.ErrorCode where
  | OK
  | Unknown
  | NotFound
  | AlreadyExists
  | InvalidArgument
  | Internal
  | Unimplemented
  | FailedPrecondition
  | PermissionDenied
  | ResourceExhausted
  | Canceled
  | DeadlineExceeded
deriving DecidableEq

/-- The error of a failed bucket operation, with its message and the code
that `gcerrors.Code` reads from it (`Unknown` for an error that carries none).
-/
structure BucketError where
  msg : Str
  code : gcerrors.ErrorCode := gcerrors.ErrorCode.Unknown
deriving DecidableEq

/-- The listing capability of `Bucket`: for the given options, the results of
the successive `Next` calls of the iterator, up to `io.EOF` (the end of the
list) or to the first error. -/
structure Bucket where
  List : blob.ListOptions → List (Except BucketError blob.ListObject)

/-! ## `store.go` and `localBackendReference` -/

/-- StacksDir is a path under the state's root directory
where the filestate backend stores stack information. -/
def StacksDir : Str := filepath.Join [workspace.BookkeepingDir, workspace.StackDir]

/-- HistoriesDir is a path under the state's root directory
where the filestate backend stores histories for all stacks. -/
def HistoriesDir : Str := filepath.Join [workspace.BookkeepingDir, workspace.HistoryDir]

/-- BackupsDir is a path under the state's root directory
where the filestate backend stores backups of stacks. -/
def BackupsDir : Str := filepath.Join [workspace.BookkeepingDir, workspace.BackupDir]

/-- The project-scoped store: version 1 of the stack storage format. -/
structure projectReferenceStore where
  bucket : Bucket
  /-- The current project, if any (`nil` is `none`). -/
  currentProject : Unit → Option workspace.Project

/-- The legacy store: the layout that did not support projects. -/
structure legacyReferenceStore where
  bucket : Bucket

/-- The two implementations of the `referenceStore` interface. -/
inductive referenceStore where
  | project (p : projectReferenceStore)
  | legacy (p : legacyReferenceStore)

/-- A stack reference.  `currentProject` is the function field of the source,
which may be nil (`none`), and whose result may be nil. -/
structure localBackendReference where
  name : Str
  project : Str
  currentProject : Option (Unit → Option workspace.Project)
  store : referenceStore

/-- The errors of the two `ParseReference` functions. -/
inductive ParseError where
  /-- "stack name must not be empty" -/
  | emptyStackName
  /-- "organization name must be 'organization'" -/
  | badOrganization
  /-- "if you're using the --stack flag, pass the fully qualified name
  (organization/project/stack)" -/
  | passFullyQualifiedName
  /-- "project names are limited to 100 characters" -/
  | projectTooLong
  /-- "project names may only contain alphanumerics, hyphens, underscores, and
  periods: %s" -/
  | badProjectName (project : Str)
  /-- "stack names are limited to 100 characters and may only contain
  alphanumeric, hyphens, underscores, or periods: %s" -/
  | badStackName (name : Str)
deriving DecidableEq

/-- The errors of the two `ValidateReference` functions. -/
inductive ValidateError where
  /-- "bad stack reference, project was not set" -/
  | projectNotSet
  /-- "bad stack reference, project was set" -/
  | projectSet
deriving DecidableEq

/-- The literal that the organization of a filestate stack always is. -/
def organization : Str := "organization".toList

/-- `localBackendReference.String`. -/
def localBackendReference.String (r : localBackendReference) : Str :=
  -- If project is blank this is a legacy non-project scoped stack reference, just return the name.
  if r.project = [] then r.name
  else
    let elide : Bool :=
      match r.currentProject with
      | none => false
      | some f =>
        match f () with
        | none => false
        | some proj => r.project = proj.Name
    if elide then r.name
    else organization ++ ['/'] ++ r.project ++ ['/'] ++ r.name

/-- `projectReferenceStore.newReference`. -/
def projectReferenceStore.newReference (p : projectReferenceStore) (project name : Str) :
    localBackendReference :=
  { name := name, project := project, store := referenceStore.project p,
    currentProject := some p.currentProject }

/-- `projectReferenceStore.StackBasePath`; `none` is the panic of
`contract.Requiref`. -/
def projectReferenceStore.StackBasePath (_p : projectReferenceStore)
    (ref : localBackendReference) : Option Str :=
  if ref.project = [] then none
  else some (filepath.Join [StacksDir, fsutil.NamePath ref.project, fsutil.NamePath ref.name])

/-- `projectReferenceStore.HistoryDir`. -/
def projectReferenceStore.HistoryDir (_p : projectReferenceStore)
    (stack : localBackendReference) : Option Str :=
  if stack.project = [] then none
  else some (filepath.Join [HistoriesDir, fsutil.NamePath stack.project, fsutil.NamePath stack.name])

/-- `projectReferenceStore.BackupDir`. -/
def projectReferenceStore.BackupDir (_p : projectReferenceStore)
    (stack : localBackendReference) : Option Str :=
  if stack.project = [] then none
  else some (filepath.Join [BackupsDir, fsutil.NamePath stack.project, fsutil.NamePath stack.name])

/-- The `switch len(split)` of `projectReferenceStore.ParseReference`: the
triple `(name, project, org)`; with no `default` case the three stay empty for
four segments or more. -/
def projectReferenceStore.ParseReference.parts : List Str → Str × Str × Str
  | [a] => (a, [], [])
  | [a, b] => (b, [], a)
  | [a, b, c] => (c, b, a)
  | _ => ([], [], [])

/-- The `if project == ""` block of `projectReferenceStore.ParseReference`:
a project that the input left out is the name of the current project, and
without a current project the parse fails. -/
def projectReferenceStore.ParseReference.infer (p : projectReferenceStore) (project : Str) :
    Except ParseError Str :=
  if project = [] then
    match p.currentProject () with
    | none => .error .passFullyQualifiedName
    | some currentProject => .ok currentProject.Name
  else .ok project

/-- `projectReferenceStore.ParseReference`. -/
def projectReferenceStore.ParseReference (p : projectReferenceStore) (stackRef : Str) :
    Except ParseError localBackendReference :=
  if stackRef = [] then .error .emptyStackName
  else
    let split := strings.Split '/' stackRef
    let name := (projectReferenceStore.ParseReference.parts split).1
    let project := (projectReferenceStore.ParseReference.parts split).2.1
    let org := (projectReferenceStore.ParseReference.parts split).2.2
    -- If the provided stack name didn't include the org or project,
    -- infer them from the local environment.
    let org := if org = [] then organization else org
    if org ≠ organization then .error .badOrganization
    else
      match projectReferenceStore.ParseReference.infer p project with
      | .error e => .error e
      | .ok project =>
        if len project > 100 then .error .projectTooLong
        else if project ≠ [] ∧ ¬ tokens.IsName project then .error (.badProjectName project)
        else if ¬ tokens.IsName name ∨ len name > 100 then .error (.badStackName name)
        else .ok (p.newReference project name)

/-- `projectReferenceStore.ValidateReference`; `none` is the nil error. -/
def projectReferenceStore.ValidateReference (_p : projectReferenceStore)
    (ref : localBackendReference) : Option ValidateError :=
  if ref.project = [] then some .projectNotSet else none

/-- `legacyReferenceStore.newReference`. -/
def legacyReferenceStore.newReference (p : legacyReferenceStore) (name : Str) :
    localBackendReference :=
  { name := name, project := [], store := referenceStore.legacy p, currentProject := none }

/-- `legacyReferenceStore.StackBasePath`; `none` is the panic of
`contract.Requiref`. -/
def legacyReferenceStore.StackBasePath (_p : legacyReferenceStore)
    (ref : localBackendReference) : Option Str :=
  if ref.project ≠ [] then none
  else some (filepath.Join [StacksDir, fsutil.NamePath ref.name])

/-- `legacyReferenceStore.HistoryDir`. -/
def legacyReferenceStore.HistoryDir (_p : legacyReferenceStore)
    (stack : localBackendReference) : Option Str :=
  if stack.project ≠ [] then none
  else some (filepath.Join [HistoriesDir, fsutil.NamePath stack.name])

/-- `legacyReferenceStore.BackupDir`. -/
def legacyReferenceStore.BackupDir (_p : legacyReferenceStore)
    (stack : localBackendReference) : Option Str :=
  if stack.project ≠ [] then none
  else some (filepath.Join [BackupsDir, fsutil.NamePath stack.name])

/-- `legacyReferenceStore.ParseReference`. -/
def legacyReferenceStore.ParseReference (p : legacyReferenceStore) (stackRef : Str) :
    Except ParseError localBackendReference :=
  if ¬ tokens.IsName stackRef ∨ len stackRef > 100 then .error (.badStackName stackRef)
  else .ok (p.newReference stackRef)

/-- `legacyReferenceStore.ValidateReference`; `none` is the nil error. -/
def legacyReferenceStore.ValidateReference (_p : legacyReferenceStore)
    (ref : localBackendReference) : Option ValidateError :=
  if ref.project ≠ [] then some .projectSet else none

/-- The `referenceStore` interface: `ParseReference`. -/
def referenceStore.ParseReference : referenceStore → Str → Except ParseError localBackendReference
  | .project p, s => p.ParseReference s
  | .legacy p, s => p.ParseReference s

/-- The `referenceStore` interface: `ValidateReference`. -/
def referenceStore.ValidateReference : referenceStore → localBackendReference → Option ValidateError
  | .project p, r => p.ValidateReference r
  | .legacy p, r => p.ValidateReference r

/-- The `referenceStore` interface: `StackBasePath`. -/
def referenceStore.StackBasePath : referenceStore → localBackendReference → Option Str
  | .project p, r => p.StackBasePath r
  | .legacy p, r => p.StackBasePath r

/-- The `referenceStore` interface: `HistoryDir`. -/
def referenceStore.HistoryDir : referenceStore → localBackendReference → Option Str
  | .project p, r => p.HistoryDir r
  | .legacy p, r => p.HistoryDir r

/-- The `referenceStore` interface: `BackupDir`. -/
def referenceStore.BackupDir : referenceStore → localBackendReference → Option Str
  | .project p, r => p.BackupDir r
  | .legacy p, r => p.BackupDir r

/-- Modelled from the spec: `listBucket` (file `bucket.go` of this package)
is not part of the sources at hand.  It is the prefix listing of the blob
store for one directory: every entry the bucket lists under `dir + "/"` with
the slash as delimiter, or the error of the listing. -/
def listBucket (bucket : Bucket) (dir : Str) : Except BucketError (List blob.ListObject) :=
  (bucket.List ⟨dir ++ ['/'], ['/']⟩).mapM id

/-- Modelled from the spec: `objectName` (file `bucket.go` of this package)
is not part of the sources at hand.  It is the file name of a listed object:
the part of its key after the last slash. -/
def objectName (obj : blob.ListObject) : Str := path.Split.file obj.Key

/-- The errors of the two `ListReferences` functions, each wrapping the error
of the bucket. -/
inductive ListError where
  /-- "list bucket: %w" -/
  | listBucket (err : BucketError)
  /-- "error listing stacks: %w" -/
  | listingStacks (err : BucketError)
deriving DecidableEq

/-- The extension handling that both `ListReferences` apply to an object
name: `some name` when the object name (after one trailing `.gz` is removed)
ends in a recognized serialization extension, `name` being the object name
without those extensions; `none` when the file is skipped.  The slice
`objName[:len(objName)-len(ext)]` cuts the extension, a suffix of the object
name, so it keeps all characters but the last `ext.length`. -/
def stackNameOfObject (objName : Str) : Option Str :=
  -- Skip files without valid extensions (e.g., *.bak files).
  let ext := filepath.Ext objName
  -- But accept gzip compression
  let objName1 :=
    if ext = encoding.GZIPExt then strings.TrimSuffix objName encoding.GZIPExt else objName
  let ext1 := if ext = encoding.GZIPExt then filepath.Ext objName1 else ext
  if ¬ encoding.Marshalers.has ext1 then none
  else some (objName1.take (objName1.length - ext1.length))

/-- The body of the `for` loop of `projectReferenceStore.ListReferences` for
one listed file: the reference to append, or `none` for `continue`. -/
def projectReferenceStore.ListReferences.step (p : projectReferenceStore) (pre : Str)
    (file : blob.ListObject) : Option localBackendReference :=
  if file.IsDir then none
  else
    match strings.Split '/' (strings.TrimPrefix file.Key pre) with
    | [projName, objName] =>
      if ¬ tokens.IsName projName then none
      else (stackNameOfObject objName).map (fun name => p.newReference projName name)
    | _ => none -- skip paths too shallow or too deep

/-- The `for` loop of `projectReferenceStore.ListReferences` over the results
of `iter.Next`; `refs` is the slice `stacks` of the source, the references
collected so far. -/
def projectReferenceStore.ListReferences.loop (p : projectReferenceStore) (pre : Str) :
    List (Except BucketError blob.ListObject) → List localBackendReference →
    Except ListError (List localBackendReference)
  | [], refs => .ok refs
  | .error err :: _, _ => .error (.listBucket err)
  | .ok file :: rest, refs =>
    match projectReferenceStore.ListReferences.step p pre file with
    | none => projectReferenceStore.ListReferences.loop p pre rest refs
    | some ref => projectReferenceStore.ListReferences.loop p pre rest (refs ++ [ref])

/-- `projectReferenceStore.ListReferences`. -/
def projectReferenceStore.ListReferences (p : projectReferenceStore) :
    Except ListError (List localBackendReference) :=
  let pre := filepath.ToSlash StacksDir ++ ['/']
  -- Don't set the Delimiter.
  projectReferenceStore.ListReferences.loop p pre (p.bucket.List ⟨pre, []⟩) []

/-- The body of the `for` loop of `legacyReferenceStore.ListReferences` for one
listed file: the reference to append, or `none` for `continue`. -/
def legacyReferenceStore.ListReferences.step (p : legacyReferenceStore)
    (file : blob.ListObject) : Option localBackendReference :=
  if file.IsDir then none
  else (stackNameOfObject (objectName file)).map (fun name => p.newReference name)

/-- `legacyReferenceStore.ListReferences`. -/
def legacyReferenceStore.ListReferences (p : legacyReferenceStore) :
    Except ListError (List localBackendReference) :=
  match listBucket p.bucket StacksDir with
  | .error err => .error (.listingStacks err)
  | .ok files => .ok (files.filterMap (legacyReferenceStore.ListReferences.step p))

/-- The `referenceStore` interface: `ListReferences`. -/
def referenceStore.ListReferences : referenceStore → Except ListError (List localBackendReference)
  | .project p => p.ListReferences
  | .legacy p => p.ListReferences

/-! ## An in-memory bucket, for concrete listings -/

/-- The listing of an in-memory bucket that holds exactly the given keys (in
key order): the keys with the prefix; with a delimiter, a key whose remainder
below the prefix contains the delimiter is listed as the directory up to and
including that delimiter, once. -/
def memBucket.list (keys : List Str) (opts : blob.ListOptions) : List blob.ListObject :=
  ((keys.filter (fun k => strings.HasPrefix k opts.Prefix)).map (fun k =>
    match opts.Delimiter with
    | [] => (⟨k, false⟩ : blob.ListObject)
    | d :: _ =>
      match strings.Split d (k.drop opts.Prefix.length) with
      | [_] => ⟨k, false⟩
      | seg :: _ => ⟨opts.Prefix ++ seg ++ [d], true⟩
      | [] => ⟨k, false⟩)).eraseDups

/-- An in-memory bucket that holds exactly the given keys; it never fails. -/
def memBucket (keys : List Str) : Bucket :=
  ⟨fun opts => (memBucket.list keys opts).map Except.ok⟩

/-! ## Concrete stores and buckets, and auxiliary predicates -/

/-- A project-scoped store over an empty bucket whose current project is
`proj`. -/
def exampleProjectStore : projectReferenceStore :=
  ⟨memBucket [], fun _ => some ⟨"proj".toList⟩⟩

/-- A project-scoped store over an empty bucket whose current project has an
empty name. -/
def exampleUnnamedProjectStore : projectReferenceStore :=
  ⟨memBucket [], fun _ => some ⟨[]⟩⟩

/-- A legacy store over an empty bucket. -/
def exampleLegacyStore : legacyReferenceStore := ⟨memBucket []⟩

/-- A path lies strictly under a directory when it is the directory, a slash
and a non-empty remainder. -/
def strictlyUnder (dir path : Str) : Bool :=
  strings.HasPrefix path (dir ++ ['/']) && decide (dir.length + 1 < path.length)

/-- The legacy bucket of the listing example: the three keys under the stacks
root, in key order. -/
def exampleLegacyBucket : Bucket :=
  memBucket [".pulumi/stacks/Invalid Name!.json".toList, ".pulumi/stacks/valid-name.json".toList,
    ".pulumi/stacks/valid-name.json.bak".toList]

/-- A project-scoped bucket with one stack file. -/
def exampleProjectBucket : Bucket :=
  memBucket [".pulumi/stacks/web/dev.json".toList]

/-- The names of the listed references, when the listing succeeds. -/
def listedNames (res : Except ListError (List localBackendReference)) : Option (List Str) :=
  res.toOption.map (fun refs => refs.map (fun r => r.name))

/-- A plain path element: non-empty, without a slash, and neither `.` nor
`..`. -/
def plainElem (e : Str) : Prop :=
  e ≠ [] ∧ '/' ∉ e ∧ e ≠ ['.'] ∧ e ≠ ['.', '.']

/-! ## The listing rules in the words of the spec -/

/-- The stack name that a stack file name stands for, in the words of the
spec: remove one trailing `.gz` if present; the rest must end in a recognized
serialization extension (`.json` or `.yaml`); the name is the rest without
that extension.  `none` when the file name is not that of a stack file. -/
def spec.stackFileName (f : Str) : Option Str :=
  let f1 := if strings.HasSuffix f ".gz".toList then f.take (f.length - 3) else f
  if strings.HasSuffix f1 ".json".toList then some (f1.take (f1.length - 5))
  else if strings.HasSuffix f1 ".yaml".toList then some (f1.take (f1.length - 5))
  else none

/-- The identity that one listed key stands for under the project-scoped
layout, in the words of the spec: the key is not a directory marker, its
remainder below the stacks root is exactly two slash-separated segments `p/f`,
`p` satisfies the name grammar and `f` is a stack file name for `n`. -/
def spec.projectIdentity (root : Str) (file : blob.ListObject) : Option (Str × Str) :=
  if file.IsDir then none
  else
    match strings.Split '/' (file.Key.drop root.length) with
    | [p, f] => if tokens.IsName p then (spec.stackFileName f).map (fun n => (p, n)) else none
    | _ => none

/-- The name that one listed entry stands for under the legacy layout, in the
words of the spec: the entry is not a directory marker and its file name is a
stack file name for `n`. -/
def spec.legacyName (file : blob.ListObject) : Option Str :=
  if file.IsDir then none else spec.stackFileName (objectName file)

/-- The file name `f` is a stack file name for the name `n`: it is `n`
followed by a recognized serialization extension (`.json` or `.yaml`) and
then possibly by the compression extension `.gz`. -/
def spec.Yields (f n : Str) : Prop :=
  ∃ e, (e = ".json".toList ∨ e = ".yaml".toList) ∧ (f = n ++ e ∨ f = n ++ e ++ ".gz".toList)

/-- A project-scoped bucket for the listing example: two stack files of the
project `web` (one compressed), a file without a recognized extension, a
stack file directly under the root, one nested too deep and one under a
directory that is not a project name. -/
def exampleListingBucket : Bucket :=
  memBucket [".pulumi/stacks/a/b/c.json".toList, ".pulumi/stacks/bad proj/x.json".toList,
    ".pulumi/stacks/top.json".toList, ".pulumi/stacks/web/dev.json".toList,
    ".pulumi/stacks/web/notes.txt".toList, ".pulumi/stacks/web/prod.yaml.gz".toList]

/-- The entries that the bucket of the listing example lists under the stacks
root without a delimiter. -/
def exampleListingFiles : List blob.ListObject :=
  [⟨".pulumi/stacks/a/b/c.json".toList, false⟩, ⟨".pulumi/stacks/bad proj/x.json".toList, false⟩,
    ⟨".pulumi/stacks/top.json".toList, false⟩, ⟨".pulumi/stacks/web/dev.json".toList, false⟩,
    ⟨".pulumi/stacks/web/notes.txt".toList, false⟩, ⟨".pulumi/stacks/web/prod.yaml.gz".toList, false⟩]

/-- The entries that the legacy bucket of the listing example lists under the
stacks root with the slash as delimiter. -/
def exampleLegacyFiles : List blob.ListObject :=
  [⟨".pulumi/stacks/Invalid Name!.json".toList, false⟩,
    ⟨".pulumi/stacks/valid-name.json".toList, false⟩,
    ⟨".pulumi/stacks/valid-name.json.bak".toList, false⟩]

/-! ## The backend (`backend.go`): data -/

/-- Go `backend.StackAlreadyExistsError`, the error of `CreateStack` when the
stack already exists in the backend. -/
structure backend.StackAlreadyExistsError where
  StackName : Str
deriving DecidableEq

/-- The method `Error` of `backend.StackAlreadyExistsError`. -/
def backend.StackAlreadyExistsError.Error (e : backend.StackAlreadyExistsError) : Str :=
  "stack '".toList ++ e.StackName ++ "' already exists".toList

/-- Go `error` values as the backend sees them. -/
inductive GoError where
  /-- An error of the bucket, or one that a helper outside `backend.go` and
  `store.go` returns. -/
  | bucket (err : BucketError)
  /-- The value of `errors.New(msg)`, or of `fmt.Errorf` without a wrapped
  error. -/
  | new (msg : Str)
  /-- The value of `fmt.Errorf(msg + ": %w", err)`. -/
  | wrap (msg : Str) (err : GoError)
  /-- An error of a `ListReferences`, which wraps an error of the bucket. -/
  | list (err : ListError)
  /-- An error of a `ParseReference`. -/
  | parse (err : ParseError)
  /-- An error of a `ValidateReference`. -/
  | validate (err : ValidateError)
  /-- A `*backend.StackAlreadyExistsError`. -/
  | stackAlreadyExists (e : backend.StackAlreadyExistsError)
deriving DecidableEq

/-- Go `gcerrors.Code` of a non-nil error: the code of the error of the blob
store that the error is or wraps, `Unknown` if there is none. -/
def gcerrors.Code : GoError → gcerrors.ErrorCode
  | .bucket err => err.code
  | .wrap _ err => gcerrors.Code err
  | .list (.listBucket err) => err.code
  | .list (.listingStacks err) => err.code
  | _ => gcerrors.ErrorCode.Unknown

/-- Modelled from the spec: a resource identity (`resource.URN`), from which
the owning project of a stack is recovered; the accessors of the type are not
part of the sources at hand. -/
structure resource.URN where
  Stack : Str
  Project : Str
  QualifiedType : Str
  Name : Str
deriving DecidableEq

/-- The part of a resource state that the backend reads. -/
structure resource.State where
  URN : resource.URN
  Delete : Bool
deriving DecidableEq

/-- The part of a snapshot (`deploy.Snapshot`, or the deployment inside a
checkpoint) that the backend reads: the resource list. -/
structure deploy.Snapshot where
  Resources : List resource.State
deriving DecidableEq

/-- The part of a checkpoint that the backend reads. -/
structure apitype.CheckpointV3 where
  Latest : Option deploy.Snapshot
deriving DecidableEq

/-- The record `pulumiMeta` of the metadata file. -/
structure pulumiMeta where
  Version : Int
deriving DecidableEq

/-- Go `backend.StackReference`: a reference of this backend, or one of
another type. -/
inductive backend.StackReference where
  | filestate (ref : localBackendReference)
  | foreign (fullyQualifiedName : Str)

/-- The part of `backend.Stack` that the backend reads. -/
structure backend.Stack where
  Ref : backend.StackReference

/-- The update kinds (`apitype.UpdateKind`), a string type in the source. -/
inductive apitype.UpdateKind where
  | UpdateUpdate
  | PreviewUpdate
  | RefreshUpdate
  | RenameUpdate
  | DestroyUpdate
  | ResourceImportUpdate
  | other (kind : Str)
deriving DecidableEq

/-- Go `deploy.Plan`, of which the backend reads nothing. -/
structure deploy.Plan where
  id : Nat
deriving DecidableEq

/-- Go `display.ResourceChanges`: the count of steps per operation. -/
abbrev sdkDisplay.ResourceChanges := List (Str × Nat)

/-- Go `engine.Event`, of which the backend reads nothing. -/
structure engine.Event where
  id : Nat
deriving DecidableEq

/-- Go `result.Result`: a failure that carries an error, or a bail. -/
inductive result.Result where
  | FromError (err : GoError)
  | Bail
deriving DecidableEq

/-- Go `result.Errorf`. -/
def result.Errorf (msg : Str) : result.Result := result.Result.FromError (GoError.new msg)

/-- Go `backend.UpdateResult`. -/
inductive backend.UpdateResult where
  | SucceededResult
  | FailedResult
  | InProgressResult
  | NotStartedResult
deriving DecidableEq

/-- The stack configuration, of which the backend reads nothing. -/
abbrev config.Map := List (Str × Str)

/-- Go `backend.UpdateInfo`: one entry of the history of a stack. -/
structure backend.UpdateInfo where
  Kind : apitype.UpdateKind
  StartTime : Int
  Message : Str
  Environment : List (Str × Str)
  Config : config.Map
  Result : backend.UpdateResult
  EndTime : Int
  ResourceChanges : sdkDisplay.ResourceChanges
deriving DecidableEq

/-- The parts of `display.Options` that `apply` reads. -/
structure display.Options where
  JSONDisplay : Bool
  /-- Whether `Type == display.DisplayWatch`. -/
  isDisplayWatch : Bool
  SuppressPermalink : Bool
deriving DecidableEq

/-- Go `deploy.Import`, of which the backend reads nothing. -/
structure deploy.Import where
  id : Nat
deriving DecidableEq

/-- The parts of `backend.UpdateOperation` that the backend reads or sets. -/
structure backend.UpdateOperation where
  Proj : workspace.Project
  Message : Str
  Environment : List (Str × Str)
  Display : display.Options
  Imports : List deploy.Import

/-- Go `backend.ApplierOptions`. -/
structure backend.ApplierOptions where
  DryRun : Bool
  ShowLink : Bool
deriving DecidableEq

/-- The part of the update that `newUpdate` returns which `apply` reads: the
target. -/
structure deploy.Target where
  Config : config.Map
  Snapshot : Option deploy.Snapshot
deriving DecidableEq

/-- The parts of a parsed URL (`url.URL`) that the backend reads. -/
structure url.URL where
  Scheme : Str
  Path : Str
deriving DecidableEq

/-- The four entry points of the engine that `apply` chooses from. -/
inductive engine.Entry where
  | Update
  | Import
  | Refresh
  | Destroy
deriving DecidableEq

/-- What one run of the engine gives back: the three results of the call and
the events that it sent on the channel `engineEvents` while it ran. -/
structure engine.Outcome where
  plan : Option deploy.Plan
  changes : sdkDisplay.ResourceChanges
  res : Option result.Result
  events : List engine.Event
deriving DecidableEq

/-- The channels of `apply`. -/
inductive apply.Chan where
  | displayEvents
  | displayDone
  | engineEvents
  | eventsDone
  /-- The channel `events` of the caller. -/
  | events
deriving DecidableEq

/-- The messages that the backend gives to its diagnostics sink and prints. -/
inductive diag.Message where
  /-- "Found legacy stack files in state store: ..." with the names. -/
  | legacyStackFiles (names : List Str)
  /-- "Could not write new state metadata file: %v ..." -/
  | couldNotWriteMeta (err : GoError)
  /-- "Skipping stack %q: %v" -/
  | skippingStack (old : localBackendReference) (err : GoError)
  /-- "Upgraded %d stack(s) to project mode" -/
  | upgraded (n : Nat)
  /-- "Unable to create signed url for current backend to create a Permalink.
  ..." -/
  | noSignedURL
  /-- The banner "%s (%s):" of `apply`, with the update kind, the dry-run flag
  (from which the action label is made) and the stack reference. -/
  | banner (kind : apitype.UpdateKind) (dryRun : Bool) (stackRef : Str)
  /-- "Permalink: %s" -/
  | permalink (link : Str)
  /-- "Created stack '%s'" -/
  | createdStack (stackRef : Str)

/-- The severities of the diagnostics sink, and plain printing. -/
inductive diag.Severity where
  | Infof
  | Infoerrf
  | Warningf
  | Errorf
  | Printf
deriving DecidableEq

/-- The backend `localBackend`, without its diagnostics sink and its mutex.
`currentProject` is the content of the atomic pointer; `bucket` is the handle
of the bucket, with the listings as they were when it was opened. -/
structure localBackend where
  originalURL : Str
  url : Str
  bucket : Bucket
  lockID : Str
  gzip : Bool
  currentProject : Option workspace.Project
  store : referenceStore

/-- `newLegacyReferenceStore`. -/
def newLegacyReferenceStore (b : Bucket) : legacyReferenceStore := ⟨b⟩

/-- `newProjectReferenceStore`. -/
def newProjectReferenceStore (bucket : Bucket)
    (currentProject : Unit → Option workspace.Project) : projectReferenceStore :=
  ⟨bucket, currentProject⟩

/-- `localBackendReference.FullyQualifiedName`. -/
def localBackendReference.FullyQualifiedName (r : localBackendReference) : Str :=
  if r.project = [] then r.name
  else organization ++ ['/'] ++ r.project ++ ['/'] ++ r.name

/-- The method `FullyQualifiedName` of `backend.StackReference`. -/
def backend.StackReference.FullyQualifiedName : backend.StackReference → Str
  | .filestate ref => ref.FullyQualifiedName
  | .foreign fullyQualifiedName => fullyQualifiedName

/-- The method `String` of `backend.StackReference`. -/
def backend.StackReference.String : backend.StackReference → Str
  | .filestate ref => ref.String
  | .foreign fullyQualifiedName => fullyQualifiedName

/-- `localBackend.getReference`: the type assertion, then `Validate`, which
asks the store that made the reference.  The callers return at a non-nil
error, so the reference comes with no error only. -/
def localBackend.getReference (_b : localBackend) (ref : backend.StackReference) :
    Except GoError localBackendReference :=
  match ref with
  | .foreign _ => .error (.new "bad stack reference type".toList)
  | .filestate stackRef =>
    match stackRef.store.ValidateReference stackRef with
    | some err => .error (.validate err)
    | none => .ok stackRef

/-- Go `backend.ErrTeamsNotSupported`. -/
def backend.ErrTeamsNotSupported : GoError := GoError.new "teams are not supported".toList

/-- Go `backend.CreateStackOptions`. -/
structure backend.CreateStackOptions where
  Teams : List Str
deriving DecidableEq

/-- Go `apitype.UntypedDeployment`: a version and the raw deployment. -/
structure apitype.UntypedDeployment where
  Version : Int
  Deployment : Str
deriving DecidableEq

/-- Go `apitype.VersionedCheckpoint`: a version and the raw checkpoint. -/
structure apitype.VersionedCheckpoint where
  Version : Int
  Checkpoint : Str
deriving DecidableEq

/-- The stack object `localStack` of this backend, with the fields that
`newStack` is given. -/
structure localStack where
  ref : localBackendReference
  path : Str
  snapshot : Option deploy.Snapshot
  b : localBackend

/-- Modelled from the spec: `newStack` (file `stack.go` of this package) is not
part of the sources at hand.  It makes the stack object of a reference, the
path of its checkpoint, its snapshot and the backend. -/
def newStack (ref : localBackendReference) (path : Str) (snapshot : Option deploy.Snapshot)
    (b : localBackend) : localStack :=
  ⟨ref, path, snapshot, b⟩

/-- Modelled from the spec: `tokens.QName.Name` (package
`sdk/go/common/tokens`) is not part of the sources at hand.  It is the simple
name of a qualified name: the part after the last delimiter `/`. -/
def tokens.QName.Name (nm : Str) : Str := path.Split.file nm

/-- Go `%q` of a string in which nothing needs an escape (the names of the
name grammar): the string in double quotes. -/
def fmt.quoted (s : Str) : Str := ['"'] ++ s ++ ['"']

/-! ## The backend: calls to the outside, programs and runs

The functions of `backend.go` call helpers that are defined in other files of
the package (`state.go`, `lock.go`, `meta.go`), the bucket, the engine and
the runtime.  A function of `backend.go` is modelled as a program: a tree that
says which calls it makes, in which order, and what it does with each answer.
A world answers the calls; a run of a program in a world gives the result, the
final state of the world and the trace, the list of the calls made with their
answers. -/

/-- The calls that the functions of `backend.go` make to the outside, with
their arguments. -/
inductive Call where
  /-- `b.Lock(ctx, ref)` -/
  | Lock (ref : backend.StackReference)
  /-- `b.Unlock(ctx, ref)` -/
  | Unlock (ref : backend.StackReference)
  /-- `b.getStack(ctx, ref)` -/
  | getStack (ref : localBackendReference)
  /-- `b.getCheckpoint(ref)` -/
  | getCheckpoint (ref : localBackendReference)
  /-- `b.removeStack(ref)` -/
  | removeStack (ref : localBackendReference)
  /-- `b.stackPath(ref)` -/
  | stackPath (ref : localBackendReference)
  /-- `b.saveStack(ref, snap, nil)` -/
  | saveStack (ref : localBackendReference) (snap : Option deploy.Snapshot)
  /-- `backupTarget(b.bucket, file, keepOriginal)` -/
  | backupTarget (file : Str) (keepOriginal : Bool)
  /-- `b.renameHistory(oldRef, newRef)` -/
  | renameHistory (oldRef newRef : localBackendReference)
  /-- `b.addToHistory(ref, info)` -/
  | addToHistory (ref : localBackendReference) (info : backend.UpdateInfo)
  /-- `b.backupStack(ref)` -/
  | backupStack (ref : localBackendReference)
  /-- `b.newUpdate(ctx, ref, op)` -/
  | newUpdate (ref : localBackendReference) (op : backend.UpdateOperation)
  /-- The bucket as it is at this moment, for a listing. -/
  | bucket
  /-- `b.bucket.Exists(ctx, key)` -/
  | bucketExists (key : Str)
  /-- `b.bucket.Delete(ctx, key)` -/
  | bucketDelete (key : Str)
  /-- `b.bucket.SignedURL(ctx, key, nil)` -/
  | SignedURL (key : Str)
  /-- `edit.RenameStack(snap, newName, newProject)`, which changes the
  snapshot in place. -/
  | editRenameStack (snap : deploy.Snapshot) (newName newProject : Str)
  /-- `meta.WriteTo(ctx, b.bucket)` -/
  | metaWriteTo (meta : pulumiMeta)
  /-- `ensurePulumiMeta(ctx, bucket, getenv)` -/
  | ensurePulumiMeta
  /-- A message to the diagnostics sink, or printed. -/
  | diag (sev : diag.Severity) (msg : diag.Message)
  /-- `runtime.GOMAXPROCS(0)` -/
  | GOMAXPROCS
  /-- The scheduler of the runtime picks one of `live` running goroutines. -/
  | sched (live : Nat)
  /-- `time.Now().Unix()` -/
  | timeNow
  /-- `url.Parse(u)` -/
  | urlParse (u : Str)
  /-- `blob.DefaultURLMux().ValidBucketScheme(scheme)` -/
  | ValidBucketScheme (scheme : Str)
  /-- `blob.DefaultURLMux().BucketSchemes()` -/
  | BucketSchemes
  /-- `massageBlobPath(path)`, which asks the file system and the user
  database. -/
  | massageBlobPath (path : Str)
  /-- `authhelpers.GoogleCredentialsMux(ctx)` -/
  | GoogleCredentialsMux
  /-- `blobmux.OpenBucket(ctx, u)` -/
  | OpenBucket (u : Str)
  /-- `uuid.NewV4()` -/
  | uuidNewV4
  /-- `opts.Getenv(name)` -/
  | Getenv (name : Str)
  /-- `workspace.DetectProjectPath()` -/
  | DetectProjectPath
  /-- `workspace.LoadProject(path)` -/
  | LoadProject (path : Str)
  /-- `go display.ShowEvents(...)` -/
  | ShowEvents (kind : apitype.UpdateKind) (dryRun : Bool)
  /-- `op.Scopes.NewScope(engineEvents, dryRun)` -/
  | NewScope (dryRun : Bool)
  /-- `scope.Close()` -/
  | scopeClose
  /-- `contract.IgnoreClose(manager)` -/
  | managerClose
  /-- One of `engine.Update`, `engine.Import`, `engine.Refresh` and
  `engine.Destroy`, with its dry-run argument. -/
  | engine (entry : engine.Entry) (dryRun : Bool)
  /-- `ch <- e` -/
  | send (ch : apply.Chan) (e : engine.Event)
  /-- `<-ch` -/
  | recv (ch : apply.Chan)
  /-- `close(ch)` -/
  | close (ch : apply.Chan)
  /-- `backend.GetEnvironmentTagsForCurrentStack(root, project)` -/
  | GetEnvironmentTagsForCurrentStack (root : Str) (project : Option workspace.Project)
  /-- `validation.ValidateStackProperties(name, tags)` -/
  | ValidateStackProperties (name : Str) (tags : List (Str × Str))
  /-- `stack.MarshalUntypedDeploymentToVersionedCheckpoint(stackName, deployment)` -/
  | MarshalUntypedDeploymentToVersionedCheckpoint (stackName : Str)
      (deployment : apitype.UntypedDeployment)
  /-- `b.saveCheckpoint(ref, chk)`, of which the callers read the error. -/
  | saveCheckpoint (ref : localBackendReference) (chk : apitype.VersionedCheckpoint)
  /-- `backend.PreviewThenPromptThenExecute(ctx, kind, stack, op, b.apply)`,
  which previews, asks the user and runs `b.apply`. -/
  | PreviewThenPromptThenExecute (kind : apitype.UpdateKind) (stack : backend.Stack)
      (op : backend.UpdateOperation)

/-- The type of the answer to a call. -/
@[reducible] def Call.Resp : Call → Type
  | .Lock _ => Option GoError
  | .Unlock _ => Unit
  | .getStack _ => Except GoError (Option deploy.Snapshot × Str)
  | .getCheckpoint _ => Except GoError apitype.CheckpointV3
  | .removeStack _ => Option GoError
  | .stackPath _ => Str
  | .saveStack _ _ => Except GoError Str
  | .backupTarget _ _ => Str
  | .renameHistory _ _ => Option GoError
  | .addToHistory _ _ => Option GoError
  | .backupStack _ => Option GoError
  | .newUpdate _ _ => Except GoError deploy.Target
  | .bucket => Bucket
  | .bucketExists _ => Except GoError Bool
  | .bucketDelete _ => Option GoError
  | .SignedURL _ => Except GoError Str
  | .editRenameStack _ _ _ => Option GoError × deploy.Snapshot
  | .metaWriteTo _ => Option GoError
  | .ensurePulumiMeta => Except GoError pulumiMeta
  | .diag _ _ => Unit
  | .GOMAXPROCS => Nat
  | .sched _ => Nat
  | .timeNow => Int
  | .urlParse _ => Except GoError url.URL
  | .ValidBucketScheme _ => Bool
  | .BucketSchemes => List Str
  | .massageBlobPath _ => Except GoError Str
  | .GoogleCredentialsMux => Option GoError
  | .OpenBucket _ => Except GoError Bucket
  | .uuidNewV4 => Except GoError Str
  | .Getenv _ => Str
  | .DetectProjectPath => Except GoError Str
  | .LoadProject _ => Except GoError workspace.Project
  | .ShowEvents _ _ => Unit
  | .NewScope _ => Unit
  | .scopeClose => Unit
  | .managerClose => Unit
  | .engine _ _ => engine.Outcome
  | .send _ _ => Unit
  | .recv _ => Unit
  | .close _ => Unit
  | .GetEnvironmentTagsForCurrentStack _ _ => List (Str × Str)
  | .ValidateStackProperties _ _ => Option GoError
  | .MarshalUntypedDeploymentToVersionedCheckpoint _ _ => Except GoError apitype.VersionedCheckpoint
  | .saveCheckpoint _ _ => Option GoError
  | .PreviewThenPromptThenExecute _ _ _ => sdkDisplay.ResourceChanges × Option result.Result

/-- A program: it returns, it panics, or it makes a call and goes on with the
answer. -/
inductive Prog (α : Type) where
  | ret (a : α)
  | gopanic (msg : Str)
  | call (c : Call) (k : c.Resp → Prog α)

/-- Sequencing: run `p`, then `f` on its result. -/
def Prog.bind {α β : Type} : Prog α → (α → Prog β) → Prog β
  | .ret a, f => f a
  | .gopanic msg, _ => .gopanic msg
  | .call c k, f => .call c (fun r => (k r).bind f)

/-- Go `defer`: `cleanup` runs when the body returns, and also when it
panics. -/
def Prog.deferred {α : Type} : Prog α → Prog Unit → Prog α
  | .ret a, cleanup => cleanup.bind (fun _ => .ret a)
  | .gopanic msg, cleanup => cleanup.bind (fun _ => .gopanic msg)
  | .call c k, cleanup => .call c (fun r => (k r).deferred cleanup)

/-- A world: it answers each call and moves to its next state. -/
structure World (σ : Type) where
  respond : (c : Call) → σ → c.Resp × σ

/-- One entry of a trace: a call and its answer. -/
structure Event where
  c : Call
  r : c.Resp

/-- How a run ends. -/
inductive Outcome (α : Type) where
  | done (a : α)
  | panicked (msg : Str)

/-- A run: how it ended, the final state of the world and the trace. -/
structure Run (σ α : Type) where
  out : Outcome α
  state : σ
  trace : List Event

/-- The run of a program in a world, from a state. -/
def Prog.run {σ α : Type} (W : World σ) : Prog α → σ → Run σ α
  | .ret a, s => ⟨.done a, s, []⟩
  | .gopanic msg, s => ⟨.panicked msg, s, []⟩
  | .call c k, s =>
    let rest := (k (W.respond c s).1).run W (W.respond c s).2
    ⟨rest.out, rest.state, ⟨c, (W.respond c s).1⟩ :: rest.trace⟩

/-- The calls of a trace, without their answers. -/
def calls (trace : List Event) : List Call := trace.map (fun e => e.c)

/-- Every call that the program can make satisfies `ok`. -/
def Prog.Calls {α : Type} (ok : Call → Prop) : Prog α → Prop
  | .ret _ => True
  | .gopanic _ => True
  | .call c k => ok c ∧ ∀ r, (k r).Calls ok

/-- The program never panics, whatever the answers. -/
def Prog.Returns {α : Type} : Prog α → Prop
  | .ret _ => True
  | .gopanic _ => False
  | .call _ k => ∀ r, (k r).Returns

/-! ## The backend (`backend.go`): functions -/

/-- `b.Unlock(ctx, ref)` as a program, for `defer`. -/
def localBackend.Unlock (_b : localBackend) (ref : backend.StackReference) : Prog Unit :=
  .call (.Unlock ref) (fun _ => .ret ())

/-- The test `snapshot != nil && len(snapshot.Resources) > 0` of
`RemoveStack`. -/
def localBackend.RemoveStack.hasResources : Option deploy.Snapshot → Bool
  | some snapshot => decide (snapshot.Resources.length > 0)
  | none => false

/-- `localBackend.RemoveStack`: the two results `(bool, error)`. -/
def localBackend.RemoveStack (b : localBackend) (stack : backend.Stack) (force : Bool) :
    Prog (Bool × Option GoError) :=
  match b.getReference stack.Ref with
  | .error err => .ret (false, some err)
  | .ok localStackRef =>
    .call (.Lock (.filestate localStackRef)) fun lockErr =>
    match lockErr with
    | some err => .ret (false, some err)
    | none =>
      Prog.deferred
        (.call (.getStack localStackRef) fun got =>
          match got with
          | .error err => .ret (false, some err)
          | .ok (snapshot, _) =>
            -- Don't remove stacks that still have resources.
            if !force && localBackend.RemoveStack.hasResources snapshot then
              .ret (true, some (.new
                "refusing to remove stack because it still contains resources".toList))
            else
              .call (.removeStack localStackRef) fun err => .ret (false, err))
        (b.Unlock (.filestate localStackRef))

/-- The part of `localBackend.renameStack` after the check of the destination:
save the snapshot under the new name, back the old file up, move the history.
-/
def localBackend.renameStack.save (_b : localBackend) (oldRef newRef : localBackendReference)
    (snap : Option deploy.Snapshot) : Prog (Option GoError) :=
  -- Now save the snapshot with a new name
  .call (.saveStack newRef snap) fun saved =>
  match saved with
  | .error err => .ret (some err)
  | .ok _ =>
    -- To remove the old stack, just make a backup of the file and don't write out anything new.
    .call (.stackPath oldRef) fun file =>
    .call (.backupTarget file false) fun _ =>
    -- And rename the history folder as well.
    .call (.renameHistory oldRef newRef) fun err => .ret err

/-- The part of `localBackend.renameStack` after the check of the destination:
the URNs of the snapshot, if there is one, are renamed by `edit.RenameStack`
with the new stack name and the empty project `""`; then the snapshot is
saved. -/
def localBackend.renameStack.rewrite (b : localBackend) (oldRef newRef : localBackendReference)
    (snap : Option deploy.Snapshot) : Prog (Option GoError) :=
  -- If we have a snapshot, we need to rename the URNs inside it to use the new stack name.
  match snap with
  | some sn =>
    .call (.editRenameStack sn newRef.name []) fun renamed =>
    match renamed.1 with
    | some err => .ret (some err)
    | none => localBackend.renameStack.save b oldRef newRef (some renamed.2)
  | none => localBackend.renameStack.save b oldRef newRef none

/-- `localBackend.renameStack`. -/
def localBackend.renameStack (b : localBackend) (oldRef newRef : localBackendReference) :
    Prog (Option GoError) :=
  .call (.Lock (.filestate oldRef)) fun lockErr =>
  match lockErr with
  | some err => .ret (some err)
  | none =>
    Prog.deferred
      -- Get the current state from the stack to be renamed.
      (.call (.getStack oldRef) fun got =>
        match got with
        | .error err => .ret (some err)
        | .ok (snap, _) =>
          -- Ensure the destination stack does not already exist.
          .call (.stackPath newRef) fun newPath =>
          .call (.bucketExists newPath) fun hasExisting =>
          match hasExisting with
          | .error err => .ret (some err)
          | .ok true =>
            .ret (some (.new ("a stack named ".toList ++ newRef.String ++ " already exists".toList)))
          | .ok false => localBackend.renameStack.rewrite b oldRef newRef snap)
      (b.Unlock (.filestate oldRef))

/-- The project that `upgradeStack` finds in a checkpoint: the project of the
URN of the first resource, empty if there is no snapshot or no resource. -/
def localBackend.upgradeStack.project (chk : apitype.CheckpointV3) : Str :=
  match chk.Latest with
  | some latest =>
    match latest.Resources with
    | res :: _ => res.URN.Project
    | [] => []
  | none => []

/-- `localBackend.upgradeStack`. -/
def localBackend.upgradeStack (b : localBackend) (newStore : projectReferenceStore)
    (old : localBackendReference) : Prog (Option GoError) :=
  if old.project ≠ [] then .gopanic "old.project must be empty".toList
  else
    .call (.getCheckpoint old) fun got =>
    match got with
    | .error err => .ret (some err)
    | .ok chk =>
      -- Try and find the project name from _any_ resource URN
      let project := localBackend.upgradeStack.project chk
      if project = [] then .ret (some (.new "no project found".toList))
      else
        let new := newStore.newReference project old.name
        (b.renameStack old new).bind fun renameErr =>
        match renameErr with
        | some err => .ret (some (.wrap ("rename to ".toList ++ new.String) err))
        | none => .ret none

/-- Where one worker goroutine of `Upgrade` stands. -/
inductive Upgrade.Worker where
  /-- At the top of its loop, about to take the next index. -/
  | claiming
  /-- Inside `b.upgradeStack(ctx, newStore, old)`, with what is left of it. -/
  | upgrading (old : localBackendReference) (rest : Prog (Option GoError))
  /-- Returned: the list of old stacks was exhausted. -/
  | exited

/-- The variables that the worker goroutines of `Upgrade` share, and the
workers. -/
structure Upgrade.Pool where
  /-- The value of the atomic `nextIdx`. -/
  nextIdx : Nat
  /-- The value of the atomic `upgraded`. -/
  upgraded : Nat
  workers : List Upgrade.Worker

/-- Whether a worker is still running. -/
def Upgrade.Worker.live : Upgrade.Worker → Bool
  | .exited => false
  | _ => true

/-- The indices of the workers that are still running. -/
def Upgrade.Pool.live (st : Upgrade.Pool) : List Nat :=
  (List.range st.workers.length).filter (fun i =>
    match st.workers.get? i with
    | some w => w.live
    | none => false)

/-- One step of worker `i`: at the top of the loop it takes the next index
(`nextIdx.Add(1) - 1`) and returns if the list is exhausted, else it enters
`upgradeStack`; inside `upgradeStack` it makes the next call; at the end of
`upgradeStack` it warns about a skipped stack or counts an upgraded one, and
is at the top of the loop again. -/
def Upgrade.step (b : localBackend) (newStore : projectReferenceStore)
    (olds : List localBackendReference) (i : Nat) (st : Upgrade.Pool) : Prog Upgrade.Pool :=
  match st.workers.get? i with
  | none => .ret st
  | some .exited => .ret st
  | some .claiming =>
    match olds.get? st.nextIdx with
    | none =>
      -- List of old stacks has been exhausted.
      .ret ⟨st.nextIdx + 1, st.upgraded, st.workers.set i .exited⟩
    | some old =>
      .ret ⟨st.nextIdx + 1, st.upgraded,
        st.workers.set i (.upgrading old (b.upgradeStack newStore old))⟩
  | some (.upgrading old rest) =>
    match rest with
    | .ret none => .ret ⟨st.nextIdx, st.upgraded + 1, st.workers.set i .claiming⟩
    | .ret (some err) =>
      .call (.diag .Warningf (.skippingStack old err)) fun _ =>
      .ret ⟨st.nextIdx, st.upgraded, st.workers.set i .claiming⟩
    | .gopanic msg => .gopanic msg
    | .call c k =>
      .call c fun r => .ret ⟨st.nextIdx, st.upgraded, st.workers.set i (.upgrading old (k r))⟩

/-- The worker goroutines of `Upgrade` up to `wg.Wait()`: while a worker is
running, the scheduler picks one of the running workers, which makes one
step.  `fuel` bounds the number of steps. -/
def Upgrade.pool (b : localBackend) (newStore : projectReferenceStore)
    (olds : List localBackendReference) : Nat → Upgrade.Pool → Prog Upgrade.Pool
  | 0, st =>
    if st.live = [] then .ret st else .gopanic "the step bound of the model is too small".toList
  | fuel + 1, st =>
    match st.live with
    | [] => .ret st
    | i :: rest =>
      .call (.sched (rest.length + 1)) fun pick =>
      (Upgrade.step b newStore olds ((i :: rest).getD (pick % (rest.length + 1)) i) st).bind
        (Upgrade.pool b newStore olds fuel)

/-- The number of steps that the workers of `Upgrade` can make at most: at
most 16 for each old stack (taking the index, the calls of `upgradeStack` and
of `renameStack`, the warning) and one for each worker to see the list
exhausted. -/
def Upgrade.stepBound (count numWorkers : Nat) : Nat := 16 * count + numWorkers

/-- `localBackend.Upgrade`: the error, and the backend with its store (which
the function replaces at the end). -/
def localBackend.Upgrade (b : localBackend) : Prog (Option GoError × localBackend) :=
  -- We don't use the existing b.store
  .call .bucket fun bucketNow =>
  match (newLegacyReferenceStore bucketNow).ListReferences with
  | .error err => .ret (some (.wrap "read old references".toList (.list err)), b)
  | .ok olds =>
    -- It's important that we attempt to write the new metadata file
    -- before we attempt the upgrade.
    .call (.metaWriteTo ⟨1⟩) fun writeErr =>
    match writeErr with
    | some err =>
      .call (.diag .Errorf (.couldNotWriteMeta err)) fun _ =>
      .ret (some (.new "state upgrade failed".toList), b)
    | none =>
      let newStore := newProjectReferenceStore b.bucket (fun _ => b.currentProject)
      .call .GOMAXPROCS fun procs =>
      -- Don't need more workers than work.
      let numWorkers := if olds.length < procs then olds.length else procs
      (Upgrade.pool b newStore olds (Upgrade.stepBound olds.length numWorkers)
        ⟨0, 0, List.replicate numWorkers .claiming⟩).bind fun st =>
      .call (.diag .Infoerrf (.upgraded st.upgraded)) fun _ =>
      .ret (none, { b with store := referenceStore.project newStore })

/-- Modelled from the spec: `stackLockDir` (file `lock.go` of this package) is
not part of the sources at hand.  It is the stack-specific lock directory: the
directory `locks` of the bookkeeping directory, then the fully qualified name
of the stack as a path. -/
def stackLockDir (stack : Str) : Str :=
  filepath.Join [workspace.BookkeepingDir, "locks".toList, fsutil.NamePath stack]

/-- The loop of `localBackend.CancelCurrentUpdate` over the listed files. -/
def localBackend.CancelCurrentUpdate.loop (_b : localBackend) :
    List blob.ListObject → Prog (Option GoError)
  | [] => .ret none
  | file :: rest =>
    if file.IsDir then localBackend.CancelCurrentUpdate.loop _b rest
    else
      .call (.bucketDelete file.Key) fun delErr =>
      match delErr with
      | some err =>
        -- Race condition, don't error if the file was delete between us calling list and now
        if gcerrors.Code err = gcerrors.ErrorCode.NotFound then .ret none
        else .ret (some err)
      | none => localBackend.CancelCurrentUpdate.loop _b rest

/-- `localBackend.CancelCurrentUpdate`. -/
def localBackend.CancelCurrentUpdate (b : localBackend) (stackRef : backend.StackReference) :
    Prog (Option GoError) :=
  -- Try to delete ALL the lock files
  .call .bucket fun bucketNow =>
  match listBucket bucketNow (stackLockDir stackRef.FullyQualifiedName) with
  | .error err =>
    -- Don't error if it just wasn't found
    if gcerrors.Code (.bucket err) = gcerrors.ErrorCode.NotFound then .ret none
    else .ret (some (.bucket err))
  | .ok allFiles => localBackend.CancelCurrentUpdate.loop b allFiles

/-! ## The backend (`backend.go`): `apply` -/

/-- `currentProjectContradictsWorkspace`. -/
def currentProjectContradictsWorkspace (stack : localBackendReference) : Prog Bool :=
  if stack.project = [] then .ret false
  else
    .call .DetectProjectPath fun detected =>
    match detected with
    | .error _ => .ret false
    | .ok projPath =>
      if projPath = [] then .ret false
      else
        .call (.LoadProject projPath) fun loaded =>
        match loaded with
        | .error _ => .ret false
        | .ok proj => .ret (decide (proj.Name ≠ stack.project))

/-- The goroutine of `apply` that pulls the events of the engine and sends
each to the display and, if the caller gave a channel, to the caller; at the
end of the events it closes `eventsDone`. -/
def localBackend.apply.forward (callerEvents : Bool) : List engine.Event → Prog Unit
  | [] => .call (.close .eventsDone) fun _ => .ret ()
  | e :: rest =>
    .call (.send .displayEvents e) fun _ =>
    -- If the caller also wants to see the events, stream them there also.
    if callerEvents then
      .call (.send .events e) fun _ => localBackend.apply.forward callerEvents rest
    else localBackend.apply.forward callerEvents rest

/-- The `switch kind` of `apply`: the entry point of the engine and its
dry-run argument, `none` for a kind that `apply` does not know (a panic). -/
def localBackend.apply.entry (kind : apitype.UpdateKind) (dryRun : Bool) :
    Option (engine.Entry × Bool) :=
  match kind with
  | .PreviewUpdate => some (.Update, true)
  | .UpdateUpdate => some (.Update, dryRun)
  | .ResourceImportUpdate => some (.Import, dryRun)
  | .RefreshUpdate => some (.Refresh, dryRun)
  | .DestroyUpdate => some (.Destroy, dryRun)
  | _ => none

/-- Go `url.URL.String` after `u.Path` is set to the joined path, for the
permalink of a `file://` backend. -/
def localBackend.apply.fileLink (u : url.URL) (stackPath : Str) : Str :=
  u.Scheme ++ "://".toList ++ filepath.ToSlash (filepath.Join [u.Path, stackPath])

/-- The prefix of the URL of a local backend. -/
def FilePathPrefix : Str := "file://".toList

/-- The end of `apply`, after the results are saved without error: print a
link to the checkpoint of the stack, if asked for. -/
def localBackend.apply.permalink (b : localBackend) (localStackRef : localBackendReference)
    (op : backend.UpdateOperation) (opts : backend.ApplierOptions) : Prog Unit :=
  if !op.Display.SuppressPermalink && opts.ShowLink && !op.Display.JSONDisplay then
    .call (.stackPath localStackRef) fun stackPath =>
    let print (link : Str) : Prog Unit :=
      if link ≠ [] then .call (.diag .Printf (.permalink link)) fun _ => .ret ()
      else .ret ()
    if strings.HasPrefix b.url FilePathPrefix then
      .call (.urlParse b.url) fun parsed =>
      match parsed with
      | .ok u => print (localBackend.apply.fileLink u stackPath)
      | .error _ => print (localBackend.apply.fileLink ⟨[], []⟩ stackPath)
    else
      .call (.SignedURL stackPath) fun signed =>
      match signed with
      | .ok link => print link
      | .error _ =>
        -- we log a warning here rather then returning an error
        .call (.diag .Warningf .noSignedURL) fun _ => .ret ()
  else .ret ()

/-- The banner of `apply`, unless the display is JSON or a watch. -/
def localBackend.apply.banner (kind : apitype.UpdateKind) (stackRef : backend.StackReference)
    (op : backend.UpdateOperation) (opts : backend.ApplierOptions) : Prog Unit :=
  if !(op.Display.JSONDisplay || op.Display.isDisplayWatch) then
    -- Print a banner so it's clear this is a local deployment.
    .call (.diag .Printf (.banner kind opts.DryRun stackRef.String)) fun _ => .ret ()
  else .ret ()

/-- The block `if !opts.DryRun` of `apply`: the two errors `saveErr` and
`backupErr`, both nil in a dry run. -/
def localBackend.apply.save (localStackRef : localBackendReference) (info : backend.UpdateInfo)
    (opts : backend.ApplierOptions) : Prog (Option GoError × Option GoError) :=
  if !opts.DryRun then
    .call (.addToHistory localStackRef info) fun saveErr =>
    .call (.backupStack localStackRef) fun backupErr => .ret (saveErr, backupErr)
  else .ret (none, none)

/-- The part of `apply` between the return of the engine and the saving of
the results: the events are forwarded, the display is awaited, the scope, the
channels and the snapshot manager are closed. -/
def localBackend.apply.await (callerEvents : Bool) (events : List engine.Event) : Prog Unit :=
  (localBackend.apply.forward callerEvents events).bind fun _ =>
  -- Wait for the display to finish showing all the events.
  .call (.recv .displayDone) fun _ =>
  .call .scopeClose fun _ =>
  .call (.close .engineEvents) fun _ =>
  .call .managerClose fun _ =>
  -- Make sure the goroutine writing to displayEvents and events has exited
  .call (.recv .eventsDone) fun _ =>
  .call (.close .displayEvents) fun _ => .ret ()

/-- The returns at the end of `apply`: the failure of the engine, else the
error of the history, else the error of the backup, else (after the permalink)
no error. -/
def localBackend.apply.answer (b : localBackend) (localStackRef : localBackendReference)
    (op : backend.UpdateOperation) (opts : backend.ApplierOptions)
    (plan : Option deploy.Plan) (changes : sdkDisplay.ResourceChanges)
    (updateRes : Option result.Result) (saveErr backupErr : Option GoError) :
    Prog (Option deploy.Plan × sdkDisplay.ResourceChanges × Option result.Result) :=
  match updateRes with
  | some res =>
    -- We swallow saveErr and backupErr as they are less important than the updateErr.
    .ret (plan, changes, some res)
  | none =>
    match saveErr with
    | some saveErr =>
      -- We swallow backupErr as it is less important than the saveErr.
      .ret (plan, changes, some (.FromError (.wrap "saving update info".toList saveErr)))
    | none =>
      match backupErr with
      | some backupErr =>
        .ret (plan, changes, some (.FromError (.wrap "saving backup".toList backupErr)))
      | none =>
        -- Make sure to print a link to the stack's checkpoint before exiting.
        (localBackend.apply.permalink b localStackRef op opts).bind fun _ =>
        .ret (plan, changes, none)

/-- The history entry that `apply` writes. -/
def localBackend.apply.info (kind : apitype.UpdateKind) (op : backend.UpdateOperation)
    (update : deploy.Target) (start finish : Int) (outcome : engine.Outcome) :
    backend.UpdateInfo :=
  { Kind := kind, StartTime := start, Message := op.Message,
    Environment := op.Environment, Config := update.Config,
    Result :=
      if outcome.res.isSome then backend.UpdateResult.FailedResult
      else backend.UpdateResult.SucceededResult,
    EndTime := finish, ResourceChanges := outcome.changes }

/-- The end of `apply`, from the return of the engine on. -/
def localBackend.apply.finish (b : localBackend) (kind : apitype.UpdateKind)
    (localStackRef : localBackendReference) (op : backend.UpdateOperation)
    (opts : backend.ApplierOptions) (callerEvents : Bool) (update : deploy.Target)
    (start : Int) (outcome : engine.Outcome) :
    Prog (Option deploy.Plan × sdkDisplay.ResourceChanges × Option result.Result) :=
  .call .timeNow fun finish =>
  (localBackend.apply.await callerEvents outcome.events).bind fun _ =>
  -- Save update results.
  (localBackend.apply.save localStackRef
    (localBackend.apply.info kind op update start finish outcome) opts).bind fun errs =>
  localBackend.apply.answer b localStackRef op opts
    (if kind = .PreviewUpdate then outcome.plan else none) outcome.changes outcome.res
    errs.1 errs.2

/-- `localBackend.apply`: the three results `(plan, changes, result)`.
`callerEvents` says whether the channel `events` of the caller is non-nil.
The goroutines are laid out in one order: the engine runs, then its events
are forwarded, then the display is done. -/
def localBackend.apply (b : localBackend) (kind : apitype.UpdateKind) (stack : backend.Stack)
    (op : backend.UpdateOperation) (opts : backend.ApplierOptions) (callerEvents : Bool) :
    Prog (Option deploy.Plan × sdkDisplay.ResourceChanges × Option result.Result) :=
  let stackRef := stack.Ref
  match b.getReference stackRef with
  | .error err => .ret (none, [], some (.FromError err))
  | .ok localStackRef =>
    (currentProjectContradictsWorkspace localStackRef).bind fun contradicts =>
    if contradicts then
      .ret (none, [], some (result.Errorf ("provided project name ".toList ++
        fmt.quoted localStackRef.project ++ " doesn't match Pulumi.yaml".toList)))
    else
      (localBackend.apply.banner kind stackRef op opts).bind fun _ =>
      -- Start the update.
      .call (.newUpdate localStackRef op) fun started =>
      match started with
      | .error err => .ret (none, [], some (.FromError err))
      | .ok update =>
        -- Spawn a display loop to show events on the CLI.
        .call (.ShowEvents kind opts.DryRun) fun _ =>
        .call (.NewScope opts.DryRun) fun _ =>
        -- Perform the update
        .call .timeNow fun start =>
        match localBackend.apply.entry kind opts.DryRun with
        | none => .gopanic ("Unrecognized update kind".toList)
        | some (entry, dryRun) =>
          .call (.engine entry dryRun) fun outcome =>
          localBackend.apply.finish b kind localStackRef op opts callerEvents update start outcome

/-- The calls of `apply` that the claims about its result are about: the run
of the engine and the two writes. -/
def Call.core : Call → Bool
  | .engine _ _ => true
  | .addToHistory _ _ => true
  | .backupStack _ => true
  | _ => false

/-- The result that `apply` chooses: the failure of the engine, else the
error of the history write, else the error of the backup write, else none. -/
def localBackend.apply.choose (updateRes : Option result.Result)
    (saveErr backupErr : Option GoError) : Option result.Result :=
  match updateRes with
  | some res => some res
  | none =>
    match saveErr with
    | some err => some (.FromError (.wrap "saving update info".toList err))
    | none =>
      match backupErr with
      | some err => some (.FromError (.wrap "saving backup".toList err))
      | none => none

/-! ## The backend (`backend.go`): opening a store -/

/-- The name of the environment variable that enables gzip compression. -/
def PulumiFilestateGzipEnvVar : Str := "PULUMI_SELF_MANAGED_STATE_GZIP".toList

/-- The name of the environment variable that disables the warning about
legacy stack files (the source takes it from the package `env`; the warning
itself names it). -/
def PulumiFilestateNoLegacyWarningEnvVar : Str :=
  "PULUMI_SELF_MANAGED_STATE_NO_LEGACY_WARNING".toList

/-- Modelled from the spec: `cmdutil.IsTruthy` is not part of the sources at
hand.  It reads a boolean environment toggle: `1` and `true` (in any case) are
true. -/
def cmdutil.IsTruthy (s : Str) : Bool :=
  s == "1".toList || s.map Char.toLower == "true".toList

/-- The scheme of Google Cloud Storage URLs (`gcsblob.Scheme`). -/
def gcsblob.Scheme : Str := "gs".toList

/-- Go `strings.TrimLeft(s, "/")`. -/
def strings.TrimLeftSlash (s : Str) : Str := s.dropWhile (fun c => c == '/')

/-- Go `blob.PrefixedBucket`: the bucket whose keys are the keys of `bucket`
under `pre`, without `pre`. -/
def blob.PrefixedBucket (bucket : Bucket) (pre : Str) : Bucket :=
  ⟨fun opts => (bucket.List ⟨pre ++ opts.Prefix, opts.Delimiter⟩).map (fun item =>
    match item with
    | .ok obj => .ok ⟨obj.Key.drop pre.length, obj.IsDir⟩
    | .error err => .error err)⟩

/-- `IsFileStateBackendURL`. -/
def IsFileStateBackendURL (urlstr : Str) : Prog Bool :=
  .call (.urlParse urlstr) fun parsed =>
  match parsed with
  | .error _ => .ret false
  | .ok u => .call (.ValidBucketScheme u.Scheme) fun valid => .ret valid

/-- The errors with which `newLocalBackend` fails, apart from the errors of
its callees, which it returns as they are or wrapped. -/
inductive OpenError where
  /-- "local URL %s has an illegal prefix; expected one of: %s" -/
  | illegalScheme (originalURL : Str) (schemes : List Str)
  /-- "state store unsupported: 'meta.yaml' version (%d) is not supported by
  this version of the Pulumi CLI" -/
  | unsupportedVersion (version : Int)
  /-- An error of a callee. -/
  | callee (err : GoError)
deriving DecidableEq

/-- The `switch meta.Version` of `newLocalBackend`: the store that governs
the backend, or the error for a version that is not supported. -/
def newLocalBackend.selectStore (wbucket : Bucket) (currentProject : Option workspace.Project)
    (meta : pulumiMeta) : Except OpenError referenceStore :=
  if meta.Version = 0 then .ok (referenceStore.legacy (newLegacyReferenceStore wbucket))
  else if meta.Version = 1 then
    .ok (referenceStore.project (newProjectReferenceStore wbucket (fun _ => currentProject)))
  else .error (.unsupportedVersion meta.Version)

/-- Whether a store is the project-scoped one (`projectMode`). -/
def referenceStore.projectMode : referenceStore → Bool
  | .project _ => true
  | .legacy _ => false

/-- The end of `newLocalBackend` in project mode: warn about any old stack
files.  The result is the backend in every case. -/
def newLocalBackend.warnLegacy (_backend : localBackend) : Prog Unit :=
  .call (.Getenv PulumiFilestateNoLegacyWarningEnvVar) fun noWarning =>
  -- If we've disabled the warning, we're done.
  if cmdutil.IsTruthy noWarning then .ret ()
  else
    -- Otherwise, warn about any old stack files.
    .call .bucket fun bucketNow =>
    match (newLegacyReferenceStore bucketNow).ListReferences with
    | .error _ =>
      -- If there's an error listing don't fail, just don't print the warnings
      .ret ()
    | .ok refs =>
      if refs.length = 0 then .ret ()
      else
        .call (.diag .Warningf (.legacyStackFiles (refs.map (fun ref => ref.name)))) fun _ =>
        .ret ()

/-- `newLocalBackend`, with the options at their defaults. -/
def newLocalBackend (originalURL : Str) (project : Option workspace.Project) :
    Prog (Except OpenError localBackend) :=
  (IsFileStateBackendURL originalURL).bind fun valid =>
  if !valid then
    .call .BucketSchemes fun schemes => .ret (.error (.illegalScheme originalURL schemes))
  else
    .call (.massageBlobPath originalURL) fun massaged =>
    match massaged with
    | .error err => .ret (.error (.callee err))
    | .ok u =>
      .call (.urlParse u) fun parsed =>
      match parsed with
      | .error err => .ret (.error (.callee err))
      | .ok p =>
        -- for gcp we want to support additional credentials
        (if p.Scheme = gcsblob.Scheme then
          (.call .GoogleCredentialsMux fun err => .ret err : Prog (Option GoError))
        else .ret none).bind fun muxErr =>
        match muxErr with
        | some err => .ret (.error (.callee err))
        | none =>
          .call (.OpenBucket u) fun opened =>
          match opened with
          | .error err =>
            .ret (.error (.callee (.wrap ("unable to open bucket ".toList ++ u) err)))
          | .ok bucket =>
            let bucketSubDir := strings.TrimLeftSlash p.Path
            let wbucket :=
              if !strings.HasPrefix u FilePathPrefix then
                if bucketSubDir ≠ [] then
                  blob.PrefixedBucket bucket
                    (if !strings.HasSuffix bucketSubDir ['/'] then bucketSubDir ++ ['/']
                      else bucketSubDir)
                else bucket
              else bucket
            -- Allocate a unique lock ID for this backend instance.
            .call .uuidNewV4 fun made =>
            match made with
            | .error err => .ret (.error (.callee err))
            | .ok lockID =>
              .call (.Getenv PulumiFilestateGzipEnvVar) fun gz =>
              -- Read the Pulumi state metadata
              -- and ensure that it is compatible with this version of the CLI.
              .call .ensurePulumiMeta fun ensured =>
              match ensured with
              | .error err => .ret (.error (.callee err))
              | .ok meta =>
                match newLocalBackend.selectStore wbucket project meta with
                | .error err => .ret (.error err)
                | .ok store =>
                  let backend : localBackend :=
                    { originalURL := originalURL, url := u, bucket := wbucket, lockID := lockID,
                      gzip := cmdutil.IsTruthy gz, currentProject := project, store := store }
                  -- If we're not in project mode, we're done.
                  if !store.projectMode then .ret (.ok backend)
                  else (newLocalBackend.warnLegacy backend).bind fun _ => .ret (.ok backend)

/-! ## The backend (`backend.go`): creating, loading and importing a stack,
and the operations on a stack -/

/-- The test `opts != nil && len(opts.Teams) > 0` of `CreateStack`. -/
def backend.CreateStackOptions.hasTeams : Option backend.CreateStackOptions → Bool
  | some opts => decide (opts.Teams.length > 0)
  | none => false

/-- The end of `localBackend.CreateStack`, after the load of the stack failed:
the stack properties are validated and an empty checkpoint is saved. -/
def localBackend.CreateStack.create (b : localBackend) (localStackRef : localBackendReference)
    (root : Str) (stackName : Str) : Prog (Option localStack × Option GoError) :=
  .call (.GetEnvironmentTagsForCurrentStack root b.currentProject) fun tags =>
  .call (.ValidateStackProperties (tokens.QName.Name stackName) tags) fun invalid =>
  match invalid with
  | some err => .ret (none, some (.wrap "validating stack properties".toList err))
  | none =>
    .call (.saveStack localStackRef none) fun saved =>
    match saved with
    | .error err => .ret (none, some err)
    | .ok file =>
      let stack := newStack localStackRef file none b
      .call (.diag .Infof (.createdStack stack.ref.String)) fun _ => .ret (some stack, none)

/-- The part of `localBackend.CreateStack` that runs under the lock. -/
def localBackend.CreateStack.locked (b : localBackend) (localStackRef : localBackendReference)
    (root : Str) : Prog (Option localStack × Option GoError) :=
  (currentProjectContradictsWorkspace localStackRef).bind fun contradicts =>
  if contradicts then
    .ret (none, some (.new ("provided project name ".toList ++
      fmt.quoted localStackRef.project ++ " doesn't match Pulumi.yaml".toList)))
  else
    let stackName := localStackRef.FullyQualifiedName
    if stackName = [] then .ret (none, some (.new "invalid empty stack name".toList))
    else
      .call (.getStack localStackRef) fun got =>
      match got with
      | .ok _ => .ret (none, some (.stackAlreadyExists ⟨stackName⟩))
      | .error _ => localBackend.CreateStack.create b localStackRef root stackName

/-- `localBackend.CreateStack`: the two results `(backend.Stack, error)`. -/
def localBackend.CreateStack (b : localBackend) (stackRef : backend.StackReference) (root : Str)
    (opts : Option backend.CreateStackOptions) : Prog (Option localStack × Option GoError) :=
  if backend.CreateStackOptions.hasTeams opts then .ret (none, some backend.ErrTeamsNotSupported)
  else
    match b.getReference stackRef with
    | .error err => .ret (none, some err)
    | .ok localStackRef =>
      .call (.Lock stackRef) fun lockErr =>
      match lockErr with
      | some err => .ret (none, some err)
      | none =>
        Prog.deferred (localBackend.CreateStack.locked b localStackRef root) (b.Unlock stackRef)

/-- `localBackend.GetStack`: the two results `(backend.Stack, error)`. -/
def localBackend.GetStack (b : localBackend) (stackRef : backend.StackReference) :
    Prog (Option localStack × Option GoError) :=
  match b.getReference stackRef with
  | .error err => .ret (none, some err)
  | .ok localStackRef =>
    .call (.getStack localStackRef) fun got =>
    match got with
    | .error err =>
      if gcerrors.Code err = gcerrors.ErrorCode.NotFound then .ret (none, none)
      else .ret (none, some err)
    | .ok (snapshot, path) => .ret (some (newStack localStackRef path snapshot b), none)

/-- `localBackend.ImportDeployment`. -/
def localBackend.ImportDeployment (b : localBackend) (stk : backend.Stack)
    (deployment : apitype.UntypedDeployment) : Prog (Option GoError) :=
  match b.getReference stk.Ref with
  | .error err => .ret (some err)
  | .ok localStackRef =>
    .call (.Lock (.filestate localStackRef)) fun lockErr =>
    match lockErr with
    | some err => .ret (some err)
    | none =>
      Prog.deferred
        (.call (.MarshalUntypedDeploymentToVersionedCheckpoint
            localStackRef.FullyQualifiedName deployment) fun made =>
          match made with
          | .error err => .ret (some err)
          | .ok chk => .call (.saveCheckpoint localStackRef chk) fun err => .ret err)
        (b.Unlock (.filestate localStackRef))

/-- What `Update`, `Import`, `Refresh` and `Destroy` have in common: take the
lock of the stack, then preview, prompt and execute with `b.apply`. -/
def localBackend.lockedOperation (b : localBackend) (kind : apitype.UpdateKind)
    (stack : backend.Stack) (op : backend.UpdateOperation) :
    Prog (sdkDisplay.ResourceChanges × Option result.Result) :=
  .call (.Lock stack.Ref) fun lockErr =>
  match lockErr with
  | some err => .ret ([], some (.FromError err))
  | none =>
    Prog.deferred
      (.call (.PreviewThenPromptThenExecute kind stack op) fun r => .ret r)
      (b.Unlock stack.Ref)

/-- `localBackend.Update`. -/
def localBackend.Update (b : localBackend) (stack : backend.Stack) (op : backend.UpdateOperation) :
    Prog (sdkDisplay.ResourceChanges × Option result.Result) :=
  b.lockedOperation .UpdateUpdate stack op

/-- `localBackend.Import`. -/
def localBackend.Import (b : localBackend) (stack : backend.Stack) (op : backend.UpdateOperation)
    (imports : List deploy.Import) : Prog (sdkDisplay.ResourceChanges × Option result.Result) :=
  b.lockedOperation .ResourceImportUpdate stack { op with Imports := imports }

/-- `localBackend.Refresh`. -/
def localBackend.Refresh (b : localBackend) (stack : backend.Stack)
    (op : backend.UpdateOperation) : Prog (sdkDisplay.ResourceChanges × Option result.Result) :=
  b.lockedOperation .RefreshUpdate stack op

/-- `localBackend.Destroy`. -/
def localBackend.Destroy (b : localBackend) (stack : backend.Stack)
    (op : backend.UpdateOperation) : Prog (sdkDisplay.ResourceChanges × Option result.Result) :=
  b.lockedOperation .DestroyUpdate stack op

/-- `localBackend.Preview`. -/
def localBackend.Preview (b : localBackend) (stack : backend.Stack)
    (op : backend.UpdateOperation) :
    Prog (Option deploy.Plan × sdkDisplay.ResourceChanges × Option result.Result) :=
  -- We can skip PreviewThenPromptThenExecute and just go straight to Execute.
  b.apply .PreviewUpdate stack op ⟨true, true⟩ false

/-! ## Runs and traces: auxiliary notions -/

/-- A run takes the lock of `ref` before anything else: it makes no call at
all, or its first call is the lock of `ref`; and when the lock answers with an
error, nothing else is called and the result is `onErr` of that error. -/
def LocksFirst {σ α : Type} (R : Run σ α) (ref : backend.StackReference)
    (onErr : GoError → α) : Prop :=
  R.trace = [] ∨
    ∃ lockErr rest, R.trace = ⟨.Lock ref, lockErr⟩ :: rest ∧
      ∀ err, lockErr = some err → rest = [] ∧ R.out = .done (onErr err)

/-- The events that a list of calls sends on a channel, in order. -/
def delivered (ch : apply.Chan) (cs : List Call) : List engine.Event :=
  cs.filterMap (fun c =>
    match c with
    | .send ch2 e => if ch2 = ch then some e else none
    | _ => none)

/-- The program makes at most `n` calls, whatever the answers. -/
def Prog.Within {α : Type} : Prog α → Nat → Prop
  | .ret _, _ => True
  | .gopanic _, _ => True
  | .call _ k, n => 0 < n ∧ ∀ r, (k r).Within (n - 1)

/-- The stacks whose checkpoint a trace reads, in the order of the reads. -/
def checkpointReads (trace : List Event) : List localBackendReference :=
  trace.filterMap (fun e =>
    match e.c with
    | .getCheckpoint old => some old
    | _ => none)

/-- The number of warnings "Skipping stack ..." in a trace. -/
def skipWarnings (trace : List Event) : Nat :=
  (trace.filter (fun e =>
    match e.c with
    | .diag .Warningf (.skippingStack _ _) => true
    | _ => false)).length

/-- A budget of steps for a worker of `Upgrade`, until it is at the top of its
loop again: none for a worker that returned, one for a worker at the top of
its loop (it takes an index), and for a worker inside `upgradeStack` two more
than the calls that are left of `upgradeStack`, which returns. -/
def Upgrade.Worker.Budget : Upgrade.Worker → Nat → Prop
  | .exited, _ => True
  | .claiming, c => 1 ≤ c
  | .upgrading _ rest, c => rest.Returns ∧ ∃ d, rest.Within d ∧ d + 2 ≤ c

/-- The stacks that a trace locks. -/
def locked (trace : List Event) : List localBackendReference :=
  trace.filterMap (fun e =>
    match e.c with
    | .Lock (.filestate old) => some old
    | _ => none)

/-- The stacks whose checkpoint a trace reads and finds to name a project. -/
def checkpointsWithProject (trace : List Event) : List localBackendReference :=
  trace.filterMap (fun e =>
    match e with
    | ⟨.getCheckpoint old, .ok chk⟩ =>
      if localBackend.upgradeStack.project chk = [] then none else some old
    | _ => none)

/-- The calls other than the read of a checkpoint and the lock of a stack. -/
def Call.plain (c : Call) : Prop :=
  (∀ o, c ≠ .getCheckpoint o) ∧ ∀ ref, c ≠ .Lock ref

/-- The stack that a worker is about to read the checkpoint of, or to lock. -/
def Upgrade.Worker.owed : Upgrade.Worker → Multiset localBackendReference
  | .upgrading old (.call (.getCheckpoint _) _) => {old}
  | .upgrading old (.call (.Lock _) _) => {old}
  | _ => 0

/-- A worker inside `upgradeStack` is at one of three points: before the read
of the checkpoint of its stack, after which it locks that stack if the
checkpoint names a project; before that lock; or after both. -/
def Upgrade.Worker.Orderly : Upgrade.Worker → Prop
  | .upgrading old (.call (.getCheckpoint o) k) =>
    o = old ∧ (∀ err, (k (.error err)).Calls Call.plain) ∧
      (∀ chk, localBackend.upgradeStack.project chk = [] → (k (.ok chk)).Calls Call.plain) ∧
      ∀ chk, localBackend.upgradeStack.project chk ≠ [] →
        ∃ k2 : Option GoError → Prog (Option GoError),
          k (.ok chk) = .call (.Lock (.filestate old)) k2 ∧ ∀ r, (k2 r).Calls Call.plain
  | .upgrading old (.call (.Lock ref) k) =>
    ref = .filestate old ∧ ∀ r, (k r).Calls Call.plain
  | .upgrading _ rest => rest.Calls Call.plain
  | _ => True

/-- In the words of the claim about the migration, not taken from the code of
`upgradeStack`: the project-scoped reference under which a legacy stack is to
be written, given the answer of the read of its checkpoint.  It is the
reference of the new store with the project that the URN of the first resource
of the snapshot names and with the name of the stack; there is none when the
read fails, when the checkpoint has no snapshot or the snapshot no resource,
and when that URN names no project. -/
def spec.migrationTarget (newStore : projectReferenceStore) (old : localBackendReference) :
    Except GoError apitype.CheckpointV3 → Option localBackendReference
  | .ok ⟨some ⟨res :: _⟩⟩ =>
    if res.URN.Project = [] then none else some (newStore.newReference res.URN.Project old.name)
  | _ => none

/-- The migration target of the stack whose checkpoint an event reads. -/
def Event.target (newStore : projectReferenceStore) : Event → Option localBackendReference
  | ⟨.getCheckpoint old, got⟩ => spec.migrationTarget newStore old got
  | _ => none

/-- The reference under which an event writes a checkpoint: the reference of a
save that answers without error. -/
def Event.saved : Event → Option localBackendReference
  | ⟨.saveStack ref _, .ok _⟩ => some ref
  | _ => none

/-- The migration targets of the stacks whose checkpoint a trace reads, in the
order of the reads. -/
def migratable (newStore : projectReferenceStore) (trace : List Event) :
    List localBackendReference :=
  trace.filterMap (Event.target newStore)

/-- The references under which a trace writes a checkpoint, in order. -/
def written (trace : List Event) : List localBackendReference :=
  trace.filterMap Event.saved

/-- A step that makes a rename fail: a lock that is refused, a load that
fails, a check of the destination that fails or finds it, a rewrite of the
URNs that fails, a save that fails. -/
def Event.failsRename : Event → Bool
  | ⟨.Lock _, some _⟩ => true
  | ⟨.getStack _, .error _⟩ => true
  | ⟨.bucketExists _, .error _⟩ => true
  | ⟨.bucketExists _, .ok true⟩ => true
  | ⟨.editRenameStack _ _ _, (some _, _)⟩ => true
  | ⟨.saveStack _ _, .error _⟩ => true
  | _ => false

/-- The calls other than the read of a checkpoint and the save of a stack. -/
def Call.aside (c : Call) : Prop :=
  (∀ o, c ≠ .getCheckpoint o) ∧ ∀ ref snap, c ≠ .saveStack ref snap

/-- The program is on its way to the save of a stack under `new`: its next
call is that save, after which it neither saves nor reads a checkpoint; or its
next call is neither, and after it the program is still on its way to the save
unless the step makes the rename fail, in which case it neither saves nor
reads a checkpoint any more. -/
def Prog.Saves {α : Type} (new : localBackendReference) : Prog α → Prop
  | .ret _ => False
  | .gopanic _ => False
  | .call c k =>
    ((∃ snap, c = .saveStack new snap) ∧ ∀ r, (k r).Calls Call.aside) ∨
    (c.aside ∧ ∀ r, (Event.failsRename ⟨c, r⟩ = false → (k r).Saves new) ∧
      (Event.failsRename ⟨c, r⟩ = true → (k r).Calls Call.aside))

/-- A worker of `Upgrade` and the references it has yet to write: none at the
top of its loop and after it returned; inside `upgradeStack` none before the
read of the checkpoint (the answer of the read decides), the migration target
of its stack while it is on its way to the save, none afterwards. -/
def Upgrade.Worker.Owes (newStore : projectReferenceStore) :
    Upgrade.Worker → Multiset localBackendReference → Prop
  | .upgrading old rest, m =>
    (m = 0 ∧ rest.Calls Call.aside) ∨
    (m = 0 ∧ ∃ k : Except GoError apitype.CheckpointV3 → Prog (Option GoError),
      rest = .call (.getCheckpoint old) k ∧ ∀ got,
        match spec.migrationTarget newStore old got with
        | some new => (k got).Saves new
        | none => (k got).Calls Call.aside) ∨
    (∃ new, m = {new} ∧ rest.Saves new)
  | _, m => m = 0

/-! ## Worlds for concrete runs -/

/-- The answer of a call in a world where everything works and nothing is
there: no error, no snapshot, an empty bucket, no events. -/
def Call.quiet : (c : Call) → c.Resp
  | .Lock _ => none
  | .Unlock _ => ()
  | .getStack _ => .ok (none, [])
  | .getCheckpoint _ => .ok ⟨none⟩
  | .removeStack _ => none
  | .stackPath ref =>
    match ref.store.StackBasePath ref with
    | some base => base ++ ".json".toList
    | none => []
  | .saveStack _ _ => .ok []
  | .backupTarget _ _ => []
  | .renameHistory _ _ => none
  | .addToHistory _ _ => none
  | .backupStack _ => none
  | .newUpdate _ _ => .ok ⟨[], none⟩
  | .bucket => memBucket []
  | .bucketExists _ => .ok false
  | .bucketDelete _ => none
  | .SignedURL _ => .ok []
  | .editRenameStack snap _ _ => (none, snap)
  | .metaWriteTo _ => none
  | .ensurePulumiMeta => .ok ⟨1⟩
  | .diag _ _ => ()
  | .GOMAXPROCS => 1
  | .sched _ => 0
  | .timeNow => 0
  | .urlParse _ => .ok ⟨"file".toList, []⟩
  | .ValidBucketScheme _ => true
  | .BucketSchemes => ["file".toList]
  | .massageBlobPath path => .ok path
  | .GoogleCredentialsMux => none
  | .OpenBucket _ => .ok (memBucket [])
  | .uuidNewV4 => .ok "lock-id".toList
  | .Getenv _ => []
  | .DetectProjectPath => .ok []
  | .LoadProject _ => .ok ⟨[]⟩
  | .ShowEvents _ _ => ()
  | .NewScope _ => ()
  | .scopeClose => ()
  | .managerClose => ()
  | .engine _ _ => ⟨none, [], none, []⟩
  | .send _ _ => ()
  | .recv _ => ()
  | .close _ => ()
  | .GetEnvironmentTagsForCurrentStack _ _ => []
  | .ValidateStackProperties _ _ => none
  | .MarshalUntypedDeploymentToVersionedCheckpoint _ deployment =>
    .ok ⟨3, deployment.Deployment⟩
  | .saveCheckpoint _ _ => none
  | .PreviewThenPromptThenExecute _ _ _ => ([], none)

/-- The settings of a concrete world: what differs from the quiet answers. -/
structure Scenario where
  /-- The snapshot that `getStack` loads. -/
  snapshot : Option deploy.Snapshot
  /-- Whether the bucket has the key that `Exists` is asked for. -/
  hasExisting : Bool
  /-- The error of `removeStack`. -/
  removeErr : Option GoError
  /-- The error of the write of the metadata file. -/
  metaWriteErr : Option GoError
  /-- The version in the metadata file. -/
  metaVersion : Int
  /-- The result of the engine. -/
  engineOutcome : engine.Outcome
  /-- The error of `addToHistory`. -/
  saveErr : Option GoError
  /-- The error of `backupStack`. -/
  backupErr : Option GoError

/-- The scenario in which every answer is the quiet one. -/
def Scenario.quiet : Scenario :=
  ⟨none, false, none, none, 1, ⟨none, [], none, []⟩, none, none⟩

/-- The world of a scenario; it has no state of its own. -/
def Scenario.world (sc : Scenario) : World Unit :=
  ⟨fun c s =>
    match c with
    | .getStack _ => (.ok (sc.snapshot, []), s)
    | .bucketExists _ => (.ok sc.hasExisting, s)
    | .removeStack _ => (sc.removeErr, s)
    | .metaWriteTo _ => (sc.metaWriteErr, s)
    | .ensurePulumiMeta => (.ok ⟨sc.metaVersion⟩, s)
    | .engine _ _ => (sc.engineOutcome, s)
    | .addToHistory _ _ => (sc.saveErr, s)
    | .backupStack _ => (sc.backupErr, s)
    | c => (Call.quiet c, s)⟩

/-! ## Concrete backends, stacks and worlds -/

/-- A backend in project mode over an empty bucket, with the current project
`proj`. -/
def exampleBackend : localBackend :=
  { originalURL := "file://~".toList, url := "file:///home/state".toList, bucket := memBucket [],
    lockID := "lock-id".toList, gzip := false, currentProject := some ⟨"proj".toList⟩,
    store := referenceStore.project exampleProjectStore }

/-- The stack `organization/proj/dev` of the example backend. -/
def exampleStackRef : localBackendReference :=
  exampleProjectStore.newReference "proj".toList "dev".toList

/-- A snapshot with one resource, of the project `proj` and the stack `dev`. -/
def exampleSnapshot : deploy.Snapshot :=
  ⟨[⟨⟨"dev".toList, "proj".toList, "pulumi:pulumi:Stack".toList, "proj-dev".toList⟩, false⟩]⟩

/-- The world in which the stacks have the example snapshot. -/
def exampleResourceWorld : World Unit :=
  Scenario.world { Scenario.quiet with snapshot := some exampleSnapshot }

/-- The world in which the stacks have the example snapshot and the path of
every stack exists in the bucket. -/
def exampleExistingWorld : World Unit :=
  Scenario.world { Scenario.quiet with snapshot := some exampleSnapshot, hasExisting := true }

/-- The stack `organization/proj/prod` of the example backend. -/
def exampleOtherStackRef : localBackendReference :=
  exampleProjectStore.newReference "proj".toList "prod".toList

/-- The stack `organization/p1/s`. -/
def exampleP1Ref : localBackendReference :=
  exampleProjectStore.newReference "p1".toList "s".toList

/-- The stack `organization/p2/s`. -/
def exampleP2Ref : localBackendReference :=
  exampleProjectStore.newReference "p2".toList "s".toList

/-- An update operation of the project `proj`. -/
def exampleOp : backend.UpdateOperation :=
  ⟨⟨"proj".toList⟩, [], [], ⟨false, false, false⟩, []⟩

/-- The world in which the history write and the backup write both fail. -/
def exampleFailingWritesWorld : World Unit :=
  Scenario.world { Scenario.quiet with
    saveErr := some (.new "disk full".toList), backupErr := some (.new "no space".toList) }

/-- The world in which the metadata file of the store has the version 2. -/
def exampleUnsupportedWorld : World Unit :=
  Scenario.world { Scenario.quiet with metaVersion := 2 }

/-- The world in which the metadata file cannot be written. -/
def exampleReadOnlyWorld : World Unit :=
  Scenario.world { Scenario.quiet with metaWriteErr := some (.new "permission denied".toList) }

/-! ## The world of a bucket held in memory -/

/-- The world of a bucket held in memory, where nothing else fails: the state
is the list of the keys in the bucket.  The bucket of the backend is the
bucket of these keys; `Delete` removes the key, or answers with the code
`NotFound` when the bucket does not hold the key; every other call has its
quiet answer. -/
def memWorld : World (List Str) :=
  ⟨fun c keys =>
    match c with
    | .bucket => (memBucket keys, keys)
    | .bucketDelete key =>
      if key ∈ keys then (none, keys.filter (fun k => k ≠ key))
      else (some (.bucket ⟨"blob not found".toList, gcerrors.ErrorCode.NotFound⟩), keys)
    | c => (c.quiet, keys)⟩

/-- The keys of the lock example: two locks of the stack
`organization/proj/dev`, one lock of another stack, a checkpoint. -/
def exampleLockKeys : List Str :=
  [".pulumi/locks/organization/proj/dev/a.json".toList,
   ".pulumi/locks/organization/proj/dev/b.json".toList,
   ".pulumi/locks/organization/proj/prod/c.json".toList,
   ".pulumi/stacks/proj/dev.json".toList]

/-! ## More concrete worlds -/

/-- The world in which no stack has a checkpoint: loading a stack answers with
an error of the code `NotFound`. -/
def exampleMissingWorld : World Unit :=
  ⟨fun c s =>
    match c with
    | .getStack _ =>
      (.error (.bucket ⟨"blob not found".toList, gcerrors.ErrorCode.NotFound⟩), s)
    | c => (Call.quiet c, s)⟩

/-- The world in which the checkpoint of a stack cannot be read: loading a
stack answers with an error that is not of the code `NotFound`. -/
def exampleUnreadableWorld : World Unit :=
  ⟨fun c s =>
    match c with
    | .getStack _ => (.error (.new "unexpected end of JSON input".toList), s)
    | c => (Call.quiet c, s)⟩

/-- The world in which the lock of every stack is held by someone else. -/
def exampleLockedWorld : World Unit :=
  ⟨fun c s =>
    match c with
    | .Lock _ => (some (.new "the stack is currently locked by 1 lock(s)".toList), s)
    | c => (Call.quiet c, s)⟩

/-- The legacy stack `dev`, a reference of a legacy store over an empty
bucket. -/
def exampleLegacyRef : localBackendReference := exampleLegacyStore.newReference "dev".toList

/-- The world in which every stack has the example snapshot, in its checkpoint
and when it is loaded. -/
def exampleCheckpointWorld : World Unit :=
  ⟨fun c s =>
    match c with
    | .getCheckpoint _ => (.ok ⟨some exampleSnapshot⟩, s)
    | .getStack _ => (.ok (some exampleSnapshot, []), s)
    | c => (Call.quiet c, s)⟩

/-- The world of a bucket held in memory that another process works on at the
same time: it is the world `memWorld`, except that right after the bucket is
listed the other process deletes the first key of the bucket. -/
def raceWorld : World (List Str) :=
  ⟨fun c keys =>
    match c with
    | .bucket => (memBucket keys, keys.drop 1)
    | c => memWorld.respond c keys⟩

/-- The bucket of the upgrade example: the checkpoints of the two legacy
stacks `a` and `b`. -/
def exampleUpgradeBucket : Bucket :=
  memBucket [".pulumi/stacks/a.json".toList, ".pulumi/stacks/b.json".toList]

/-- The world of the upgrade example in which no checkpoint can be read; there
are 8 processors. -/
def exampleBrokenUpgradeWorld : World Unit :=
  ⟨fun c s =>
    match c with
    | .bucket => (exampleUpgradeBucket, s)
    | .GOMAXPROCS => (8, s)
    | .getCheckpoint _ => (.error (.new "unexpected end of JSON input".toList), s)
    | c => (Call.quiet c, s)⟩

/-- The world of the upgrade example: the stack `a` has the example snapshot,
the stack `b` has no snapshot; there are 8 processors, and the scheduler
takes the running workers in turn (the state counts its picks). -/
def exampleUpgradeWorld : World Nat :=
  ⟨fun c n =>
    match c with
    | .bucket => (exampleUpgradeBucket, n)
    | .GOMAXPROCS => (8, n)
    | .sched _ => (n, n + 1)
    | .getCheckpoint ref =>
      (if ref.name = "a".toList then .ok ⟨some exampleSnapshot⟩ else .ok ⟨none⟩, n)
    | .getStack _ => (.ok (some exampleSnapshot, []), n)
    | c => (Call.quiet c, n)⟩

/-- A snapshot with two resources: the URN of the first names no project, the
second is a resource of the project `proj`. -/
def exampleUnnamedFirstSnapshot : deploy.Snapshot :=
  ⟨[⟨⟨"dev".toList, [], "pulumi:providers:aws".toList, "default".toList⟩, false⟩,
    ⟨⟨"dev".toList, "proj".toList, "pulumi:pulumi:Stack".toList, "proj-dev".toList⟩, false⟩]⟩

/-- The world in which every stack has the snapshot whose first resource names
no project. -/
def exampleUnnamedFirstWorld : World Unit :=
  ⟨fun c s =>
    match c with
    | .getCheckpoint _ => (.ok ⟨some exampleUnnamedFirstSnapshot⟩, s)
    | .getStack _ => (.ok (some exampleUnnamedFirstSnapshot, []), s)
    | c => (Call.quiet c, s)⟩

/-- The world of the upgrade example in which every stack has the example
snapshot and the lock of every stack is held by someone else; there are 8
processors. -/
def exampleRefusedLocksWorld : World Unit :=
  ⟨fun c s =>
    match c with
    | .bucket => (exampleUpgradeBucket, s)
    | .GOMAXPROCS => (8, s)
    | .getCheckpoint _ => (.ok ⟨some exampleSnapshot⟩, s)
    | .Lock _ => (some (.new "the stack is currently locked by 1 lock(s)".toList), s)
    | c => (Call.quiet c, s)⟩

/-! ## Facts about names and about splitting at slashes -/

theorem tokens.isNameChar_utf8Size (c : Char) (h : tokens.isNameChar c = true) :
    c.utf8Size = 1 := by
  have hv : c.val.toNat ≤ 127 := by
    simp only [tokens.isNameChar, Bool.or_eq_true, Bool.and_eq_true, decide_eq_true_eq,
      beq_iff_eq] at h
    rcases h with ((((h | h) | h) | h) | h) | h
    · have := h.2; simp only [Char.le_def, UInt32.le_def] at this; exact le_trans this (by decide)
    · have := h.2; simp only [Char.le_def, UInt32.le_def] at this; exact le_trans this (by decide)
    · have := h.2; simp only [Char.le_def, UInt32.le_def] at this; exact le_trans this (by decide)
    · subst h; decide
    · subst h; decide
    · subst h; decide
  simp only [Char.utf8Size]
  have : c.val ≤ UInt32.ofNatCore 127 (by decide) := by
    simp only [UInt32.le_def]; exact hv
  rw [if_pos this]

theorem tokens.IsName_iff (s : Str) :
    tokens.IsName s = true ↔ s ≠ [] ∧ ∀ c ∈ s, tokens.isNameChar c = true := by
  simp [tokens.IsName, List.all_eq_true]

theorem len_eq_length_of_nameChars (s : Str) (h : ∀ c ∈ s, tokens.isNameChar c = true) :
    len s = s.length := by
  induction s with
  | nil => rfl
  | cons c cs ih =>
    have hc := tokens.isNameChar_utf8Size c (h c (List.mem_cons_self _ _))
    have ih' := ih (fun d hd => h d (List.mem_cons_of_mem _ hd))
    simp only [len, List.map_cons, List.sum_cons, List.length_cons] at ih' ⊢
    omega

theorem tokens.IsName_len (s : Str) (h : tokens.IsName s = true) : len s = s.length :=
  len_eq_length_of_nameChars s ((tokens.IsName_iff s).1 h).2

theorem tokens.IsName_no_slash (s : Str) (h : tokens.IsName s = true) : '/' ∉ s := by
  intro hm
  have := ((tokens.IsName_iff s).1 h).2 _ hm
  revert this; decide

theorem strings.Split_ne_nil (sep : Char) (s : Str) : strings.Split sep s ≠ [] := by
  cases s with
  | nil => simp [strings.Split]
  | cons c cs =>
    simp only [strings.Split]
    split
    · simp
    · split <;> simp

theorem strings.Split_of_not_mem (sep : Char) (s : Str) (h : sep ∉ s) :
    strings.Split sep s = [s] := by
  induction s with
  | nil => rfl
  | cons c cs ih =>
    have hc : c ≠ sep := fun e => h (e ▸ List.mem_cons_self _ _)
    have ih' := ih (fun hm => h (List.mem_cons_of_mem _ hm))
    simp [strings.Split, hc, ih']

theorem strings.Split_append (sep : Char) (a b : Str) (h : sep ∉ a) :
    strings.Split sep (a ++ sep :: b) = a :: strings.Split sep b := by
  induction a with
  | nil => simp [strings.Split]
  | cons c cs ih =>
    have hc : c ≠ sep := fun e => h (e ▸ List.mem_cons_self _ _)
    have ih' := ih (fun hm => h (List.mem_cons_of_mem _ hm))
    simp [strings.Split, hc, ih']

/-- What a successful project-scoped parse guarantees about its result. -/
theorem project_parseReference_ok_facts (p : projectReferenceStore) (s : Str)
    (r : localBackendReference) (h : p.ParseReference s = .ok r) :
    tokens.IsName r.name = true ∧ len r.name ≤ 100 ∧ len r.project ≤ 100 ∧
      (r.project ≠ [] → tokens.IsName r.project = true) ∧
      (r.project = [] → ∃ cp, p.currentProject () = some cp ∧ cp.Name = []) ∧
      r.currentProject = some p.currentProject ∧ r.store = referenceStore.project p := by
  unfold projectReferenceStore.ParseReference at h
  simp only at h
  generalize (projectReferenceStore.ParseReference.parts (strings.Split '/' s)).1 = name at h
  generalize (projectReferenceStore.ParseReference.parts (strings.Split '/' s)).2.1 = project at h
  generalize (projectReferenceStore.ParseReference.parts (strings.Split '/' s)).2.2 = org at h
  by_cases hs : s = []
  · rw [if_pos hs] at h; cases h
  rw [if_neg hs] at h
  by_cases ho : (if org = [] then organization else org) ≠ organization
  · rw [if_pos ho] at h; cases h
  rw [if_neg ho] at h
  cases hinf : projectReferenceStore.ParseReference.infer p project with
  | error e => rw [hinf] at h; cases h
  | ok pr =>
    rw [hinf] at h
    simp only at h
    by_cases h1 : len pr > 100
    · rw [if_pos h1] at h; cases h
    rw [if_neg h1] at h
    by_cases h2 : pr ≠ [] ∧ ¬ tokens.IsName pr = true
    · rw [if_pos h2] at h; cases h
    rw [if_neg h2] at h
    by_cases h3 : ¬ tokens.IsName name = true ∨ len name > 100
    · rw [if_pos h3] at h; cases h
    rw [if_neg h3] at h
    injection h with h
    subst h
    simp only [projectReferenceStore.newReference]
    simp only [not_or, not_not, not_and, not_lt] at h1 h2 h3
    refine ⟨h3.1, h3.2, h1, h2, ?_, trivial, trivial⟩
    intro hp
    subst hp
    unfold projectReferenceStore.ParseReference.infer at hinf
    by_cases hpe : project = []
    · rw [if_pos hpe] at hinf
      cases hcp : p.currentProject () with
      | none => rw [hcp] at hinf; cases hinf
      | some cp =>
        rw [hcp] at hinf
        injection hinf with hinf
        exact ⟨cp, rfl, hinf⟩
    · rw [if_neg hpe] at hinf
      injection hinf with hinf
      exact absurd hinf hpe

theorem organization_no_slash : '/' ∉ organization := by decide

/-- The validation tail of the project-scoped parse: once the segments are
known, the organization is the literal or left out, and the project (given or
inferred) and the name pass their checks, the parse returns the reference. -/
theorem project_parseReference_eq_ok (p : projectReferenceStore) (s : Str)
    (name project org pr : Str) (hs : s ≠ [])
    (hparts : projectReferenceStore.ParseReference.parts (strings.Split '/' s) = (name, project, org))
    (horg : org = [] ∨ org = organization)
    (hinf : projectReferenceStore.ParseReference.infer p project = .ok pr)
    (h1 : len pr ≤ 100) (h2 : pr = [] ∨ tokens.IsName pr = true)
    (h3 : tokens.IsName name = true) (h4 : len name ≤ 100) :
    p.ParseReference s = .ok (p.newReference pr name) := by
  unfold projectReferenceStore.ParseReference
  simp only [hparts]
  rw [if_neg hs]
  have ho : ¬ ((if org = [] then organization else org) ≠ organization) := by
    rcases horg with h | h <;> simp [h]
  rw [if_neg ho, hinf]
  simp only
  rw [if_neg (by omega)]
  rw [if_neg (by rcases h2 with h | h <;> simp [h])]
  rw [if_neg (by simp [h3]; omega)]

/-- A valid name alone is one segment. -/
theorem projectReferenceStore.parts_name (n : Str) (hn : tokens.IsName n = true) :
    projectReferenceStore.ParseReference.parts (strings.Split '/' n) = (n, [], []) := by
  rw [strings.Split_of_not_mem _ _ (tokens.IsName_no_slash n hn)]
  rfl

/-- The form `organization/<name>` is two segments. -/
theorem projectReferenceStore.parts_org_name (n : Str) (hn : tokens.IsName n = true) :
    projectReferenceStore.ParseReference.parts (strings.Split '/' (organization ++ ['/'] ++ n))
      = (n, [], organization) := by
  have e : organization ++ ['/'] ++ n = organization ++ '/' :: n := by simp
  rw [e, strings.Split_append _ _ _ organization_no_slash,
    strings.Split_of_not_mem _ _ (tokens.IsName_no_slash n hn)]
  rfl

/-- The form `organization/<project>/<name>` is three segments. -/
theorem projectReferenceStore.parts_org_project_name (pr n : Str)
    (hp : tokens.IsName pr = true) (hn : tokens.IsName n = true) :
    projectReferenceStore.ParseReference.parts
      (strings.Split '/' (organization ++ ['/'] ++ pr ++ ['/'] ++ n))
      = (n, pr, organization) := by
  have e : organization ++ ['/'] ++ pr ++ ['/'] ++ n = organization ++ '/' :: (pr ++ '/' :: n) := by
    simp
  rw [e, strings.Split_append _ _ _ organization_no_slash,
    strings.Split_append _ _ _ (tokens.IsName_no_slash pr hp),
    strings.Split_of_not_mem _ _ (tokens.IsName_no_slash n hn)]
  rfl

theorem tokens.IsName_ne_nil (s : Str) (h : tokens.IsName s = true) : s ≠ [] :=
  ((tokens.IsName_iff s).1 h).1

/-- What a successful legacy parse returns. -/
theorem legacy_parseReference_ok_facts (l : legacyReferenceStore) (s : Str)
    (r : localBackendReference) (h : l.ParseReference s = .ok r) :
    tokens.IsName s = true ∧ len s ≤ 100 ∧ r = l.newReference s := by
  unfold legacyReferenceStore.ParseReference at h
  by_cases hc : ¬ tokens.IsName s = true ∨ len s > 100
  · rw [if_pos hc] at h; cases h
  · rw [if_neg hc] at h
    injection h with h
    simp only [not_or, not_not, not_lt] at hc
    exact ⟨hc.1, hc.2, h.symm⟩

/-- A valid name of at most 100 bytes parses under the legacy store. -/
theorem legacy_parseReference_eq_ok (l : legacyReferenceStore) (s : Str)
    (h : tokens.IsName s = true) (hl : len s ≤ 100) :
    l.ParseReference s = .ok (l.newReference s) := by
  unfold legacyReferenceStore.ParseReference
  rw [if_neg (by simp [h]; omega)]

/-- C1: for each layout and a fixed ambient current project, every string that
`ParseReference` accepts round-trips: parsing the `String()` rendering of the
parsed reference succeeds and gives the same project and name. -/
theorem parseReference_roundtrip (store : referenceStore) (s : Str) (r : localBackendReference)
    (h : store.ParseReference s = .ok r) :
    ∃ r', store.ParseReference r.String = .ok r' ∧ r'.project = r.project ∧ r'.name = r.name := by
  cases store with
  | legacy l =>
    simp only [referenceStore.ParseReference] at h ⊢
    obtain ⟨hn, hl, hr⟩ := legacy_parseReference_ok_facts l s r h
    subst hr
    refine ⟨l.newReference s, ?_, rfl, rfl⟩
    have hS : (l.newReference s).String = s := by
      simp [localBackendReference.String, legacyReferenceStore.newReference]
    rw [hS]
    exact legacy_parseReference_eq_ok l s hn hl
  | project p =>
    simp only [referenceStore.ParseReference] at h ⊢
    obtain ⟨hn, hnl, hpl, hpn, hpe, hcur, _⟩ := project_parseReference_ok_facts p s r h
    refine ⟨p.newReference r.project r.name, ?_, rfl, rfl⟩
    by_cases hp : r.project = []
    · -- a blank project renders as the bare name, and is inferred again
      obtain ⟨cp, hcp, hcn⟩ := hpe hp
      have hS : r.String = r.name := by simp [localBackendReference.String, hp]
      rw [hS]
      refine project_parseReference_eq_ok p r.name r.name [] [] r.project
        (tokens.IsName_ne_nil _ hn) (projectReferenceStore.parts_name _ hn) (Or.inl rfl) ?_
        hpl (Or.inl hp) hn hnl
      simp [projectReferenceStore.ParseReference.infer, hcp, hcn, hp]
    · have hpn' := hpn hp
      cases hcp : p.currentProject () with
      | none =>
        have hS : r.String = organization ++ ['/'] ++ r.project ++ ['/'] ++ r.name := by
          simp [localBackendReference.String, hp, hcur, hcp]
        rw [hS]
        refine project_parseReference_eq_ok p _ r.name r.project organization
          r.project (by simp [organization]) (projectReferenceStore.parts_org_project_name _ _ hpn' hn)
          (Or.inr rfl) ?_ hpl (Or.inr hpn') hn hnl
        simp [projectReferenceStore.ParseReference.infer, hp]
      | some cp =>
        by_cases he : r.project = cp.Name
        · -- the project is the current one: it is elided and inferred again
          have hS : r.String = r.name := by
            simp [localBackendReference.String, hp, hcur, hcp, he]
          rw [hS]
          refine project_parseReference_eq_ok p r.name r.name [] [] r.project
            (tokens.IsName_ne_nil _ hn) (projectReferenceStore.parts_name _ hn) (Or.inl rfl) ?_
            hpl (Or.inr hpn') hn hnl
          simp [projectReferenceStore.ParseReference.infer, hcp, he]
        · have hS : r.String = organization ++ ['/'] ++ r.project ++ ['/'] ++ r.name := by
            simp [localBackendReference.String, hp, hcur, hcp, he]
          rw [hS]
          refine project_parseReference_eq_ok p _ r.name r.project organization
            r.project (by simp [organization]) (projectReferenceStore.parts_org_project_name _ _ hpn' hn)
            (Or.inr rfl) ?_ hpl (Or.inr hpn') hn hnl
          simp [projectReferenceStore.ParseReference.infer, hp]

theorem parseReference_roundtrip_witness :
    (referenceStore.project exampleProjectStore).ParseReference "organization/web/dev".toList
        = .ok (exampleProjectStore.newReference "web".toList "dev".toList) ∧
      ∃ r', (referenceStore.project exampleProjectStore).ParseReference
          (exampleProjectStore.newReference "web".toList "dev".toList).String = .ok r' ∧
        r'.project = "web".toList ∧ r'.name = "dev".toList :=
  ⟨by rfl, parseReference_roundtrip (referenceStore.project exampleProjectStore)
    "organization/web/dev".toList (exampleProjectStore.newReference "web".toList "dev".toList)
    (by rfl)⟩

/-- C2: the legacy store's `ValidateReference` returns an error exactly when
the project of the identity is non-empty, and the project-scoped store's
exactly when it is empty. -/
theorem validateReference_iff (l : legacyReferenceStore) (p : projectReferenceStore)
    (ref : localBackendReference) :
    (l.ValidateReference ref ≠ none ↔ ref.project ≠ []) ∧
      (p.ValidateReference ref ≠ none ↔ ref.project = []) := by
  constructor
  · unfold legacyReferenceStore.ValidateReference
    by_cases h : ref.project ≠ []
    · rw [if_pos h]; simp [h]
    · rw [if_neg h]; simp [h]
  · unfold projectReferenceStore.ValidateReference
    by_cases h : ref.project = []
    · rw [if_pos h]; simp [h]
    · rw [if_neg h]; simp [h]

/-- C3: the legacy `ParseReference` succeeds exactly on a single valid name
token (non-empty, only characters of `[A-Za-z0-9._-]`) of at most 100
characters; on success the identity has the name `s` and an empty project, and
otherwise an error and no identity is returned. -/
theorem legacy_parseReference_iff (l : legacyReferenceStore) (s : Str) :
    ((∃ r, l.ParseReference s = .ok r) ↔
        (s ≠ [] ∧ (∀ c ∈ s, tokens.isNameChar c = true) ∧ s.length ≤ 100)) ∧
      (∀ r, l.ParseReference s = .ok r → r.name = s ∧ r.project = []) ∧
      (¬ (s ≠ [] ∧ (∀ c ∈ s, tokens.isNameChar c = true) ∧ s.length ≤ 100) →
        l.ParseReference s = .error (.badStackName s)) := by
  have hfwd : ∀ r, l.ParseReference s = .ok r →
      (s ≠ [] ∧ (∀ c ∈ s, tokens.isNameChar c = true) ∧ s.length ≤ 100) ∧
        r.name = s ∧ r.project = [] := by
    intro r h
    obtain ⟨hn, hl, hr⟩ := legacy_parseReference_ok_facts l s r h
    have hi := (tokens.IsName_iff s).1 hn
    rw [tokens.IsName_len s hn] at hl
    subst hr
    exact ⟨⟨hi.1, hi.2, hl⟩, rfl, rfl⟩
  have hbwd : (s ≠ [] ∧ (∀ c ∈ s, tokens.isNameChar c = true) ∧ s.length ≤ 100) →
      l.ParseReference s = .ok (l.newReference s) := by
    intro ⟨h1, h2, h3⟩
    have hn : tokens.IsName s = true := (tokens.IsName_iff s).2 ⟨h1, h2⟩
    exact legacy_parseReference_eq_ok l s hn (by rw [tokens.IsName_len s hn]; exact h3)
  refine ⟨⟨fun ⟨r, h⟩ => (hfwd r h).1, fun h => ⟨_, hbwd h⟩⟩, fun r h => (hfwd r h).2, ?_⟩
  intro hnot
  unfold legacyReferenceStore.ParseReference
  by_cases hc : ¬ tokens.IsName s = true ∨ len s > 100
  · rw [if_pos hc]
  · exfalso
    apply hnot
    simp only [not_or, not_not, not_lt] at hc
    have hi := (tokens.IsName_iff s).1 hc.1
    have := tokens.IsName_len s hc.1
    exact ⟨hi.1, hi.2, by omega⟩

/-- C4 as stated fails: the two-segment reference `/dev` has the first segment
empty, which is not the literal `organization`, and yet it parses (the empty
organization counts as left out). -/
theorem project_parseReference_empty_org_accepted :
    (strings.Split '/' "/dev".toList).length = 2 ∧
      (strings.Split '/' "/dev".toList).head? ≠ some organization ∧
      exampleProjectStore.ParseReference "/dev".toList
        = .ok (exampleProjectStore.newReference "proj".toList "dev".toList) :=
  ⟨by decide, by decide, by rfl⟩

/-- C4, amended: a reference of two or three slash-separated segments whose
first segment is neither empty nor the literal `organization` is rejected with
the organization error, whatever the ambient current project is. -/
theorem project_parseReference_bad_org (p : projectReferenceStore) (s : Str)
    (hlen : (strings.Split '/' s).length = 2 ∨ (strings.Split '/' s).length = 3)
    (hne : (strings.Split '/' s).head? ≠ some [])
    (horg : (strings.Split '/' s).head? ≠ some organization) :
    p.ParseReference s = .error .badOrganization := by
  have hs : s ≠ [] := by
    intro e; subst e; revert hlen; decide
  have hparts : (projectReferenceStore.ParseReference.parts (strings.Split '/' s)).2.2 ≠ [] ∧
      (projectReferenceStore.ParseReference.parts (strings.Split '/' s)).2.2 ≠ organization := by
    generalize strings.Split '/' s = l at hlen hne horg
    match l, hlen with
    | [a, b], _ =>
      simp only [List.head?_cons, ne_eq, Option.some.injEq] at hne horg
      exact ⟨hne, horg⟩
    | [a, b, c], _ =>
      simp only [List.head?_cons, ne_eq, Option.some.injEq] at hne horg
      exact ⟨hne, horg⟩
    | [], h => simp at h
    | [_], h => simp at h
    | _ :: _ :: _ :: _ :: _, h => simp at h
  unfold projectReferenceStore.ParseReference
  simp only
  rw [if_neg hs, if_neg hparts.1, if_pos hparts.2]

theorem project_parseReference_bad_org_witness :
    exampleProjectStore.ParseReference "acme/web/dev".toList = .error .badOrganization :=
  project_parseReference_bad_org exampleProjectStore "acme/web/dev".toList
    (by decide) (by decide) (by decide)

/-- C5: for a valid stack name `n` of at most 100 characters, the
project-scoped `ParseReference` of `n` or of `organization/n` returns the
identity with project `P` and name `n` when the ambient current project has the
valid name `P` (at most 100 characters), and fails with the error that asks
for the fully qualified `organization/project/stack` form when there is no
ambient current project. -/
theorem project_parseReference_short (p : projectReferenceStore) (n s : Str)
    (hn : tokens.IsName n = true) (hl : n.length ≤ 100)
    (hs : s = n ∨ s = organization ++ ['/'] ++ n) :
    (∀ cp, p.currentProject () = some cp → tokens.IsName cp.Name = true →
        cp.Name.length ≤ 100 → p.ParseReference s = .ok (p.newReference cp.Name n)) ∧
      (p.currentProject () = none → p.ParseReference s = .error .passFullyQualifiedName) := by
  have hsne : s ≠ [] := by
    rcases hs with h | h
    · rw [h]; exact tokens.IsName_ne_nil n hn
    · rw [h]; simp [organization]
  have hparts : ∃ org, (org = [] ∨ org = organization) ∧
      projectReferenceStore.ParseReference.parts (strings.Split '/' s) = (n, [], org) := by
    rcases hs with h | h
    · exact ⟨[], Or.inl rfl, by rw [h]; exact projectReferenceStore.parts_name n hn⟩
    · exact ⟨organization, Or.inr rfl, by rw [h]; exact projectReferenceStore.parts_org_name n hn⟩
  obtain ⟨org, horg, hparts⟩ := hparts
  constructor
  · intro cp hcp hcn hcl
    refine project_parseReference_eq_ok p s n [] org cp.Name hsne hparts horg ?_
      (by rw [tokens.IsName_len _ hcn]; exact hcl) (Or.inr hcn) hn
      (by rw [tokens.IsName_len _ hn]; exact hl)
    simp [projectReferenceStore.ParseReference.infer, hcp]
  · intro hcp
    unfold projectReferenceStore.ParseReference
    simp only [hparts]
    have ho : ¬ ((if org = [] then organization else org) ≠ organization) := by
      rcases horg with h | h <;> simp [h]
    rw [if_neg hsne, if_neg ho]
    simp [projectReferenceStore.ParseReference.infer, hcp]

theorem project_parseReference_short_witness :
    (∀ cp, exampleProjectStore.currentProject () = some cp → tokens.IsName cp.Name = true →
        cp.Name.length ≤ 100 →
        exampleProjectStore.ParseReference "organization/dev".toList
          = .ok (exampleProjectStore.newReference cp.Name "dev".toList)) ∧
      (exampleProjectStore.currentProject () = none →
        exampleProjectStore.ParseReference "organization/dev".toList
          = .error .passFullyQualifiedName) :=
  project_parseReference_short exampleProjectStore "dev".toList "organization/dev".toList
    (by decide) (by decide) (Or.inr (by decide))

/-- C6: a reference of four or more slash-separated segments is rejected by the
project-scoped `ParseReference`, with or without an ambient current project. -/
theorem project_parseReference_too_many_segments (p : projectReferenceStore) (s : Str)
    (h : 4 ≤ (strings.Split '/' s).length) :
    ∃ e, p.ParseReference s = .error e := by
  have hparts : projectReferenceStore.ParseReference.parts (strings.Split '/' s) = ([], [], []) := by
    generalize strings.Split '/' s = l at h
    match l, h with
    | _ :: _ :: _ :: _ :: _, _ => rfl
    | [], h => simp at h
    | [_], h => simp at h
    | [_, _], h => simp at h
    | [_, _, _], h => simp at h
  unfold projectReferenceStore.ParseReference
  simp only [hparts]
  by_cases hs : s = []
  · rw [if_pos hs]; exact ⟨_, rfl⟩
  rw [if_neg hs]
  simp only [if_true, ne_eq, not_true_eq_false, if_false]
  cases hinf : projectReferenceStore.ParseReference.infer p [] with
  | error e => exact ⟨_, rfl⟩
  | ok pr =>
    simp only
    by_cases h1 : len pr > 100
    · rw [if_pos h1]; exact ⟨_, rfl⟩
    rw [if_neg h1]
    by_cases h2 : ¬ pr = [] ∧ ¬ tokens.IsName pr = true
    · rw [if_pos h2]; exact ⟨_, rfl⟩
    rw [if_neg h2]
    have h3 : ¬ tokens.IsName [] = true ∨ len ([] : Str) > 100 := Or.inl (by decide)
    rw [if_pos h3]
    exact ⟨_, rfl⟩

theorem project_parseReference_too_many_segments_witness :
    ∃ e, exampleProjectStore.ParseReference "organization/web/dev/extra".toList = .error e :=
  project_parseReference_too_many_segments exampleProjectStore
    "organization/web/dev/extra".toList (by decide)

/-- C7 as stated fails: when the ambient current project has an empty name, the
project-scoped parse of `dev` succeeds with an empty project, and the same
store's `ValidateReference` rejects the result. -/
theorem project_parseReference_unnamed_project :
    exampleUnnamedProjectStore.ParseReference "dev".toList
        = .ok (exampleUnnamedProjectStore.newReference [] "dev".toList) ∧
      (exampleUnnamedProjectStore.newReference [] "dev".toList).project = [] ∧
      exampleUnnamedProjectStore.ValidateReference
        (exampleUnnamedProjectStore.newReference [] "dev".toList) = some .projectNotSet :=
  ⟨by rfl, by rfl, by rfl⟩

/-- C7, amended: provided the ambient current project, when there is one, has a
non-empty name, every identity returned by a successful `ParseReference` has a
name of the grammar `[A-Za-z0-9._-]{1,100}`; under the legacy store its project
is empty; under the project-scoped store its project is non-empty and of the
same grammar, also when inferred; and the same store's `ValidateReference`
accepts it. -/
theorem parseReference_invariants (store : referenceStore) (s : Str) (r : localBackendReference)
    (hamb : ∀ p cp, store = referenceStore.project p → p.currentProject () = some cp →
      cp.Name ≠ [])
    (h : store.ParseReference s = .ok r) :
    tokens.IsName r.name = true ∧ r.name.length ≤ 100 ∧
      (∀ l, store = referenceStore.legacy l → r.project = []) ∧
      (∀ p, store = referenceStore.project p →
        r.project ≠ [] ∧ tokens.IsName r.project = true ∧ r.project.length ≤ 100) ∧
      store.ValidateReference r = none := by
  cases store with
  | legacy l =>
    simp only [referenceStore.ParseReference] at h
    obtain ⟨hn, hl, hr⟩ := legacy_parseReference_ok_facts l s r h
    subst hr
    rw [tokens.IsName_len s hn] at hl
    refine ⟨hn, hl, fun _ _ => rfl, fun p hp => (by cases hp), ?_⟩
    simp [referenceStore.ValidateReference, legacyReferenceStore.ValidateReference,
      legacyReferenceStore.newReference]
  | project p =>
    simp only [referenceStore.ParseReference] at h
    obtain ⟨hn, hnl, hpl, hpn, hpe, _, _⟩ := project_parseReference_ok_facts p s r h
    have hp : r.project ≠ [] := by
      intro he
      obtain ⟨cp, hcp, hcn⟩ := hpe he
      exact hamb p cp rfl hcp hcn
    have hpn' := hpn hp
    rw [tokens.IsName_len _ hn] at hnl
    rw [tokens.IsName_len _ hpn'] at hpl
    refine ⟨hn, hnl, fun l hl => (by cases hl), fun _ _ => ⟨hp, hpn', hpl⟩, ?_⟩
    simp [referenceStore.ValidateReference, projectReferenceStore.ValidateReference, hp]

theorem parseReference_invariants_witness :
    tokens.IsName "dev".toList = true ∧ "dev".toList.length ≤ 100 ∧
      (∀ l, referenceStore.project exampleProjectStore = referenceStore.legacy l →
        "proj".toList = []) ∧
      (∀ p, referenceStore.project exampleProjectStore = referenceStore.project p →
        "proj".toList ≠ [] ∧ tokens.IsName "proj".toList = true ∧ "proj".toList.length ≤ 100) ∧
      (referenceStore.project exampleProjectStore).ValidateReference
        (exampleProjectStore.newReference "proj".toList "dev".toList) = none :=
  parseReference_invariants (referenceStore.project exampleProjectStore) "dev".toList
    (exampleProjectStore.newReference "proj".toList "dev".toList)
    (by
      intro p cp hp hcp
      cases hp
      have : cp = ⟨"proj".toList⟩ := by
        have h2 : exampleProjectStore.currentProject () = some ⟨"proj".toList⟩ := rfl
        rw [h2] at hcp
        exact (Option.some.inj hcp).symm
      rw [this]
      decide)
    (by rfl)

/-- C8 fails on the code: the name `..` satisfies the name grammar and is
accepted by the legacy `ParseReference`, and for the reference it returns
`StackBasePath`, `HistoryDir` and `BackupDir` are all `.pulumi`, the parent of
the three root directories and not a path under any of them; in the
project-scoped store the same name gives the root directory itself. -/
theorem stackBasePath_dotdot_escapes :
    tokens.IsName "..".toList = true ∧
      (exampleLegacyStore.ParseReference "..".toList).toOption.map (fun r => (r.project, r.name))
        = some ([], "..".toList) ∧
      exampleLegacyStore.StackBasePath (exampleLegacyStore.newReference "..".toList)
        = some ".pulumi".toList ∧
      exampleLegacyStore.HistoryDir (exampleLegacyStore.newReference "..".toList)
        = some ".pulumi".toList ∧
      exampleLegacyStore.BackupDir (exampleLegacyStore.newReference "..".toList)
        = some ".pulumi".toList ∧
      strictlyUnder StacksDir ".pulumi".toList = false ∧
      strictlyUnder HistoriesDir ".pulumi".toList = false ∧
      strictlyUnder BackupsDir ".pulumi".toList = false ∧
      exampleProjectStore.StackBasePath (exampleProjectStore.newReference "web".toList "..".toList)
        = some StacksDir ∧
      strictlyUnder StacksDir StacksDir = false := by
  decide

/-- C9 fails on the code: in the project-scoped store the identities `a/..` and
`b/..` both satisfy the name grammar, both are results of `ParseReference`,
they differ in their project, and `StackBasePath`, `HistoryDir` and `BackupDir`
give the same path for both. -/
theorem stackBasePath_dotdot_collides :
    tokens.IsName "a".toList = true ∧ tokens.IsName "b".toList = true ∧
      tokens.IsName "..".toList = true ∧
      (exampleProjectStore.ParseReference "organization/a/..".toList).toOption.map
        (fun r => (r.project, r.name)) = some ("a".toList, "..".toList) ∧
      (exampleProjectStore.ParseReference "organization/b/..".toList).toOption.map
        (fun r => (r.project, r.name)) = some ("b".toList, "..".toList) ∧
      (exampleProjectStore.newReference "a".toList "..".toList).project
        ≠ (exampleProjectStore.newReference "b".toList "..".toList).project ∧
      exampleProjectStore.StackBasePath (exampleProjectStore.newReference "a".toList "..".toList)
        = some ".pulumi/stacks".toList ∧
      exampleProjectStore.StackBasePath (exampleProjectStore.newReference "b".toList "..".toList)
        = some ".pulumi/stacks".toList ∧
      exampleProjectStore.HistoryDir (exampleProjectStore.newReference "a".toList "..".toList)
        = exampleProjectStore.HistoryDir (exampleProjectStore.newReference "b".toList "..".toList) ∧
      exampleProjectStore.BackupDir (exampleProjectStore.newReference "a".toList "..".toList)
        = exampleProjectStore.BackupDir (exampleProjectStore.newReference "b".toList "..".toList) := by
  decide

/-- C10 as stated fails: for the legacy bucket of the example the listing also
returns `Invalid Name!`, a name outside the name grammar. -/
theorem legacy_listReferences_lists_invalid_name :
    listedNames (legacyReferenceStore.ListReferences ⟨exampleLegacyBucket⟩)
        = some ["Invalid Name!".toList, "valid-name".toList] ∧
      tokens.IsName "Invalid Name!".toList = false := by
  decide

/-- A reference appended by one step of the project-scoped listing has a
project of the name grammar and a name cut from an object name with a
recognized extension. -/
theorem projectReferenceStore.ListReferences.step_some (p : projectReferenceStore) (pre : Str)
    (file : blob.ListObject) (r : localBackendReference)
    (h : projectReferenceStore.ListReferences.step p pre file = some r) :
    tokens.IsName r.project = true ∧ ∃ objName, stackNameOfObject objName = some r.name := by
  unfold projectReferenceStore.ListReferences.step at h
  by_cases hd : file.IsDir = true
  · rw [if_pos hd] at h; cases h
  rw [if_neg hd] at h
  split at h
  · rename_i projName objName _
    by_cases hn : ¬ tokens.IsName projName = true
    · rw [if_pos hn] at h; cases h
    rw [if_neg hn] at h
    cases hname : stackNameOfObject objName with
    | none => rw [hname] at h; cases h
    | some name =>
      rw [hname] at h
      simp only [Option.map_some', Option.some.injEq] at h
      subst h
      exact ⟨not_not.1 hn, objName, hname⟩
  · cases h

/-- Every reference in the result of the project-scoped listing loop was there
at the start or was appended by a step. -/
theorem projectReferenceStore.ListReferences.loop_mem (p : projectReferenceStore) (pre : Str)
    (items : List (Except BucketError blob.ListObject)) :
    ∀ (acc refs : List localBackendReference),
      projectReferenceStore.ListReferences.loop p pre items acc = .ok refs →
      ∀ r ∈ refs, r ∈ acc ∨ ∃ file, projectReferenceStore.ListReferences.step p pre file = some r := by
  induction items with
  | nil =>
    intro acc refs h r hr
    simp only [projectReferenceStore.ListReferences.loop] at h
    injection h with h
    subst h
    exact Or.inl hr
  | cons item rest ih =>
    intro acc refs h r hr
    cases item with
    | error err => simp only [projectReferenceStore.ListReferences.loop] at h; cases h
    | ok file =>
      simp only [projectReferenceStore.ListReferences.loop] at h
      cases hstep : projectReferenceStore.ListReferences.step p pre file with
      | none =>
        rw [hstep] at h
        exact ih acc refs h r hr
      | some ref =>
        rw [hstep] at h
        rcases ih (acc ++ [ref]) refs h r hr with hm | hm
        · rcases List.mem_append.1 hm with hm | hm
          · exact Or.inl hm
          · rw [List.mem_singleton] at hm
            subst hm
            exact Or.inr ⟨file, hstep⟩
        · exact Or.inr hm

/-! ## The storage paths apart from the names `.` and `..` -/

theorem fsutil.NamePath_eq (nm : Str) : fsutil.NamePath nm = nm := by
  unfold fsutil.NamePath
  induction nm with
  | nil => rfl
  | cons c cs ih =>
    simp only [List.map_cons, ih]
    by_cases h : c = tokens.QNameDelimiter
    · rw [if_pos h, h]; rfl
    · rw [if_neg h]

theorem takeWhile_not_slash (e rest : Str) (he : '/' ∉ e)
    (hrest : rest = [] ∨ rest.head? = some '/') :
    (e ++ rest).takeWhile (fun x => x != os.PathSeparator) = e ∧
      (e ++ rest).dropWhile (fun x => x != os.PathSeparator) = rest := by
  simp only [os.PathSeparator]
  induction e with
  | nil =>
    rcases hrest with h | h
    · subst h; simp
    · cases rest with
      | nil => simp
      | cons d ds =>
        simp only [List.head?_cons, Option.some.injEq] at h
        subst h
        simp
  | cons c cs ih =>
    have hc : c ≠ '/' := fun e => he (e ▸ List.mem_cons_self _ _)
    have ih' := ih (fun hm => he (List.mem_cons_of_mem _ hm))
    simp [hc, ih'.1, ih'.2]

/-- One iteration of the loop of `filepath.Clean` at a separator. -/
theorem filepath.Clean.loop_sep (rooted : Bool) (fuel : Nat) (rest out : Str) (dd : Nat) :
    filepath.Clean.loop rooted (fuel + 1) ('/' :: rest) out dd
      = filepath.Clean.loop rooted fuel rest out dd := by
  simp [filepath.Clean.loop, os.PathSeparator]

/-- One iteration of the loop of `filepath.Clean` at a plain element of a
relative path: the element is appended, behind a slash when something was
written before. -/
theorem filepath.Clean.loop_elem (fuel : Nat) (e rest out : Str) (dd : Nat)
    (he : plainElem e) (hrest : rest = [] ∨ rest.head? = some '/') :
    filepath.Clean.loop false (fuel + 1) (e ++ rest) out dd
      = filepath.Clean.loop false fuel rest
          (e.reverse ++ (if out = [] then out else '/' :: out)) dd := by
  obtain ⟨hne, hslash, hdot, hdotdot⟩ := he
  cases e with
  | nil => exact absurd rfl hne
  | cons c cs =>
    have hc : c ≠ '/' := fun e => hslash (e ▸ List.mem_cons_self _ _)
    have hcs : '/' ∉ cs := fun hm => hslash (List.mem_cons_of_mem _ hm)
    have htd := takeWhile_not_slash (c :: cs) rest hslash hrest
    have h1 : ¬ (c = '.' ∧ (cs ++ rest = [] ∨ (cs ++ rest).head? = some os.PathSeparator)) := by
      rintro ⟨h, h'⟩
      subst h
      apply hdot
      cases cs with
      | nil => rfl
      | cons d ds =>
        exfalso
        rcases h' with h' | h'
        · simp at h'
        · simp only [List.cons_append, List.head?_cons, Option.some.injEq] at h'
          exact hcs (h' ▸ List.mem_cons_self _ _)
    have h2 : ¬ (c = '.' ∧ (cs ++ rest).head? = some '.' ∧
        ((cs ++ rest).tail = [] ∨ (cs ++ rest).tail.head? = some os.PathSeparator)) := by
      rintro ⟨h, h', h''⟩
      subst h
      cases cs with
      | nil =>
        rcases hrest with hr | hr
        · subst hr; simp at h'
        · simp only [List.nil_append] at h'
          rw [hr] at h'
          revert h'; decide
      | cons d ds =>
        simp only [List.cons_append, List.head?_cons, Option.some.injEq] at h'
        subst h'
        apply hdotdot
        cases ds with
        | nil => rfl
        | cons x xs =>
          exfalso
          rcases h'' with h'' | h''
          · simp at h''
          · simp only [List.cons_append, List.tail_cons, List.head?_cons, Option.some.injEq] at h''
            exact hcs (List.mem_cons_of_mem _ (h'' ▸ List.mem_cons_self _ _))
    rw [List.cons_append]
    rw [filepath.Clean.loop]
    rw [if_neg (by simpa [os.PathSeparator] using hc), if_neg h1, if_neg h2]
    have e1 : (c :: (cs ++ rest)) = (c :: cs) ++ rest := rfl
    simp only [e1, htd.1, htd.2]
    by_cases hout : out = []
    · simp [hout]
    · have hlen : out.length ≠ 0 := fun h => hout (List.length_eq_zero.1 h)
      simp [hlen, hout, os.PathSeparator]

/-- The loop of `filepath.Clean` over a relative path of plain elements, each
behind one slash, appends the path as it is. -/
theorem filepath.Clean.loop_plain (es : List Str) (hes : ∀ e ∈ es, plainElem e) :
    ∀ (fuel : Nat) (out : Str) (dd : Nat), out ≠ [] →
      ((es.map (fun e => '/' :: e)).flatten).length ≤ fuel →
      filepath.Clean.loop false fuel ((es.map (fun e => '/' :: e)).flatten) out dd
        = ((es.map (fun e => '/' :: e)).flatten).reverse ++ out := by
  induction es with
  | nil =>
    intro fuel out dd _ _
    cases fuel <;> simp [filepath.Clean.loop]
  | cons e es ih =>
    intro fuel out dd hout hfuel
    have he := hes e (List.mem_cons_self _ _)
    have hes' : ∀ x ∈ es, plainElem x := fun x hx => hes x (List.mem_cons_of_mem _ hx)
    have hrest : ((es.map (fun e => '/' :: e)).flatten) = [] ∨
        ((es.map (fun e => '/' :: e)).flatten).head? = some '/' := by
      cases es with
      | nil => exact Or.inl rfl
      | cons x xs => exact Or.inr rfl
    have hel : 1 ≤ e.length := by
      cases e with
      | nil => exact absurd rfl he.1
      | cons _ _ => simp
    simp only [List.map_cons, List.flatten_cons, List.length_append, List.length_cons,
      List.cons_append] at hfuel ⊢
    obtain ⟨f, rfl⟩ : ∃ f, fuel = f + 2 := ⟨fuel - 2, by omega⟩
    rw [filepath.Clean.loop_sep, filepath.Clean.loop_elem f e _ out dd he hrest, if_neg hout,
      ih hes' f _ dd (by simp) (by omega)]
    simp

/-- `filepath.Clean` leaves a relative path of plain elements, separated by
single slashes, as it is. -/
theorem filepath.Clean_plain (e0 : Str) (es : List Str) (h0 : plainElem e0)
    (hes : ∀ e ∈ es, plainElem e) :
    filepath.Clean (e0 ++ (es.map (fun e => '/' :: e)).flatten)
      = e0 ++ (es.map (fun e => '/' :: e)).flatten := by
  have hne : e0 ≠ [] := h0.1
  have hrest : ((es.map (fun e => '/' :: e)).flatten) = [] ∨
      ((es.map (fun e => '/' :: e)).flatten).head? = some '/' := by
    cases es with
    | nil => exact Or.inl rfl
    | cons x xs => exact Or.inr rfl
  have hhead : (e0 ++ (es.map (fun e => '/' :: e)).flatten).head? ≠ some os.PathSeparator := by
    cases e0 with
    | nil => exact absurd rfl hne
    | cons c cs =>
      intro h
      simp only [List.cons_append, List.head?_cons, Option.some.injEq] at h
      exact h0.2.1 (h ▸ List.mem_cons_self _ _)
  have hlen : 1 ≤ e0.length := by
    cases e0 with
    | nil => exact absurd rfl hne
    | cons _ _ => simp
  unfold filepath.Clean
  rw [if_neg (by simp [hne])]
  simp only [hhead, decide_False, Bool.false_eq_true, if_false]
  obtain ⟨f, hf⟩ : ∃ f, (e0 ++ (es.map (fun e => '/' :: e)).flatten).length = f + 1 :=
    ⟨(e0 ++ (es.map (fun e => '/' :: e)).flatten).length - 1, by
      simp only [List.length_append]; omega⟩
  rw [hf, filepath.Clean.loop_elem f e0 _ [] 0 h0 hrest, if_pos rfl,
    filepath.Clean.loop_plain es hes f _ 0 (by simp [hne]) (by
      simp only [List.length_append] at hf; omega)]
  simp [hne]

theorem tokens.IsName_plainElem (n : Str) (hn : tokens.IsName n = true) (h1 : n ≠ ['.'])
    (h2 : n ≠ ['.', '.']) : plainElem n :=
  ⟨tokens.IsName_ne_nil n hn, tokens.IsName_no_slash n hn, h1, h2⟩

/-- Joining a root `.pulumi/<dir>` and a plain name gives the name as a path
segment under the root. -/
theorem filepath.Join_root_name (d n : Str) (hd : plainElem d) (hn : plainElem n) :
    filepath.Join [workspace.BookkeepingDir ++ '/' :: d, fsutil.NamePath n]
      = (workspace.BookkeepingDir ++ '/' :: d) ++ '/' :: n := by
  have hb : plainElem workspace.BookkeepingDir := by
    refine ⟨by decide, by decide, by decide, by decide⟩
  have e : strings.Join [workspace.BookkeepingDir ++ '/' :: d, n] [os.PathSeparator]
      = workspace.BookkeepingDir ++ ([d, n].map (fun e => '/' :: e)).flatten := by
    simp [strings.Join, List.intercalate, os.PathSeparator]
  have e2 : (workspace.BookkeepingDir ++ '/' :: d) ++ '/' :: n
      = workspace.BookkeepingDir ++ ([d, n].map (fun e => '/' :: e)).flatten := by
    simp
  rw [fsutil.NamePath_eq, filepath.Join, if_pos (by simp), e, e2]
  exact filepath.Clean_plain _ _ hb (by
    intro x hx
    simp only [List.mem_cons, List.mem_singleton, List.not_mem_nil, or_false] at hx
    rcases hx with h | h <;> rw [h] <;> assumption)

/-- Joining a root `.pulumi/<dir>`, a plain project and a plain name gives the
two as path segments under the root. -/
theorem filepath.Join_root_project_name (d pr n : Str) (hd : plainElem d) (hp : plainElem pr)
    (hn : plainElem n) :
    filepath.Join [workspace.BookkeepingDir ++ '/' :: d, fsutil.NamePath pr, fsutil.NamePath n]
      = (workspace.BookkeepingDir ++ '/' :: d) ++ '/' :: (pr ++ '/' :: n) := by
  have hb : plainElem workspace.BookkeepingDir := by
    refine ⟨by decide, by decide, by decide, by decide⟩
  have e : strings.Join [workspace.BookkeepingDir ++ '/' :: d, pr, n] [os.PathSeparator]
      = workspace.BookkeepingDir ++ ([d, pr, n].map (fun e => '/' :: e)).flatten := by
    simp [strings.Join, List.intercalate, os.PathSeparator]
  have e2 : (workspace.BookkeepingDir ++ '/' :: d) ++ '/' :: (pr ++ '/' :: n)
      = workspace.BookkeepingDir ++ ([d, pr, n].map (fun e => '/' :: e)).flatten := by
    simp
  rw [fsutil.NamePath_eq, fsutil.NamePath_eq, filepath.Join, if_pos (by simp), e, e2]
  exact filepath.Clean_plain _ _ hb (by
    intro x hx
    simp only [List.mem_cons, List.mem_singleton, List.not_mem_nil, or_false] at hx
    rcases hx with h | h | h <;> rw [h] <;> assumption)

theorem StacksDir_eq : StacksDir = workspace.BookkeepingDir ++ '/' :: workspace.StackDir := by
  decide

theorem HistoriesDir_eq :
    HistoriesDir = workspace.BookkeepingDir ++ '/' :: workspace.HistoryDir := by
  decide

theorem BackupsDir_eq : BackupsDir = workspace.BookkeepingDir ++ '/' :: workspace.BackupDir := by
  decide

theorem workspace.StackDir_plain : plainElem workspace.StackDir :=
  ⟨by decide, by decide, by decide, by decide⟩

theorem workspace.HistoryDir_plain : plainElem workspace.HistoryDir :=
  ⟨by decide, by decide, by decide, by decide⟩

theorem workspace.BackupDir_plain : plainElem workspace.BackupDir :=
  ⟨by decide, by decide, by decide, by decide⟩

theorem strings.HasPrefix_append (a b : Str) : strings.HasPrefix (a ++ b) a = true := by
  induction a with
  | nil => cases b <;> rfl
  | cons c cs ih => simp [strings.HasPrefix, ih]

theorem strictlyUnder_append (dir n : Str) (hn : n ≠ []) :
    strictlyUnder dir (dir ++ '/' :: n) = true := by
  have e : dir ++ '/' :: n = (dir ++ ['/']) ++ n := by simp
  have hl : 1 ≤ n.length := by
    cases n with
    | nil => exact absurd rfl hn
    | cons _ _ => simp
  unfold strictlyUnder
  rw [Bool.and_eq_true]
  constructor
  · rw [e]; exact strings.HasPrefix_append _ _
  · simp only [decide_eq_true_eq, List.length_append, List.length_cons]
    omega

/-- Two paths `a/b` with slash-free first segments agree only if both segments
agree. -/
theorem segments_inj (a b a' b' : Str) (ha : '/' ∉ a) (ha' : '/' ∉ a')
    (h : a ++ '/' :: b = a' ++ '/' :: b') : a = a' ∧ b = b' := by
  induction a generalizing a' with
  | nil =>
    cases a' with
    | nil => simp only [List.nil_append, List.cons.injEq, true_and] at h; exact ⟨rfl, h⟩
    | cons c cs =>
      simp only [List.nil_append, List.cons_append, List.cons.injEq] at h
      exact absurd (List.mem_cons_self _ _) (h.1 ▸ ha')
  | cons c cs ih =>
    cases a' with
    | nil =>
      simp only [List.nil_append, List.cons_append, List.cons.injEq] at h
      exact absurd (List.mem_cons_self _ _) (h.1 ▸ ha)
    | cons c' cs' =>
      simp only [List.cons_append, List.cons.injEq] at h
      obtain ⟨e1, e2⟩ := ih cs' (fun hm => ha (List.mem_cons_of_mem _ hm))
        (fun hm => ha' (List.mem_cons_of_mem _ hm)) h.2
      exact ⟨by rw [h.1, e1], e2⟩

/-- Apart from the names `.` and `..`, the paths are as the layout says: for a
name of the name grammar (and, in the project-scoped store, a project of the
name grammar) other than `.` and `..`, the three paths are the root, the
project segment in project-scoped mode, and the name, and they lie strictly
under the stacks, history and backups roots. -/
theorem paths_of_plain_names (l : legacyReferenceStore) (p : projectReferenceStore)
    (ref : localBackendReference) (hn : tokens.IsName ref.name = true)
    (h1 : ref.name ≠ ['.']) (h2 : ref.name ≠ ['.', '.']) :
    (ref.project = [] →
      l.StackBasePath ref = some (StacksDir ++ '/' :: ref.name) ∧
      l.HistoryDir ref = some (HistoriesDir ++ '/' :: ref.name) ∧
      l.BackupDir ref = some (BackupsDir ++ '/' :: ref.name) ∧
      strictlyUnder StacksDir (StacksDir ++ '/' :: ref.name) = true ∧
      strictlyUnder HistoriesDir (HistoriesDir ++ '/' :: ref.name) = true ∧
      strictlyUnder BackupsDir (BackupsDir ++ '/' :: ref.name) = true) ∧
    (tokens.IsName ref.project = true → ref.project ≠ ['.'] → ref.project ≠ ['.', '.'] →
      p.StackBasePath ref = some (StacksDir ++ '/' :: (ref.project ++ '/' :: ref.name)) ∧
      p.HistoryDir ref = some (HistoriesDir ++ '/' :: (ref.project ++ '/' :: ref.name)) ∧
      p.BackupDir ref = some (BackupsDir ++ '/' :: (ref.project ++ '/' :: ref.name)) ∧
      strictlyUnder StacksDir (StacksDir ++ '/' :: (ref.project ++ '/' :: ref.name)) = true ∧
      strictlyUnder HistoriesDir (HistoriesDir ++ '/' :: (ref.project ++ '/' :: ref.name)) = true ∧
      strictlyUnder BackupsDir (BackupsDir ++ '/' :: (ref.project ++ '/' :: ref.name)) = true) := by
  have hpn := tokens.IsName_plainElem _ hn h1 h2
  constructor
  · intro hp
    refine ⟨?_, ?_, ?_, strictlyUnder_append _ _ hpn.1, strictlyUnder_append _ _ hpn.1,
      strictlyUnder_append _ _ hpn.1⟩
    · simp only [legacyReferenceStore.StackBasePath, hp, ne_eq, not_true_eq_false, if_false]
      rw [StacksDir_eq, filepath.Join_root_name _ _ workspace.StackDir_plain hpn]
    · simp only [legacyReferenceStore.HistoryDir, hp, ne_eq, not_true_eq_false, if_false]
      rw [HistoriesDir_eq, filepath.Join_root_name _ _ workspace.HistoryDir_plain hpn]
    · simp only [legacyReferenceStore.BackupDir, hp, ne_eq, not_true_eq_false, if_false]
      rw [BackupsDir_eq, filepath.Join_root_name _ _ workspace.BackupDir_plain hpn]
  · intro hp hp1 hp2
    have hpp := tokens.IsName_plainElem _ hp hp1 hp2
    have hne : ref.project ≠ [] := hpp.1
    refine ⟨?_, ?_, ?_, strictlyUnder_append _ _ (by simp), strictlyUnder_append _ _ (by simp),
      strictlyUnder_append _ _ (by simp)⟩
    · simp only [projectReferenceStore.StackBasePath, hne, if_false]
      rw [StacksDir_eq, filepath.Join_root_project_name _ _ _ workspace.StackDir_plain hpp hpn]
    · simp only [projectReferenceStore.HistoryDir, hne, if_false]
      rw [HistoriesDir_eq, filepath.Join_root_project_name _ _ _ workspace.HistoryDir_plain hpp hpn]
    · simp only [projectReferenceStore.BackupDir, hne, if_false]
      rw [BackupsDir_eq, filepath.Join_root_project_name _ _ _ workspace.BackupDir_plain hpp hpn]

/-- The legacy path below one root is injective on all names of the name
grammar, the names `.` and `..` included: `.` gives the root, `..` the
bookkeeping directory, any other name its own segment under the root. -/
theorem legacy_join_inj (d n1 n2 : Str) (hd : plainElem d)
    (hdot : filepath.Join [workspace.BookkeepingDir ++ '/' :: d, ['.']]
      = workspace.BookkeepingDir ++ '/' :: d)
    (hdd : filepath.Join [workspace.BookkeepingDir ++ '/' :: d, ['.', '.']]
      = workspace.BookkeepingDir)
    (h1 : tokens.IsName n1 = true) (h2 : tokens.IsName n2 = true)
    (h : filepath.Join [workspace.BookkeepingDir ++ '/' :: d, fsutil.NamePath n1]
      = filepath.Join [workspace.BookkeepingDir ++ '/' :: d, fsutil.NamePath n2]) :
    n1 = n2 := by
  have key : ∀ n, tokens.IsName n = true →
      filepath.Join [workspace.BookkeepingDir ++ '/' :: d, fsutil.NamePath n]
        = if n = ['.'] then workspace.BookkeepingDir ++ '/' :: d
          else if n = ['.', '.'] then workspace.BookkeepingDir
          else (workspace.BookkeepingDir ++ '/' :: d) ++ '/' :: n := by
    intro n hn
    by_cases ha : n = ['.']
    · rw [if_pos ha, ha, fsutil.NamePath_eq, hdot]
    · rw [if_neg ha]
      by_cases hb : n = ['.', '.']
      · rw [if_pos hb, hb, fsutil.NamePath_eq, hdd]
      · rw [if_neg hb]
        exact filepath.Join_root_name d n hd (tokens.IsName_plainElem n hn ha hb)
  rw [key n1 h1, key n2 h2] at h
  by_cases a1 : n1 = ['.'] <;> by_cases a2 : n2 = ['.']
  · rw [a1, a2]
  · exfalso
    rw [if_pos a1, if_neg a2] at h
    by_cases b2 : n2 = ['.', '.']
    · rw [if_pos b2] at h
      have := congrArg List.length h
      simp only [List.length_append, List.length_cons] at this
      omega
    · rw [if_neg b2] at h
      have := congrArg List.length h
      simp only [List.length_append, List.length_cons] at this
      omega
  · exfalso
    rw [if_neg a1, if_pos a2] at h
    by_cases b1 : n1 = ['.', '.']
    · rw [if_pos b1] at h
      have := congrArg List.length h
      simp only [List.length_append, List.length_cons] at this
      omega
    · rw [if_neg b1] at h
      have := congrArg List.length h
      simp only [List.length_append, List.length_cons] at this
      omega
  · rw [if_neg a1, if_neg a2] at h
    by_cases b1 : n1 = ['.', '.'] <;> by_cases b2 : n2 = ['.', '.']
    · rw [b1, b2]
    · exfalso
      rw [if_pos b1, if_neg b2] at h
      have := congrArg List.length h
      simp only [List.length_append, List.length_cons] at this
      omega
    · exfalso
      rw [if_neg b1, if_pos b2] at h
      have := congrArg List.length h
      simp only [List.length_append, List.length_cons] at this
      omega
    · rw [if_neg b1, if_neg b2] at h
      have h' := List.append_cancel_left h
      injection h' with _ h'

/-- Within the legacy store the three path functions are injective on all
identities of the name grammar. -/
theorem legacy_paths_injective (l : legacyReferenceStore) (r1 r2 : localBackendReference)
    (h1 : tokens.IsName r1.name = true) (h2 : tokens.IsName r2.name = true)
    (hp1 : r1.project = []) (hp2 : r2.project = []) :
    (l.StackBasePath r1 = l.StackBasePath r2 → r1.name = r2.name) ∧
      (l.HistoryDir r1 = l.HistoryDir r2 → r1.name = r2.name) ∧
      (l.BackupDir r1 = l.BackupDir r2 → r1.name = r2.name) := by
  refine ⟨?_, ?_, ?_⟩
  · intro h
    simp only [legacyReferenceStore.StackBasePath, hp1, hp2, ne_eq, not_true_eq_false, if_false,
      Option.some.injEq, StacksDir_eq] at h
    exact legacy_join_inj _ _ _ workspace.StackDir_plain (by decide) (by decide) h1 h2 h
  · intro h
    simp only [legacyReferenceStore.HistoryDir, hp1, hp2, ne_eq, not_true_eq_false, if_false,
      Option.some.injEq, HistoriesDir_eq] at h
    exact legacy_join_inj _ _ _ workspace.HistoryDir_plain (by decide) (by decide) h1 h2 h
  · intro h
    simp only [legacyReferenceStore.BackupDir, hp1, hp2, ne_eq, not_true_eq_false, if_false,
      Option.some.injEq, BackupsDir_eq] at h
    exact legacy_join_inj _ _ _ workspace.BackupDir_plain (by decide) (by decide) h1 h2 h

/-- Within the project-scoped store the three path functions are injective on
the identities whose project and name are of the name grammar and are not `.`
or `..`. -/
theorem project_paths_injective_of_plain_names (p : projectReferenceStore)
    (r1 r2 : localBackendReference)
    (hn1 : tokens.IsName r1.name = true) (hn2 : tokens.IsName r2.name = true)
    (hp1 : tokens.IsName r1.project = true) (hp2 : tokens.IsName r2.project = true)
    (d1 : r1.name ≠ ['.'] ∧ r1.name ≠ ['.', '.'] ∧ r1.project ≠ ['.'] ∧ r1.project ≠ ['.', '.'])
    (d2 : r2.name ≠ ['.'] ∧ r2.name ≠ ['.', '.'] ∧ r2.project ≠ ['.'] ∧ r2.project ≠ ['.', '.']) :
    (p.StackBasePath r1 = p.StackBasePath r2 → r1.project = r2.project ∧ r1.name = r2.name) ∧
      (p.HistoryDir r1 = p.HistoryDir r2 → r1.project = r2.project ∧ r1.name = r2.name) ∧
      (p.BackupDir r1 = p.BackupDir r2 → r1.project = r2.project ∧ r1.name = r2.name) := by
  obtain ⟨s1, t1, _⟩ := (paths_of_plain_names exampleLegacyStore p r1 hn1 d1.1 d1.2.1).2 hp1
    d1.2.2.1 d1.2.2.2
  obtain ⟨s2, t2, _⟩ := (paths_of_plain_names exampleLegacyStore p r2 hn2 d2.1 d2.2.1).2 hp2
    d2.2.2.1 d2.2.2.2
  rename_i u1 u2
  have ns1 := tokens.IsName_no_slash _ hp1
  have ns2 := tokens.IsName_no_slash _ hp2
  refine ⟨?_, ?_, ?_⟩
  · intro h
    rw [s1, s2, Option.some.injEq] at h
    have h' := List.append_cancel_left h
    injection h' with _ h'
    exact segments_inj _ _ _ _ ns1 ns2 h'
  · intro h
    rw [t1, t2, Option.some.injEq] at h
    have h' := List.append_cancel_left h
    injection h' with _ h'
    exact segments_inj _ _ _ _ ns1 ns2 h'
  · intro h
    rw [u1.1, u2.1, Option.some.injEq] at h
    have h' := List.append_cancel_left h
    injection h' with _ h'
    exact segments_inj _ _ _ _ ns1 ns2 h'

/-! ## Listing: extensions and the rules of the spec -/

theorem strings.HasPrefix_iff (s pre : Str) :
    strings.HasPrefix s pre = true ↔ ∃ t, s = pre ++ t := by
  induction pre generalizing s with
  | nil => cases s <;> simp [strings.HasPrefix]
  | cons d ds ih =>
    cases s with
    | nil => simp [strings.HasPrefix]
    | cons c cs =>
      simp only [strings.HasPrefix, Bool.and_eq_true, beq_iff_eq, ih, List.cons_append,
        List.cons.injEq]
      constructor
      · rintro ⟨h, t, ht⟩; exact ⟨t, h, ht⟩
      · rintro ⟨t, h, ht⟩; exact ⟨h, t, ht⟩

theorem strings.HasSuffix_iff (s suf : Str) :
    strings.HasSuffix s suf = true ↔ ∃ n, s = n ++ suf := by
  unfold strings.HasSuffix
  rw [strings.HasPrefix_iff]
  constructor
  · rintro ⟨t, ht⟩
    refine ⟨t.reverse, ?_⟩
    have := congrArg List.reverse ht
    simpa using this
  · rintro ⟨n, hn⟩
    exact ⟨n.reverse, by rw [hn]; simp⟩

/-- The scan of `filepath.Ext` over a reversed path that starts with
characters other than dot and slash and then has a dot. -/
theorem filepath.Ext.scan_dot (u rest acc : Str) (hu : ∀ c ∈ u, c ≠ '.' ∧ c ≠ '/') :
    filepath.Ext.scan (u ++ '.' :: rest) acc = '.' :: (u.reverse ++ acc) := by
  induction u generalizing acc with
  | nil => simp [filepath.Ext.scan, os.PathSeparator]
  | cons c cs ih =>
    have hc := hu c (List.mem_cons_self _ _)
    have ih' := ih (c :: acc) (fun d hd => hu d (List.mem_cons_of_mem _ hd))
    simp [filepath.Ext.scan, os.PathSeparator, hc.1, hc.2, ih']

/-- A non-empty result of the scan of `filepath.Ext` comes from a dot that
only characters other than dot and slash precede. -/
theorem filepath.Ext.scan_ne_nil (rev acc r : Str) (h : filepath.Ext.scan rev acc = r)
    (hr : r ≠ []) :
    ∃ u rest, rev = u ++ '.' :: rest ∧ (∀ c ∈ u, c ≠ '.' ∧ c ≠ '/') ∧
      r = '.' :: (u.reverse ++ acc) := by
  induction rev generalizing acc with
  | nil => simp only [filepath.Ext.scan] at h; exact absurd h.symm hr
  | cons c cs ih =>
    simp only [filepath.Ext.scan, os.PathSeparator] at h
    by_cases h1 : c = '/'
    · rw [if_pos h1] at h; exact absurd h.symm hr
    rw [if_neg h1] at h
    by_cases h2 : c = '.'
    · rw [if_pos h2] at h
      exact ⟨[], cs, by simp [h2], by simp, by rw [← h, h2]; simp⟩
    rw [if_neg h2] at h
    obtain ⟨u, rest, e1, e2, e3⟩ := ih (c :: acc) h
    refine ⟨c :: u, rest, by simp [e1], ?_, by rw [e3]; simp⟩
    intro d hd
    rcases List.mem_cons.1 hd with hd | hd
    · rw [hd]; exact ⟨h2, h1⟩
    · exact e2 d hd

/-- `filepath.Ext` gives the extension `.w` (with `w` free of dots and
slashes) exactly for the paths that end in `.w`. -/
theorem filepath.Ext_eq_iff (s w : Str) (hw : ∀ c ∈ w, c ≠ '.' ∧ c ≠ '/') :
    filepath.Ext s = '.' :: w ↔ ∃ n, s = n ++ '.' :: w := by
  unfold filepath.Ext
  constructor
  · intro h
    obtain ⟨u, rest, e1, _, e3⟩ := filepath.Ext.scan_ne_nil _ _ _ h (by simp)
    simp only [List.append_nil, List.cons.injEq, true_and] at e3
    refine ⟨rest.reverse, ?_⟩
    have := congrArg List.reverse e1
    simp only [List.reverse_reverse, List.reverse_append, List.reverse_cons,
      List.append_assoc, List.singleton_append] at this
    rw [this, e3]
  · rintro ⟨n, hn⟩
    have e : s.reverse = w.reverse ++ '.' :: n.reverse := by rw [hn]; simp
    rw [e, filepath.Ext.scan_dot _ _ _ (by simpa using hw)]
    simp

theorem filepath.Ext_eq_gz (s : Str) :
    filepath.Ext s = encoding.GZIPExt ↔ strings.HasSuffix s ".gz".toList = true := by
  rw [strings.HasSuffix_iff]
  exact filepath.Ext_eq_iff s "gz".toList (by decide)

theorem filepath.Ext_eq_json (s : Str) :
    filepath.Ext s = ".json".toList ↔ strings.HasSuffix s ".json".toList = true := by
  rw [strings.HasSuffix_iff]
  exact filepath.Ext_eq_iff s "json".toList (by decide)

theorem filepath.Ext_eq_yaml (s : Str) :
    filepath.Ext s = ".yaml".toList ↔ strings.HasSuffix s ".yaml".toList = true := by
  rw [strings.HasSuffix_iff]
  exact filepath.Ext_eq_iff s "yaml".toList (by decide)

/-- The extension handling of the two `ListReferences` is the rule of the
spec for stack file names. -/
theorem stackNameOfObject_eq_spec (f : Str) : stackNameOfObject f = spec.stackFileName f := by
  have key : ∀ g : Str, (if ¬ encoding.Marshalers.has (filepath.Ext g) = true then none
      else some (g.take (g.length - (filepath.Ext g).length))) =
      (if strings.HasSuffix g ".json".toList then some (g.take (g.length - 5))
        else if strings.HasSuffix g ".yaml".toList then some (g.take (g.length - 5))
        else none) := by
    intro g
    by_cases hj : filepath.Ext g = ".json".toList
    · have hj' := (filepath.Ext_eq_json g).1 hj
      rw [if_pos hj', hj]
      rfl
    · have hj' : ¬ strings.HasSuffix g ".json".toList = true :=
        fun h => hj ((filepath.Ext_eq_json g).2 h)
      rw [if_neg hj']
      by_cases hy : filepath.Ext g = ".yaml".toList
      · have hy' := (filepath.Ext_eq_yaml g).1 hy
        rw [if_pos hy', hy]
        rfl
      · have hy' : ¬ strings.HasSuffix g ".yaml".toList = true :=
          fun h => hy ((filepath.Ext_eq_yaml g).2 h)
        rw [if_neg hy']
        have : encoding.Marshalers.has (filepath.Ext g) = false := by
          have e1 : ".json".toList = ['.', 'j', 's', 'o', 'n'] := rfl
          have e2 : ".yaml".toList = ['.', 'y', 'a', 'm', 'l'] := rfl
          rw [e1] at hj
          rw [e2] at hy
          simp [encoding.Marshalers.has, hj, hy]
        simp [this]
  unfold stackNameOfObject spec.stackFileName
  by_cases hg : filepath.Ext f = encoding.GZIPExt
  · have hg' := (filepath.Ext_eq_gz f).1 hg
    have htrim : strings.TrimSuffix f encoding.GZIPExt = f.take (f.length - 3) := by
      unfold strings.TrimSuffix
      have e : encoding.GZIPExt = ".gz".toList := rfl
      rw [e, if_pos hg']
      rfl
    simp only [hg, hg', if_true, htrim]
    exact key _
  · have hg' : ¬ strings.HasSuffix f ".gz".toList = true :=
      fun h => hg ((filepath.Ext_eq_gz f).2 h)
    simp only [hg, hg', if_false]
    exact key _

theorem take_length_sub (n e : Str) (k : Nat) (hk : e.length = k) :
    (n ++ e).take ((n ++ e).length - k) = n := by
  have : (n ++ e).length - k = n.length := by
    simp only [List.length_append]; omega
  rw [this]
  exact List.take_left' rfl

/-- The rule of the spec for stack file names, as a relation between the file
name and the stack name. -/
theorem spec.stackFileName_eq_some_iff (f n : Str) :
    spec.stackFileName f = some n ↔ spec.Yields f n := by
  have hjy : ∀ g : Str, ¬ (strings.HasSuffix g ".json".toList = true ∧
      strings.HasSuffix g ".gz".toList = true) := by
    intro g ⟨h1, h2⟩
    obtain ⟨a, ha⟩ := (strings.HasSuffix_iff _ _).1 h1
    obtain ⟨b, hb⟩ := (strings.HasSuffix_iff _ _).1 h2
    have := congrArg List.reverse (ha.symm.trans hb)
    simp at this
  have hyy : ∀ g : Str, ¬ (strings.HasSuffix g ".yaml".toList = true ∧
      strings.HasSuffix g ".gz".toList = true) := by
    intro g ⟨h1, h2⟩
    obtain ⟨a, ha⟩ := (strings.HasSuffix_iff _ _).1 h1
    obtain ⟨b, hb⟩ := (strings.HasSuffix_iff _ _).1 h2
    have := congrArg List.reverse (ha.symm.trans hb)
    simp at this
  have hjyy : ∀ g : Str, ¬ (strings.HasSuffix g ".json".toList = true ∧
      strings.HasSuffix g ".yaml".toList = true) := by
    intro g ⟨h1, h2⟩
    obtain ⟨a, ha⟩ := (strings.HasSuffix_iff _ _).1 h1
    obtain ⟨b, hb⟩ := (strings.HasSuffix_iff _ _).1 h2
    have := congrArg List.reverse (ha.symm.trans hb)
    simp at this
  -- the rule without the compression extension
  have key : ∀ g : Str, ((if strings.HasSuffix g ".json".toList = true
        then some (g.take (g.length - 5))
        else if strings.HasSuffix g ".yaml".toList = true then some (g.take (g.length - 5))
        else none) = some n) ↔
      (g = n ++ ".json".toList ∨ g = n ++ ".yaml".toList) := by
    intro g
    by_cases hj : strings.HasSuffix g ".json".toList = true
    · rw [if_pos hj]
      obtain ⟨a, ha⟩ := (strings.HasSuffix_iff _ _).1 hj
      rw [ha, take_length_sub a ".json".toList 5 rfl]
      constructor
      · intro h; injection h with h; rw [h]; exact Or.inl rfl
      · rintro (h | h)
        · rw [List.append_cancel_right h]
        · exfalso
          exact hjyy g ⟨hj, (strings.HasSuffix_iff _ _).2 ⟨n, by rw [ha, h]⟩⟩
    · rw [if_neg hj]
      by_cases hy : strings.HasSuffix g ".yaml".toList = true
      · rw [if_pos hy]
        obtain ⟨a, ha⟩ := (strings.HasSuffix_iff _ _).1 hy
        rw [ha, take_length_sub a ".yaml".toList 5 rfl]
        constructor
        · intro h; injection h with h; rw [h]; exact Or.inr rfl
        · rintro (h | h)
          · exfalso
            exact hj ((strings.HasSuffix_iff _ _).2 ⟨n, by rw [ha, h]⟩)
          · rw [List.append_cancel_right h]
      · rw [if_neg hy]
        constructor
        · intro h; cases h
        · rintro (h | h)
          · exact absurd ((strings.HasSuffix_iff _ _).2 ⟨n, h⟩) hj
          · exact absurd ((strings.HasSuffix_iff _ _).2 ⟨n, h⟩) hy
  unfold spec.stackFileName spec.Yields
  by_cases hg : strings.HasSuffix f ".gz".toList = true
  · obtain ⟨m, hm⟩ := (strings.HasSuffix_iff _ _).1 hg
    simp only [hg, if_true]
    rw [hm, take_length_sub m ".gz".toList 3 rfl, key m]
    constructor
    · rintro (h | h)
      · exact ⟨_, Or.inl rfl, Or.inr (by rw [h])⟩
      · exact ⟨_, Or.inr rfl, Or.inr (by rw [h])⟩
    · rintro ⟨e, he, h | h⟩
      · exfalso
        rw [← hm] at h
        rcases he with he | he
        · exact hjy f ⟨(strings.HasSuffix_iff _ _).2 ⟨n, by rw [h, he]⟩, hg⟩
        · exact hyy f ⟨(strings.HasSuffix_iff _ _).2 ⟨n, by rw [h, he]⟩, hg⟩
      · have := List.append_cancel_right h
        rcases he with he | he
        · exact Or.inl (by rw [this, he])
        · exact Or.inr (by rw [this, he])
  · simp only [hg, Bool.false_eq_true, if_false]
    rw [key f]
    constructor
    · rintro (h | h)
      · exact ⟨_, Or.inl rfl, Or.inl h⟩
      · exact ⟨_, Or.inr rfl, Or.inl h⟩
    · rintro ⟨e, he, h | h⟩
      · rcases he with he | he
        · exact Or.inl (by rw [h, he])
        · exact Or.inr (by rw [h, he])
      · exact absurd ((strings.HasSuffix_iff _ _).2 ⟨n ++ e, h⟩) hg

/-- The loop of the project-scoped listing over a listing without errors
appends what the steps return, in listing order. -/
theorem projectReferenceStore.ListReferences.loop_ok (p : projectReferenceStore) (pre : Str)
    (files : List blob.ListObject) :
    ∀ acc, projectReferenceStore.ListReferences.loop p pre (files.map Except.ok) acc
      = .ok (acc ++ files.filterMap (projectReferenceStore.ListReferences.step p pre)) := by
  induction files with
  | nil => intro acc; simp [projectReferenceStore.ListReferences.loop]
  | cons file rest ih =>
    intro acc
    simp only [List.map_cons, projectReferenceStore.ListReferences.loop]
    cases hstep : projectReferenceStore.ListReferences.step p pre file with
    | none => simp only [ih, List.filterMap_cons, hstep]
    | some ref => simp only [ih, List.filterMap_cons, hstep, List.append_assoc, List.singleton_append]

/-- One step of the project-scoped listing, on a key under the stacks root,
gives the identity of the spec. -/
theorem projectReferenceStore.ListReferences.step_spec (p : projectReferenceStore) (pre : Str)
    (file : blob.ListObject) (hkey : strings.HasPrefix file.Key pre = true) :
    (projectReferenceStore.ListReferences.step p pre file).map (fun r => (r.project, r.name))
      = spec.projectIdentity pre file := by
  unfold projectReferenceStore.ListReferences.step spec.projectIdentity
  have htrim : strings.TrimPrefix file.Key pre = file.Key.drop pre.length := by
    unfold strings.TrimPrefix; rw [if_pos hkey]
  rw [htrim]
  by_cases hd : file.IsDir = true
  · simp [hd]
  · rw [if_neg hd, if_neg hd]
    split
    · rename_i projName objName heq
      by_cases hn : tokens.IsName projName = true
      · rw [if_neg (not_not.2 hn), if_pos hn, stackNameOfObject_eq_spec]
        cases spec.stackFileName objName <;> rfl
      · rw [if_pos hn, if_neg hn]; rfl
    · rfl

theorem filepath.ToSlash_StacksDir : filepath.ToSlash StacksDir = StacksDir := by decide

/-- C11: when the listing of the bucket under the stacks root succeeds, the
project-scoped `ListReferences` returns, in listing order, exactly one
identity for each listed key that the rule of the spec accepts (not a
directory marker, exactly two segments `p/f` below the root, `p` of the name
grammar, `f` a stack file name after one trailing `.gz` is removed) and
nothing for every other key; each returned reference belongs to this store. -/
theorem project_listReferences_spec (p : projectReferenceStore) (files : List blob.ListObject)
    (hlist : p.bucket.List ⟨StacksDir ++ ['/'], []⟩ = files.map Except.ok)
    (hkeys : ∀ file ∈ files, strings.HasPrefix file.Key (StacksDir ++ ['/']) = true) :
    ∃ refs, p.ListReferences = .ok refs ∧
      refs.map (fun r => (r.project, r.name))
        = files.filterMap (spec.projectIdentity (StacksDir ++ ['/'])) ∧
      ∀ r ∈ refs, r.store = referenceStore.project p := by
  refine ⟨files.filterMap (projectReferenceStore.ListReferences.step p (StacksDir ++ ['/'])),
    ?_, ?_, ?_⟩
  · unfold projectReferenceStore.ListReferences
    simp only [filepath.ToSlash_StacksDir, hlist,
      projectReferenceStore.ListReferences.loop_ok, List.nil_append]
  · rw [List.map_filterMap]
    apply List.filterMap_congr
    intro file hfile
    exact projectReferenceStore.ListReferences.step_spec p _ file (hkeys file hfile)
  · intro r hr
    obtain ⟨file, _, hf⟩ := List.mem_filterMap.1 hr
    unfold projectReferenceStore.ListReferences.step at hf
    by_cases hd : file.IsDir = true
    · rw [if_pos hd] at hf; cases hf
    rw [if_neg hd] at hf
    split at hf
    · rename_i projName objName _
      by_cases hn : ¬ tokens.IsName projName = true
      · rw [if_pos hn] at hf; cases hf
      rw [if_neg hn] at hf
      cases hname : stackNameOfObject objName with
      | none => rw [hname] at hf; cases hf
      | some name =>
        rw [hname] at hf
        simp only [Option.map_some', Option.some.injEq] at hf
        subst hf
        rfl
    · cases hf

theorem project_listReferences_spec_witness :
    ∃ refs, projectReferenceStore.ListReferences ⟨exampleListingBucket, fun _ => none⟩ = .ok refs ∧
      refs.map (fun r => (r.project, r.name))
        = [("web".toList, "dev".toList), ("web".toList, "prod".toList)] ∧
      ∀ r ∈ refs, r.store = referenceStore.project ⟨exampleListingBucket, fun _ => none⟩ :=
  project_listReferences_spec ⟨exampleListingBucket, fun _ => none⟩ exampleListingFiles
    (by rfl) (by decide)

/-- C12: when the listing of the stacks root succeeds, the legacy
`ListReferences` returns the references of the steps over the listed entries,
in order.  For a non-directory entry the step returns the reference named `n`
exactly when the file name is `n` followed by a recognized serialization
extension (`.json` or `.yaml`) and possibly by one `.gz`; it returns nothing
exactly for directory markers and for file names of no such form.  So
`n.json` and `n.json.gz` both yield `n`, `n.json.bak` yields nothing, and
`n.gz` yields nothing unless `n` itself ends in a recognized extension. -/
theorem legacy_listReferences_spec (l : legacyReferenceStore) (files : List blob.ListObject)
    (hfiles : listBucket l.bucket StacksDir = .ok files) :
    l.ListReferences = .ok (files.filterMap (legacyReferenceStore.ListReferences.step l)) ∧
      (∀ file n, file.IsDir = false →
        (legacyReferenceStore.ListReferences.step l file = some (l.newReference n) ↔
          spec.Yields (objectName file) n)) ∧
      (∀ file, legacyReferenceStore.ListReferences.step l file = none ↔
        (file.IsDir = true ∨ ¬ ∃ n, spec.Yields (objectName file) n)) ∧
      (∀ n : Str, stackNameOfObject (n ++ ".json".toList) = some n ∧
        stackNameOfObject (n ++ ".json.gz".toList) = some n ∧
        stackNameOfObject (n ++ ".json.bak".toList) = none ∧
        ((¬ ∃ m, n = m ++ ".json".toList ∨ n = m ++ ".yaml".toList) →
          stackNameOfObject (n ++ ".gz".toList) = none)) := by
  have hstep : ∀ file, file.IsDir = false →
      legacyReferenceStore.ListReferences.step l file
        = (spec.stackFileName (objectName file)).map (fun name => l.newReference name) := by
    intro file hd
    unfold legacyReferenceStore.ListReferences.step
    rw [if_neg (by simp [hd]), stackNameOfObject_eq_spec]
  have hnone : ∀ f, spec.stackFileName f = none ↔ ¬ ∃ n, spec.Yields f n := by
    intro f
    constructor
    · rintro h ⟨n, hn⟩
      rw [(spec.stackFileName_eq_some_iff f n).2 hn] at h
      cases h
    · intro h
      cases hs : spec.stackFileName f with
      | none => rfl
      | some n => exact absurd ⟨n, (spec.stackFileName_eq_some_iff f n).1 hs⟩ h
  refine ⟨?_, ?_, ?_, ?_⟩
  · unfold legacyReferenceStore.ListReferences
    rw [hfiles]
  · intro file n hd
    rw [hstep file hd, ← spec.stackFileName_eq_some_iff]
    cases spec.stackFileName (objectName file) with
    | none => simp
    | some m =>
      simp only [Option.map_some', Option.some.injEq]
      constructor
      · intro h
        exact congrArg localBackendReference.name h
      · intro h; rw [h]
  · intro file
    by_cases hd : file.IsDir = true
    · simp [legacyReferenceStore.ListReferences.step, hd]
    · have hd' : file.IsDir = false := by simpa using hd
      rw [hstep file hd', ← hnone]
      cases spec.stackFileName (objectName file) <;> simp [hd]
  · intro n
    refine ⟨?_, ?_, ?_, ?_⟩
    · rw [stackNameOfObject_eq_spec, spec.stackFileName_eq_some_iff]
      exact ⟨_, Or.inl rfl, Or.inl rfl⟩
    · rw [stackNameOfObject_eq_spec, spec.stackFileName_eq_some_iff]
      exact ⟨_, Or.inl rfl, Or.inr (by simp)⟩
    · rw [stackNameOfObject_eq_spec, hnone]
      rintro ⟨m, e, he, h | h⟩
      · have := congrArg List.reverse h
        rcases he with he | he <;> simp [he] at this
      · have := congrArg List.reverse h
        rcases he with he | he <;> simp [he] at this
    · intro hn
      rw [stackNameOfObject_eq_spec, hnone]
      rintro ⟨m, e, he, h | h⟩
      · have := congrArg List.reverse h
        rcases he with he | he <;> simp [he] at this
      · have h' : n ++ ".gz".toList = (m ++ e) ++ ".gz".toList := by rw [h]
        have := List.append_cancel_right h'
        rcases he with he | he
        · exact hn ⟨m, Or.inl (by rw [this, he])⟩
        · exact hn ⟨m, Or.inr (by rw [this, he])⟩

theorem legacy_listReferences_spec_witness :
    legacyReferenceStore.ListReferences ⟨exampleLegacyBucket⟩
        = .ok (exampleLegacyFiles.filterMap
          (legacyReferenceStore.ListReferences.step ⟨exampleLegacyBucket⟩)) ∧
      listedNames (legacyReferenceStore.ListReferences ⟨exampleLegacyBucket⟩)
        = some ["Invalid Name!".toList, "valid-name".toList] :=
  ⟨(legacy_listReferences_spec ⟨exampleLegacyBucket⟩ exampleLegacyFiles (by rfl)).1, by decide⟩

/-- One step of the legacy listing returns a reference exactly for a file
(not a directory marker) whose name is a stack name followed by a recognized
extension; the reference is the legacy reference of that name. -/
theorem legacy_step_eq_some (l : legacyReferenceStore)
    (file : blob.ListObject) (r : localBackendReference) :
    legacyReferenceStore.ListReferences.step l file = some r ↔
      file.IsDir = false ∧ ∃ n, spec.Yields (objectName file) n ∧ r = l.newReference n := by
  unfold legacyReferenceStore.ListReferences.step
  by_cases hd : file.IsDir = true
  · rw [if_pos hd]
    constructor
    · intro h; cases h
    · rintro ⟨h, _⟩
      rw [hd] at h
      cases h
  · rw [if_neg hd, stackNameOfObject_eq_spec]
    have hd2 : file.IsDir = false := by simpa using hd
    constructor
    · intro h
      cases hs : spec.stackFileName (objectName file) with
      | none => rw [hs] at h; cases h
      | some n =>
        rw [hs] at h
        simp only [Option.map_some', Option.some.injEq] at h
        exact ⟨hd2, n, (spec.stackFileName_eq_some_iff _ _).1 hs, h.symm⟩
    · rintro ⟨_, n, hy, rfl⟩
      rw [(spec.stackFileName_eq_some_iff _ _).2 hy]
      rfl

/-- One step of the project-scoped listing, on a key under the stacks root,
returns a reference exactly for a file (not a directory marker) whose key
below the root is `project/file`, with a project of the name grammar and a
file name that is a stack name followed by a recognized extension; the
reference is the reference of the store with that project and that name. -/
theorem project_step_eq_some (p : projectReferenceStore)
    (pre : Str) (file : blob.ListObject) (hkey : strings.HasPrefix file.Key pre = true)
    (r : localBackendReference) :
    projectReferenceStore.ListReferences.step p pre file = some r ↔
      file.IsDir = false ∧ ∃ proj f n,
        strings.Split '/' (file.Key.drop pre.length) = [proj, f] ∧
        tokens.IsName proj = true ∧ spec.Yields f n ∧ r = p.newReference proj n := by
  unfold projectReferenceStore.ListReferences.step
  have htrim : strings.TrimPrefix file.Key pre = file.Key.drop pre.length := by
    unfold strings.TrimPrefix; rw [if_pos hkey]
  rw [htrim]
  by_cases hd : file.IsDir = true
  · rw [if_pos hd]
    constructor
    · intro h; cases h
    · rintro ⟨h, _⟩
      rw [hd] at h
      cases h
  · rw [if_neg hd]
    have hd2 : file.IsDir = false := by simpa using hd
    constructor
    · intro h
      split at h
      · rename_i projName objName heq
        by_cases hn : tokens.IsName projName = true
        · rw [if_neg (not_not.2 hn), stackNameOfObject_eq_spec] at h
          cases hs : spec.stackFileName objName with
          | none => rw [hs] at h; cases h
          | some n =>
            rw [hs] at h
            simp only [Option.map_some', Option.some.injEq] at h
            exact ⟨hd2, projName, objName, n, heq, hn,
              (spec.stackFileName_eq_some_iff _ _).1 hs, h.symm⟩
        · rw [if_pos hn] at h
          cases h
      · cases h
    · rintro ⟨_, proj, f, n, hsplit, hn, hy, rfl⟩
      rw [hsplit]
      simp only []
      rw [if_neg (not_not.2 hn), stackNameOfObject_eq_spec,
        (spec.stackFileName_eq_some_iff _ _).2 hy]
      rfl

/-- C10, amended: neither listing checks the stack name against the name
grammar.  When the bucket lists without error, the legacy `ListReferences`
returns exactly the references `newReference n` of the listed files (not
directory markers) whose file name is `n` followed by a recognized
serialization extension (`.json` or `.yaml`) and possibly `.gz`; the
project-scoped `ListReferences` returns exactly the references
`newReference project n` of the listed files whose key below the stacks root is
`project/file`, with `project` of the name grammar and `file` of that form.
Every other listed key is skipped: directory markers, names without a
recognized extension, and under the project-scoped store keys too shallow or
too deep and keys whose project fails the name grammar.  The name of a
returned reference is `n`, whatever `n` is; its project is empty under the
legacy store.  For the legacy bucket holding `stacks/valid-name.json`,
`stacks/Invalid Name!.json` and `stacks/valid-name.json.bak` the listing
returns `Invalid Name!`, which is outside the name grammar, and `valid-name`,
skipping only the `.bak` key. -/
theorem listReferences_members :
    (∀ (l : legacyReferenceStore) (files : List blob.ListObject),
        listBucket l.bucket StacksDir = .ok files →
        ∃ refs, l.ListReferences = .ok refs ∧
          ∀ r, r ∈ refs ↔ ∃ file ∈ files, file.IsDir = false ∧
            ∃ n, spec.Yields (objectName file) n ∧ r = l.newReference n) ∧
      (∀ (p : projectReferenceStore) (files : List blob.ListObject),
        p.bucket.List ⟨StacksDir ++ ['/'], []⟩ = files.map Except.ok →
        (∀ file ∈ files, strings.HasPrefix file.Key (StacksDir ++ ['/']) = true) →
        ∃ refs, p.ListReferences = .ok refs ∧
          ∀ r, r ∈ refs ↔ ∃ file ∈ files, file.IsDir = false ∧
            ∃ proj f n,
              strings.Split '/' (file.Key.drop (StacksDir ++ ['/']).length) = [proj, f] ∧
              tokens.IsName proj = true ∧ spec.Yields f n ∧ r = p.newReference proj n) ∧
      (∀ (l : legacyReferenceStore) (n : Str),
        (l.newReference n).name = n ∧ (l.newReference n).project = []) ∧
      (∀ (p : projectReferenceStore) (proj n : Str),
        (p.newReference proj n).name = n ∧ (p.newReference proj n).project = proj) ∧
      listedNames (legacyReferenceStore.ListReferences ⟨exampleLegacyBucket⟩)
        = some ["Invalid Name!".toList, "valid-name".toList] ∧
      tokens.IsName "Invalid Name!".toList = false := by
  refine ⟨fun l files hfiles => ?_, fun p files hlist hkeys => ?_, fun _ _ => ⟨rfl, rfl⟩,
    fun _ _ _ => ⟨rfl, rfl⟩, by decide, by decide⟩
  · refine ⟨files.filterMap (legacyReferenceStore.ListReferences.step l), ?_, fun r => ?_⟩
    · unfold legacyReferenceStore.ListReferences
      rw [hfiles]
    · rw [List.mem_filterMap]
      constructor
      · rintro ⟨file, hf, hs⟩
        exact ⟨file, hf, (legacy_step_eq_some l file r).1 hs⟩
      · rintro ⟨file, hf, hs⟩
        exact ⟨file, hf, (legacy_step_eq_some l file r).2 hs⟩
  · refine ⟨files.filterMap (projectReferenceStore.ListReferences.step p (StacksDir ++ ['/'])),
      ?_, fun r => ?_⟩
    · unfold projectReferenceStore.ListReferences
      simp only [filepath.ToSlash_StacksDir, hlist,
        projectReferenceStore.ListReferences.loop_ok, List.nil_append]
    · rw [List.mem_filterMap]
      constructor
      · rintro ⟨file, hf, hs⟩
        exact ⟨file, hf, (project_step_eq_some p _ file
          (hkeys file hf) r).1 hs⟩
      · rintro ⟨file, hf, hs⟩
        exact ⟨file, hf, (project_step_eq_some p _ file
          (hkeys file hf) r).2 hs⟩

theorem listReferences_members_witness :
    (∃ refs, legacyReferenceStore.ListReferences ⟨exampleLegacyBucket⟩ = .ok refs ∧
        ∀ r, r ∈ refs ↔ ∃ file ∈ exampleLegacyFiles, file.IsDir = false ∧
          ∃ n, spec.Yields (objectName file) n ∧
            r = legacyReferenceStore.newReference ⟨exampleLegacyBucket⟩ n) ∧
      (∃ refs, projectReferenceStore.ListReferences ⟨exampleListingBucket, fun _ => none⟩
          = .ok refs ∧
        ∀ r, r ∈ refs ↔ ∃ file ∈ exampleListingFiles, file.IsDir = false ∧
          ∃ proj f n,
            strings.Split '/' (file.Key.drop (StacksDir ++ ['/']).length) = [proj, f] ∧
            tokens.IsName proj = true ∧ spec.Yields f n ∧
            r = projectReferenceStore.newReference ⟨exampleListingBucket, fun _ => none⟩ proj n) :=
  ⟨listReferences_members.1 ⟨exampleLegacyBucket⟩ exampleLegacyFiles (by rfl),
    listReferences_members.2.1 ⟨exampleListingBucket, fun _ => none⟩ exampleListingFiles
      (by rfl) (by decide)⟩

/-! ## Programs and runs: general facts -/

theorem Prog.run_bind {σ α β : Type} (W : World σ) (p : Prog α) (f : α → Prog β) (s : σ) :
    (p.bind f).run W s =
      match (p.run W s).out with
      | .done a =>
        ⟨((f a).run W (p.run W s).state).out, ((f a).run W (p.run W s).state).state,
          (p.run W s).trace ++ ((f a).run W (p.run W s).state).trace⟩
      | .panicked msg => ⟨.panicked msg, (p.run W s).state, (p.run W s).trace⟩ := by
  induction p generalizing s with
  | ret a => simp [Prog.bind, Prog.run]
  | gopanic msg => simp [Prog.bind, Prog.run]
  | call c k ih =>
    simp only [Prog.bind, Prog.run]
    rw [ih]
    cases ((k (W.respond c s).1).run W (W.respond c s).2).out <;> simp

theorem Prog.Calls.trace_ok {σ α : Type} (ok : Call → Prop) (W : World σ) (p : Prog α)
    (h : p.Calls ok) : ∀ s, ∀ e ∈ (p.run W s).trace, ok e.c := by
  induction p with
  | ret a => intro s e he; simp [Prog.run] at he
  | gopanic msg => intro s e he; simp [Prog.run] at he
  | call c k ih =>
    intro s e he
    simp only [Prog.run, List.mem_cons] at he
    rcases he with rfl | he
    · exact h.1
    · exact ih _ (h.2 _) _ e he

theorem Prog.Calls.bind_ok {α β : Type} (ok : Call → Prop) (p : Prog α) (f : α → Prog β)
    (hp : p.Calls ok) (hf : ∀ a, (f a).Calls ok) : (p.bind f).Calls ok := by
  induction p with
  | ret a => exact hf a
  | gopanic msg => trivial
  | call c k ih => exact ⟨hp.1, fun r => ih r (hp.2 r)⟩

theorem Prog.Calls.deferred {α : Type} (ok : Call → Prop) (p : Prog α) (cleanup : Prog Unit)
    (hp : p.Calls ok) (hc : cleanup.Calls ok) : (p.deferred cleanup).Calls ok := by
  induction p with
  | ret a => exact Prog.Calls.bind_ok ok cleanup _ hc (fun _ => trivial)
  | gopanic msg => exact Prog.Calls.bind_ok ok cleanup _ hc (fun _ => trivial)
  | call c k ih => exact ⟨hp.1, fun r => ih r (hp.2 r)⟩

theorem Prog.Returns.run_done {σ α : Type} (W : World σ) (p : Prog α) (h : p.Returns) :
    ∀ s, ∃ a, (p.run W s).out = .done a := by
  induction p with
  | ret a => intro s; exact ⟨a, rfl⟩
  | gopanic msg => exact absurd h id
  | call c k ih => intro s; exact ih _ (h _) _

theorem Prog.Returns.bind_returns {α β : Type} (p : Prog α) (f : α → Prog β)
    (hp : p.Returns) (hf : ∀ a, (f a).Returns) : (p.bind f).Returns := by
  induction p with
  | ret a => exact hf a
  | gopanic msg => exact absurd hp id
  | call c k ih => exact fun r => ih r (hp r)

/-! ## The backend: opening a store -/

/-- A run of `newLocalBackend` that read the metadata `meta` returns what the
switch on the version of `meta` selects: the error of the switch, or a backend
governed by the selected store. -/
theorem newLocalBackend_run {σ : Type} (W : World σ) (s : σ) (originalURL : Str)
    (project : Option workspace.Project) (meta : pulumiMeta)
    (hmeta : (⟨.ensurePulumiMeta, .ok meta⟩ : Event)
      ∈ ((newLocalBackend originalURL project).run W s).trace) :
    ∃ (u : Str) (wbucket : Bucket) (lockID : Str) (gz : Bool),
      ((newLocalBackend originalURL project).run W s).out =
        match newLocalBackend.selectStore wbucket project meta with
        | .error err => .done (.error err)
        | .ok store => .done (.ok
            { originalURL := originalURL, url := u, bucket := wbucket, lockID := lockID,
              gzip := gz, currentProject := project, store := store }) := by
  generalize hR : (newLocalBackend originalURL project).run W s = R at hmeta ⊢
  unfold newLocalBackend IsFileStateBackendURL at hR
  simp only [Prog.bind, Prog.run] at hR
  rcases h1 : W.respond (.urlParse originalURL) s with ⟨parsed, s1⟩
  rw [h1] at hR
  cases parsed with
  | error e =>
    simp only [Prog.bind, Prog.run, Bool.not_false, if_true] at hR
    subst hR
    simp at hmeta
  | ok u0 =>
    simp only [Prog.bind, Prog.run] at hR
    rcases h2 : W.respond (.ValidBucketScheme u0.Scheme) s1 with ⟨valid, s2⟩
    rw [h2] at hR
    cases valid with
    | false =>
      simp only [Prog.bind, Prog.run, Bool.not_false, if_true] at hR
      subst hR
      simp at hmeta
    | true =>
      simp only [Prog.bind, Prog.run, Bool.not_true, Bool.false_eq_true, if_false] at hR
      rcases h3 : W.respond (.massageBlobPath originalURL) s2 with ⟨massaged, s3⟩
      rw [h3] at hR
      cases massaged with
      | error e =>
        simp only [Prog.run] at hR
        subst hR
        simp at hmeta
      | ok u =>
        simp only [Prog.run] at hR
        rcases h4 : W.respond (.urlParse u) s3 with ⟨parsed2, s4⟩
        rw [h4] at hR
        cases parsed2 with
        | error e =>
          simp only [Prog.run] at hR
          subst hR
          simp at hmeta
        | ok p =>
          -- the credentials for gcp
          have hMr : (if p.Scheme = gcsblob.Scheme then
              (Prog.call .GoogleCredentialsMux fun err => Prog.ret err : Prog (Option GoError))
              else Prog.ret none).Returns := by
            split
            · exact fun _ => trivial
            · trivial
          have hMc : (if p.Scheme = gcsblob.Scheme then
              (Prog.call .GoogleCredentialsMux fun err => Prog.ret err : Prog (Option GoError))
              else Prog.ret none).Calls (fun c => c ≠ .ensurePulumiMeta) := by
            split
            · exact ⟨by simp, fun _ => trivial⟩
            · trivial
          simp only [Prog.run_bind] at hR
          obtain ⟨muxErr, hm⟩ := Prog.Returns.run_done W _ hMr s4
          have hmc := Prog.Calls.trace_ok _ W _ hMc s4
          generalize (if p.Scheme = gcsblob.Scheme then
              (Prog.call .GoogleCredentialsMux fun err => Prog.ret err : Prog (Option GoError))
              else Prog.ret none).run W s4 = M at hm hmc hR
          rw [hm] at hR
          simp only [] at hR
          cases muxErr with
          | some err =>
            simp only [Prog.run] at hR
            subst hR
            simp at hmeta
            exact absurd rfl (hmc _ hmeta)
          | none =>
            simp only [Prog.run] at hR
            rcases h5 : W.respond (.OpenBucket u) M.state with ⟨opened, s6⟩
            rw [h5] at hR
            cases opened with
            | error err =>
              simp only [Prog.run] at hR
              subst hR
              simp at hmeta
              exact absurd rfl (hmc _ hmeta)
            | ok bucket =>
              simp only [Prog.run] at hR
              rcases h6 : W.respond .uuidNewV4 s6 with ⟨made, s7⟩
              rw [h6] at hR
              cases made with
              | error err =>
                simp only [Prog.run] at hR
                subst hR
                simp at hmeta
                exact absurd rfl (hmc _ hmeta)
              | ok lockID =>
                simp only [Prog.run] at hR
                rcases h7 : W.respond (.Getenv PulumiFilestateGzipEnvVar) s7 with ⟨gz, s8⟩
                rw [h7] at hR
                simp only [] at hR
                rcases h8 : W.respond .ensurePulumiMeta s8 with ⟨ensured, s9⟩
                rw [h8] at hR
                cases ensured with
                | error err =>
                  simp only [Prog.run] at hR
                  subst hR
                  simp at hmeta
                  exact absurd rfl (hmc _ hmeta)
                | ok meta2 =>
                  simp only [] at hR
                  generalize (if (!strings.HasPrefix u FilePathPrefix) = true then
                    if strings.TrimLeftSlash p.Path ≠ [] then
                      blob.PrefixedBucket bucket
                        (if (!strings.HasSuffix (strings.TrimLeftSlash p.Path) ['/']) = true then
                          strings.TrimLeftSlash p.Path ++ ['/']
                        else strings.TrimLeftSlash p.Path)
                    else bucket
                  else bucket) = wb at hR
                  cases hsel : newLocalBackend.selectStore wb project meta2 with
                  | error err =>
                    simp only [hsel, Prog.run] at hR
                    subst hR
                    have hm2 : meta = meta2 := by
                      simp at hmeta
                      rcases hmeta with h | h
                      · exact absurd rfl (hmc _ h)
                      · exact Except.ok.inj h
                    subst hm2
                    exact ⟨u, wb, lockID, cmdutil.IsTruthy gz, by rw [hsel]⟩
                  | ok store =>
                    simp only [hsel] at hR
                    cases hpm : store.projectMode with
                    | false =>
                      simp only [hpm, Bool.not_false, if_true, Prog.run] at hR
                      subst hR
                      have hm2 : meta = meta2 := by
                        simp at hmeta
                        rcases hmeta with h | h
                        · exact absurd rfl (hmc _ h)
                        · exact Except.ok.inj h
                      subst hm2
                      exact ⟨u, wb, lockID, cmdutil.IsTruthy gz, by rw [hsel]⟩
                    | true =>
                      simp only [hpm, Bool.not_true, Bool.false_eq_true, if_false, Prog.run] at hR
                      rcases h9 : W.respond (.Getenv PulumiFilestateNoLegacyWarningEnvVar) s9
                        with ⟨noWarning, s10⟩
                      rw [h9] at hR
                      simp only [] at hR
                      by_cases hw : cmdutil.IsTruthy noWarning = true
                      · simp only [hw, if_true, Prog.bind, Prog.run] at hR
                        subst hR
                        have hm2 : meta = meta2 := by
                          simp at hmeta
                          rcases hmeta with h | h
                          · exact absurd rfl (hmc _ h)
                          · exact Except.ok.inj h
                        subst hm2
                        exact ⟨u, wb, lockID, cmdutil.IsTruthy gz, by rw [hsel]⟩
                      · simp only [hw, if_false, Prog.bind, Prog.run] at hR
                        rcases h10 : W.respond .bucket s10 with ⟨bucketNow, s11⟩
                        rw [h10] at hR
                        simp only [] at hR
                        cases hl : (newLegacyReferenceStore bucketNow).ListReferences with
                        | error e =>
                          simp only [hl, Prog.bind, Prog.run] at hR
                          subst hR
                          have hm2 : meta = meta2 := by
                            simp at hmeta
                            rcases hmeta with h | h
                            · exact absurd rfl (hmc _ h)
                            · exact Except.ok.inj h
                          subst hm2
                          exact ⟨u, wb, lockID, cmdutil.IsTruthy gz, by rw [hsel]⟩
                        | ok refs =>
                          simp only [hl] at hR
                          by_cases hlen : refs.length = 0
                          · simp only [hlen, if_true, Prog.bind, Prog.run] at hR
                            subst hR
                            have hm2 : meta = meta2 := by
                              simp at hmeta
                              rcases hmeta with h | h
                              · exact absurd rfl (hmc _ h)
                              · exact Except.ok.inj h
                            subst hm2
                            exact ⟨u, wb, lockID, cmdutil.IsTruthy gz, by rw [hsel]⟩
                          · simp only [hlen, if_false, Prog.bind, Prog.run] at hR
                            subst hR
                            have hm2 : meta = meta2 := by
                              simp at hmeta
                              rcases hmeta with h | h
                              · exact absurd rfl (hmc _ h)
                              · exact Except.ok.inj h
                            subst hm2
                            exact ⟨u, wb, lockID, cmdutil.IsTruthy gz, by rw [hsel]⟩

/-- C13: when a store is opened and its metadata has been read, the version of
the metadata selects the layout: version 0 gives a backend governed by the
legacy reference store, version 1 a backend governed by the project-scoped
reference store, and every other version makes `newLocalBackend` return the
error of an unsupported store, and no backend. -/
theorem newLocalBackend_version_selects_store {σ : Type} (W : World σ) (s : σ)
    (originalURL : Str) (project : Option workspace.Project) (meta : pulumiMeta)
    (hmeta : (⟨.ensurePulumiMeta, .ok meta⟩ : Event)
      ∈ ((newLocalBackend originalURL project).run W s).trace) :
    (meta.Version = 0 → ∃ be, ((newLocalBackend originalURL project).run W s).out
        = .done (.ok be) ∧ be.store = .legacy (newLegacyReferenceStore be.bucket)) ∧
      (meta.Version = 1 → ∃ be, ((newLocalBackend originalURL project).run W s).out
        = .done (.ok be) ∧
        be.store = .project (newProjectReferenceStore be.bucket (fun _ => project))) ∧
      (meta.Version ≠ 0 → meta.Version ≠ 1 →
        ((newLocalBackend originalURL project).run W s).out
          = .done (.error (.unsupportedVersion meta.Version))) := by
  obtain ⟨u, wbucket, lockID, gz, hout⟩ := newLocalBackend_run W s originalURL project meta hmeta
  rw [hout]
  refine ⟨fun h0 => ?_, fun h1 => ?_, fun h0 h1 => ?_⟩
  · refine ⟨⟨originalURL, u, wbucket, lockID, gz, project,
      .legacy (newLegacyReferenceStore wbucket)⟩, ?_, rfl⟩
    simp only [newLocalBackend.selectStore, h0, if_true]
  · refine ⟨⟨originalURL, u, wbucket, lockID, gz, project,
      .project (newProjectReferenceStore wbucket (fun _ => project))⟩, ?_, rfl⟩
    have h10 : ¬ ((1 : Int) = 0) := by decide
    simp only [newLocalBackend.selectStore, h1, h10, if_true, if_false]
  · simp only [newLocalBackend.selectStore, h0, h1, if_false]

theorem newLocalBackend_version_selects_store_witness :
    ((newLocalBackend "file:///state".toList none).run exampleUnsupportedWorld ()).out
      = .done (.error (.unsupportedVersion 2)) :=
  (newLocalBackend_version_selects_store exampleUnsupportedWorld () "file:///state".toList none
    ⟨2⟩ (List.Mem.tail _ (List.Mem.tail _ (List.Mem.tail _ (List.Mem.tail _ (List.Mem.tail _
      (List.Mem.tail _ (List.Mem.tail _ (List.Mem.head _))))))))).2.2 (by decide) (by decide)

/-! ## The backend: removing and renaming a stack -/

/-- The calls of the saving part of `renameStack`. -/
theorem renameStack_save_calls (ok : Call → Prop) (b : localBackend)
    (oldRef newRef : localBackendReference) (snap : Option deploy.Snapshot)
    (h2 : ∀ sn, ok (.saveStack newRef sn))
    (h3 : ok (.stackPath oldRef)) (h4 : ∀ f, ok (.backupTarget f false))
    (h5 : ok (.renameHistory oldRef newRef)) :
    (localBackend.renameStack.save b oldRef newRef snap).Calls ok := by
  refine ⟨h2 _, fun r => ?_⟩
  cases r with
  | error err => trivial
  | ok file => exact ⟨h3, fun _ => ⟨h4 _, fun _ => ⟨h5, fun _ => trivial⟩⟩⟩

/-- The calls that `renameStack` makes after the check of the destination:
the URN rewriter with the new name and the empty project (if there is a
snapshot), the save under the new reference, the path of the old stack and its
backup, the move of the history. -/
theorem renameStack_rewrite_calls (ok : Call → Prop) (b : localBackend)
    (oldRef newRef : localBackendReference) (snap : Option deploy.Snapshot)
    (h1 : ∀ sn, ok (.editRenameStack sn newRef.name [])) (h2 : ∀ sn, ok (.saveStack newRef sn))
    (h3 : ok (.stackPath oldRef)) (h4 : ∀ f, ok (.backupTarget f false))
    (h5 : ok (.renameHistory oldRef newRef)) :
    (localBackend.renameStack.rewrite b oldRef newRef snap).Calls ok := by
  cases snap with
  | none => exact renameStack_save_calls ok b oldRef newRef none h2 h3 h4 h5
  | some sn =>
    refine ⟨h1 _, fun r => ?_⟩
    rcases r with ⟨e, sn2⟩
    cases e with
    | some err => trivial
    | none => exact renameStack_save_calls ok b oldRef newRef _ h2 h3 h4 h5

/-- The calls that `renameStack` can make. -/
theorem renameStack_calls (ok : Call → Prop) (b : localBackend)
    (oldRef newRef : localBackendReference)
    (hl : ok (.Lock (.filestate oldRef))) (hu : ok (.Unlock (.filestate oldRef)))
    (hg : ok (.getStack oldRef)) (hp : ok (.stackPath newRef)) (he : ∀ k, ok (.bucketExists k))
    (h1 : ∀ sn, ok (.editRenameStack sn newRef.name [])) (h2 : ∀ sn, ok (.saveStack newRef sn))
    (h3 : ok (.stackPath oldRef)) (h4 : ∀ f, ok (.backupTarget f false))
    (h5 : ok (.renameHistory oldRef newRef)) :
    (b.renameStack oldRef newRef).Calls ok := by
  refine ⟨hl, fun r => ?_⟩
  cases r with
  | some err => trivial
  | none =>
    refine Prog.Calls.deferred _ _ _ ⟨hg, fun r => ?_⟩ ⟨hu, fun _ => trivial⟩
    cases r with
    | error err => trivial
    | ok pr =>
      refine ⟨hp, fun _ => ⟨he _, fun r => ?_⟩⟩
      cases r with
      | error err => trivial
      | ok found =>
        cases found with
        | true => trivial
        | false => exact renameStack_rewrite_calls ok b oldRef newRef pr.1 h1 h2 h3 h4 h5

/-- C15: `renameStack`, when the lock of the old stack is taken and the old
stack is loaded: if the bucket says that the path of the new stack exists, the
result is the error "a stack named ... already exists", and the calls made are
the lock, the load, the path, the existence check and the unlock only: nothing
is saved under the new name, the old checkpoint is not backed up, the history
is not moved. -/
theorem renameStack_existing_destination {σ : Type} (W : World σ) (s : σ) (b : localBackend)
    (oldRef newRef : localBackendReference) (snap : Option deploy.Snapshot) (path newPath : Str)
    (hlock : (⟨.Lock (.filestate oldRef), none⟩ : Event) ∈ ((b.renameStack oldRef newRef).run W s).trace)
    (hget : (⟨.getStack oldRef, .ok (snap, path)⟩ : Event)
      ∈ ((b.renameStack oldRef newRef).run W s).trace)
    (hex : (⟨.bucketExists newPath, .ok true⟩ : Event)
      ∈ ((b.renameStack oldRef newRef).run W s).trace) :
    ((b.renameStack oldRef newRef).run W s).out = .done (some (.new
        ("a stack named ".toList ++ newRef.String ++ " already exists".toList))) ∧
      calls ((b.renameStack oldRef newRef).run W s).trace
        = [.Lock (.filestate oldRef), .getStack oldRef, .stackPath newRef, .bucketExists newPath,
            .Unlock (.filestate oldRef)] ∧
      ∀ e ∈ ((b.renameStack oldRef newRef).run W s).trace,
        (∀ r sn, e.c ≠ .saveStack r sn) ∧ (∀ f k, e.c ≠ .backupTarget f k) ∧
        (∀ o n, e.c ≠ .renameHistory o n) := by
  generalize hR : (b.renameStack oldRef newRef).run W s = R at hlock hget hex ⊢
  unfold localBackend.renameStack at hR
  simp only [Prog.run] at hR
  rcases hl : W.respond (.Lock (.filestate oldRef)) s with ⟨lockErr, s1⟩
  rw [hl] at hR
  cases lockErr with
  | some err =>
    simp only [Prog.run] at hR
    subst hR
    simp at hlock
  | none =>
    simp only [Prog.deferred, Prog.run] at hR
    rcases hg : W.respond (.getStack oldRef) s1 with ⟨got, s2⟩
    rw [hg] at hR
    cases got with
    | error err =>
      simp only [Prog.deferred, Prog.run, Prog.bind, localBackend.Unlock] at hR
      subst hR
      simp at hget
    | ok pr =>
      obtain ⟨sn, p⟩ := pr
      simp only [Prog.deferred, Prog.run] at hR
      rcases hp : W.respond (.stackPath newRef) s2 with ⟨np, s3⟩
      rw [hp] at hR
      simp only at hR
      rcases he : W.respond (.bucketExists np) s3 with ⟨ex, s4⟩
      rw [he] at hR
      cases ex with
      | error err =>
        simp only [Prog.deferred, Prog.run, Prog.bind, localBackend.Unlock] at hR
        subst hR
        simp at hex
      | ok found =>
        cases found with
        | true =>
          simp only [Prog.deferred, Prog.run, Prog.bind, localBackend.Unlock] at hR
          subst hR
          simp at hex
          subst hex
          refine ⟨rfl, rfl, ?_⟩
          intro e he'
          simp only [List.mem_cons, List.mem_singleton, List.not_mem_nil, or_false] at he'
          rcases he' with rfl | rfl | rfl | rfl | rfl <;> simp
        | false =>
          exfalso
          subst hR
          simp at hex
          have hcalls : (Prog.deferred (localBackend.renameStack.rewrite b oldRef newRef sn)
              (b.Unlock (.filestate oldRef))).Calls (fun c => ∀ k, c ≠ .bucketExists k) :=
            Prog.Calls.deferred _ _ _ (renameStack_rewrite_calls _ b oldRef newRef sn
              (by simp) (by simp) (by simp) (by simp) (by simp))
              (by simp [localBackend.Unlock, Prog.Calls])
          rcases hex with ⟨_, h⟩ | hex
          · cases h
          · exact Prog.Calls.trace_ok _ W _ hcalls s4 ⟨.bucketExists newPath, .ok true⟩ hex newPath rfl

theorem renameStack_existing_destination_witness :
    ((exampleBackend.renameStack exampleStackRef exampleOtherStackRef).run
        exampleExistingWorld ()).out = .done (some (.new
        ("a stack named ".toList ++ exampleOtherStackRef.String ++ " already exists".toList))) ∧
      calls ((exampleBackend.renameStack exampleStackRef exampleOtherStackRef).run
          exampleExistingWorld ()).trace
        = [.Lock (.filestate exampleStackRef), .getStack exampleStackRef,
            .stackPath exampleOtherStackRef,
            .bucketExists (Call.quiet (.stackPath exampleOtherStackRef)),
            .Unlock (.filestate exampleStackRef)] ∧
      ∀ e ∈ ((exampleBackend.renameStack exampleStackRef exampleOtherStackRef).run
          exampleExistingWorld ()).trace,
        (∀ r sn, e.c ≠ .saveStack r sn) ∧ (∀ f k, e.c ≠ .backupTarget f k) ∧
        (∀ o n, e.c ≠ .renameHistory o n) :=
  renameStack_existing_destination exampleExistingWorld () exampleBackend exampleStackRef
    exampleOtherStackRef (some exampleSnapshot) [] (Call.quiet (.stackPath exampleOtherStackRef))
    (List.Mem.head _) (List.Mem.tail _ (List.Mem.head _))
    (List.Mem.tail _ (List.Mem.tail _ (List.Mem.tail _ (List.Mem.head _))))

/-- C16 as stated fails: renaming `organization/p1/s` to `organization/p2/s`
with a snapshot, the fifth call of `renameStack` is the URN rewriter with the
new stack name `s` and the empty project; no call asks it for the project
`p2`. -/
theorem renameStack_asks_no_project :
    (calls ((exampleBackend.renameStack exampleP1Ref exampleP2Ref).run
        exampleResourceWorld ()).trace).take 5
      = [.Lock (.filestate exampleP1Ref), .getStack exampleP1Ref, .stackPath exampleP2Ref,
          .bucketExists (Call.quiet (.stackPath exampleP2Ref)),
          .editRenameStack exampleSnapshot "s".toList []] ∧
      ∀ e ∈ ((exampleBackend.renameStack exampleP1Ref exampleP2Ref).run
          exampleResourceWorld ()).trace,
        ∀ sn n, e.c ≠ .editRenameStack sn n "p2".toList := by
  refine ⟨rfl, ?_⟩
  intro e he sn n
  have hcalls : (exampleBackend.renameStack exampleP1Ref exampleP2Ref).Calls
      (fun c => ∀ sn n, c ≠ .editRenameStack sn n "p2".toList) :=
    renameStack_calls _ _ _ _ (by simp) (by simp) (by simp) (by simp) (by simp)
      (by intro a b c h; injection h with _ _ h; revert h; decide)
      (by simp) (by simp) (by simp) (by simp)
  exact Prog.Calls.trace_ok _ exampleResourceWorld _ hcalls () e he sn n

/-- C16, amended: when the lock of the old stack is taken, the old stack is
loaded with a snapshot and the path of the new stack does not exist,
`renameStack` calls the URN rewriter on the snapshot with the new stack name
and the empty project (so the project inside the URNs is left as it is), and,
unless the rewriter fails, the next call saves the snapshot that the rewriter
left under the new reference.  No call of `renameStack` ever asks the rewriter
for a project. -/
theorem renameStack_rewrites_name {σ : Type} (W : World σ) (s : σ) (b : localBackend)
    (oldRef newRef : localBackendReference) (snap : deploy.Snapshot) (path newPath : Str)
    (hlock : (⟨.Lock (.filestate oldRef), none⟩ : Event) ∈ ((b.renameStack oldRef newRef).run W s).trace)
    (hget : (⟨.getStack oldRef, .ok (some snap, path)⟩ : Event)
      ∈ ((b.renameStack oldRef newRef).run W s).trace)
    (hex : (⟨.bucketExists newPath, .ok false⟩ : Event)
      ∈ ((b.renameStack oldRef newRef).run W s).trace) :
    (∃ renamed rest, (((b.renameStack oldRef newRef).run W s).trace).drop 4
          = ⟨.editRenameStack snap newRef.name [], renamed⟩ :: rest ∧
        (renamed.1 = none → ∃ saved rest2,
          rest = ⟨.saveStack newRef (some renamed.2), saved⟩ :: rest2)) ∧
      ∀ e ∈ ((b.renameStack oldRef newRef).run W s).trace,
        ∀ sn n p, e.c = .editRenameStack sn n p → n = newRef.name ∧ p = [] := by
  constructor
  · generalize hR : (b.renameStack oldRef newRef).run W s = R at hlock hget hex ⊢
    unfold localBackend.renameStack at hR
    simp only [Prog.run] at hR
    rcases hl : W.respond (.Lock (.filestate oldRef)) s with ⟨lockErr, s1⟩
    rw [hl] at hR
    cases lockErr with
    | some err =>
      simp only [Prog.run] at hR
      subst hR
      simp at hlock
    | none =>
      simp only [Prog.deferred, Prog.run] at hR
      rcases hg : W.respond (.getStack oldRef) s1 with ⟨got, s2⟩
      rw [hg] at hR
      cases got with
      | error err =>
        simp only [Prog.deferred, Prog.run, Prog.bind, localBackend.Unlock] at hR
        subst hR
        simp at hget
      | ok pr =>
        obtain ⟨sn, p⟩ := pr
        simp only [Prog.deferred, Prog.run] at hR
        rcases hp : W.respond (.stackPath newRef) s2 with ⟨np, s3⟩
        rw [hp] at hR
        simp only at hR
        rcases he : W.respond (.bucketExists np) s3 with ⟨ex, s4⟩
        rw [he] at hR
        cases ex with
        | error err =>
          simp only [Prog.deferred, Prog.run, Prog.bind, localBackend.Unlock] at hR
          subst hR
          simp at hex
        | ok found =>
          cases found with
          | true =>
            simp only [Prog.deferred, Prog.run, Prog.bind, localBackend.Unlock] at hR
            subst hR
            simp at hex
            cases hex.2
          | false =>
            simp only [localBackend.renameStack.rewrite] at hR
            cases sn with
            | none =>
              exfalso
              subst hR
              simp at hget
              have hcalls : (Prog.deferred (localBackend.renameStack.save b oldRef newRef none)
                  (b.Unlock (.filestate oldRef))).Calls (fun c => c ≠ .getStack oldRef) :=
                Prog.Calls.deferred _ _ _ (renameStack_rewrite_calls _ b oldRef newRef none
                  (by simp) (by simp) (by simp) (by simp) (by simp))
                  (by simp [localBackend.Unlock, Prog.Calls])
              rcases hget with h | hget
              · injection h with h; injection h with h; cases h
              · exact Prog.Calls.trace_ok _ W _ hcalls s4 ⟨.getStack oldRef, .ok (some snap, path)⟩
                  hget rfl
            | some snp =>
              simp only [Prog.deferred, Prog.run] at hR
              rcases hed : W.respond (.editRenameStack snp newRef.name []) s4 with ⟨renamed, s5⟩
              rw [hed] at hR
              subst hR
              have hsn : snp = snap := by
                simp at hget
                rcases hget with h | hget
                · injection h with h; injection h with h; injection h with h; exact h.symm
                · exfalso
                  have hcalls : (Prog.deferred (match renamed.1 with
                      | some err => Prog.ret (some err)
                      | none => localBackend.renameStack.save b oldRef newRef (some renamed.2))
                      (b.Unlock (.filestate oldRef))).Calls (fun c => c ≠ .getStack oldRef) := by
                    refine Prog.Calls.deferred _ _ _ ?_ (by simp [localBackend.Unlock, Prog.Calls])
                    cases renamed.1 with
                    | some err => trivial
                    | none =>
                      exact renameStack_save_calls _ b oldRef newRef _
                        (by simp) (by simp) (by simp) (by simp)
                  exact Prog.Calls.trace_ok _ W _ hcalls s5 ⟨.getStack oldRef, .ok (some snap, path)⟩
                    hget rfl
              subst hsn
              refine ⟨renamed, _, rfl, ?_⟩
              intro hnone
              simp only [hnone, localBackend.renameStack.save, Prog.deferred, Prog.run]
              exact ⟨_, _, rfl⟩
  · intro e he sn n p hc
    have hcalls : (b.renameStack oldRef newRef).Calls
        (fun c => ∀ sn n p, c = .editRenameStack sn n p → n = newRef.name ∧ p = []) :=
      renameStack_calls _ _ _ _ (by simp) (by simp) (by simp) (by simp) (by simp)
        (by intro a b c d h; injection h with _ h1 h2; exact ⟨h1.symm, h2.symm⟩)
        (by simp) (by simp) (by simp) (by simp)
    exact Prog.Calls.trace_ok _ W _ hcalls s e he sn n p hc

theorem renameStack_rewrites_name_witness :
    (∃ renamed rest, (((exampleBackend.renameStack exampleP1Ref exampleP2Ref).run
            exampleResourceWorld ()).trace).drop 4
          = ⟨.editRenameStack exampleSnapshot exampleP2Ref.name [], renamed⟩ :: rest ∧
        (renamed.1 = none → ∃ saved rest2,
          rest = ⟨.saveStack exampleP2Ref (some renamed.2), saved⟩ :: rest2)) ∧
      ∀ e ∈ ((exampleBackend.renameStack exampleP1Ref exampleP2Ref).run
          exampleResourceWorld ()).trace,
        ∀ sn n p, e.c = .editRenameStack sn n p → n = exampleP2Ref.name ∧ p = [] :=
  renameStack_rewrites_name exampleResourceWorld () exampleBackend exampleP1Ref exampleP2Ref
    exampleSnapshot [] _ (List.Mem.head _) (List.Mem.tail _ (List.Mem.head _))
    (List.Mem.tail _ (List.Mem.tail _ (List.Mem.tail _ (List.Mem.head _))))

/-! ## The backend: `apply` -/

theorem apply_forward_returns (callerEvents : Bool) (events : List engine.Event) :
    (localBackend.apply.forward callerEvents events).Returns := by
  induction events with
  | nil => exact fun _ => trivial
  | cons e rest ih =>
    intro _
    simp only []
    cases callerEvents with
    | true => exact fun _ => ih
    | false => exact ih

theorem apply_forward_calls (callerEvents : Bool) (events : List engine.Event) :
    (localBackend.apply.forward callerEvents events).Calls (fun c => c.core = false) := by
  induction events with
  | nil => exact ⟨rfl, fun _ => trivial⟩
  | cons e rest ih =>
    refine ⟨rfl, fun _ => ?_⟩
    simp only []
    cases callerEvents with
    | true => exact ⟨rfl, fun _ => ih⟩
    | false => exact ih

theorem apply_permalink_returns (b : localBackend) (ref : localBackendReference)
    (op : backend.UpdateOperation) (opts : backend.ApplierOptions) :
    (localBackend.apply.permalink b ref op opts).Returns := by
  unfold localBackend.apply.permalink
  split
  · intro stackPath
    simp only []
    split
    · intro parsed
      cases parsed with
      | ok u => simp only []; split <;> simp [Prog.Returns]
      | error err => simp only []; split <;> simp [Prog.Returns]
    · intro signed
      cases signed with
      | ok link => simp only []; split <;> simp [Prog.Returns]
      | error err => exact fun _ => trivial
  · trivial

theorem apply_permalink_calls (b : localBackend) (ref : localBackendReference)
    (op : backend.UpdateOperation) (opts : backend.ApplierOptions) :
    (localBackend.apply.permalink b ref op opts).Calls (fun c => c.core = false) := by
  unfold localBackend.apply.permalink
  split
  · refine ⟨rfl, fun stackPath => ?_⟩
    simp only []
    split
    · refine ⟨rfl, fun parsed => ?_⟩
      cases parsed with
      | ok u => simp only []; split <;> simp [Prog.Calls, Call.core]
      | error err => simp only []; split <;> simp [Prog.Calls, Call.core]
    · refine ⟨rfl, fun signed => ?_⟩
      cases signed with
      | ok link => simp only []; split <;> simp [Prog.Calls, Call.core]
      | error err => exact ⟨rfl, fun _ => trivial⟩
  · trivial

/-- The run of the saving block of `apply`: nothing in a dry run, else the
history write and then the backup write. -/
theorem apply_save_run {σ : Type} (W : World σ) (s : σ) (ref : localBackendReference)
    (info : backend.UpdateInfo) (opts : backend.ApplierOptions) :
    ∃ saveErr backupErr,
      ((localBackend.apply.save ref info opts).run W s).out = .done (saveErr, backupErr) ∧
      ((localBackend.apply.save ref info opts).run W s).trace
        = (if opts.DryRun then []
          else [⟨.addToHistory ref info, saveErr⟩, ⟨.backupStack ref, backupErr⟩]) ∧
      (opts.DryRun = true → saveErr = none ∧ backupErr = none) := by
  unfold localBackend.apply.save
  cases hd : opts.DryRun with
  | true => exact ⟨none, none, rfl, rfl, fun _ => ⟨rfl, rfl⟩⟩
  | false =>
    refine ⟨(W.respond (.addToHistory ref info) s).1,
      (W.respond (.backupStack ref) (W.respond (.addToHistory ref info) s).2).1, rfl, rfl, ?_⟩
    intro h; cases h

theorem apply_await_returns (callerEvents : Bool) (events : List engine.Event) :
    (localBackend.apply.await callerEvents events).Returns :=
  Prog.Returns.bind_returns _ _ (apply_forward_returns callerEvents events)
    (fun _ _ _ _ _ _ _ => trivial)

theorem apply_await_calls (callerEvents : Bool) (events : List engine.Event) :
    (localBackend.apply.await callerEvents events).Calls (fun c => c.core = false) :=
  Prog.Calls.bind_ok _ _ _ (apply_forward_calls callerEvents events)
    (fun _ => ⟨rfl, fun _ => ⟨rfl, fun _ => ⟨rfl, fun _ => ⟨rfl, fun _ => ⟨rfl, fun _ =>
      ⟨rfl, fun _ => trivial⟩⟩⟩⟩⟩⟩)

/-- The run of the returns at the end of `apply`: the chosen result, after
calls that are neither the engine nor a write. -/
theorem apply_answer_run {σ : Type} (W : World σ) (s : σ) (b : localBackend)
    (ref : localBackendReference) (op : backend.UpdateOperation) (opts : backend.ApplierOptions)
    (plan : Option deploy.Plan) (changes : sdkDisplay.ResourceChanges)
    (updateRes : Option result.Result) (saveErr backupErr : Option GoError) :
    ((localBackend.apply.answer b ref op opts plan changes updateRes saveErr backupErr).run
        W s).out
      = .done (plan, changes, localBackend.apply.choose updateRes saveErr backupErr) ∧
    ∀ e ∈ ((localBackend.apply.answer b ref op opts plan changes updateRes saveErr
        backupErr).run W s).trace, e.c.core = false := by
  unfold localBackend.apply.answer localBackend.apply.choose
  cases updateRes with
  | some res => exact ⟨rfl, by simp [Prog.run]⟩
  | none =>
    cases saveErr with
    | some err => exact ⟨rfl, by simp [Prog.run]⟩
    | none =>
      cases backupErr with
      | some err => exact ⟨rfl, by simp [Prog.run]⟩
      | none =>
        simp only [Prog.run_bind]
        obtain ⟨u, hu⟩ := Prog.Returns.run_done W _ (apply_permalink_returns b ref op opts) s
        have hc := Prog.Calls.trace_ok _ W _ (apply_permalink_calls b ref op opts) s
        generalize (localBackend.apply.permalink b ref op opts).run W s = P at hu hc
        rw [hu]
        simp only [Prog.run, List.append_nil]
        exact ⟨trivial, hc⟩

/-- The run of the end of `apply`: its trace is the save block between calls
that are neither the engine nor a write, and its result is the chosen one. -/
theorem apply_finish_run {σ : Type} (W : World σ) (s : σ) (b : localBackend)
    (kind : apitype.UpdateKind) (ref : localBackendReference) (op : backend.UpdateOperation)
    (opts : backend.ApplierOptions) (callerEvents : Bool) (update : deploy.Target) (start : Int)
    (outcome : engine.Outcome) :
    ∃ (info : backend.UpdateInfo) (saveErr backupErr : Option GoError) (t1 t2 : List Event),
      ((localBackend.apply.finish b kind ref op opts callerEvents update start outcome).run
          W s).trace
        = t1 ++ (if opts.DryRun then []
          else [⟨.addToHistory ref info, saveErr⟩, ⟨.backupStack ref, backupErr⟩]) ++ t2 ∧
      (∀ e ∈ t1, e.c.core = false) ∧ (∀ e ∈ t2, e.c.core = false) ∧
      (opts.DryRun = true → saveErr = none ∧ backupErr = none) ∧
      ((localBackend.apply.finish b kind ref op opts callerEvents update start outcome).run
          W s).out
        = .done (if kind = .PreviewUpdate then outcome.plan else none, outcome.changes,
            localBackend.apply.choose outcome.res saveErr backupErr) := by
  unfold localBackend.apply.finish
  simp only [Prog.run, Prog.run_bind]
  rcases ht : W.respond .timeNow s with ⟨finish, s1⟩
  simp only []
  obtain ⟨u, hu⟩ := Prog.Returns.run_done W _ (apply_await_returns callerEvents outcome.events) s1
  have hfc := Prog.Calls.trace_ok _ W _ (apply_await_calls callerEvents outcome.events) s1
  generalize (localBackend.apply.await callerEvents outcome.events).run W s1 = F at hu hfc
  rw [hu]
  simp only []
  obtain ⟨saveErr, backupErr, hso, hst, hsd⟩ := apply_save_run W F.state ref
    (localBackend.apply.info kind op update start finish outcome) opts
  generalize (localBackend.apply.save ref
    (localBackend.apply.info kind op update start finish outcome) opts).run W F.state = S
    at hso hst
  rw [hso]
  simp only []
  obtain ⟨hao, hat⟩ := apply_answer_run W S.state b ref op opts
    (if kind = .PreviewUpdate then outcome.plan else none) outcome.changes outcome.res
    saveErr backupErr
  refine ⟨localBackend.apply.info kind op update start finish outcome, saveErr, backupErr,
    ⟨.timeNow, finish⟩ :: F.trace, _, ?_, ?_, hat, hsd, hao⟩
  · rw [hst]; simp
  · intro e he
    rcases List.mem_cons.1 he with rfl | he
    · rfl
    · exact hfc e he

theorem currentProjectContradictsWorkspace_returns (ref : localBackendReference) :
    (currentProjectContradictsWorkspace ref).Returns := by
  unfold currentProjectContradictsWorkspace
  split
  · trivial
  · intro detected
    cases detected with
    | error err => trivial
    | ok projPath =>
      simp only []
      split
      · trivial
      · intro loaded
        cases loaded <;> trivial

theorem currentProjectContradictsWorkspace_calls (ref : localBackendReference) :
    (currentProjectContradictsWorkspace ref).Calls (fun c => c.core = false) := by
  unfold currentProjectContradictsWorkspace
  split
  · trivial
  · refine ⟨rfl, fun detected => ?_⟩
    cases detected with
    | error err => trivial
    | ok projPath =>
      simp only []
      split
      · trivial
      · refine ⟨rfl, fun loaded => ?_⟩
        cases loaded <;> trivial

theorem apply_banner_returns (kind : apitype.UpdateKind) (stackRef : backend.StackReference)
    (op : backend.UpdateOperation) (opts : backend.ApplierOptions) :
    (localBackend.apply.banner kind stackRef op opts).Returns := by
  unfold localBackend.apply.banner
  split
  · exact fun _ => trivial
  · trivial

theorem apply_banner_calls (kind : apitype.UpdateKind) (stackRef : backend.StackReference)
    (op : backend.UpdateOperation) (opts : backend.ApplierOptions) :
    (localBackend.apply.banner kind stackRef op opts).Calls (fun c => c.core = false) := by
  unfold localBackend.apply.banner
  split
  · exact ⟨rfl, fun _ => trivial⟩
  · trivial

/-- The runs of `apply`: either it returns before the engine is called, and
then it makes no write either, or it calls the engine once and goes on with
the end of `apply`. -/
theorem apply_run_cases {σ : Type} (W : World σ) (s : σ) (b : localBackend)
    (kind : apitype.UpdateKind) (stack : backend.Stack) (op : backend.UpdateOperation)
    (opts : backend.ApplierOptions) (callerEvents : Bool) :
    (∀ e ∈ ((b.apply kind stack op opts callerEvents).run W s).trace, e.c.core = false) ∨
    (∃ (ref : localBackendReference) (update : deploy.Target) (start : Int)
        (entry : engine.Entry) (dry : Bool) (outcome : engine.Outcome) (s1 : σ)
        (pre : List Event),
      b.getReference stack.Ref = .ok ref ∧
      localBackend.apply.entry kind opts.DryRun = some (entry, dry) ∧
      (∀ e ∈ pre, e.c.core = false) ∧
      ((b.apply kind stack op opts callerEvents).run W s).trace
        = pre ++ ⟨.engine entry dry, outcome⟩ ::
          ((localBackend.apply.finish b kind ref op opts callerEvents update start outcome).run
            W s1).trace ∧
      ((b.apply kind stack op opts callerEvents).run W s).out
        = ((localBackend.apply.finish b kind ref op opts callerEvents update start outcome).run
            W s1).out) := by
  unfold localBackend.apply
  simp only []
  cases href : b.getReference stack.Ref with
  | error err => left; simp [Prog.run]
  | ok ref =>
    simp only [Prog.run_bind]
    obtain ⟨c, hc⟩ := Prog.Returns.run_done W _ (currentProjectContradictsWorkspace_returns ref) s
    have hcc := Prog.Calls.trace_ok _ W _ (currentProjectContradictsWorkspace_calls ref) s
    generalize (currentProjectContradictsWorkspace ref).run W s = C at hc hcc
    rw [hc]
    simp only []
    cases c with
    | true => left; simpa [Prog.run] using hcc
    | false =>
      simp only [Bool.false_eq_true, if_false, Prog.run_bind]
      obtain ⟨u, hu⟩ := Prog.Returns.run_done W _ (apply_banner_returns kind stack.Ref op opts) C.state
      have hbc := Prog.Calls.trace_ok _ W _ (apply_banner_calls kind stack.Ref op opts) C.state
      generalize (localBackend.apply.banner kind stack.Ref op opts).run W C.state = B at hu hbc
      rw [hu]
      simp only [Prog.run]
      rcases hn : W.respond (.newUpdate ref op) B.state with ⟨started, s2⟩
      simp only []
      cases started with
      | error err =>
        left
        intro e he
        simp only [Prog.run, List.mem_append, List.mem_cons, List.not_mem_nil, or_false] at he
        rcases he with he | he | rfl
        · exact hcc e he
        · exact hbc e he
        · rfl
      | ok update =>
        simp only [Prog.run]
        rcases hs1 : W.respond (.ShowEvents kind opts.DryRun) s2 with ⟨_, s3⟩
        simp only []
        rcases hs2 : W.respond (.NewScope opts.DryRun) s3 with ⟨_, s4⟩
        simp only []
        rcases hs3 : W.respond .timeNow s4 with ⟨start, s5⟩
        simp only []
        cases hentry : localBackend.apply.entry kind opts.DryRun with
        | none =>
          left
          intro e he
          simp only [Prog.run, List.mem_append, List.mem_cons, List.not_mem_nil, or_false] at he
          rcases he with he | he | rfl | rfl | rfl | rfl
          · exact hcc e he
          · exact hbc e he
          all_goals rfl
        | some pr =>
          obtain ⟨entry, dry⟩ := pr
          right
          simp only [Prog.run]
          rcases hs4 : W.respond (.engine entry dry) s5 with ⟨outcome, s6⟩
          refine ⟨ref, update, start, entry, dry, outcome, s6,
            C.trace ++ (B.trace ++ [⟨.newUpdate ref op, .ok update⟩,
              ⟨.ShowEvents kind opts.DryRun, ()⟩, ⟨.NewScope opts.DryRun, ()⟩,
              ⟨.timeNow, start⟩]), rfl, rfl, ?_, ?_, rfl⟩
          · intro e he
            simp only [List.mem_append, List.mem_cons, List.not_mem_nil, or_false] at he
            rcases he with he | he | rfl | rfl | rfl | rfl
            · exact hcc e he
            · exact hbc e he
            all_goals rfl
          · simp

/-- The shape of a run of `apply` in which the engine was called: before the
engine and between the engine and the writes only calls that are neither the
engine nor a write; then, unless it is a dry run, the history write and the
backup write; the result is the chosen one. -/
theorem apply_engine_run {σ : Type} (W : World σ) (s : σ) (b : localBackend)
    (kind : apitype.UpdateKind) (stack : backend.Stack) (op : backend.UpdateOperation)
    (opts : backend.ApplierOptions) (callerEvents : Bool)
    (entry : engine.Entry) (dry : Bool) (outcome : engine.Outcome)
    (hengine : (⟨.engine entry dry, outcome⟩ : Event)
      ∈ ((b.apply kind stack op opts callerEvents).run W s).trace) :
    ∃ (ref : localBackendReference) (info : backend.UpdateInfo)
        (saveErr backupErr : Option GoError) (pre mid post : List Event),
      b.getReference stack.Ref = .ok ref ∧
      ((b.apply kind stack op opts callerEvents).run W s).trace
        = pre ++ ⟨.engine entry dry, outcome⟩ :: (mid ++ (if opts.DryRun then []
            else [⟨.addToHistory ref info, saveErr⟩, ⟨.backupStack ref, backupErr⟩]) ++ post) ∧
      (∀ e ∈ pre, e.c.core = false) ∧ (∀ e ∈ mid, e.c.core = false) ∧
      (∀ e ∈ post, e.c.core = false) ∧
      (opts.DryRun = true → saveErr = none ∧ backupErr = none) ∧
      ((b.apply kind stack op opts callerEvents).run W s).out
        = .done (if kind = .PreviewUpdate then outcome.plan else none, outcome.changes,
            localBackend.apply.choose outcome.res saveErr backupErr) := by
  rcases apply_run_cases W s b kind stack op opts callerEvents with hfree |
    ⟨ref, update, start, entry2, dry2, outcome2, s1, pre, href, _, hpre, htrace, hout⟩
  · have := hfree _ hengine
    cases this
  · obtain ⟨info, saveErr, backupErr, t1, t2, hft, ht1, ht2, hdry, hfo⟩ :=
      apply_finish_run W s1 b kind ref op opts callerEvents update start outcome2
    rw [htrace, hft] at hengine
    have heq : entry = entry2 ∧ dry = dry2 ∧ outcome = outcome2 := by
      simp only [List.mem_append, List.mem_cons] at hengine
      rcases hengine with h | h | (h | h) | h
      · have := hpre _ h; cases this
      · injection h with h1 h2
        injection h1 with h3 h4
        exact ⟨h3, h4, h2⟩
      · have := ht1 _ h; cases this
      · exfalso
        cases hd : opts.DryRun with
        | true => simp [hd] at h
        | false =>
          simp only [hd, Bool.false_eq_true, if_false, List.mem_cons, List.mem_singleton,
            List.not_mem_nil, or_false] at h
          rcases h with h | h <;> · injection h with h1 _; cases h1
      · have := ht2 _ h; cases this
    obtain ⟨rfl, rfl, rfl⟩ := heq
    exact ⟨ref, info, saveErr, backupErr, pre, t1, t2, href, by rw [htrace, hft], hpre, ht1, ht2,
      hdry, by rw [hout, hfo]⟩

/-- C17: the result of `apply`, once it has called the engine, follows the
priority execution failure, history-write failure, backup-write failure: if
the engine reported a failure, that failure is the result; otherwise, if the
history write failed, the result is the error "saving update info" that wraps
it; otherwise, if the backup write failed, the error "saving backup" that
wraps it; otherwise no error. -/
theorem apply_result_priority {σ : Type} (W : World σ) (s : σ) (b : localBackend)
    (kind : apitype.UpdateKind) (stack : backend.Stack) (op : backend.UpdateOperation)
    (opts : backend.ApplierOptions) (callerEvents : Bool)
    (entry : engine.Entry) (dry : Bool) (outcome : engine.Outcome)
    (hengine : (⟨.engine entry dry, outcome⟩ : Event)
      ∈ ((b.apply kind stack op opts callerEvents).run W s).trace) :
    (∀ res, outcome.res = some res →
        ((b.apply kind stack op opts callerEvents).run W s).out
          = .done (if kind = .PreviewUpdate then outcome.plan else none, outcome.changes,
              some res)) ∧
      (outcome.res = none → ∀ ref info saveErr,
        (⟨.addToHistory ref info, some saveErr⟩ : Event)
          ∈ ((b.apply kind stack op opts callerEvents).run W s).trace →
        ((b.apply kind stack op opts callerEvents).run W s).out
          = .done (if kind = .PreviewUpdate then outcome.plan else none, outcome.changes,
              some (.FromError (.wrap "saving update info".toList saveErr)))) ∧
      (outcome.res = none →
        (∀ ref info r, (⟨.addToHistory ref info, r⟩ : Event)
          ∈ ((b.apply kind stack op opts callerEvents).run W s).trace → r = none) →
        ∀ ref backupErr, (⟨.backupStack ref, some backupErr⟩ : Event)
          ∈ ((b.apply kind stack op opts callerEvents).run W s).trace →
        ((b.apply kind stack op opts callerEvents).run W s).out
          = .done (if kind = .PreviewUpdate then outcome.plan else none, outcome.changes,
              some (.FromError (.wrap "saving backup".toList backupErr)))) ∧
      (outcome.res = none →
        (∀ ref info r, (⟨.addToHistory ref info, r⟩ : Event)
          ∈ ((b.apply kind stack op opts callerEvents).run W s).trace → r = none) →
        (∀ ref r, (⟨.backupStack ref, r⟩ : Event)
          ∈ ((b.apply kind stack op opts callerEvents).run W s).trace → r = none) →
        ((b.apply kind stack op opts callerEvents).run W s).out
          = .done (if kind = .PreviewUpdate then outcome.plan else none, outcome.changes,
              none)) := by
  obtain ⟨ref, info, saveErr, backupErr, pre, mid, post, _, htrace, hpre, hmid, hpost, hdry, hout⟩ :=
    apply_engine_run W s b kind stack op opts callerEvents entry dry outcome hengine
  rw [hout, htrace]
  -- the two writes of the trace
  have hsave : ∀ ref2 info2 r, (⟨.addToHistory ref2 info2, r⟩ : Event) ∈
      pre ++ ⟨.engine entry dry, outcome⟩ :: (mid ++ (if opts.DryRun then []
        else [⟨.addToHistory ref info, saveErr⟩, ⟨.backupStack ref, backupErr⟩]) ++ post) →
      r = saveErr := by
    intro ref2 info2 r h
    simp only [List.mem_append, List.mem_cons] at h
    rcases h with h | h | (h | h) | h
    · have := hpre _ h; cases this
    · injection h with h1 _; cases h1
    · have := hmid _ h; cases this
    · cases hd : opts.DryRun with
      | true => simp [hd] at h
      | false =>
        simp only [hd, Bool.false_eq_true, if_false, List.mem_cons, List.mem_singleton,
          List.not_mem_nil, or_false] at h
        rcases h with h | h
        · cases h; rfl
        · injection h with h1 _; cases h1
    · have := hpost _ h; cases this
  have hbackup : ∀ ref2 r, (⟨.backupStack ref2, r⟩ : Event) ∈
      pre ++ ⟨.engine entry dry, outcome⟩ :: (mid ++ (if opts.DryRun then []
        else [⟨.addToHistory ref info, saveErr⟩, ⟨.backupStack ref, backupErr⟩]) ++ post) →
      r = backupErr := by
    intro ref2 r h
    simp only [List.mem_append, List.mem_cons] at h
    rcases h with h | h | (h | h) | h
    · have := hpre _ h; cases this
    · injection h with h1 _; cases h1
    · have := hmid _ h; cases this
    · cases hd : opts.DryRun with
      | true => simp [hd] at h
      | false =>
        simp only [hd, Bool.false_eq_true, if_false, List.mem_cons, List.mem_singleton,
          List.not_mem_nil, or_false] at h
        rcases h with h | h
        · injection h with h1 _; cases h1
        · cases h; rfl
    · have := hpost _ h; cases this
  -- without a write event the error is nil
  have hnosave : (∀ ref2 info2 r, (⟨.addToHistory ref2 info2, r⟩ : Event) ∈
      pre ++ ⟨.engine entry dry, outcome⟩ :: (mid ++ (if opts.DryRun then []
        else [⟨.addToHistory ref info, saveErr⟩, ⟨.backupStack ref, backupErr⟩]) ++ post) →
      r = none) → saveErr = none := by
    intro h
    cases hd : opts.DryRun with
    | true => exact (hdry hd).1
    | false => exact h ref info saveErr (by simp [hd])
  have hnobackup : (∀ ref2 r, (⟨.backupStack ref2, r⟩ : Event) ∈
      pre ++ ⟨.engine entry dry, outcome⟩ :: (mid ++ (if opts.DryRun then []
        else [⟨.addToHistory ref info, saveErr⟩, ⟨.backupStack ref, backupErr⟩]) ++ post) →
      r = none) → backupErr = none := by
    intro h
    cases hd : opts.DryRun with
    | true => exact (hdry hd).2
    | false => exact h ref backupErr (by simp [hd])
  refine ⟨?_, ?_, ?_, ?_⟩
  · intro res hres
    rw [hres]; rfl
  · intro hres ref2 info2 err h
    rw [hres, ← hsave ref2 info2 _ h]; rfl
  · intro hres hs ref2 err h
    rw [hres, hnosave hs, ← hbackup ref2 _ h]; rfl
  · intro hres hs hb
    rw [hres, hnosave hs, hnobackup hb]; rfl

theorem apply_result_priority_witness :
    ((exampleBackend.apply .UpdateUpdate ⟨.filestate exampleStackRef⟩ exampleOp ⟨false, false⟩
        false).run exampleFailingWritesWorld ()).out
      = .done (none, [], some (.FromError
          (.wrap "saving update info".toList (.new "disk full".toList)))) :=
  (apply_result_priority exampleFailingWritesWorld () exampleBackend .UpdateUpdate
    ⟨.filestate exampleStackRef⟩ exampleOp ⟨false, false⟩ false .Update false
    ⟨none, [], none, []⟩
    (List.Mem.tail _ (List.Mem.tail _ (List.Mem.tail _ (List.Mem.tail _ (List.Mem.tail _
      (List.Mem.tail _ (List.Mem.head _)))))))).2.1 rfl exampleStackRef _
    (.new "disk full".toList)
    (List.Mem.tail _ (List.Mem.tail _ (List.Mem.tail _ (List.Mem.tail _ (List.Mem.tail _
      (List.Mem.tail _ (List.Mem.tail _ (List.Mem.tail _ (List.Mem.tail _ (List.Mem.tail _
      (List.Mem.tail _ (List.Mem.tail _ (List.Mem.tail _ (List.Mem.tail _ (List.Mem.tail _
      (List.Mem.head _))))))))))))))))

/-- C18: `apply` writes the history entry and the backup copy only for an
operation that is not a dry run. With the dry-run option set, no run of `apply`
calls `addToHistory` or `backupStack`, and a run that reached the engine
returns the result of the engine, never a history or backup error. With the
option not set, a run that reached the engine calls `addToHistory` and then
`backupStack` for the stack, once each, whatever the engine reported and
whatever the history write answered. -/
theorem apply_writes_unless_dry_run {σ : Type} (W : World σ) (s : σ) (b : localBackend)
    (kind : apitype.UpdateKind) (stack : backend.Stack) (op : backend.UpdateOperation)
    (opts : backend.ApplierOptions) (callerEvents : Bool) :
    (opts.DryRun = true →
        ∀ e ∈ ((b.apply kind stack op opts callerEvents).run W s).trace,
          (∀ r i, e.c ≠ .addToHistory r i) ∧ (∀ r, e.c ≠ .backupStack r)) ∧
      (∀ entry dry outcome, (⟨.engine entry dry, outcome⟩ : Event)
          ∈ ((b.apply kind stack op opts callerEvents).run W s).trace →
        (opts.DryRun = true →
          ((b.apply kind stack op opts callerEvents).run W s).out
            = .done (if kind = .PreviewUpdate then outcome.plan else none, outcome.changes,
                outcome.res)) ∧
        (opts.DryRun = false →
          ∃ (ref : localBackendReference) (info : backend.UpdateInfo)
              (saveErr backupErr : Option GoError) (pre post : List Event),
            b.getReference stack.Ref = .ok ref ∧
            ((b.apply kind stack op opts callerEvents).run W s).trace
              = pre ++ ⟨.addToHistory ref info, saveErr⟩ :: ⟨.backupStack ref, backupErr⟩
                  :: post ∧
            (⟨.engine entry dry, outcome⟩ : Event) ∈ pre ∧
            (∀ e ∈ pre ++ post,
              (∀ r i, e.c ≠ .addToHistory r i) ∧ (∀ r, e.c ≠ .backupStack r)))) := by
  have hcore : ∀ e : Event, e.c.core = false →
      (∀ r i, e.c ≠ .addToHistory r i) ∧ (∀ r, e.c ≠ .backupStack r) := by
    intro e he
    constructor
    · intro r i h; rw [h] at he; cases he
    · intro r h; rw [h] at he; cases he
  have hengineEv : ∀ entry dry outcome, (∀ r i, (⟨.engine entry dry, outcome⟩ : Event).c
      ≠ .addToHistory r i) ∧ (∀ r, (⟨.engine entry dry, outcome⟩ : Event).c ≠ .backupStack r) :=
    fun _ _ _ => ⟨fun _ _ h => (by cases h), fun _ h => (by cases h)⟩
  constructor
  · intro hd e he
    rcases apply_run_cases W s b kind stack op opts callerEvents with hfree |
      ⟨ref, update, start, entry, dry, outcome, s1, pre, _, _, hpre, htrace, _⟩
    · exact hcore e (hfree e he)
    · obtain ⟨info, saveErr, backupErr, t1, t2, hft, ht1, ht2, _, _⟩ :=
        apply_finish_run W s1 b kind ref op opts callerEvents update start outcome
      rw [htrace, hft, hd] at he
      simp only [if_true, List.append_nil, List.mem_append, List.mem_cons] at he
      rcases he with h | h | h | h
      · exact hcore e (hpre e h)
      · rw [h]; exact hengineEv _ _ _
      · exact hcore e (ht1 e h)
      · exact hcore e (ht2 e h)
  · intro entry dry outcome hengine
    obtain ⟨ref, info, saveErr, backupErr, pre, mid, post, href, htrace, hpre, hmid, hpost,
      hdry, hout⟩ := apply_engine_run W s b kind stack op opts callerEvents entry dry outcome hengine
    constructor
    · intro hd
      rw [hout, (hdry hd).1, (hdry hd).2]
      cases outcome.res <;> rfl
    · intro hd
      refine ⟨ref, info, saveErr, backupErr, pre ++ ⟨.engine entry dry, outcome⟩ :: mid, post,
        href, ?_, ?_, ?_⟩
      · rw [htrace, hd]
        simp
      · simp
      · intro e he
        simp only [List.mem_append, List.mem_cons] at he
        rcases he with (h | h | h) | h
        · exact hcore e (hpre e h)
        · rw [h]; exact hengineEv _ _ _
        · exact hcore e (hmid e h)
        · exact hcore e (hpost e h)

theorem apply_writes_unless_dry_run_witness :
    ∀ e ∈ ((exampleBackend.apply .UpdateUpdate ⟨.filestate exampleStackRef⟩ exampleOp ⟨true, false⟩
        false).run exampleFailingWritesWorld ()).trace,
      (∀ r i, e.c ≠ .addToHistory r i) ∧ (∀ r, e.c ≠ .backupStack r) :=
  (apply_writes_unless_dry_run exampleFailingWritesWorld () exampleBackend .UpdateUpdate
    ⟨.filestate exampleStackRef⟩ exampleOp ⟨true, false⟩ false).1 rfl

/-! ## The backend: `Upgrade` -/

/-- The calls that `upgradeStack` can make: it does not write the metadata
file. -/
theorem upgradeStack_calls (b : localBackend) (newStore : projectReferenceStore)
    (old : localBackendReference) :
    (b.upgradeStack newStore old).Calls (fun c => ∀ m, c ≠ .metaWriteTo m) := by
  unfold localBackend.upgradeStack
  split
  · trivial
  · refine ⟨by simp, fun got => ?_⟩
    cases got with
    | error err => trivial
    | ok chk =>
      simp only []
      split
      · trivial
      · refine Prog.Calls.bind_ok _ _ _ ?_ ?_
        · exact renameStack_calls _ _ _ _ (by simp) (by simp) (by simp) (by simp) (by simp)
            (by simp) (by simp) (by simp) (by simp) (by simp)
        · intro a
          cases a <;> trivial

/-- One step of a worker of `Upgrade` does not write the metadata file, and
what is left of `upgradeStack` in the workers does not either. -/
theorem upgrade_step_calls {σ : Type} (W : World σ) (s : σ) (b : localBackend)
    (newStore : projectReferenceStore) (olds : List localBackendReference) (i : Nat)
    (st : Upgrade.Pool)
    (hinv : ∀ old rest, Upgrade.Worker.upgrading old rest ∈ st.workers →
      rest.Calls (fun c => ∀ m, c ≠ .metaWriteTo m)) :
    (∀ e ∈ ((Upgrade.step b newStore olds i st).run W s).trace, ∀ m, e.c ≠ .metaWriteTo m) ∧
      ∀ st2, ((Upgrade.step b newStore olds i st).run W s).out = .done st2 →
        ∀ old rest, Upgrade.Worker.upgrading old rest ∈ st2.workers →
          rest.Calls (fun c => ∀ m, c ≠ .metaWriteTo m) := by
  have hset : ∀ (w : Upgrade.Worker),
      (∀ old rest, w = .upgrading old rest → rest.Calls (fun c => ∀ m, c ≠ .metaWriteTo m)) →
      ∀ old rest, Upgrade.Worker.upgrading old rest ∈ st.workers.set i w →
        rest.Calls (fun c => ∀ m, c ≠ .metaWriteTo m) := by
    intro w hw old rest hmem
    rcases List.mem_or_eq_of_mem_set hmem with h | h
    · exact hinv old rest h
    · exact hw old rest h.symm
  unfold Upgrade.step
  cases hget : st.workers.get? i with
  | none =>
    simp only [Prog.run]
    exact ⟨by simp, fun st2 h => by cases h; exact hinv⟩
  | some w =>
    cases w with
    | exited =>
      simp only [Prog.run]
      exact ⟨by simp, fun st2 h => by cases h; exact hinv⟩
    | claiming =>
      simp only []
      cases olds.get? st.nextIdx with
      | none =>
        simp only [Prog.run]
        refine ⟨by simp, fun st2 h => ?_⟩
        cases h
        exact hset _ (fun _ _ h => by cases h)
      | some old =>
        simp only [Prog.run]
        refine ⟨by simp, fun st2 h => ?_⟩
        cases h
        refine hset _ (fun old2 rest2 h => ?_)
        cases h
        exact upgradeStack_calls b newStore old
    | upgrading old rest =>
      have hrest := hinv old rest (List.get?_mem hget)
      simp only []
      cases rest with
      | ret a =>
        cases a with
        | none =>
          simp only [Prog.run]
          refine ⟨by simp, fun st2 h => ?_⟩
          cases h
          exact hset _ (fun _ _ h => by cases h)
        | some err =>
          simp only [Prog.run]
          refine ⟨by simp, fun st2 h => ?_⟩
          cases h
          exact hset _ (fun _ _ h => by cases h)
      | gopanic msg =>
        simp only [Prog.run]
        exact ⟨by simp, fun st2 h => by cases h⟩
      | call c k =>
        simp only [Prog.run]
        refine ⟨?_, fun st2 h => ?_⟩
        · intro e he
          simp only [List.mem_singleton] at he
          rw [he]
          exact hrest.1
        · cases h
          refine hset _ (fun old2 rest2 h => ?_)
          cases h
          exact hrest.2 _

/-- The workers of `Upgrade` do not write the metadata file. -/
theorem upgrade_pool_calls {σ : Type} (W : World σ) (b : localBackend)
    (newStore : projectReferenceStore) (olds : List localBackendReference) (fuel : Nat) :
    ∀ (s : σ) (st : Upgrade.Pool),
      (∀ old rest, Upgrade.Worker.upgrading old rest ∈ st.workers →
        rest.Calls (fun c => ∀ m, c ≠ .metaWriteTo m)) →
      ∀ e ∈ ((Upgrade.pool b newStore olds fuel st).run W s).trace, ∀ m, e.c ≠ .metaWriteTo m := by
  induction fuel with
  | zero =>
    intro s st _ e he
    unfold Upgrade.pool at he
    split at he <;> simp [Prog.run] at he
  | succ fuel ih =>
    intro s st hinv e he
    unfold Upgrade.pool at he
    split at he
    · simp [Prog.run] at he
    · rename_i i rest hlive
      simp only [Prog.run, Prog.run_bind] at he
      have hstep := upgrade_step_calls W (W.respond (.sched (rest.length + 1)) s).2 b newStore olds
        ((i :: rest).getD ((W.respond (.sched (rest.length + 1)) s).1 % (rest.length + 1)) i)
        st hinv
      generalize (Upgrade.step b newStore olds
        ((i :: rest).getD ((W.respond (.sched (rest.length + 1)) s).1 % (rest.length + 1)) i)
        st).run W (W.respond (.sched (rest.length + 1)) s).2 = S at he hstep
      cases hout : S.out with
      | panicked msg =>
        rw [hout] at he
        simp only [List.mem_cons] at he
        rcases he with rfl | he
        · simp
        · exact hstep.1 e he
      | done st2 =>
        rw [hout] at he
        simp only [List.mem_cons, List.mem_append] at he
        rcases he with rfl | he | he
        · simp
        · exact hstep.1 e he
        · exact ih S.state st2 (hstep.2 st2 hout) e he

/-- C19: `Upgrade` writes the new metadata (version 1) before it touches any
stack: after the listing of the legacy stacks, the write of the metadata is
the first call.  If that write fails, `Upgrade` returns the error "state
upgrade failed" together with the backend as it was (its reference store is
unchanged), and the only calls made are the listing, the write and the error
message: `upgradeStack` was never entered (no checkpoint was read) and no
stack was locked, saved or moved. -/
theorem upgrade_meta_write_failure {σ : Type} (W : World σ) (s : σ) (b : localBackend) :
    ((∃ bk, (b.Upgrade.run W s).trace = [⟨.bucket, bk⟩]) ∨
        ∃ bk w rest, (b.Upgrade.run W s).trace
          = ⟨.bucket, bk⟩ :: ⟨.metaWriteTo ⟨1⟩, w⟩ :: rest) ∧
      ∀ err, (⟨.metaWriteTo ⟨1⟩, some err⟩ : Event) ∈ (b.Upgrade.run W s).trace →
        (b.Upgrade.run W s).out = .done (some (.new "state upgrade failed".toList), b) ∧
        calls (b.Upgrade.run W s).trace
          = [.bucket, .metaWriteTo ⟨1⟩, .diag .Errorf (.couldNotWriteMeta err)] ∧
        ∀ e ∈ (b.Upgrade.run W s).trace,
          (∀ old, e.c ≠ .getCheckpoint old) ∧ (∀ r, e.c ≠ .Lock r) ∧
          (∀ r sn, e.c ≠ .saveStack r sn) ∧ (∀ r1 r2, e.c ≠ .renameHistory r1 r2) := by
  generalize hR : b.Upgrade.run W s = R
  unfold localBackend.Upgrade at hR
  simp only [Prog.run] at hR
  rcases h1 : W.respond .bucket s with ⟨bucketNow, s1⟩
  rw [h1] at hR
  simp only [] at hR
  cases hl : (newLegacyReferenceStore bucketNow).ListReferences with
  | error err =>
    simp only [hl, Prog.run] at hR
    subst hR
    exact ⟨Or.inl ⟨_, rfl⟩, fun err h => by simp at h⟩
  | ok olds =>
    simp only [hl, Prog.run] at hR
    rcases h2 : W.respond (.metaWriteTo ⟨1⟩) s1 with ⟨writeErr, s2⟩
    rw [h2] at hR
    cases writeErr with
    | some werr =>
      simp only [Prog.run] at hR
      subst hR
      refine ⟨Or.inr ⟨_, _, _, rfl⟩, fun err h => ?_⟩
      have hw : err = werr := by
        simp at h
        exact Option.some.inj h
      subst hw
      refine ⟨rfl, rfl, ?_⟩
      intro e he
      simp only [List.mem_cons, List.not_mem_nil, or_false] at he
      rcases he with rfl | rfl | rfl <;> simp
    | none =>
      simp only [Prog.run, Prog.run_bind] at hR
      rcases h3 : W.respond .GOMAXPROCS s2 with ⟨procs, s3⟩
      rw [h3] at hR
      simp only [] at hR
      have hpool := upgrade_pool_calls W b
        (newProjectReferenceStore b.bucket (fun _ => b.currentProject)) olds
        (Upgrade.stepBound olds.length (if olds.length < procs then olds.length else procs)) s3
        ⟨0, 0, List.replicate (if olds.length < procs then olds.length else procs) .claiming⟩
        (by
          intro old rest h
          have := List.eq_of_mem_replicate h
          cases this)
      generalize (Upgrade.pool b
        (newProjectReferenceStore b.bucket (fun _ => b.currentProject)) olds
        (Upgrade.stepBound olds.length (if olds.length < procs then olds.length else procs))
        ⟨0, 0, List.replicate (if olds.length < procs then olds.length else procs)
          .claiming⟩).run W s3 = P at hR hpool
      cases hout : P.out with
      | panicked msg =>
        simp only [hout] at hR
        subst hR
        refine ⟨Or.inr ⟨_, _, _, rfl⟩, fun err h => ?_⟩
        exfalso
        simp at h
        exact hpool _ h _ rfl
      | done st =>
        simp only [hout, Prog.run] at hR
        subst hR
        refine ⟨Or.inr ⟨_, _, _, rfl⟩, fun err h => ?_⟩
        exfalso
        simp at h
        exact hpool _ h _ rfl

theorem upgrade_meta_write_failure_witness :
    (exampleBackend.Upgrade.run exampleReadOnlyWorld ()).out
        = .done (some (.new "state upgrade failed".toList), exampleBackend) ∧
      calls (exampleBackend.Upgrade.run exampleReadOnlyWorld ()).trace
        = [.bucket, .metaWriteTo ⟨1⟩,
            .diag .Errorf (.couldNotWriteMeta (.new "permission denied".toList))] :=
  ⟨((upgrade_meta_write_failure exampleReadOnlyWorld () exampleBackend).2
      (.new "permission denied".toList) (List.Mem.tail _ (List.Mem.head _))).1,
    ((upgrade_meta_write_failure exampleReadOnlyWorld () exampleBackend).2
      (.new "permission denied".toList) (List.Mem.tail _ (List.Mem.head _))).2.1⟩

/-! ## The backend: `CancelCurrentUpdate` -/

/-- `listBucket` of a bucket that never fails is its listing. -/
theorem listBucket_ok (bucket : Bucket) (dir : Str) (files : List blob.ListObject)
    (h : bucket.List ⟨dir ++ ['/'], ['/']⟩ = files.map Except.ok) :
    listBucket bucket dir = .ok files := by
  unfold listBucket
  rw [h]
  clear h
  induction files with
  | nil => rfl
  | cons f rest ih =>
    rw [List.map_cons, List.mapM_cons, ih]
    rfl

/-- The members of `eraseDups`. -/
theorem eraseDups_loop_mem {α : Type} [DecidableEq α] (x : α) :
    ∀ (l acc : List α), x ∈ List.eraseDups.loop l acc ↔ x ∈ l ∨ x ∈ acc := by
  intro l
  induction l with
  | nil => intro acc; simp [List.eraseDups.loop]
  | cons a rest ih =>
    intro acc
    unfold List.eraseDups.loop
    cases h : List.elem a acc with
    | true =>
      simp only [ih, List.mem_cons]
      have ha : a ∈ acc := by simpa using h
      constructor
      · rintro (h | h)
        · exact Or.inl (Or.inr h)
        · exact Or.inr h
      · rintro ((rfl | h) | h)
        · exact Or.inr ha
        · exact Or.inl h
        · exact Or.inr h
    | false =>
      simp only [ih, List.mem_cons]
      tauto

theorem eraseDups_mem {α : Type} [DecidableEq α] (x : α) (l : List α) :
    x ∈ l.eraseDups ↔ x ∈ l := by
  unfold List.eraseDups
  rw [eraseDups_loop_mem]
  simp

/-- The list that `eraseDups` gives has no duplicates. -/
theorem eraseDups_loop_nodup {α : Type} [DecidableEq α] :
    ∀ (l acc : List α), acc.Nodup → (List.eraseDups.loop l acc).Nodup := by
  intro l
  induction l with
  | nil =>
    intro acc h
    simpa [List.eraseDups.loop] using h
  | cons a rest ih =>
    intro acc hacc
    unfold List.eraseDups.loop
    cases h : List.elem a acc with
    | true => exact ih acc hacc
    | false =>
      refine ih (a :: acc) (List.nodup_cons.2 ⟨?_, hacc⟩)
      intro ha
      have : List.elem a acc = true := by simpa using ha
      rw [h] at this
      cases this

theorem eraseDups_nodup {α : Type} [DecidableEq α] (l : List α) : l.eraseDups.Nodup :=
  eraseDups_loop_nodup l [] List.nodup_nil

/-- A file that an in-memory bucket lists under a prefix is one of its keys,
and has the prefix. -/
theorem memBucket_list_file (ks : List Str) (pre : Str) (e : blob.ListObject)
    (he : e ∈ memBucket.list ks ⟨pre, ['/']⟩) (hfile : e.IsDir = false) :
    e.Key ∈ ks ∧ strings.HasPrefix e.Key pre = true ∧
      ∀ ks2 : List Str, e.Key ∈ ks2 → e ∈ memBucket.list ks2 ⟨pre, ['/']⟩ := by
  simp only [memBucket.list, eraseDups_mem, List.mem_map, List.mem_filter] at he
  obtain ⟨k, ⟨hk, hpre⟩, hek⟩ := he
  have hkey : e = ⟨k, false⟩ := by
    split at hek
    · exact hek.symm
    · rw [← hek] at hfile
      cases hfile
    · exact hek.symm
  have hk2 : e.Key = k := by rw [hkey]
  refine ⟨hk2 ▸ hk, hk2 ▸ hpre, fun ks2 hmem => ?_⟩
  simp only [memBucket.list, eraseDups_mem, List.mem_map, List.mem_filter]
  exact ⟨k, ⟨hk2 ▸ hmem, hpre⟩, hek⟩

/-- The loop of `CancelCurrentUpdate` in the in-memory world, over listed files
without duplicates that are all in the bucket: it deletes every listed file and
returns no error; the keys left are those that are not a listed file. -/
theorem cancelCurrentUpdate_loop_run (b : localBackend) :
    ∀ (fs : List blob.ListObject) (ks : List Str), fs.Nodup →
      (∀ f ∈ fs, f.IsDir = false → f.Key ∈ ks) →
      ((localBackend.CancelCurrentUpdate.loop b fs).run memWorld ks).out = .done none ∧
      ((localBackend.CancelCurrentUpdate.loop b fs).run memWorld ks).state
        = ks.filter (fun k => !(fs.any (fun f => !f.IsDir && f.Key == k))) ∧
      calls ((localBackend.CancelCurrentUpdate.loop b fs).run memWorld ks).trace
        = (fs.filter (fun f => !f.IsDir)).map (fun f => Call.bucketDelete f.Key) := by
  intro fs
  induction fs with
  | nil =>
    intro ks _ _
    simp [localBackend.CancelCurrentUpdate.loop, Prog.run, calls]
  | cons f rest ih =>
    intro ks hnd hin
    have hnd2 := (List.nodup_cons.1 hnd).2
    have hf := (List.nodup_cons.1 hnd).1
    unfold localBackend.CancelCurrentUpdate.loop
    cases hdir : f.IsDir with
    | true =>
      simp only [if_true]
      obtain ⟨h1, h2, h3⟩ := ih ks hnd2 (fun g hg => hin g (List.mem_cons_of_mem _ hg))
      refine ⟨h1, ?_, ?_⟩
      · rw [h2]
        simp [hdir]
      · rw [h3]
        simp [hdir]
    | false =>
      have hkey : f.Key ∈ ks := hin f (List.mem_cons_self _ _) hdir
      have hresp : memWorld.respond (.bucketDelete f.Key) ks
          = (none, ks.filter (fun k => k ≠ f.Key)) := by
        simp [memWorld, hkey]
      simp only [Bool.false_eq_true, if_false, Prog.run, hresp]
      obtain ⟨h1, h2, h3⟩ := ih (ks.filter (fun k => k ≠ f.Key)) hnd2 (by
        intro g hg hgd
        refine List.mem_filter.2 ⟨hin g (List.mem_cons_of_mem _ hg) hgd, ?_⟩
        have hne : g.Key ≠ f.Key := by
          intro heq
          apply hf
          have : g = f := by
            cases g; cases f
            simp only at heq hgd hdir
            subst heq; subst hgd; subst hdir
            rfl
          exact this ▸ hg
        simpa using hne)
      refine ⟨h1, ?_, ?_⟩
      · rw [h2, List.filter_filter]
        apply List.filter_congr
        intro k _
        simp only [List.any_cons, hdir, Bool.not_false, Bool.true_and, Bool.not_or]
        by_cases hk : k = f.Key
        · subst hk; simp
        · have : (f.Key == k) = false := by simpa using fun h => hk h.symm
          simp [hk, this]
      · simp only [calls, List.map_cons]
        simp only [calls] at h3
        rw [h3]
        simp [hdir]

/-- Without another process at work and without a refused delete:
`CancelCurrentUpdate` over a bucket held in memory, whatever keys it holds
(so with zero, one or many lock entries in the lock directory of the stack),
returns no error, it issues one delete for each file listed in the
lock directory, afterwards the lock directory lists no file any more, and the
keys outside the lock directory are all still there. -/
theorem cancelCurrentUpdate_clears_locks (b : localBackend)
    (stackRef : backend.StackReference) (keys : List Str) :
    ((b.CancelCurrentUpdate stackRef).run memWorld keys).out = .done none ∧
      (∃ files, listBucket (memBucket keys) (stackLockDir stackRef.FullyQualifiedName)
          = .ok files ∧
        calls ((b.CancelCurrentUpdate stackRef).run memWorld keys).trace
          = .bucket :: (files.filter (fun f => !f.IsDir)).map
              (fun f => Call.bucketDelete f.Key)) ∧
      (∃ left, listBucket (memBucket ((b.CancelCurrentUpdate stackRef).run memWorld keys).state)
          (stackLockDir stackRef.FullyQualifiedName) = .ok left ∧
        ∀ f ∈ left, f.IsDir = true) ∧
      ∀ k ∈ keys,
        strings.HasPrefix k (stackLockDir stackRef.FullyQualifiedName ++ ['/']) = false →
        k ∈ ((b.CancelCurrentUpdate stackRef).run memWorld keys).state := by
  have hlist : ∀ ks, listBucket (memBucket ks) (stackLockDir stackRef.FullyQualifiedName)
      = .ok (memBucket.list ks ⟨stackLockDir stackRef.FullyQualifiedName ++ ['/'], ['/']⟩) :=
    fun ks => listBucket_ok _ _ _ rfl
  have hfiles : ∀ f ∈ memBucket.list keys
      ⟨stackLockDir stackRef.FullyQualifiedName ++ ['/'], ['/']⟩, f.IsDir = false → f.Key ∈ keys :=
    fun f hf hd => (memBucket_list_file keys _ f hf hd).1
  obtain ⟨h1, h2, h3⟩ := cancelCurrentUpdate_loop_run b
    (memBucket.list keys ⟨stackLockDir stackRef.FullyQualifiedName ++ ['/'], ['/']⟩) keys
    (eraseDups_nodup _) hfiles
  have hrun : (b.CancelCurrentUpdate stackRef).run memWorld keys
      = ⟨((localBackend.CancelCurrentUpdate.loop b (memBucket.list keys
            ⟨stackLockDir stackRef.FullyQualifiedName ++ ['/'], ['/']⟩)).run memWorld keys).out,
          ((localBackend.CancelCurrentUpdate.loop b (memBucket.list keys
            ⟨stackLockDir stackRef.FullyQualifiedName ++ ['/'], ['/']⟩)).run memWorld keys).state,
          ⟨.bucket, memBucket keys⟩ :: ((localBackend.CancelCurrentUpdate.loop b
            (memBucket.list keys ⟨stackLockDir stackRef.FullyQualifiedName ++ ['/'], ['/']⟩)).run
              memWorld keys).trace⟩ := by
    unfold localBackend.CancelCurrentUpdate
    have hresp : memWorld.respond .bucket keys = (memBucket keys, keys) := rfl
    simp only [Prog.run, hresp, hlist]
  rw [hrun]
  refine ⟨h1, ⟨_, hlist keys, ?_⟩, ⟨_, hlist _, ?_⟩, ?_⟩
  · simp only [calls, List.map_cons]
    simp only [calls] at h3
    rw [h3]
  · intro f hf
    simp only [h2] at hf
    by_contra hd
    have hd2 : f.IsDir = false := by simpa using hd
    obtain ⟨hk, _, hmem⟩ := memBucket_list_file _ _ f hf hd2
    have hk2 := List.mem_filter.1 hk
    have hin := hmem keys hk2.1
    have hany : (memBucket.list keys
        ⟨stackLockDir stackRef.FullyQualifiedName ++ ['/'], ['/']⟩).any
          (fun g => !g.IsDir && g.Key == f.Key) = true :=
      List.any_eq_true.2 ⟨f, hin, by simp [hd2]⟩
    have := hk2.2
    rw [hany] at this
    cases this
  · intro k hk hpre
    simp only [h2]
    refine List.mem_filter.2 ⟨hk, ?_⟩
    have hnone : (memBucket.list keys
        ⟨stackLockDir stackRef.FullyQualifiedName ++ ['/'], ['/']⟩).any
          (fun g => !g.IsDir && g.Key == k) = false := by
      rw [Bool.eq_false_iff]
      intro hany
      obtain ⟨g, hg, hgk⟩ := List.any_eq_true.1 hany
      simp only [Bool.and_eq_true, Bool.not_eq_true', beq_iff_eq] at hgk
      have := (memBucket_list_file keys _ g hg hgk.1).2.1
      rw [hgk.2, hpre] at this
      cases this
    rw [hnone]
    rfl

/-- The lock example: of the two locks of `organization/proj/dev`, the lock of
another stack and the checkpoint, `CancelCurrentUpdate` for
`organization/proj/dev` leaves the lock of the other stack and the checkpoint. -/
theorem cancelCurrentUpdate_example :
    ((exampleBackend.CancelCurrentUpdate (.filestate exampleStackRef)).run memWorld
        exampleLockKeys).state
      = [".pulumi/locks/organization/proj/prod/c.json".toList,
          ".pulumi/stacks/proj/dev.json".toList] := by
  decide

/-! ## Programs and runs: `defer` -/

/-- The run of a program with a deferred cleanup: the program runs, then the
cleanup; the result is that of the program unless the cleanup panics. -/
theorem Prog.run_deferred {σ α : Type} (W : World σ) (p : Prog α) (c : Prog Unit) (s : σ) :
    (p.deferred c).run W s =
      ⟨match (c.run W (p.run W s).state).out with
        | .done _ => (p.run W s).out
        | .panicked msg => .panicked msg,
        (c.run W (p.run W s).state).state,
        (p.run W s).trace ++ (c.run W (p.run W s).state).trace⟩ := by
  induction p generalizing s with
  | ret a =>
    simp only [Prog.deferred, Prog.run_bind, Prog.run]
    cases (c.run W s).out <;> simp
  | gopanic msg =>
    simp only [Prog.deferred, Prog.run_bind, Prog.run]
    cases (c.run W s).out <;> simp
  | call c0 k ih =>
    simp only [Prog.deferred, Prog.run, ih, List.cons_append]

/-- The run of a program under `defer b.Unlock(ctx, ref)`: the unlock is the
last call, and the result is that of the program. -/
theorem Prog.run_deferred_unlock {σ α : Type} (W : World σ) (p : Prog α) (b : localBackend)
    (ref : backend.StackReference) (s : σ) :
    (p.deferred (b.Unlock ref)).run W s =
      ⟨(p.run W s).out, (W.respond (.Unlock ref) (p.run W s).state).2,
        (p.run W s).trace ++ [⟨.Unlock ref, ()⟩]⟩ := by
  rw [Prog.run_deferred]
  simp [localBackend.Unlock, Prog.run]

/-! ## The backend: loading and creating a stack -/

/-- C21: `GetStack` for a valid reference.  When loading the stack answers with
an error of the code `NotFound`, the result is no stack and no error; when it
answers with any other error, the result is no stack and that error; when it
answers with a snapshot and a path, the result is the stack object of the same
reference, with no error. -/
theorem getStack_absent_or_error {σ : Type} (W : World σ) (s : σ) (b : localBackend)
    (stackRef : backend.StackReference) (ref : localBackendReference)
    (href : b.getReference stackRef = .ok ref) :
    (∀ err, (⟨.getStack ref, .error err⟩ : Event) ∈ ((b.GetStack stackRef).run W s).trace →
        gcerrors.Code err = gcerrors.ErrorCode.NotFound →
        ((b.GetStack stackRef).run W s).out = .done (none, none)) ∧
      (∀ err, (⟨.getStack ref, .error err⟩ : Event) ∈ ((b.GetStack stackRef).run W s).trace →
        gcerrors.Code err ≠ gcerrors.ErrorCode.NotFound →
        ((b.GetStack stackRef).run W s).out = .done (none, some err)) ∧
      (∀ snapshot path,
        (⟨.getStack ref, .ok (snapshot, path)⟩ : Event) ∈ ((b.GetStack stackRef).run W s).trace →
        ∃ stack, ((b.GetStack stackRef).run W s).out = .done (some stack, none) ∧
          stack = newStack ref path snapshot b ∧ stack.ref = ref) := by
  generalize hR : (b.GetStack stackRef).run W s = R
  unfold localBackend.GetStack at hR
  simp only [href, Prog.run] at hR
  rcases hg : W.respond (.getStack ref) s with ⟨got, s1⟩
  rw [hg] at hR
  cases got with
  | error e =>
    simp only [] at hR
    by_cases hc : gcerrors.Code e = gcerrors.ErrorCode.NotFound
    · simp only [hc, if_true, Prog.run] at hR
      subst hR
      refine ⟨fun _ _ _ => rfl, fun err h hne => ?_, fun snapshot path h => ?_⟩
      · simp only [List.mem_singleton] at h
        cases h
        exact absurd hc hne
      · simp only [List.mem_singleton] at h
        cases h
    · simp only [hc, if_false, Prog.run] at hR
      subst hR
      refine ⟨fun err h he => ?_, fun err h _ => ?_, fun snapshot path h => ?_⟩
      · simp only [List.mem_singleton] at h
        cases h
        exact absurd he hc
      · simp only [List.mem_singleton] at h
        cases h
        rfl
      · simp only [List.mem_singleton] at h
        cases h
  | ok pr =>
    obtain ⟨snap, path⟩ := pr
    simp only [Prog.run] at hR
    subst hR
    refine ⟨fun err h _ => ?_, fun err h _ => ?_, fun snapshot path2 h => ?_⟩
    · simp only [List.mem_singleton] at h
      cases h
    · simp only [List.mem_singleton] at h
      cases h
    · simp only [List.mem_singleton] at h
      cases h
      exact ⟨_, rfl, rfl, rfl⟩

theorem getStack_absent_or_error_witness :
    ((exampleBackend.GetStack (.filestate exampleStackRef)).run exampleMissingWorld ()).out
      = .done (none, none) :=
  (getStack_absent_or_error exampleMissingWorld () exampleBackend (.filestate exampleStackRef)
    exampleStackRef (by rfl)).1 _ (List.Mem.head _) (by decide)

/-- The calls of `currentProjectContradictsWorkspace`: it looks for the project
file and loads it, nothing else. -/
theorem currentProjectContradictsWorkspace_reads (ref : localBackendReference) :
    (currentProjectContradictsWorkspace ref).Calls
      (fun c => c = .DetectProjectPath ∨ ∃ p, c = .LoadProject p) := by
  unfold currentProjectContradictsWorkspace
  split
  · trivial
  · refine ⟨Or.inl rfl, fun detected => ?_⟩
    cases detected with
    | error err => trivial
    | ok projPath =>
      simp only []
      split
      · trivial
      · refine ⟨Or.inr ⟨_, rfl⟩, fun loaded => ?_⟩
        cases loaded <;> trivial

/-- The run of the end of `CreateStack`: the tags are read, the stack
properties are validated; if they are not valid the result is the error of the
validation, wrapped, and nothing is saved; else the empty checkpoint is saved
and the result is the error of the save, or the new stack. -/
theorem createStack_create_run {σ : Type} (W : World σ) (s : σ) (b : localBackend)
    (ref : localBackendReference) (root stackName : Str) :
    ∃ tags invalid tail,
      ((localBackend.CreateStack.create b ref root stackName).run W s).trace
        = ⟨.GetEnvironmentTagsForCurrentStack root b.currentProject, tags⟩ ::
          ⟨.ValidateStackProperties (tokens.QName.Name stackName) tags, invalid⟩ :: tail ∧
      (∀ verr, invalid = some verr → tail = [] ∧
        ((localBackend.CreateStack.create b ref root stackName).run W s).out
          = .done (none, some (.wrap "validating stack properties".toList verr))) ∧
      (invalid = none → ∃ saved tail2, tail = ⟨.saveStack ref none, saved⟩ :: tail2 ∧
        (∀ err, saved = .error err → tail2 = [] ∧
          ((localBackend.CreateStack.create b ref root stackName).run W s).out
            = .done (none, some err)) ∧
        (∀ file, saved = .ok file →
          tail2 = [⟨.diag .Infof (.createdStack ref.String), ()⟩] ∧
          ((localBackend.CreateStack.create b ref root stackName).run W s).out
            = .done (some (newStack ref file none b), none))) := by
  unfold localBackend.CreateStack.create
  simp only [Prog.run]
  rcases h1 : W.respond (.GetEnvironmentTagsForCurrentStack root b.currentProject) s
    with ⟨tags, s1⟩
  simp only []
  rcases h2 : W.respond (.ValidateStackProperties (tokens.QName.Name stackName) tags) s1
    with ⟨invalid, s2⟩
  simp only []
  cases invalid with
  | some verr =>
    refine ⟨tags, some verr, [], rfl, fun v hv => ?_, fun h => (by cases h)⟩
    cases hv
    exact ⟨rfl, rfl⟩
  | none =>
    simp only [Prog.run]
    rcases h3 : W.respond (.saveStack ref none) s2 with ⟨saved, s3⟩
    simp only []
    cases saved with
    | error err =>
      refine ⟨tags, none, _, rfl, fun v hv => (by cases hv), fun _ => ⟨.error err, [], rfl, ?_, ?_⟩⟩
      · intro e he
        cases he
        exact ⟨rfl, rfl⟩
      · intro file hf
        cases hf
    | ok file =>
      refine ⟨tags, none, _, rfl, fun v hv => (by cases hv), fun _ => ⟨.ok file, _, rfl, ?_, ?_⟩⟩
      · intro e he
        cases he
      · intro f hf
        cases hf
        exact ⟨rfl, rfl⟩

/-- The run of the part of `CreateStack` under the lock: after the look at the
project file, either it returns at once (the project contradicts the
workspace, or the name is empty), or it loads the stack; if the load succeeds
the result is the error that the stack exists already; if the load fails, it
goes on with the end of `CreateStack`, whatever the error is. -/
theorem createStack_locked_run {σ : Type} (W : World σ) (s : σ) (b : localBackend)
    (ref : localBackendReference) (root : Str) :
    ∃ pre post, ((localBackend.CreateStack.locked b ref root).run W s).trace = pre ++ post ∧
      (∀ e ∈ pre, e.c = .DetectProjectPath ∨ ∃ p, e.c = .LoadProject p) ∧
      ((post = [] ∧
          (((localBackend.CreateStack.locked b ref root).run W s).out
              = .done (none, some (.new ("provided project name ".toList ++
                  fmt.quoted ref.project ++ " doesn't match Pulumi.yaml".toList))) ∨
            ((localBackend.CreateStack.locked b ref root).run W s).out
              = .done (none, some (.new "invalid empty stack name".toList)))) ∨
        (∃ x, post = [⟨.getStack ref, .ok x⟩] ∧
          ((localBackend.CreateStack.locked b ref root).run W s).out
            = .done (none, some (.stackAlreadyExists ⟨ref.FullyQualifiedName⟩))) ∨
        (∃ loadErr s1,
          post = ⟨.getStack ref, .error loadErr⟩ ::
            ((localBackend.CreateStack.create b ref root ref.FullyQualifiedName).run W s1).trace ∧
          ((localBackend.CreateStack.locked b ref root).run W s).out
            = ((localBackend.CreateStack.create b ref root ref.FullyQualifiedName).run W s1).out))
    := by
  unfold localBackend.CreateStack.locked
  simp only [Prog.run_bind]
  obtain ⟨c, hc⟩ := Prog.Returns.run_done W _ (currentProjectContradictsWorkspace_returns ref) s
  have hcc := Prog.Calls.trace_ok _ W _ (currentProjectContradictsWorkspace_reads ref) s
  generalize (currentProjectContradictsWorkspace ref).run W s = C at hc hcc
  rw [hc]
  simp only []
  cases c with
  | true =>
    refine ⟨C.trace, [], ?_, hcc, Or.inl ⟨rfl, Or.inl ?_⟩⟩
    · simp [Prog.run]
    · simp [Prog.run]
  | false =>
    simp only [Bool.false_eq_true, if_false]
    by_cases hn : ref.FullyQualifiedName = []
    · refine ⟨C.trace, [], ?_, hcc, Or.inl ⟨rfl, Or.inr ?_⟩⟩
      · simp [hn, Prog.run]
      · simp [hn, Prog.run]
    · simp only [hn, if_false, Prog.run]
      rcases hg : W.respond (.getStack ref) C.state with ⟨got, s1⟩
      simp only []
      cases got with
      | ok x =>
        exact ⟨C.trace, _, rfl, hcc, Or.inr (Or.inl ⟨x, by simp [Prog.run], by simp [Prog.run]⟩)⟩
      | error loadErr =>
        exact ⟨C.trace, _, rfl, hcc, Or.inr (Or.inr ⟨loadErr, s1, rfl, rfl⟩)⟩

/-- The runs of `CreateStack`: with teams in the options it returns at once;
with a reference that is not valid it returns the error of the validation;
else its first call takes the lock of the stack, and if that fails it returns
the error; else the part under the lock runs and the lock is given back. -/
theorem createStack_run {σ : Type} (W : World σ) (s : σ) (b : localBackend)
    (stackRef : backend.StackReference) (root : Str) (opts : Option backend.CreateStackOptions) :
    (backend.CreateStackOptions.hasTeams opts = true ∧
        ((b.CreateStack stackRef root opts).run W s).trace = [] ∧
        ((b.CreateStack stackRef root opts).run W s).out
          = .done (none, some backend.ErrTeamsNotSupported)) ∨
      (backend.CreateStackOptions.hasTeams opts = false ∧
        ((∃ err, b.getReference stackRef = .error err ∧
            ((b.CreateStack stackRef root opts).run W s).trace = [] ∧
            ((b.CreateStack stackRef root opts).run W s).out = .done (none, some err)) ∨
          (∃ ref, b.getReference stackRef = .ok ref ∧
            ((∃ err, ((b.CreateStack stackRef root opts).run W s).trace
                  = [⟨.Lock stackRef, some err⟩] ∧
                ((b.CreateStack stackRef root opts).run W s).out = .done (none, some err)) ∨
              (∃ s1, ((b.CreateStack stackRef root opts).run W s).trace
                  = ⟨.Lock stackRef, none⟩ ::
                    (((localBackend.CreateStack.locked b ref root).run W s1).trace
                      ++ [⟨.Unlock stackRef, ()⟩]) ∧
                ((b.CreateStack stackRef root opts).run W s).out
                  = ((localBackend.CreateStack.locked b ref root).run W s1).out))))) := by
  unfold localBackend.CreateStack
  cases ht : backend.CreateStackOptions.hasTeams opts with
  | true => exact Or.inl ⟨rfl, by simp [Prog.run], by simp [Prog.run]⟩
  | false =>
    right
    refine ⟨rfl, ?_⟩
    simp only [Bool.false_eq_true, if_false]
    cases hr : b.getReference stackRef with
    | error err => exact Or.inl ⟨err, rfl, by simp [Prog.run], by simp [Prog.run]⟩
    | ok ref =>
      right
      refine ⟨ref, rfl, ?_⟩
      simp only [Prog.run]
      rcases hl : W.respond (.Lock stackRef) s with ⟨lockErr, s1⟩
      simp only []
      cases lockErr with
      | some err => exact Or.inl ⟨err, by simp [Prog.run], by simp [Prog.run]⟩
      | none =>
        right
        refine ⟨s1, ?_, ?_⟩
        · simp only [Prog.run_deferred_unlock]
        · simp only [Prog.run_deferred_unlock]

/-- The end of `CreateStack` does not load the stack. -/
theorem createStack_create_calls (b : localBackend) (ref : localBackendReference)
    (root stackName : Str) :
    (localBackend.CreateStack.create b ref root stackName).Calls
      (fun c => ∀ r, c ≠ .getStack r) := by
  unfold localBackend.CreateStack.create
  refine ⟨by simp, fun tags => ⟨by simp, fun invalid => ?_⟩⟩
  cases invalid with
  | some err => trivial
  | none =>
    refine ⟨by simp, fun saved => ?_⟩
    cases saved with
    | error err => trivial
    | ok file => exact ⟨by simp, fun _ => trivial⟩

/-- A run of `CreateStack` in which the stack was loaded: the reference is
valid, the lock was taken first and is given back last, and the load is
followed by nothing but the unlock if it succeeded (the result is then the
error that the stack exists already), and by the end of `CreateStack` if it
failed. -/
theorem createStack_loaded {σ : Type} (W : World σ) (s : σ) (b : localBackend)
    (stackRef : backend.StackReference) (root : Str) (opts : Option backend.CreateStackOptions)
    (ref : localBackendReference) (got : Except GoError (Option deploy.Snapshot × Str))
    (hload : (⟨.getStack ref, got⟩ : Event) ∈ ((b.CreateStack stackRef root opts).run W s).trace) :
    b.getReference stackRef = .ok ref ∧
    ∃ pre tail, ((b.CreateStack stackRef root opts).run W s).trace
        = ⟨.Lock stackRef, none⟩ :: (pre ++ ⟨.getStack ref, got⟩ :: tail ++ [⟨.Unlock stackRef, ()⟩]) ∧
      (∀ e ∈ pre, e.c = .DetectProjectPath ∨ ∃ p, e.c = .LoadProject p) ∧
      ((∃ x, got = .ok x ∧ tail = [] ∧
          ((b.CreateStack stackRef root opts).run W s).out
            = .done (none, some (.stackAlreadyExists ⟨ref.FullyQualifiedName⟩))) ∨
        (∃ loadErr s1, got = .error loadErr ∧
          tail = ((localBackend.CreateStack.create b ref root ref.FullyQualifiedName).run
            W s1).trace ∧
          ((b.CreateStack stackRef root opts).run W s).out
            = ((localBackend.CreateStack.create b ref root ref.FullyQualifiedName).run
              W s1).out)) := by
  rcases createStack_run W s b stackRef root opts with ⟨_, ht, _⟩ | ⟨_, h⟩
  · rw [ht] at hload; cases hload
  rcases h with ⟨err, _, ht, _⟩ | ⟨ref0, href, h⟩
  · rw [ht] at hload; cases hload
  rcases h with ⟨err, ht, _⟩ | ⟨s1, ht, ho⟩
  · rw [ht] at hload
    simp at hload
  obtain ⟨pre, post, hL, hpre, hpost⟩ := createStack_locked_run W s1 b ref0 root
  rw [ht, hL] at hload
  rw [ht, ho, hL]
  simp only [List.mem_cons, List.mem_append, List.mem_singleton] at hload
  have hnotpre : ¬ (⟨.getStack ref, got⟩ : Event) ∈ pre := by
    intro h
    rcases hpre _ h with h | ⟨p, h⟩ <;> cases h
  rcases hload with h | (h | h) | h
  · cases h
  · exact absurd h hnotpre
  · rcases hpost with ⟨hp, _⟩ | ⟨x, hp, hout⟩ | ⟨loadErr, s2, hp, hout⟩
    · rw [hp] at h; cases h
    · rw [hp] at h
      simp only [List.mem_singleton] at h
      cases h
      refine ⟨href, pre, [], ?_, hpre, Or.inl ⟨x, rfl, rfl, hout⟩⟩
      rw [hp]
    · rw [hp] at h
      simp only [List.mem_cons] at h
      rcases h with h | h
      · cases h
        refine ⟨href, pre, _, ?_, hpre, Or.inr ⟨loadErr, s2, rfl, rfl, hout⟩⟩
        rw [hp]
      · exact absurd rfl (Prog.Calls.trace_ok _ W _
          (createStack_create_calls b ref0 root ref0.FullyQualifiedName) s2 _ h ref)
  · simp at h

/-- C22: a run of `CreateStack` in which the checkpoint of the stack was
loaded without error returns no stack and the error
`StackAlreadyExistsError` that carries the fully qualified name of the stack,
with the message "stack '<name>' already exists"; the load is its last call
before the unlock, so it does not write or overwrite the checkpoint. -/
theorem createStack_existing {σ : Type} (W : World σ) (s : σ) (b : localBackend)
    (stackRef : backend.StackReference) (root : Str) (opts : Option backend.CreateStackOptions)
    (ref : localBackendReference) (x : Option deploy.Snapshot × Str)
    (hload : (⟨.getStack ref, .ok x⟩ : Event) ∈ ((b.CreateStack stackRef root opts).run W s).trace) :
    b.getReference stackRef = .ok ref ∧
      ((b.CreateStack stackRef root opts).run W s).out
        = .done (none, some (.stackAlreadyExists ⟨ref.FullyQualifiedName⟩)) ∧
      backend.StackAlreadyExistsError.Error ⟨ref.FullyQualifiedName⟩
        = "stack '".toList ++ ref.FullyQualifiedName ++ "' already exists".toList ∧
      (∀ e ∈ ((b.CreateStack stackRef root opts).run W s).trace,
        (∀ r sn, e.c ≠ .saveStack r sn) ∧ (∀ r chk, e.c ≠ .saveCheckpoint r chk) ∧
        (∀ f k, e.c ≠ .backupTarget f k)) := by
  obtain ⟨href, pre, tail, ht, hpre, h⟩ := createStack_loaded W s b stackRef root opts ref _ hload
  rcases h with ⟨x2, _, htail, hout⟩ | ⟨loadErr, _, hx, _⟩
  · refine ⟨href, hout, rfl, ?_⟩
    intro e he
    rw [ht, htail] at he
    simp only [List.mem_cons, List.mem_append, List.mem_singleton, List.not_mem_nil,
      or_false] at he
    rcases he with rfl | (h | rfl) | rfl
    · simp
    · rcases hpre _ h with h | ⟨p, h⟩ <;> rw [h] <;> simp
    · simp
    · simp
  · cases hx

theorem createStack_existing_witness :
    ((exampleBackend.CreateStack (.filestate exampleStackRef) [] none).run
        exampleResourceWorld ()).out
      = .done (none, some (.stackAlreadyExists ⟨"organization/proj/dev".toList⟩)) :=
  (createStack_existing exampleResourceWorld () exampleBackend (.filestate exampleStackRef) []
    none exampleStackRef (some exampleSnapshot, [])
    (List.Mem.tail _ (List.Mem.tail _ (List.Mem.head _)))).2.1

/-- C23: `CreateStack` with options that carry a non-empty list of teams
returns `ErrTeamsNotSupported` and no stack, whatever the reference is (valid
or not), and makes no call at all: no lock, no read, no write.  With nil
options or an empty list of teams the check passes: the result is the error of
the validation of the reference, or the first call takes the lock. -/
theorem createStack_teams_unsupported {σ : Type} (W : World σ) (s : σ) (b : localBackend)
    (stackRef : backend.StackReference) (root : Str) (opts : Option backend.CreateStackOptions) :
    (∀ o, opts = some o → o.Teams ≠ [] →
        ((b.CreateStack stackRef root opts).run W s).out
          = .done (none, some backend.ErrTeamsNotSupported) ∧
        ((b.CreateStack stackRef root opts).run W s).trace = []) ∧
      ((opts = none ∨ ∃ o, opts = some o ∧ o.Teams = []) →
        (∀ err, b.getReference stackRef = .error err →
          ((b.CreateStack stackRef root opts).run W s).out = .done (none, some err) ∧
          ((b.CreateStack stackRef root opts).run W s).trace = []) ∧
        (∀ ref, b.getReference stackRef = .ok ref →
          ∃ lockErr rest, ((b.CreateStack stackRef root opts).run W s).trace
            = ⟨.Lock stackRef, lockErr⟩ :: rest)) := by
  constructor
  · intro o ho hne
    have ht : backend.CreateStackOptions.hasTeams opts = true := by
      subst ho
      cases hT : o.Teams with
      | nil => exact absurd hT hne
      | cons t ts => simp [backend.CreateStackOptions.hasTeams, hT]
    rcases createStack_run W s b stackRef root opts with ⟨_, htr, hout⟩ | ⟨hf, _⟩
    · exact ⟨hout, htr⟩
    · rw [ht] at hf; cases hf
  · intro hno
    have ht : backend.CreateStackOptions.hasTeams opts = false := by
      rcases hno with rfl | ⟨o, rfl, hT⟩
      · rfl
      · simp [backend.CreateStackOptions.hasTeams, hT]
    rcases createStack_run W s b stackRef root opts with ⟨hf, _⟩ | ⟨_, h⟩
    · rw [ht] at hf; cases hf
    rcases h with ⟨err, href, htr, hout⟩ | ⟨ref, href, h⟩
    · refine ⟨fun err2 h2 => ?_, fun ref h2 => ?_⟩
      · rw [href] at h2
        cases h2
        exact ⟨hout, htr⟩
      · rw [href] at h2
        cases h2
    · refine ⟨fun err2 h2 => ?_, fun ref2 _ => ?_⟩
      · rw [href] at h2
        cases h2
      · rcases h with ⟨err, htr, _⟩ | ⟨s1, htr, _⟩
        · exact ⟨_, _, htr⟩
        · exact ⟨_, _, htr⟩

theorem createStack_teams_unsupported_witness :
    ((exampleBackend.CreateStack (.filestate exampleStackRef) []
        (some ⟨["red".toList, "blue".toList]⟩)).run exampleMissingWorld ()).out
        = .done (none, some backend.ErrTeamsNotSupported) ∧
      ((exampleBackend.CreateStack (.filestate exampleStackRef) []
        (some ⟨["red".toList, "blue".toList]⟩)).run exampleMissingWorld ()).trace = [] :=
  (createStack_teams_unsupported exampleMissingWorld () exampleBackend
    (.filestate exampleStackRef) [] (some ⟨["red".toList, "blue".toList]⟩)).1 _ rfl (by decide)

/-- C30: a run of `CreateStack` in which loading the stack answered with an
error, of the code `NotFound` or any other: the error is not looked at.  The
next calls read the tags and validate the stack properties; if they are not
valid the result is the error of the validation, wrapped, and nothing is
written; if they are valid the next call saves an empty checkpoint under the
reference, and the result is the error of that save, or the new stack. -/
theorem createStack_load_error {σ : Type} (W : World σ) (s : σ) (b : localBackend)
    (stackRef : backend.StackReference) (root : Str) (opts : Option backend.CreateStackOptions)
    (ref : localBackendReference) (loadErr : GoError)
    (hload : (⟨.getStack ref, .error loadErr⟩ : Event)
      ∈ ((b.CreateStack stackRef root opts).run W s).trace) :
    ∃ pre tags invalid tail,
      ((b.CreateStack stackRef root opts).run W s).trace
        = ⟨.Lock stackRef, none⟩ :: (pre ++ ⟨.getStack ref, .error loadErr⟩ ::
            (⟨.GetEnvironmentTagsForCurrentStack root b.currentProject, tags⟩ ::
              ⟨.ValidateStackProperties (tokens.QName.Name ref.FullyQualifiedName) tags, invalid⟩ ::
              tail) ++ [⟨.Unlock stackRef, ()⟩]) ∧
      (∀ e ∈ pre, e.c = .DetectProjectPath ∨ ∃ p, e.c = .LoadProject p) ∧
      (∀ verr, invalid = some verr → tail = [] ∧
        ((b.CreateStack stackRef root opts).run W s).out
          = .done (none, some (.wrap "validating stack properties".toList verr))) ∧
      (invalid = none → ∃ saved tail2, tail = ⟨.saveStack ref none, saved⟩ :: tail2 ∧
        (∀ err, saved = .error err → tail2 = [] ∧
          ((b.CreateStack stackRef root opts).run W s).out = .done (none, some err)) ∧
        (∀ file, saved = .ok file →
          tail2 = [⟨.diag .Infof (.createdStack ref.String), ()⟩] ∧
          ((b.CreateStack stackRef root opts).run W s).out
            = .done (some (newStack ref file none b), none))) := by
  obtain ⟨_, pre, tail0, ht, hpre, h⟩ := createStack_loaded W s b stackRef root opts ref _ hload
  rcases h with ⟨x, hx, _, _⟩ | ⟨loadErr2, s1, hx, htail, hout⟩
  · cases hx
  obtain ⟨tags, invalid, tail, hc, hbad, hgood⟩ :=
    createStack_create_run W s1 b ref root ref.FullyQualifiedName
  rw [hout]
  refine ⟨pre, tags, invalid, tail, ?_, hpre, hbad, hgood⟩
  rw [ht, htail, hc]

theorem createStack_load_error_witness :
    ∃ pre tags invalid tail,
      ((exampleBackend.CreateStack (.filestate exampleStackRef) [] none).run
          exampleUnreadableWorld ()).trace
        = ⟨.Lock (.filestate exampleStackRef), none⟩ :: (pre ++
            ⟨.getStack exampleStackRef, .error (.new "unexpected end of JSON input".toList)⟩ ::
            (⟨.GetEnvironmentTagsForCurrentStack [] exampleBackend.currentProject, tags⟩ ::
              ⟨.ValidateStackProperties
                (tokens.QName.Name exampleStackRef.FullyQualifiedName) tags, invalid⟩ ::
              tail) ++ [⟨.Unlock (.filestate exampleStackRef), ()⟩]) ∧
      (∀ e ∈ pre, e.c = .DetectProjectPath ∨ ∃ p, e.c = .LoadProject p) ∧
      (∀ verr, invalid = some verr → tail = [] ∧
        ((exampleBackend.CreateStack (.filestate exampleStackRef) [] none).run
            exampleUnreadableWorld ()).out
          = .done (none, some (.wrap "validating stack properties".toList verr))) ∧
      (invalid = none → ∃ saved tail2, tail = ⟨.saveStack exampleStackRef none, saved⟩ :: tail2 ∧
        (∀ err, saved = .error err → tail2 = [] ∧
          ((exampleBackend.CreateStack (.filestate exampleStackRef) [] none).run
              exampleUnreadableWorld ()).out = .done (none, some err)) ∧
        (∀ file, saved = .ok file →
          tail2 = [⟨.diag .Infof (.createdStack exampleStackRef.String), ()⟩] ∧
          ((exampleBackend.CreateStack (.filestate exampleStackRef) [] none).run
              exampleUnreadableWorld ()).out
            = .done (some (newStack exampleStackRef file none exampleBackend), none))) :=
  createStack_load_error exampleUnreadableWorld () exampleBackend (.filestate exampleStackRef) []
    none exampleStackRef (.new "unexpected end of JSON input".toList)
    (List.Mem.tail _ (List.Mem.tail _ (List.Mem.head _)))

/-! ## The backend: the lock at the call sites -/

/-- A program whose calls all satisfy a condition also satisfies every weaker
one. -/
theorem Prog.Calls.mono {α : Type} (ok ok2 : Call → Prop) (h : ∀ c, ok c → ok2 c)
    (p : Prog α) (hp : p.Calls ok) : p.Calls ok2 := by
  induction p with
  | ret a => trivial
  | gopanic msg => trivial
  | call c k ih => exact ⟨h c hp.1, fun r => ih r (hp.2 r)⟩

/-- The forwarding loop of `apply` takes no lock. -/
theorem apply_forward_no_lock (callerEvents : Bool) (events : List engine.Event) :
    (localBackend.apply.forward callerEvents events).Calls (fun c => ∀ r, c ≠ .Lock r) := by
  induction events with
  | nil => exact ⟨by simp, fun _ => trivial⟩
  | cons e rest ih =>
    refine ⟨by simp, fun _ => ?_⟩
    simp only []
    cases callerEvents with
    | true => exact ⟨by simp, fun _ => ih⟩
    | false => exact ih

/-- The end of `apply` takes no lock. -/
theorem apply_finish_no_lock (b : localBackend) (kind : apitype.UpdateKind)
    (ref : localBackendReference) (op : backend.UpdateOperation)
    (opts : backend.ApplierOptions) (callerEvents : Bool) (update : deploy.Target) (start : Int)
    (outcome : engine.Outcome) :
    (localBackend.apply.finish b kind ref op opts callerEvents update start outcome).Calls
      (fun c => ∀ r, c ≠ .Lock r) := by
  unfold localBackend.apply.finish
  refine ⟨by simp, fun finish => ?_⟩
  refine Prog.Calls.bind_ok _ _ _ ?_ (fun _ => ?_)
  · unfold localBackend.apply.await
    exact Prog.Calls.bind_ok _ _ _ (apply_forward_no_lock callerEvents outcome.events)
      (fun _ => ⟨by simp, fun _ => ⟨by simp, fun _ => ⟨by simp, fun _ => ⟨by simp, fun _ =>
        ⟨by simp, fun _ => ⟨by simp, fun _ => trivial⟩⟩⟩⟩⟩⟩)
  refine Prog.Calls.bind_ok _ _ _ ?_ (fun errs => ?_)
  · unfold localBackend.apply.save
    split
    · exact ⟨by simp, fun _ => ⟨by simp, fun _ => trivial⟩⟩
    · trivial
  · unfold localBackend.apply.answer
    cases outcome.res with
    | some res => trivial
    | none =>
      simp only []
      cases errs.1 with
      | some e => trivial
      | none =>
        simp only []
        cases errs.2 with
        | some e => trivial
        | none =>
          simp only []
          refine Prog.Calls.bind_ok _ _ _ ?_ (fun _ => trivial)
          unfold localBackend.apply.permalink
          split
          · refine ⟨by simp, fun stackPath => ?_⟩
            simp only []
            split
            · refine ⟨by simp, fun parsed => ?_⟩
              cases parsed with
              | ok u => simp only []; split <;> simp [Prog.Calls]
              | error err => simp only []; split <;> simp [Prog.Calls]
            · refine ⟨by simp, fun signed => ?_⟩
              cases signed with
              | ok link => simp only []; split <;> simp [Prog.Calls]
              | error err => exact ⟨by simp, fun _ => trivial⟩
          · trivial

/-- `apply` takes no lock. -/
theorem apply_no_lock (b : localBackend) (kind : apitype.UpdateKind) (stack : backend.Stack)
    (op : backend.UpdateOperation) (opts : backend.ApplierOptions) (callerEvents : Bool) :
    (b.apply kind stack op opts callerEvents).Calls (fun c => ∀ r, c ≠ .Lock r) := by
  unfold localBackend.apply
  simp only []
  cases b.getReference stack.Ref with
  | error err => trivial
  | ok ref =>
    simp only []
    refine Prog.Calls.bind_ok _ _ _ ?_ (fun contradicts => ?_)
    · refine Prog.Calls.mono _ _ ?_ _ (currentProjectContradictsWorkspace_reads ref)
      rintro c (rfl | ⟨p, rfl⟩) <;> simp
    cases contradicts with
    | true => trivial
    | false =>
      simp only [Bool.false_eq_true, if_false]
      refine Prog.Calls.bind_ok _ _ _ ?_ (fun _ => ?_)
      · unfold localBackend.apply.banner
        split
        · exact ⟨by simp, fun _ => trivial⟩
        · trivial
      refine ⟨by simp, fun started => ?_⟩
      cases started with
      | error err => trivial
      | ok update =>
        refine ⟨by simp, fun _ => ⟨by simp, fun _ => ⟨by simp, fun start => ?_⟩⟩⟩
        simp only []
        cases localBackend.apply.entry kind opts.DryRun with
        | none => trivial
        | some pr =>
          exact ⟨by simp, fun outcome => apply_finish_no_lock b kind ref op opts callerEvents
            update start outcome⟩

/-- A program that first takes the lock of `ref` and returns `onErr` of the
error when the lock fails takes the lock first in every run, and always makes
that call. -/
theorem locksFirst_of_call {σ α : Type} (W : World σ) (s : σ) (ref : backend.StackReference)
    (onErr : GoError → α) (k : Option GoError → Prog α)
    (hk : ∀ err, k (some err) = .ret (onErr err)) :
    LocksFirst ((Prog.call (.Lock ref) k).run W s) ref onErr ∧
      ((Prog.call (.Lock ref) k).run W s).trace ≠ [] := by
  simp only [Prog.run]
  rcases hl : W.respond (.Lock ref) s with ⟨lockErr, s1⟩
  simp only []
  cases lockErr with
  | some err =>
    refine ⟨Or.inr ⟨some err, [], ?_, fun e he => ?_⟩, by simp⟩
    · rw [hk]
      rfl
    · cases he
      rw [hk]
      exact ⟨rfl, rfl⟩
  | none => exact ⟨Or.inr ⟨none, _, rfl, fun e he => by cases he⟩, by simp⟩

/-- C28: the lock at the call sites of the backend.  In every run, each of
`CreateStack`, `RemoveStack`, `renameStack`, `ImportDeployment`, `Update`,
`Import`, `Refresh` and `Destroy` takes the lock of the stack as its first
call, before it loads or saves the stack or runs the engine (a run of
`CreateStack`, `RemoveStack` or `ImportDeployment` that returns before that,
for a reference that is not valid or for teams, makes no call at all); when
the lock answers with an error, nothing else is called and that error is the
result.  `Preview` runs `apply` and takes no lock. -/
theorem lock_discipline {σ : Type} (W : World σ) (s : σ) (b : localBackend)
    (stackRef : backend.StackReference) (root : Str) (opts : Option backend.CreateStackOptions)
    (stack : backend.Stack) (force : Bool) (oldRef newRef : localBackendReference)
    (deployment : apitype.UntypedDeployment) (op : backend.UpdateOperation)
    (imports : List deploy.Import) :
    LocksFirst ((b.CreateStack stackRef root opts).run W s) stackRef
        (fun err => (none, some err)) ∧
      (∀ ref, b.getReference stack.Ref = .ok ref →
        LocksFirst ((b.RemoveStack stack force).run W s) (.filestate ref)
            (fun err => (false, some err)) ∧
          ((b.RemoveStack stack force).run W s).trace ≠ [] ∧
        LocksFirst ((b.ImportDeployment stack deployment).run W s) (.filestate ref)
            (fun err => some err) ∧
          ((b.ImportDeployment stack deployment).run W s).trace ≠ []) ∧
      (∀ err, b.getReference stack.Ref = .error err →
        ((b.RemoveStack stack force).run W s).trace = [] ∧
        ((b.ImportDeployment stack deployment).run W s).trace = []) ∧
      (LocksFirst ((b.renameStack oldRef newRef).run W s) (.filestate oldRef)
          (fun err => some err) ∧
        ((b.renameStack oldRef newRef).run W s).trace ≠ []) ∧
      (LocksFirst ((b.Update stack op).run W s) stack.Ref
          (fun err => ([], some (.FromError err))) ∧
        ((b.Update stack op).run W s).trace ≠ []) ∧
      (LocksFirst ((b.Import stack op imports).run W s) stack.Ref
          (fun err => ([], some (.FromError err))) ∧
        ((b.Import stack op imports).run W s).trace ≠ []) ∧
      (LocksFirst ((b.Refresh stack op).run W s) stack.Ref
          (fun err => ([], some (.FromError err))) ∧
        ((b.Refresh stack op).run W s).trace ≠ []) ∧
      (LocksFirst ((b.Destroy stack op).run W s) stack.Ref
          (fun err => ([], some (.FromError err))) ∧
        ((b.Destroy stack op).run W s).trace ≠ []) ∧
      ∀ e ∈ ((b.Preview stack op).run W s).trace, ∀ r, e.c ≠ .Lock r := by
  refine ⟨?_, ?_, ?_, ?_, ?_, ?_, ?_, ?_, ?_⟩
  · rcases createStack_run W s b stackRef root opts with ⟨_, ht, _⟩ | ⟨_, h⟩
    · exact Or.inl ht
    rcases h with ⟨err, _, ht, _⟩ | ⟨ref, _, h⟩
    · exact Or.inl ht
    rcases h with ⟨err, ht, ho⟩ | ⟨s1, ht, _⟩
    · refine Or.inr ⟨some err, [], ht, fun e he => ?_⟩
      cases he
      exact ⟨rfl, ho⟩
    · exact Or.inr ⟨none, _, ht, fun e he => by cases he⟩
  · intro ref href
    have h1 : LocksFirst ((b.RemoveStack stack force).run W s) (.filestate ref)
        (fun err => (false, some err)) ∧ ((b.RemoveStack stack force).run W s).trace ≠ [] := by
      unfold localBackend.RemoveStack
      simp only [href]
      exact locksFirst_of_call W s _ _ _ (fun _ => rfl)
    have h2 : LocksFirst ((b.ImportDeployment stack deployment).run W s) (.filestate ref)
        (fun err => some err) ∧ ((b.ImportDeployment stack deployment).run W s).trace ≠ [] := by
      unfold localBackend.ImportDeployment
      simp only [href]
      exact locksFirst_of_call W s _ _ _ (fun _ => rfl)
    exact ⟨h1.1, h1.2, h2.1, h2.2⟩
  · intro err href
    unfold localBackend.RemoveStack localBackend.ImportDeployment
    simp only [href, Prog.run, and_self]
  · unfold localBackend.renameStack
    exact locksFirst_of_call W s _ _ _ (fun _ => rfl)
  · exact locksFirst_of_call W s _ _ _ (fun _ => rfl)
  · exact locksFirst_of_call W s _ _ _ (fun _ => rfl)
  · exact locksFirst_of_call W s _ _ _ (fun _ => rfl)
  · exact locksFirst_of_call W s _ _ _ (fun _ => rfl)
  · exact Prog.Calls.trace_ok _ W _ (apply_no_lock b _ stack op _ _) s

theorem lock_discipline_witness :
    LocksFirst ((exampleBackend.RemoveStack ⟨.filestate exampleStackRef⟩ false).run
        exampleLockedWorld ()) (.filestate exampleStackRef) (fun err => (false, some err)) ∧
      ((exampleBackend.RemoveStack ⟨.filestate exampleStackRef⟩ false).run
        exampleLockedWorld ()).trace ≠ [] :=
  ⟨((lock_discipline exampleLockedWorld () exampleBackend (.filestate exampleStackRef) [] none
      ⟨.filestate exampleStackRef⟩ false exampleStackRef exampleOtherStackRef ⟨3, []⟩ exampleOp
      []).2.1 exampleStackRef (by rfl)).1,
    ((lock_discipline exampleLockedWorld () exampleBackend (.filestate exampleStackRef) [] none
      ⟨.filestate exampleStackRef⟩ false exampleStackRef exampleOtherStackRef ⟨3, []⟩ exampleOp
      []).2.1 exampleStackRef (by rfl)).2.1⟩

/-! ## The backend: the forwarding of the engine events -/

/-- The calls of the forwarding loop of `apply` over the events that the
engine produced: for each event in order, the send to the display and then,
if the caller gave a channel, the send to the caller; at the end the close of
`eventsDone`. -/
theorem apply_forward_trace {σ : Type} (W : World σ) (callerEvents : Bool) :
    ∀ (events : List engine.Event) (s : σ),
      calls ((localBackend.apply.forward callerEvents events).run W s).trace
        = events.flatMap (fun e => Call.send .displayEvents e ::
            (if callerEvents then [Call.send .events e] else []))
          ++ [.close .eventsDone] := by
  intro events
  induction events with
  | nil => intro s; rfl
  | cons e rest ih =>
    intro s
    unfold localBackend.apply.forward
    cases callerEvents with
    | true =>
      simp only [Prog.run, calls, List.map_cons, if_true, List.flatMap_cons, List.cons_append,
        List.nil_append]
      have := ih (W.respond (.send .events e) (W.respond (.send .displayEvents e) s).2).2
      simp only [calls, if_true] at this
      rw [this]
    | false =>
      simp only [Prog.run, calls, List.map_cons, Bool.false_eq_true, if_false,
        List.flatMap_cons, List.cons_append, List.nil_append]
      have := ih (W.respond (.send .displayEvents e) s).2
      simp only [calls, Bool.false_eq_true, if_false] at this
      rw [this]

/-- C29: the forwarding loop of `apply`, as a function of the finite sequence
of events that the engine produced, in every world.  The sequence sent to the
display is the produced sequence; with a channel of the caller the sequence
sent to the caller is the produced sequence too, and each event is sent to the
display before it is sent to the caller; without one nothing is sent to the
caller.  The loop returns, and the close of `eventsDone`, its signal of
completion, is its last call, after every send, and its only close. -/
theorem apply_forward_delivers {σ : Type} (W : World σ) (s : σ) (callerEvents : Bool)
    (events : List engine.Event) :
    ((localBackend.apply.forward callerEvents events).run W s).out = .done () ∧
      delivered .displayEvents
        (calls ((localBackend.apply.forward callerEvents events).run W s).trace) = events ∧
      delivered .events
        (calls ((localBackend.apply.forward callerEvents events).run W s).trace)
          = (if callerEvents then events else []) ∧
      calls ((localBackend.apply.forward callerEvents events).run W s).trace
        = events.flatMap (fun e => Call.send .displayEvents e ::
            (if callerEvents then [Call.send .events e] else []))
          ++ [.close .eventsDone] ∧
      (∀ e ∈ events.flatMap (fun e => Call.send .displayEvents e ::
            (if callerEvents then [Call.send .events e] else [])), ∀ ch, e ≠ .close ch) := by
  refine ⟨?_, ?_, ?_, apply_forward_trace W callerEvents events s, ?_⟩
  · obtain ⟨u, hu⟩ := Prog.Returns.run_done W _ (apply_forward_returns callerEvents events) s
    rw [hu]
  · rw [apply_forward_trace]
    induction events with
    | nil => rfl
    | cons e rest ih =>
      cases callerEvents with
      | true =>
        simp only [delivered, if_true, List.flatMap_cons, List.cons_append, List.nil_append,
          List.filterMap_cons] at ih ⊢
        simp only [if_true, reduceCtorEq, if_false]
        rw [ih]
      | false =>
        simp only [delivered, Bool.false_eq_true, if_false, List.flatMap_cons, List.cons_append,
          List.nil_append, List.filterMap_cons] at ih ⊢
        simp only [if_true]
        rw [ih]
  · rw [apply_forward_trace]
    induction events with
    | nil => cases callerEvents <;> rfl
    | cons e rest ih =>
      cases callerEvents with
      | true =>
        simp only [delivered, if_true, List.flatMap_cons, List.cons_append, List.nil_append,
          List.filterMap_cons] at ih ⊢
        simp only [if_true, reduceCtorEq, if_false]
        rw [ih]
      | false =>
        simp only [delivered, Bool.false_eq_true, if_false, List.flatMap_cons, List.cons_append,
          List.nil_append, List.filterMap_cons] at ih ⊢
        simp only [reduceCtorEq, if_false]
        rw [ih]
  · intro c hc ch
    simp only [List.mem_flatMap, List.mem_cons] at hc
    obtain ⟨e, _, h | h⟩ := hc
    · rw [h]; simp
    · cases callerEvents with
      | true =>
        simp only [if_true, List.mem_singleton] at h
        rw [h]; simp
      | false => simp at h

/-! ## The backend: the migration of one stack -/

/-- C25, amended: `upgradeStack` for a legacy stack (a reference without
project), in every world.  Its first call reads the checkpoint.  If the
checkpoint has no snapshot, a snapshot without resources, or a snapshot whose
first resource has a URN that names no project, the result is the error "no
project found" and nothing else is called: no rename, the stack stays as it
is.  Otherwise (the URN of the first resource names a project) the stack is
renamed, by `renameStack`, from the legacy reference to the reference of the
project-scoped store with that project and the same stack name; the result is
the error of the rename, wrapped in "rename to ...", or no error.  If the read
of the checkpoint fails, its error is the result. -/
theorem upgradeStack_migrates {σ : Type} (W : World σ) (s : σ) (b : localBackend)
    (newStore : projectReferenceStore) (old : localBackendReference)
    (hold : old.project = []) :
    (∃ got rest, ((b.upgradeStack newStore old).run W s).trace
        = ⟨.getCheckpoint old, got⟩ :: rest) ∧
      (∀ err, (⟨.getCheckpoint old, .error err⟩ : Event)
          ∈ ((b.upgradeStack newStore old).run W s).trace →
        ((b.upgradeStack newStore old).run W s).out = .done (some err) ∧
        calls ((b.upgradeStack newStore old).run W s).trace = [.getCheckpoint old]) ∧
      (∀ chk, (⟨.getCheckpoint old, .ok chk⟩ : Event)
          ∈ ((b.upgradeStack newStore old).run W s).trace →
        (chk.Latest = none ∨ ∃ sn, chk.Latest = some sn ∧
          (sn.Resources = [] ∨ ∃ res rest, sn.Resources = res :: rest ∧ res.URN.Project = [])) →
        ((b.upgradeStack newStore old).run W s).out
          = .done (some (.new "no project found".toList)) ∧
        calls ((b.upgradeStack newStore old).run W s).trace = [.getCheckpoint old]) ∧
      (∀ chk sn res rest, (⟨.getCheckpoint old, .ok chk⟩ : Event)
          ∈ ((b.upgradeStack newStore old).run W s).trace →
        chk.Latest = some sn → sn.Resources = res :: rest → res.URN.Project ≠ [] →
        (newStore.newReference res.URN.Project old.name).project = res.URN.Project ∧
        (newStore.newReference res.URN.Project old.name).name = old.name ∧
        (newStore.newReference res.URN.Project old.name).store = .project newStore ∧
        ∃ s1, ((b.upgradeStack newStore old).run W s).trace
            = ⟨.getCheckpoint old, .ok chk⟩ ::
              ((b.renameStack old (newStore.newReference res.URN.Project old.name)).run
                W s1).trace ∧
          (((b.renameStack old (newStore.newReference res.URN.Project old.name)).run
              W s1).out = .done none →
            ((b.upgradeStack newStore old).run W s).out = .done none) ∧
          (∀ err, ((b.renameStack old (newStore.newReference res.URN.Project old.name)).run
              W s1).out = .done (some err) →
            ((b.upgradeStack newStore old).run W s).out
              = .done (some (.wrap ("rename to ".toList ++
                  (newStore.newReference res.URN.Project old.name).String) err)))) := by
  generalize hR : (b.upgradeStack newStore old).run W s = R
  unfold localBackend.upgradeStack at hR
  have hp : ¬ old.project ≠ [] := by simp [hold]
  simp only [hp, if_false, Prog.run] at hR
  rcases hg : W.respond (.getCheckpoint old) s with ⟨got, s1⟩
  rw [hg] at hR
  cases got with
  | error e =>
    simp only [Prog.run] at hR
    subst hR
    refine ⟨⟨_, _, rfl⟩, fun err h => ?_, fun chk h => ?_, fun chk sn res rest h => ?_⟩
    · simp only [List.mem_singleton] at h
      cases h
      exact ⟨rfl, rfl⟩
    · simp only [List.mem_singleton] at h
      cases h
    · simp only [List.mem_singleton] at h
      cases h
  | ok chk0 =>
    simp only [] at hR
    by_cases hproj : localBackend.upgradeStack.project chk0 = []
    · simp only [hproj, if_true, Prog.run] at hR
      subst hR
      refine ⟨⟨_, _, rfl⟩, fun err h => ?_, fun chk h _ => ?_, fun chk sn res rest h hl hr hne => ?_⟩
      · simp only [List.mem_singleton] at h
        cases h
      · exact ⟨rfl, rfl⟩
      · simp only [List.mem_singleton] at h
        cases h
        simp only [localBackend.upgradeStack.project, hl, hr] at hproj
        exact absurd hproj hne
    · simp only [hproj, if_false, Prog.run_bind] at hR
      have hrn := Prog.Calls.trace_ok _ W _ (renameStack_calls
        (fun c => ∀ r, c ≠ .getCheckpoint r)
        b old (newStore.newReference (localBackend.upgradeStack.project chk0) old.name)
        (by simp) (by simp) (by simp) (by simp) (by simp) (by simp) (by simp) (by simp)
        (by simp) (by simp)) s1
      have hshape : R.trace = ⟨.getCheckpoint old, .ok chk0⟩ ::
          ((b.renameStack old (newStore.newReference (localBackend.upgradeStack.project chk0)
            old.name)).run W s1).trace ∧
          (((b.renameStack old (newStore.newReference (localBackend.upgradeStack.project chk0)
              old.name)).run W s1).out = .done none → R.out = .done none) ∧
          (∀ err, ((b.renameStack old (newStore.newReference
              (localBackend.upgradeStack.project chk0) old.name)).run W s1).out
                = .done (some err) →
            R.out = .done (some (.wrap ("rename to ".toList ++
              (newStore.newReference (localBackend.upgradeStack.project chk0)
                old.name).String) err))) := by
        generalize (b.renameStack old (newStore.newReference
          (localBackend.upgradeStack.project chk0) old.name)).run W s1 = RN at hR
        cases hout : RN.out with
        | panicked msg =>
          simp only [hout] at hR
          subst hR
          exact ⟨rfl, fun h => (by cases h), fun err h => (by cases h)⟩
        | done a =>
          cases a with
          | none =>
            simp only [hout, Prog.run, List.append_nil] at hR
            subst hR
            exact ⟨rfl, fun _ => rfl, fun err h => (by cases h)⟩
          | some e =>
            simp only [hout, Prog.run, List.append_nil] at hR
            subst hR
            refine ⟨rfl, fun h => (by cases h), fun err h => ?_⟩
            cases h
            rfl
      obtain ⟨htr, hnone, hsome⟩ := hshape
      have hck : ∀ got, (⟨.getCheckpoint old, got⟩ : Event) ∈ R.trace → got = .ok chk0 := by
        intro got h
        rw [htr] at h
        rcases List.mem_cons.1 h with h | h
        · cases h; rfl
        · exact absurd rfl (hrn _ h old)
      refine ⟨⟨_, _, htr⟩, fun err h => ?_, fun chk h hno => ?_,
        fun chk sn res rest h hl hr hne => ?_⟩
      · cases hck _ h
      · exfalso
        cases hck _ h
        apply hproj
        rcases hno with hl | ⟨sn, hl, hr | ⟨res, rest, hr, hp⟩⟩
        · simp [localBackend.upgradeStack.project, hl]
        · simp [localBackend.upgradeStack.project, hl, hr]
        · simp [localBackend.upgradeStack.project, hl, hr, hp]
      · cases hck _ h
        have hp2 : localBackend.upgradeStack.project chk0 = res.URN.Project := by
          simp [localBackend.upgradeStack.project, hl, hr]
        rw [hp2] at htr hnone hsome
        exact ⟨rfl, rfl, rfl, s1, htr, hnone, hsome⟩

theorem upgradeStack_migrates_witness :
    ∃ s1, ((exampleBackend.upgradeStack exampleProjectStore exampleLegacyRef).run
          exampleCheckpointWorld ()).trace
        = ⟨.getCheckpoint exampleLegacyRef, .ok ⟨some exampleSnapshot⟩⟩ ::
          ((exampleBackend.renameStack exampleLegacyRef
            (exampleProjectStore.newReference "proj".toList exampleLegacyRef.name)).run
            exampleCheckpointWorld s1).trace ∧
      (((exampleBackend.renameStack exampleLegacyRef
          (exampleProjectStore.newReference "proj".toList exampleLegacyRef.name)).run
          exampleCheckpointWorld s1).out = .done none →
        ((exampleBackend.upgradeStack exampleProjectStore exampleLegacyRef).run
          exampleCheckpointWorld ()).out = .done none) ∧
      (∀ err, ((exampleBackend.renameStack exampleLegacyRef
          (exampleProjectStore.newReference "proj".toList exampleLegacyRef.name)).run
          exampleCheckpointWorld s1).out = .done (some err) →
        ((exampleBackend.upgradeStack exampleProjectStore exampleLegacyRef).run
          exampleCheckpointWorld ()).out
          = .done (some (.wrap ("rename to ".toList ++
              (exampleProjectStore.newReference "proj".toList exampleLegacyRef.name).String)
              err))) :=
  ((upgradeStack_migrates exampleCheckpointWorld () exampleBackend exampleProjectStore
    exampleLegacyRef rfl).2.2.2 ⟨some exampleSnapshot⟩ exampleSnapshot
      ⟨⟨"dev".toList, "proj".toList, "pulumi:pulumi:Stack".toList, "proj-dev".toList⟩, false⟩ []
      (List.Mem.head _) rfl rfl (by decide)).2.2.2

/-- C25 as stated fails: a legacy stack whose snapshot has two resources, the
first with a URN that names no project and the second of the project `proj`.
`upgradeStack` looks at the first resource only: the result is the error "no
project found", and the read of the checkpoint is its only call, so the stack
is not renamed. -/
theorem upgradeStack_first_resource_without_project :
    exampleUnnamedFirstSnapshot.Resources.length = 2 ∧
      ((exampleBackend.upgradeStack exampleProjectStore exampleLegacyRef).run
        exampleUnnamedFirstWorld ()).trace
        = [⟨.getCheckpoint exampleLegacyRef, .ok ⟨some exampleUnnamedFirstSnapshot⟩⟩] ∧
      ((exampleBackend.upgradeStack exampleProjectStore exampleLegacyRef).run
        exampleUnnamedFirstWorld ()).out = .done (some (.new "no project found".toList)) := by
  refine ⟨by rfl, by rfl, by rfl⟩

/-- The migration example: the calls of `upgradeStack` for the legacy stack
`dev` whose snapshot has a resource of the project `proj`. -/
theorem upgradeStack_example :
    calls ((exampleBackend.upgradeStack exampleProjectStore exampleLegacyRef).run
        exampleCheckpointWorld ()).trace
      = [.getCheckpoint exampleLegacyRef, .Lock (.filestate exampleLegacyRef),
          .getStack exampleLegacyRef, .stackPath exampleStackRef,
          .bucketExists ".pulumi/stacks/proj/dev.json".toList,
          .editRenameStack exampleSnapshot "dev".toList [],
          .saveStack exampleStackRef (some exampleSnapshot), .stackPath exampleLegacyRef,
          .backupTarget ".pulumi/stacks/dev.json".toList false,
          .renameHistory exampleLegacyRef exampleStackRef,
          .Unlock (.filestate exampleLegacyRef)] ∧
      ((exampleBackend.upgradeStack exampleProjectStore exampleLegacyRef).run
        exampleCheckpointWorld ()).out = .done none := by
  constructor <;> rfl

/-- C27 fails at a delete that answers not-found: in every world, when the
listing of the lock directory starts with a file and the delete of that file
answers with an error of the code `NotFound`, `CancelCurrentUpdate` returns no
error at once; the delete of the first file is its last call, so none of the
other listed objects is deleted. -/
theorem cancelCurrentUpdate_stops_at_not_found {σ : Type} (W : World σ) (s : σ)
    (b : localBackend) (stackRef : backend.StackReference) (bk : Bucket)
    (file : blob.ListObject) (rest : List blob.ListObject) (err : GoError) (tail : List Event)
    (hlist : listBucket bk (stackLockDir stackRef.FullyQualifiedName) = .ok (file :: rest))
    (hfile : file.IsDir = false)
    (htrace : ((b.CancelCurrentUpdate stackRef).run W s).trace
      = ⟨.bucket, bk⟩ :: ⟨.bucketDelete file.Key, some err⟩ :: tail)
    (hnf : gcerrors.Code err = gcerrors.ErrorCode.NotFound) :
    ((b.CancelCurrentUpdate stackRef).run W s).out = .done none ∧ tail = [] ∧
      calls ((b.CancelCurrentUpdate stackRef).run W s).trace
        = [.bucket, .bucketDelete file.Key] := by
  generalize hR : (b.CancelCurrentUpdate stackRef).run W s = R at htrace ⊢
  unfold localBackend.CancelCurrentUpdate at hR
  simp only [Prog.run] at hR
  rcases hb : W.respond .bucket s with ⟨bk2, s1⟩
  rw [hb] at hR
  simp only [] at hR
  have hbk : bk2 = bk := by
    rw [← hR] at htrace
    simp only [List.cons.injEq] at htrace
    have := htrace.1
    cases this
    rfl
  subst hbk
  simp only [hlist, localBackend.CancelCurrentUpdate.loop, hfile, Bool.false_eq_true, if_false,
    Prog.run] at hR
  rcases hd : W.respond (.bucketDelete file.Key) s1 with ⟨delErr, s2⟩
  rw [hd] at hR
  have hde : delErr = some err := by
    rw [← hR] at htrace
    simp only [List.cons.injEq] at htrace
    have := htrace.2.1
    cases this
    rfl
  subst hde
  simp only [hnf, if_true, Prog.run] at hR
  subst hR
  simp only [List.cons.injEq, true_and] at htrace
  exact ⟨rfl, htrace.symm, rfl⟩

theorem cancelCurrentUpdate_stops_at_not_found_witness :
    ((exampleBackend.CancelCurrentUpdate (.filestate exampleStackRef)).run raceWorld
        exampleLockKeys).out = .done none ∧
      calls ((exampleBackend.CancelCurrentUpdate (.filestate exampleStackRef)).run raceWorld
        exampleLockKeys).trace
        = [.bucket, .bucketDelete ".pulumi/locks/organization/proj/dev/a.json".toList] :=
  ⟨(cancelCurrentUpdate_stops_at_not_found raceWorld exampleLockKeys exampleBackend
      (.filestate exampleStackRef) (memBucket exampleLockKeys)
      ⟨".pulumi/locks/organization/proj/dev/a.json".toList, false⟩
      [⟨".pulumi/locks/organization/proj/dev/b.json".toList, false⟩]
      (.bucket ⟨"blob not found".toList, gcerrors.ErrorCode.NotFound⟩) []
      (by rfl) rfl (by rfl) (by decide)).1,
    (cancelCurrentUpdate_stops_at_not_found raceWorld exampleLockKeys exampleBackend
      (.filestate exampleStackRef) (memBucket exampleLockKeys)
      ⟨".pulumi/locks/organization/proj/dev/a.json".toList, false⟩
      [⟨".pulumi/locks/organization/proj/dev/b.json".toList, false⟩]
      (.bucket ⟨"blob not found".toList, gcerrors.ErrorCode.NotFound⟩) []
      (by rfl) rfl (by rfl) (by decide)).2.2⟩

/-- The race example: a bucket with two locks of `organization/proj/dev`.
Another process deletes the first lock right after the listing. The delete of
the first lock answers not-found, `CancelCurrentUpdate` returns no error, and
the second lock is still in the bucket. -/
theorem cancelCurrentUpdate_race_example :
    ((exampleBackend.CancelCurrentUpdate (.filestate exampleStackRef)).run raceWorld
        exampleLockKeys).out = .done none ∧
      ".pulumi/locks/organization/proj/dev/b.json".toList
        ∈ ((exampleBackend.CancelCurrentUpdate (.filestate exampleStackRef)).run raceWorld
          exampleLockKeys).state ∧
      ∀ e ∈ ((exampleBackend.CancelCurrentUpdate (.filestate exampleStackRef)).run raceWorld
          exampleLockKeys).trace,
        e.c ≠ .bucketDelete ".pulumi/locks/organization/proj/dev/b.json".toList := by
  refine ⟨rfl, by decide, ?_⟩
  intro e he
  have h2 : ((exampleBackend.CancelCurrentUpdate (.filestate exampleStackRef)).run raceWorld
      exampleLockKeys).trace
      = [⟨.bucket, memBucket exampleLockKeys⟩,
          ⟨.bucketDelete ".pulumi/locks/organization/proj/dev/a.json".toList,
            some (.bucket ⟨"blob not found".toList, gcerrors.ErrorCode.NotFound⟩)⟩] := by rfl
  rw [h2] at he
  simp only [List.mem_cons, List.not_mem_nil, or_false] at he
  rcases he with rfl | rfl
  · simp
  · simp only [ne_eq, Call.bucketDelete.injEq]
    decide

/-- C20 fails when another process works on the bucket: the lock directory of
`organization/proj/dev` holds the two locks `a.json` and `b.json`, and another
process deletes `a.json` right after the listing.  `CancelCurrentUpdate`
returns no error, yet afterwards the lock directory still lists the lock
`b.json`, which was never deleted. -/
theorem cancelCurrentUpdate_leaves_lock :
    listBucket (memBucket exampleLockKeys)
        (stackLockDir (backend.StackReference.filestate exampleStackRef).FullyQualifiedName)
      = .ok [⟨".pulumi/locks/organization/proj/dev/a.json".toList, false⟩,
          ⟨".pulumi/locks/organization/proj/dev/b.json".toList, false⟩] ∧
      ((exampleBackend.CancelCurrentUpdate (.filestate exampleStackRef)).run raceWorld
        exampleLockKeys).out = .done none ∧
      calls ((exampleBackend.CancelCurrentUpdate (.filestate exampleStackRef)).run raceWorld
        exampleLockKeys).trace
        = [.bucket, .bucketDelete ".pulumi/locks/organization/proj/dev/a.json".toList] ∧
      listBucket (memBucket ((exampleBackend.CancelCurrentUpdate
          (.filestate exampleStackRef)).run raceWorld exampleLockKeys).state)
        (stackLockDir (backend.StackReference.filestate exampleStackRef).FullyQualifiedName)
      = .ok [⟨".pulumi/locks/organization/proj/dev/b.json".toList, false⟩] := by
  refine ⟨by rfl, by rfl, by rfl, by rfl⟩

/-! ## Programs and runs: bounds on the number of calls -/

theorem Prog.Within.weaken {α : Type} (p : Prog α) : ∀ (n m : Nat), n ≤ m → p.Within n →
    p.Within m := by
  induction p with
  | ret a => intro _ _ _ _; trivial
  | gopanic msg => intro _ _ _ _; trivial
  | call c k ih =>
    intro n m hnm h
    exact ⟨by have := h.1; omega, fun r => ih r (n - 1) (m - 1) (by omega) (h.2 r)⟩

theorem Prog.Within.bind_within {α β : Type} (p : Prog α) (f : α → Prog β) (m : Nat)
    (hf : ∀ a, (f a).Within m) : ∀ n, p.Within n → (p.bind f).Within (n + m) := by
  induction p with
  | ret a => intro n _; exact Prog.Within.weaken _ m (n + m) (by omega) (hf a)
  | gopanic msg => intro _ _; trivial
  | call c k ih =>
    intro n h
    refine ⟨by have := h.1; omega, fun r => ?_⟩
    have := ih r (n - 1) (h.2 r)
    have h1 := h.1
    have e : n + m - 1 = n - 1 + m := by omega
    rw [e]
    exact this

theorem Prog.Within.deferred_within {α : Type} (p : Prog α) (cleanup : Prog Unit) (m : Nat)
    (hc : cleanup.Within m) : ∀ n, p.Within n → (p.deferred cleanup).Within (n + m) := by
  induction p with
  | ret a =>
    intro n _
    have := Prog.Within.bind_within cleanup (fun _ => (Prog.ret a : Prog α)) 0
      (fun _ => trivial) m hc
    exact Prog.Within.weaken _ (m + 0) (n + m) (by omega) this
  | gopanic msg =>
    intro n _
    have := Prog.Within.bind_within cleanup (fun _ => (Prog.gopanic msg : Prog α)) 0
      (fun _ => trivial) m hc
    exact Prog.Within.weaken _ (m + 0) (n + m) (by omega) this
  | call c k ih =>
    intro n h
    refine ⟨by have := h.1; omega, fun r => ?_⟩
    have := ih r (n - 1) (h.2 r)
    have h1 := h.1
    have e : n + m - 1 = n - 1 + m := by omega
    rw [e]
    exact this

theorem Prog.Returns.deferred_returns {α : Type} (p : Prog α) (cleanup : Prog Unit)
    (hp : p.Returns) (hc : cleanup.Returns) : (p.deferred cleanup).Returns := by
  induction p with
  | ret a => exact Prog.Returns.bind_returns cleanup _ hc (fun _ => trivial)
  | gopanic msg => exact absurd hp id
  | call c k ih => exact fun r => ih r (hp r)

/-! ## The backend: `renameStack` and `upgradeStack` return, after a bounded
number of calls -/

theorem renameStack_returns (b : localBackend) (oldRef newRef : localBackendReference) :
    (b.renameStack oldRef newRef).Returns := by
  unfold localBackend.renameStack
  intro lockErr
  cases lockErr with
  | some err => trivial
  | none =>
    refine Prog.Returns.deferred_returns _ _ ?_ (fun _ => trivial)
    intro got
    cases got with
    | error err => trivial
    | ok pr =>
      intro newPath hasExisting
      cases hasExisting with
      | error err => trivial
      | ok found =>
        cases found with
        | true => trivial
        | false =>
          have hsave : ∀ snap, (localBackend.renameStack.save b oldRef newRef snap).Returns := by
            intro snap saved
            cases saved with
            | error err => trivial
            | ok file => exact fun _ _ _ => trivial
          simp only []
          unfold localBackend.renameStack.rewrite
          cases pr.1 with
          | none => exact hsave none
          | some sn =>
            intro renamed
            simp only []
            cases renamed.1 with
            | some err => trivial
            | none => exact hsave _

theorem renameStack_within (b : localBackend) (oldRef newRef : localBackendReference) :
    (b.renameStack oldRef newRef).Within 10 := by
  unfold localBackend.renameStack
  refine ⟨by omega, fun lockErr => ?_⟩
  cases lockErr with
  | some err => trivial
  | none =>
    have hu : (b.Unlock (.filestate oldRef)).Within 1 := by
      unfold localBackend.Unlock
      exact ⟨by omega, fun _ => trivial⟩
    refine Prog.Within.deferred_within _ _ 1 hu 8 ?_
    refine ⟨by omega, fun got => ?_⟩
    cases got with
    | error err => trivial
    | ok pr =>
      refine ⟨by omega, fun newPath => ⟨by omega, fun hasExisting => ?_⟩⟩
      cases hasExisting with
      | error err => trivial
      | ok found =>
        cases found with
        | true => trivial
        | false =>
          have hsave : ∀ snap, (localBackend.renameStack.save b oldRef newRef snap).Within 4 := by
            intro snap
            refine ⟨by omega, fun saved => ?_⟩
            cases saved with
            | error err => trivial
            | ok file =>
              exact ⟨by omega, fun _ => ⟨by omega, fun _ => ⟨by omega, fun _ => trivial⟩⟩⟩
          simp only []
          unfold localBackend.renameStack.rewrite
          cases pr.1 with
          | none => exact Prog.Within.weaken _ 4 _ (by omega) (hsave none)
          | some sn =>
            refine ⟨by omega, fun renamed => ?_⟩
            simp only []
            cases renamed.1 with
            | some err => trivial
            | none => exact hsave _

/-- `upgradeStack` for a legacy stack is the read of the checkpoint, followed
by a program with `renameStack` at most. -/
theorem upgradeStack_eq_call (b : localBackend) (newStore : projectReferenceStore)
    (old : localBackendReference) (hold : old.project = []) :
    ∃ k : Except GoError apitype.CheckpointV3 → Prog (Option GoError),
      b.upgradeStack newStore old = .call (.getCheckpoint old) k ∧
      (∀ r, (k r).Returns) ∧ (∀ r, (k r).Within 10) ∧
      ∀ (ok : Call → Prop), (∀ r, ok (.Lock r)) → (∀ r, ok (.Unlock r)) →
        (∀ r, ok (.getStack r)) → (∀ r, ok (.stackPath r)) → (∀ key, ok (.bucketExists key)) →
        (∀ sn n p, ok (.editRenameStack sn n p)) → (∀ r sn, ok (.saveStack r sn)) →
        (∀ f keep, ok (.backupTarget f keep)) → (∀ r1 r2, ok (.renameHistory r1 r2)) →
        ∀ r, (k r).Calls ok := by
  unfold localBackend.upgradeStack
  have hp : ¬ old.project ≠ [] := by simp [hold]
  simp only [hp, if_false]
  refine ⟨_, rfl, fun got => ?_, fun got => ?_, fun ok h1 h2 h3 h4 h5 h6 h7 h8 h9 got => ?_⟩
  · cases got with
    | error err => trivial
    | ok chk =>
      simp only []
      split
      · trivial
      · refine Prog.Returns.bind_returns _ _ (renameStack_returns b _ _) (fun a => ?_)
        cases a <;> trivial
  · cases got with
    | error err => trivial
    | ok chk =>
      simp only []
      split
      · trivial
      · have := Prog.Within.bind_within (b.renameStack old
          (newStore.newReference (localBackend.upgradeStack.project chk) old.name))
          (fun renameErr => match renameErr with
            | some err => (Prog.ret (some (GoError.wrap ("rename to ".toList ++
                (newStore.newReference (localBackend.upgradeStack.project chk)
                  old.name).String) err)) : Prog (Option GoError))
            | none => .ret none) 0 (fun a => by cases a <;> trivial) 10
          (renameStack_within b _ _)
        exact this
  · cases got with
    | error err => trivial
    | ok chk =>
      simp only []
      split
      · trivial
      · refine Prog.Calls.bind_ok _ _ _ ?_ (fun a => ?_)
        · exact renameStack_calls ok b _ _ (h1 _) (h2 _) (h3 _) (h4 _) h5 (fun _ => h6 _ _ _)
            (fun _ => h7 _ _) (h4 _) (fun _ => h8 _ _) (h9 _ _)
        · cases a <;> trivial

/-! ## The backend: the workers of `Upgrade` -/

theorem forall2_get_some {α β : Type} {R : α → β → Prop} :
    ∀ {l1 : List α} {l2 : List β}, List.Forall₂ R l1 l2 → ∀ (j : Nat) (a : α),
      l1.get? j = some a → ∃ b, l2.get? j = some b ∧ R a b := by
  intro l1 l2 h
  induction h with
  | nil => intro j a hj; cases hj
  | cons hab _ ih =>
    intro j a hj
    cases j with
    | zero =>
      simp only [List.get?] at hj
      cases hj
      exact ⟨_, rfl, hab⟩
    | succ j => exact ih j a hj

theorem forall2_set {α β : Type} {R : α → β → Prop} :
    ∀ {l1 : List α} {l2 : List β}, List.Forall₂ R l1 l2 → ∀ (j : Nat) (a : α) (b : β),
      R a b → List.Forall₂ R (l1.set j a) (l2.set j b) := by
  intro l1 l2 h
  induction h with
  | nil => intro j a b _; exact List.Forall₂.nil
  | cons hab htl ih =>
    intro j a b hr
    cases j with
    | zero => exact List.Forall₂.cons hr htl
    | succ j => exact List.Forall₂.cons hab (ih j a b hr)

theorem sum_set_nat : ∀ (l : List Nat) (j c d : Nat), l.get? j = some c →
    (l.set j d).sum + c = l.sum + d := by
  intro l
  induction l with
  | nil => intro j c d h; cases h
  | cons x xs ih =>
    intro j c d h
    cases j with
    | zero =>
      simp only [List.get?] at h
      cases h
      simp only [List.set, List.sum_cons]
      omega
    | succ j =>
      have := ih j c d h
      simp only [List.set, List.sum_cons]
      omega

/-- The workers that the scheduler can pick are running. -/
theorem upgrade_live_mem (st : Upgrade.Pool) (j : Nat) (h : j ∈ st.live) :
    ∃ w, st.workers.get? j = some w ∧ w.live = true := by
  unfold Upgrade.Pool.live at h
  rw [List.mem_filter] at h
  obtain ⟨_, h2⟩ := h
  cases hg : st.workers.get? j with
  | none => rw [hg] at h2; cases h2
  | some w => rw [hg] at h2; exact ⟨w, rfl, h2⟩

/-- With no worker running, every worker has returned. -/
theorem upgrade_live_nil (st : Upgrade.Pool) (h : st.live = []) :
    ∀ (j : Nat) (w : Upgrade.Worker), st.workers.get? j = some w → w = .exited := by
  intro j w hj
  have hlt : j < st.workers.length := by
    rw [List.get?_eq_some] at hj
    exact hj.1
  by_contra hne
  have hl : w.live = true := by
    cases w with
    | exited => exact absurd rfl hne
    | claiming => rfl
    | upgrading old rest => rfl
  have : j ∈ st.live := by
    unfold Upgrade.Pool.live
    rw [List.mem_filter]
    exact ⟨List.mem_range.2 hlt, by rw [hj]; exact hl⟩
  rw [h] at this
  cases this

/-- The worker that the scheduler picks is one of the running workers. -/
theorem upgrade_pick_mem (i : Nat) (rest : List Nat) (pick : Nat) :
    (i :: rest).getD (pick % (rest.length + 1)) i ∈ i :: rest := by
  have hlt : pick % (rest.length + 1) < (i :: rest).length := by
    simp only [List.length_cons]
    exact Nat.mod_lt _ (by omega)
  rw [List.getD_eq_getElem _ _ hlt]
  exact List.getElem_mem _

/-- One step of a running worker returns the next state of the pool, and the
budgets left are less by one at least. -/
theorem upgrade_step_done {σ : Type} (W : World σ) (s : σ) (b : localBackend)
    (newStore : projectReferenceStore) (olds : List localBackendReference)
    (hold : ∀ old ∈ olds, old.project = []) (j : Nat) (st : Upgrade.Pool) (costs : List Nat)
    (hinv : List.Forall₂ Upgrade.Worker.Budget st.workers costs)
    (w : Upgrade.Worker) (hw : st.workers.get? j = some w) (hlive : w.live = true) :
    ∃ st2 costs2, ((Upgrade.step b newStore olds j st).run W s).out = .done st2 ∧
      List.Forall₂ Upgrade.Worker.Budget st2.workers costs2 ∧
      costs2.sum + 14 * (olds.length - st2.nextIdx) + 1
        ≤ costs.sum + 14 * (olds.length - st.nextIdx) := by
  obtain ⟨c, hc, hb⟩ := forall2_get_some hinv j w hw
  unfold Upgrade.step
  rw [hw]
  cases w with
  | exited => cases hlive
  | claiming =>
    simp only []
    have hc1 : 1 ≤ c := hb
    cases hget : olds.get? st.nextIdx with
    | none =>
      refine ⟨_, costs.set j 0, rfl, forall2_set hinv j _ _ trivial, ?_⟩
      have := sum_set_nat costs j c 0 hc
      simp only
      omega
    | some old =>
      have hmem : old ∈ olds := List.get?_mem hget
      obtain ⟨k, hk, hret, hwith, _⟩ := upgradeStack_eq_call b newStore old (hold old hmem)
      have hlt : st.nextIdx < olds.length := by
        rw [List.get?_eq_some] at hget
        exact hget.1
      refine ⟨_, costs.set j 13, rfl, forall2_set hinv j _ _ ?_, ?_⟩
      · rw [hk]
        exact ⟨hret, 11, ⟨by omega, hwith⟩, by omega⟩
      · have := sum_set_nat costs j c 13 hc
        simp only
        omega
  | upgrading old rest =>
    simp only []
    obtain ⟨hret, d, hd, hdc⟩ := hb
    cases rest with
    | ret a =>
      cases a with
      | none =>
        refine ⟨_, costs.set j 1, rfl, forall2_set hinv j _ _ (Nat.le_refl 1), ?_⟩
        have := sum_set_nat costs j c 1 hc
        simp only
        omega
      | some err =>
        refine ⟨_, costs.set j 1, rfl, forall2_set hinv j _ _ (Nat.le_refl 1), ?_⟩
        have := sum_set_nat costs j c 1 hc
        simp only [Prog.run]
        omega
    | gopanic msg => exact absurd hret id
    | call c0 k =>
      refine ⟨_, costs.set j (c - 1), rfl, forall2_set hinv j _ _ ?_, ?_⟩
      · exact ⟨hret _, d - 1, hd.2 _, by have := hd.1; omega⟩
      · have := sum_set_nat costs j c (c - 1) hc
        have := hd.1
        simp only [Prog.run]
        omega

/-- The workers of `Upgrade` finish: with enough steps for the budgets of the
workers and for the stacks that are not yet taken, the pool returns. -/
theorem upgrade_pool_done {σ : Type} (W : World σ) (b : localBackend)
    (newStore : projectReferenceStore) (olds : List localBackendReference)
    (hold : ∀ old ∈ olds, old.project = []) :
    ∀ (fuel : Nat) (s : σ) (st : Upgrade.Pool) (costs : List Nat),
      List.Forall₂ Upgrade.Worker.Budget st.workers costs →
      costs.sum + 14 * (olds.length - st.nextIdx) ≤ fuel →
      ∃ fin, ((Upgrade.pool b newStore olds fuel st).run W s).out = .done fin := by
  intro fuel
  induction fuel with
  | zero =>
    intro s st costs hinv hle
    have hlive : st.live = [] := by
      cases hl : st.live with
      | nil => rfl
      | cons i rest =>
        exfalso
        obtain ⟨w, hw, hwl⟩ := upgrade_live_mem st i (by rw [hl]; exact List.mem_cons_self _ _)
        obtain ⟨c, hc, hb⟩ := forall2_get_some hinv i w hw
        have := sum_set_nat costs i c 0 hc
        cases w with
        | exited => cases hwl
        | claiming =>
          have h1 : 1 ≤ c := hb
          omega
        | upgrading old rest =>
          obtain ⟨_, d, _, hdc⟩ := hb
          omega
    unfold Upgrade.pool
    simp only [hlive, if_true]
    exact ⟨st, rfl⟩
  | succ fuel ih =>
    intro s st costs hinv hle
    unfold Upgrade.pool
    cases hl : st.live with
    | nil => exact ⟨st, rfl⟩
    | cons i rest =>
      simp only [Prog.run, Prog.run_bind]
      obtain ⟨w, hw, hwl⟩ := upgrade_live_mem st _ (by
        rw [hl]
        exact upgrade_pick_mem i rest (W.respond (.sched (rest.length + 1)) s).1)
      obtain ⟨st2, costs2, hout, hinv2, hle2⟩ := upgrade_step_done W
        (W.respond (.sched (rest.length + 1)) s).2 b newStore olds hold _ st costs hinv w hw hwl
      rw [hout]
      simp only []
      exact ih _ st2 costs2 hinv2 (by omega)

theorem sum_map_set {α M : Type} [AddCommMonoid M] (f : α → M) :
    ∀ (l : List α) (j : Nat) (w x : α), l.get? j = some w →
      ∃ A, (l.map f).sum = A + f w ∧ ((l.set j x).map f).sum = A + f x := by
  intro l
  induction l with
  | nil => intro j w x h; cases h
  | cons y ys ih =>
    intro j w x h
    cases j with
    | zero =>
      simp only [List.get?] at h
      cases h
      refine ⟨(ys.map f).sum, ?_, ?_⟩
      · simp only [List.map_cons, List.sum_cons]
        exact add_comm _ _
      · simp only [List.set, List.map_cons, List.sum_cons]
        exact add_comm _ _
    | succ j =>
      obtain ⟨A, h1, h2⟩ := ih j w x h
      refine ⟨f y + A, ?_, ?_⟩
      · simp only [List.map_cons, List.sum_cons, h1, add_assoc]
      · simp only [List.set, List.map_cons, List.sum_cons, h2, add_assoc]

/-- The accounting of one step of a running worker.  Every event has a value,
every worker the value of the events that it will still make, every stack
that is not yet taken the value of the events of its migration; a step keeps
the sum of the values of its events and of what is still to come. -/
theorem upgrade_step_account {σ M : Type} [AddCommMonoid M] (W : World σ) (s : σ)
    (b : localBackend) (newStore : projectReferenceStore) (olds : List localBackendReference)
    (val : Event → M) (wval : Upgrade.Worker → M) (ival : localBackendReference → M)
    (U : Nat → M) (Good : Upgrade.Worker → Prop)
    (hclaim : wval .claiming = 0) (hexit : wval .exited = 0)
    (hgc : Good .claiming) (hge : Good .exited)
    (hstart : ∀ old ∈ olds, Good (.upgrading old (b.upgradeStack newStore old)) ∧
      wval (.upgrading old (b.upgradeStack newStore old)) = ival old)
    (hcall : ∀ old c k, Good (.upgrading old (.call c k)) → ∀ r,
      Good (.upgrading old (k r)) ∧
      wval (.upgrading old (.call c k)) = val ⟨c, r⟩ + wval (.upgrading old (k r)))
    (hnone : ∀ old u, Good (.upgrading old (.ret none)) →
      wval (.upgrading old (.ret none)) + U u = U (u + 1))
    (hsome : ∀ old err, Good (.upgrading old (.ret (some err))) →
      wval (.upgrading old (.ret (some err)))
        = val ⟨.diag .Warningf (.skippingStack old err), ()⟩)
    (j : Nat) (st : Upgrade.Pool) (hgood : ∀ w ∈ st.workers, Good w)
    (hex : (.exited ∈ st.workers ∨ st.workers = []) → olds.length ≤ st.nextIdx)
    (w : Upgrade.Worker) (hw : st.workers.get? j = some w) (hlive : w.live = true)
    (st2 : Upgrade.Pool)
    (hout : ((Upgrade.step b newStore olds j st).run W s).out = .done st2) :
    (∀ w ∈ st2.workers, Good w) ∧
      ((.exited ∈ st2.workers ∨ st2.workers = []) → olds.length ≤ st2.nextIdx) ∧
      (((Upgrade.step b newStore olds j st).run W s).trace.map val).sum
          + (U st2.upgraded + (st2.workers.map wval).sum
            + ((olds.drop st2.nextIdx).map ival).sum)
        = U st.upgraded + (st.workers.map wval).sum + ((olds.drop st.nextIdx).map ival).sum := by
  have hne : st.workers ≠ [] := by
    intro h
    rw [h] at hw
    cases hw
  have hgw : Good w := hgood w (List.get?_mem hw)
  have hset : ∀ (x : Upgrade.Worker), Good x → ∀ y ∈ st.workers.set j x, Good y := by
    intro x hx y hy
    rcases List.mem_or_eq_of_mem_set hy with h | h
    · exact hgood y h
    · rw [h]; exact hx
  have hsetne : ∀ (x : Upgrade.Worker), st.workers.set j x ≠ [] := by
    intro x h
    apply hne
    have := congrArg List.length h
    simp only [List.length_set, List.length_nil] at this
    exact List.length_eq_zero.1 this
  have hexset : ∀ (x : Upgrade.Worker) (n : Nat), x ≠ .exited → st.nextIdx ≤ n →
      (.exited ∈ st.workers.set j x ∨ st.workers.set j x = []) → olds.length ≤ n := by
    intro x n hx hn h
    rcases h with h | h
    · rcases List.mem_or_eq_of_mem_set h with h | h
      · exact Nat.le_trans (hex (Or.inl h)) hn
      · exact absurd h.symm hx
    · exact absurd h (hsetne x)
  unfold Upgrade.step at hout ⊢
  rw [hw] at hout ⊢
  cases w with
  | exited => cases hlive
  | claiming =>
    simp only [] at hout ⊢
    cases hget : olds.get? st.nextIdx with
    | none =>
      rw [hget] at hout
      simp only [Prog.run] at hout ⊢
      cases hout
      obtain ⟨A, h1, h2⟩ := sum_map_set wval st.workers j .claiming .exited hw
      have hN : olds.length ≤ st.nextIdx := by
        rw [List.get?_eq_none] at hget
        exact hget
      refine ⟨hset _ hge, fun _ => Nat.le_succ_of_le hN, ?_⟩
      simp only [List.map_nil, List.sum_nil, zero_add]
      rw [h1, h2, hclaim, hexit, List.drop_eq_nil_of_le hN,
        List.drop_eq_nil_of_le (Nat.le_succ_of_le hN)]
    | some old =>
      rw [hget] at hout
      simp only [Prog.run] at hout ⊢
      cases hout
      have hmem : old ∈ olds := List.get?_mem hget
      obtain ⟨hg, hv⟩ := hstart old hmem
      obtain ⟨A, h1, h2⟩ := sum_map_set wval st.workers j .claiming
        (.upgrading old (b.upgradeStack newStore old)) hw
      have hlt : st.nextIdx < olds.length := by
        rw [List.get?_eq_some] at hget
        exact hget.1
      have hdrop : olds.drop st.nextIdx = old :: olds.drop (st.nextIdx + 1) := by
        rw [List.drop_eq_getElem_cons hlt]
        congr 1
        rw [List.get?_eq_some] at hget
        obtain ⟨h, hh⟩ := hget
        simpa using hh
      refine ⟨hset _ hg, hexset _ _ (by simp) (Nat.le_succ _), ?_⟩
      simp only [List.map_nil, List.sum_nil, zero_add]
      rw [h1, h2, hclaim, hv, hdrop, List.map_cons, List.sum_cons]
      abel
  | upgrading old rest =>
    simp only [] at hout ⊢
    cases rest with
    | ret a =>
      cases a with
      | none =>
        simp only [Prog.run] at hout ⊢
        cases hout
        obtain ⟨A, h1, h2⟩ := sum_map_set wval st.workers j (.upgrading old (.ret none))
          .claiming hw
        refine ⟨hset _ hgc, hexset _ _ (by simp) (Nat.le_refl _), ?_⟩
        simp only [List.map_nil, List.sum_nil, zero_add]
        rw [h1, h2, hclaim, ← hnone old st.upgraded hgw]
        abel
      | some err =>
        simp only [Prog.run] at hout ⊢
        cases hout
        obtain ⟨A, h1, h2⟩ := sum_map_set wval st.workers j (.upgrading old (.ret (some err)))
          .claiming hw
        refine ⟨hset _ hgc, hexset _ _ (by simp) (Nat.le_refl _), ?_⟩
        simp only [List.map_cons, List.map_nil, List.sum_cons, List.sum_nil, add_zero]
        rw [h1, h2, hclaim, hsome old err hgw]
        abel
    | gopanic msg =>
      simp only [Prog.run] at hout
      cases hout
    | call c k =>
      simp only [Prog.run] at hout ⊢
      cases hout
      obtain ⟨hg, hv⟩ := hcall old c k hgw (W.respond c s).1
      obtain ⟨A, h1, h2⟩ := sum_map_set wval st.workers j (.upgrading old (.call c k))
        (.upgrading old (k (W.respond c s).1)) hw
      refine ⟨hset _ hg, hexset _ _ (by simp) (Nat.le_refl _), ?_⟩
      simp only [List.map_cons, List.map_nil, List.sum_cons, List.sum_nil, add_zero]
      rw [h1, h2, hv]
      abel

/-- The accounting of the workers of `Upgrade`: when the pool returns, the sum
of the values of its events is the sum of what was still to come from the
workers and from the stacks that were not yet taken. -/
theorem upgrade_pool_account {σ M : Type} [AddCommMonoid M] (W : World σ)
    (b : localBackend) (newStore : projectReferenceStore) (olds : List localBackendReference)
    (val : Event → M) (wval : Upgrade.Worker → M) (ival : localBackendReference → M)
    (U : Nat → M) (Good : Upgrade.Worker → Prop)
    (hsched : ∀ n r, val ⟨.sched n, r⟩ = 0)
    (hclaim : wval .claiming = 0) (hexit : wval .exited = 0)
    (hgc : Good .claiming) (hge : Good .exited)
    (hstart : ∀ old ∈ olds, Good (.upgrading old (b.upgradeStack newStore old)) ∧
      wval (.upgrading old (b.upgradeStack newStore old)) = ival old)
    (hcall : ∀ old c k, Good (.upgrading old (.call c k)) → ∀ r,
      Good (.upgrading old (k r)) ∧
      wval (.upgrading old (.call c k)) = val ⟨c, r⟩ + wval (.upgrading old (k r)))
    (hnone : ∀ old u, Good (.upgrading old (.ret none)) →
      wval (.upgrading old (.ret none)) + U u = U (u + 1))
    (hsome : ∀ old err, Good (.upgrading old (.ret (some err))) →
      wval (.upgrading old (.ret (some err)))
        = val ⟨.diag .Warningf (.skippingStack old err), ()⟩) :
    ∀ (fuel : Nat) (s : σ) (st : Upgrade.Pool), (∀ w ∈ st.workers, Good w) →
      ((.exited ∈ st.workers ∨ st.workers = []) → olds.length ≤ st.nextIdx) →
      ∀ fin, ((Upgrade.pool b newStore olds fuel st).run W s).out = .done fin →
        (((Upgrade.pool b newStore olds fuel st).run W s).trace.map val).sum + U fin.upgraded
          = U st.upgraded + (st.workers.map wval).sum
            + ((olds.drop st.nextIdx).map ival).sum := by
  have hend : ∀ st : Upgrade.Pool, st.live = [] →
      ((.exited ∈ st.workers ∨ st.workers = []) → olds.length ≤ st.nextIdx) →
      U st.upgraded = U st.upgraded + (st.workers.map wval).sum
        + ((olds.drop st.nextIdx).map ival).sum := by
    intro st hl hex
    have hall : ∀ w ∈ st.workers, w = .exited := by
      intro w hw
      obtain ⟨n, hn⟩ := List.get?_of_mem hw
      exact upgrade_live_nil st hl n w hn
    have hN : olds.length ≤ st.nextIdx := by
      cases hws : st.workers with
      | nil => exact hex (Or.inr hws)
      | cons w ws =>
        apply hex
        left
        have := hall w (by rw [hws]; exact List.mem_cons_self _ _)
        rw [hws, this]
        exact List.mem_cons_self _ _
    have hz : (st.workers.map wval).sum = 0 := by
      apply List.sum_eq_zero
      intro x hx
      obtain ⟨w, hw, rfl⟩ := List.mem_map.1 hx
      rw [hall w hw, hexit]
    rw [hz, List.drop_eq_nil_of_le hN]
    simp
  intro fuel
  induction fuel with
  | zero =>
    intro s st _ hex fin hout
    unfold Upgrade.pool at hout ⊢
    by_cases hl : st.live = []
    · simp only [hl, if_true, Prog.run] at hout ⊢
      cases hout
      simpa using hend st hl hex
    · simp only [hl, if_false, Prog.run] at hout
      cases hout
  | succ fuel ih =>
    intro s st hgood hex fin hout
    unfold Upgrade.pool at hout ⊢
    cases hl : st.live with
    | nil =>
      rw [hl] at hout
      simp only [Prog.run] at hout ⊢
      cases hout
      simpa using hend st hl hex
    | cons i rest =>
      rw [hl] at hout
      simp only [Prog.run, Prog.run_bind] at hout ⊢
      obtain ⟨w, hw, hwl⟩ := upgrade_live_mem st _ (by
        rw [hl]
        exact upgrade_pick_mem i rest (W.respond (.sched (rest.length + 1)) s).1)
      cases hso : ((Upgrade.step b newStore olds
          ((i :: rest).getD ((W.respond (.sched (rest.length + 1)) s).1 % (rest.length + 1)) i)
          st).run W (W.respond (.sched (rest.length + 1)) s).2).out with
      | panicked msg =>
        rw [hso] at hout
        cases hout
      | done st2 =>
        obtain ⟨hg2, hex2, hacc⟩ := upgrade_step_account W
          (W.respond (.sched (rest.length + 1)) s).2 b newStore olds val wval ival U Good
          hclaim hexit hgc hge hstart hcall hnone hsome _ st hgood hex w hw hwl st2 hso
        rw [hso] at hout
        simp only [] at hout ⊢
        have hih := ih _ st2 hg2 hex2 fin hout
        simp only [List.map_cons, List.map_append, List.sum_cons, List.sum_append, hsched,
          zero_add]
        rw [add_assoc, hih, hacc]

/-- The calls of one step of a worker of `Upgrade`: those of `upgradeStack`
and the warning about a skipped stack. -/
theorem upgrade_step_footprint {σ : Type} (W : World σ) (s : σ) (b : localBackend)
    (newStore : projectReferenceStore) (olds : List localBackendReference) (ok : Call → Prop)
    (hwarn : ∀ old err, ok (.diag .Warningf (.skippingStack old err)))
    (hup : ∀ old ∈ olds, (b.upgradeStack newStore old).Calls ok)
    (i : Nat) (st : Upgrade.Pool)
    (hinv : ∀ old rest, Upgrade.Worker.upgrading old rest ∈ st.workers → rest.Calls ok) :
    (∀ e ∈ ((Upgrade.step b newStore olds i st).run W s).trace, ok e.c) ∧
      ∀ st2, ((Upgrade.step b newStore olds i st).run W s).out = .done st2 →
        st2.workers.length = st.workers.length ∧
        ∀ old rest, Upgrade.Worker.upgrading old rest ∈ st2.workers → rest.Calls ok := by
  have hset : ∀ (w : Upgrade.Worker),
      (∀ old rest, w = .upgrading old rest → rest.Calls ok) →
      ∀ old rest, Upgrade.Worker.upgrading old rest ∈ st.workers.set i w → rest.Calls ok := by
    intro w hw old rest hmem
    rcases List.mem_or_eq_of_mem_set hmem with h | h
    · exact hinv old rest h
    · exact hw old rest h.symm
  unfold Upgrade.step
  cases hget : st.workers.get? i with
  | none =>
    simp only [Prog.run]
    exact ⟨by simp, fun st2 h => by cases h; exact ⟨rfl, hinv⟩⟩
  | some w =>
    cases w with
    | exited =>
      simp only [Prog.run]
      exact ⟨by simp, fun st2 h => by cases h; exact ⟨rfl, hinv⟩⟩
    | claiming =>
      simp only []
      cases hnext : olds.get? st.nextIdx with
      | none =>
        simp only [Prog.run]
        refine ⟨by simp, fun st2 h => ?_⟩
        cases h
        exact ⟨List.length_set _ _ _, hset _ (fun _ _ h => by cases h)⟩
      | some old =>
        simp only [Prog.run]
        refine ⟨by simp, fun st2 h => ?_⟩
        cases h
        refine ⟨List.length_set _ _ _, hset _ (fun old2 rest2 h => ?_)⟩
        cases h
        exact hup old (List.get?_mem hnext)
    | upgrading old rest =>
      have hrest := hinv old rest (List.get?_mem hget)
      simp only []
      cases rest with
      | ret a =>
        cases a with
        | none =>
          simp only [Prog.run]
          refine ⟨by simp, fun st2 h => ?_⟩
          cases h
          exact ⟨List.length_set _ _ _, hset _ (fun _ _ h => by cases h)⟩
        | some err =>
          simp only [Prog.run]
          refine ⟨?_, fun st2 h => ?_⟩
          · intro e he
            simp only [List.mem_singleton] at he
            rw [he]
            exact hwarn old err
          · cases h
            exact ⟨List.length_set _ _ _, hset _ (fun _ _ h => by cases h)⟩
      | gopanic msg =>
        simp only [Prog.run]
        exact ⟨by simp, fun st2 h => by cases h⟩
      | call c k =>
        simp only [Prog.run]
        refine ⟨?_, fun st2 h => ?_⟩
        · intro e he
          simp only [List.mem_singleton] at he
          rw [he]
          exact hrest.1
        · cases h
          refine ⟨List.length_set _ _ _, hset _ (fun old2 rest2 h => ?_)⟩
          cases h
          exact hrest.2 _

/-- The calls of the workers of `Upgrade`: the scheduler, asked to pick one of
at least one and at most as many goroutines as there are workers, the calls of
`upgradeStack` and the warnings about skipped stacks. -/
theorem upgrade_pool_footprint {σ : Type} (W : World σ) (b : localBackend)
    (newStore : projectReferenceStore) (olds : List localBackendReference) (ok : Call → Prop)
    (numWorkers : Nat)
    (hsched : ∀ n, 0 < n → n ≤ numWorkers → ok (.sched n))
    (hwarn : ∀ old err, ok (.diag .Warningf (.skippingStack old err)))
    (hup : ∀ old ∈ olds, (b.upgradeStack newStore old).Calls ok) (fuel : Nat) :
    ∀ (s : σ) (st : Upgrade.Pool), st.workers.length = numWorkers →
      (∀ old rest, Upgrade.Worker.upgrading old rest ∈ st.workers → rest.Calls ok) →
      ∀ e ∈ ((Upgrade.pool b newStore olds fuel st).run W s).trace, ok e.c := by
  induction fuel with
  | zero =>
    intro s st _ _ e he
    unfold Upgrade.pool at he
    split at he <;> simp [Prog.run] at he
  | succ fuel ih =>
    intro s st hlen hinv e he
    unfold Upgrade.pool at he
    split at he
    · simp [Prog.run] at he
    · rename_i i rest hlive
      have hle : rest.length + 1 ≤ numWorkers := by
        have h1 : st.live.length ≤ (List.range st.workers.length).length := by
          unfold Upgrade.Pool.live
          exact List.length_filter_le _ _
        rw [hlive, List.length_range, hlen] at h1
        simpa using h1
      simp only [Prog.run, Prog.run_bind] at he
      have hstep := upgrade_step_footprint W (W.respond (.sched (rest.length + 1)) s).2 b newStore
        olds ok hwarn hup
        ((i :: rest).getD ((W.respond (.sched (rest.length + 1)) s).1 % (rest.length + 1)) i)
        st hinv
      generalize (Upgrade.step b newStore olds
        ((i :: rest).getD ((W.respond (.sched (rest.length + 1)) s).1 % (rest.length + 1)) i)
        st).run W (W.respond (.sched (rest.length + 1)) s).2 = S at he hstep
      cases hout : S.out with
      | panicked msg =>
        rw [hout] at he
        simp only [List.mem_cons] at he
        rcases he with rfl | he
        · exact hsched _ (by omega) hle
        · exact hstep.1 e he
      | done st2 =>
        rw [hout] at he
        simp only [List.mem_cons, List.mem_append] at he
        rcases he with rfl | he | he
        · exact hsched _ (by omega) hle
        · exact hstep.1 e he
        · exact ih S.state st2 (by rw [(hstep.2 st2 hout).1, hlen]) (hstep.2 st2 hout).2 e he

/-- The references that the legacy store lists have no project. -/
theorem legacy_listReferences_project (l : legacyReferenceStore)
    (refs : List localBackendReference) (h : l.ListReferences = .ok refs) :
    ∀ r ∈ refs, r.project = [] := by
  unfold legacyReferenceStore.ListReferences at h
  cases hl : listBucket l.bucket StacksDir with
  | error err => rw [hl] at h; cases h
  | ok files =>
    rw [hl] at h
    cases h
    intro r hr
    obtain ⟨file, _, hf⟩ := List.mem_filterMap.1 hr
    unfold legacyReferenceStore.ListReferences.step at hf
    split at hf
    · cases hf
    · cases hn : stackNameOfObject (objectName file) with
      | none => rw [hn] at hf; cases hf
      | some name =>
        rw [hn] at hf
        cases hf
        rfl

theorem forall2_budget_replicate (n : Nat) :
    List.Forall₂ Upgrade.Worker.Budget (List.replicate n Upgrade.Worker.claiming)
      (List.replicate n 1) := by
  induction n with
  | zero => exact List.Forall₂.nil
  | succ n ih => exact List.Forall₂.cons (Nat.le_refl 1) ih

/-- The run of `Upgrade` after the metadata file is written: the legacy stacks
are listed, the number of workers is the smaller of `GOMAXPROCS` and the number
of stacks, the workers run and finish, the number of upgraded stacks is
reported, and the result is no error and the backend with the project-scoped
store. -/
theorem upgrade_run {σ : Type} (W : World σ) (s : σ) (b : localBackend)
    (hmeta : (⟨.metaWriteTo ⟨1⟩, none⟩ : Event) ∈ (b.Upgrade.run W s).trace) :
    ∃ (bk : Bucket) (olds : List localBackendReference) (procs : Nat) (s3 : σ)
        (fin : Upgrade.Pool),
      (newLegacyReferenceStore bk).ListReferences = .ok olds ∧
      (∀ old ∈ olds, old.project = []) ∧
      ((Upgrade.pool b (newProjectReferenceStore b.bucket (fun _ => b.currentProject)) olds
          (Upgrade.stepBound olds.length (if olds.length < procs then olds.length else procs))
          ⟨0, 0, List.replicate (if olds.length < procs then olds.length else procs)
            .claiming⟩).run W s3).out = .done fin ∧
      (b.Upgrade.run W s).trace
        = ⟨.bucket, bk⟩ :: ⟨.metaWriteTo ⟨1⟩, none⟩ :: ⟨.GOMAXPROCS, procs⟩ ::
          (((Upgrade.pool b (newProjectReferenceStore b.bucket (fun _ => b.currentProject)) olds
            (Upgrade.stepBound olds.length (if olds.length < procs then olds.length else procs))
            ⟨0, 0, List.replicate (if olds.length < procs then olds.length else procs)
              .claiming⟩).run W s3).trace
            ++ [⟨.diag .Infoerrf (.upgraded fin.upgraded), ()⟩]) ∧
      (b.Upgrade.run W s).out
        = .done (none,
          { b with store := .project (newProjectReferenceStore b.bucket fun _ => b.currentProject) })
    := by
  generalize hR : b.Upgrade.run W s = R at hmeta ⊢
  unfold localBackend.Upgrade at hR
  simp only [Prog.run] at hR
  rcases h1 : W.respond .bucket s with ⟨bk, s1⟩
  rw [h1] at hR
  simp only [] at hR
  cases hl : (newLegacyReferenceStore bk).ListReferences with
  | error err =>
    simp only [hl, Prog.run] at hR
    subst hR
    simp at hmeta
  | ok olds =>
    simp only [hl, Prog.run] at hR
    rcases h2 : W.respond (.metaWriteTo ⟨1⟩) s1 with ⟨writeErr, s2⟩
    rw [h2] at hR
    cases writeErr with
    | some werr =>
      simp only [Prog.run] at hR
      subst hR
      simp at hmeta
    | none =>
      simp only [Prog.run, Prog.run_bind] at hR
      rcases h3 : W.respond .GOMAXPROCS s2 with ⟨procs, s3⟩
      rw [h3] at hR
      simp only [] at hR
      have holds := legacy_listReferences_project _ olds hl
      obtain ⟨fin, hfin⟩ := upgrade_pool_done W b
        (newProjectReferenceStore b.bucket (fun _ => b.currentProject)) olds holds
        (Upgrade.stepBound olds.length (if olds.length < procs then olds.length else procs)) s3
        ⟨0, 0, List.replicate (if olds.length < procs then olds.length else procs) .claiming⟩
        (List.replicate (if olds.length < procs then olds.length else procs) 1)
        (forall2_budget_replicate _)
        (by
          simp only [List.sum_replicate, smul_eq_mul, Upgrade.stepBound]
          omega)
      refine ⟨bk, olds, procs, s3, fin, hl, holds, hfin, ?_, ?_⟩
      · rw [← hR, hfin]
      · rw [← hR, hfin]

theorem checkpointReads_sum (trace : List Event) :
    (trace.map (fun e : Event =>
      match e.c with
      | .getCheckpoint old => ({old} : Multiset localBackendReference)
      | _ => 0)).sum = (checkpointReads trace : Multiset localBackendReference) := by
  induction trace with
  | nil => rfl
  | cons e rest ih =>
    obtain ⟨c, r⟩ := e
    simp only [List.map_cons, List.sum_cons, ih, checkpointReads, List.filterMap_cons]
    cases c
    case getCheckpoint old => simp only [Multiset.singleton_add, Multiset.cons_coe]
    all_goals simp only [zero_add]

theorem skipWarnings_sum (trace : List Event) :
    (trace.map (fun e : Event =>
      match e.c with
      | .diag .Warningf (.skippingStack _ _) => 1
      | _ => 0)).sum = skipWarnings trace := by
  induction trace with
  | nil => rfl
  | cons e rest ih =>
    obtain ⟨c, r⟩ := e
    simp only [List.map_cons, List.sum_cons, ih, skipWarnings, List.filter_cons]
    cases c
    case diag sev m =>
      cases sev <;> cases m <;>
        first
        | (simp only [if_true, List.length_cons]; omega)
        | simp only [zero_add, Bool.false_eq_true, if_false]
    all_goals simp only [zero_add, Bool.false_eq_true, if_false]

theorem sum_map_singleton (l : List localBackendReference) :
    (l.map (fun old => ({old} : Multiset localBackendReference))).sum
      = (l : Multiset localBackendReference) := by
  induction l with
  | nil => rfl
  | cons a rest ih =>
    simp only [List.map_cons, List.sum_cons, ih]
    rfl

/-- When the workers of `Upgrade` have returned, the checkpoints that were
read are those of the legacy stacks, each once, and every stack was either
counted as upgraded or warned about. -/
theorem upgrade_pool_reads {σ : Type} (W : World σ) (b : localBackend)
    (newStore : projectReferenceStore) (olds : List localBackendReference)
    (hold : ∀ old ∈ olds, old.project = []) (numWorkers : Nat)
    (hworkers : numWorkers = 0 → olds = []) (fuel : Nat) (s : σ) (fin : Upgrade.Pool)
    (hout : ((Upgrade.pool b newStore olds fuel
      ⟨0, 0, List.replicate numWorkers .claiming⟩).run W s).out = .done fin) :
    (checkpointReads ((Upgrade.pool b newStore olds fuel
        ⟨0, 0, List.replicate numWorkers .claiming⟩).run W s).trace).Perm olds ∧
      skipWarnings ((Upgrade.pool b newStore olds fuel
        ⟨0, 0, List.replicate numWorkers .claiming⟩).run W s).trace + fin.upgraded
        = olds.length := by
  have hgood0 : ∀ (Good : Upgrade.Worker → Prop), Good .claiming →
      ∀ w ∈ List.replicate numWorkers Upgrade.Worker.claiming, Good w := by
    intro Good hg w hw
    rw [List.eq_of_mem_replicate hw]
    exact hg
  have hex0 : (Upgrade.Worker.exited ∈ List.replicate numWorkers Upgrade.Worker.claiming ∨
      List.replicate numWorkers Upgrade.Worker.claiming = []) → olds.length ≤ 0 := by
    rintro (h | h)
    · have := List.eq_of_mem_replicate h
      cases this
    · have hz : numWorkers = 0 := by
        have := congrArg List.length h
        simpa using this
      rw [hworkers hz]
      exact Nat.le_refl _
  constructor
  · -- the reads of the checkpoints
    have h := @upgrade_pool_account σ (Multiset localBackendReference) _ W b newStore olds
      (fun e : Event =>
        match e.c with
        | .getCheckpoint old => ({old} : Multiset localBackendReference)
        | _ => 0)
      (fun w : Upgrade.Worker =>
        match w with
        | .upgrading _ (.call (.getCheckpoint o) _) => ({o} : Multiset localBackendReference)
        | _ => 0)
      (fun old => {old}) (fun _ => 0)
      (fun w : Upgrade.Worker =>
        match w with
        | .upgrading _ (.call _ k) => ∀ r, (k r).Calls (fun c => ∀ r, c ≠ .getCheckpoint r)
        | _ => True)
      (fun _ _ => rfl) rfl rfl trivial trivial
      (by
        intro old ho
        obtain ⟨k, hk, _, _, hc⟩ := upgradeStack_eq_call b newStore old (hold old ho)
        rw [hk]
        exact ⟨hc _ (by simp) (by simp) (by simp) (by simp) (by simp) (by simp) (by simp)
          (by simp) (by simp), rfl⟩)
      (by
        intro old c k hg r
        have hkr : (k r).Calls (fun c => ∀ r, c ≠ .getCheckpoint r) := hg r
        constructor
        · cases hk : k r with
          | ret a => trivial
          | gopanic msg => trivial
          | call c2 k2 =>
            rw [hk] at hkr
            exact hkr.2
        · have hz : (match Upgrade.Worker.upgrading old (k r) with
              | .upgrading _ (.call (.getCheckpoint o) _) =>
                ({o} : Multiset localBackendReference)
              | _ => 0) = 0 := by
            cases hk : k r with
            | ret a => rfl
            | gopanic msg => rfl
            | call c2 k2 =>
              rw [hk] at hkr
              have := hkr.1
              split
              · rename_i heq
                cases heq
                exact absurd rfl (this _)
              · rfl
          simp only [hz, add_zero]
          cases c <;> rfl)
      (fun _ _ _ => rfl) (fun _ _ _ => rfl) fuel s ⟨0, 0, List.replicate numWorkers .claiming⟩
      (hgood0 _ trivial) hex0 fin hout
    rw [checkpointReads_sum] at h
    simp only [add_zero, zero_add, List.drop_zero] at h
    have hz : (List.map (fun w : Upgrade.Worker =>
        match w with
        | .upgrading _ (.call (.getCheckpoint o) _) => ({o} : Multiset localBackendReference)
        | _ => 0) (List.replicate numWorkers Upgrade.Worker.claiming)).sum = 0 := by
      apply List.sum_eq_zero
      intro x hx
      obtain ⟨w, hw, rfl⟩ := List.mem_map.1 hx
      rw [List.eq_of_mem_replicate hw]
    rw [hz, zero_add, sum_map_singleton] at h
    exact Multiset.coe_eq_coe.1 h
  · -- every stack is counted or warned about
    have h := @upgrade_pool_account σ Nat _ W b newStore olds
      (fun e : Event =>
        match e.c with
        | .diag .Warningf (.skippingStack _ _) => 1
        | _ => 0)
      (fun w : Upgrade.Worker =>
        match w with
        | .upgrading _ _ => 1
        | _ => 0)
      (fun _ => 1) (fun u => u)
      (fun w : Upgrade.Worker =>
        match w with
        | .upgrading _ rest =>
          rest.Calls (fun c => ∀ o e, c ≠ .diag .Warningf (.skippingStack o e))
        | _ => True)
      (fun _ _ => rfl) rfl rfl trivial trivial
      (by
        intro old ho
        obtain ⟨k, hk, _, _, hc⟩ := upgradeStack_eq_call b newStore old (hold old ho)
        rw [hk]
        exact ⟨⟨by simp, hc _ (by simp) (by simp) (by simp) (by simp) (by simp) (by simp)
          (by simp) (by simp) (by simp)⟩, rfl⟩)
      (by
        intro old c k hg r
        have hok : ∀ o e, c ≠ .diag .Warningf (.skippingStack o e) := hg.1
        refine ⟨hg.2 r, ?_⟩
        have hz : (match (⟨c, r⟩ : Event).c with
            | .diag .Warningf (.skippingStack _ _) => 1
            | _ => 0) = 0 := by
          split
          · rename_i heq
            exact absurd heq (hok _ _)
          · rfl
        simp only [hz, zero_add])
      (fun _ u _ => Nat.add_comm 1 u) (fun _ _ _ => rfl) fuel s
      ⟨0, 0, List.replicate numWorkers .claiming⟩
      (hgood0 _ trivial) hex0 fin hout
    rw [skipWarnings_sum] at h
    simp only [List.drop_zero, List.map_replicate, List.map_const', List.sum_replicate,
      smul_eq_mul, Nat.mul_zero, Nat.mul_one, Nat.zero_add, Nat.add_zero] at h
    exact h

/-- After the lock, `renameStack` makes the calls of the load, of the check of
the destination, of the rewrite and of the unlock only. -/
theorem renameStack_after_lock (ok : Call → Prop) (b : localBackend)
    (oldRef newRef : localBackendReference) (hu : ok (.Unlock (.filestate oldRef)))
    (hg : ok (.getStack oldRef)) (hp : ok (.stackPath newRef)) (he : ∀ k, ok (.bucketExists k))
    (h1 : ∀ sn, ok (.editRenameStack sn newRef.name [])) (h2 : ∀ sn, ok (.saveStack newRef sn))
    (h3 : ok (.stackPath oldRef)) (h4 : ∀ f, ok (.backupTarget f false))
    (h5 : ok (.renameHistory oldRef newRef)) :
    ∃ k : Option GoError → Prog (Option GoError),
      b.renameStack oldRef newRef = .call (.Lock (.filestate oldRef)) k ∧
      ∀ r, (k r).Calls ok := by
  unfold localBackend.renameStack
  refine ⟨_, rfl, fun r => ?_⟩
  cases r with
  | some err => trivial
  | none =>
    refine Prog.Calls.deferred _ _ _ ⟨hg, fun r => ?_⟩ ⟨hu, fun _ => trivial⟩
    cases r with
    | error err => trivial
    | ok pr =>
      refine ⟨hp, fun _ => ⟨he _, fun r => ?_⟩⟩
      cases r with
      | error err => trivial
      | ok found =>
        cases found with
        | true => trivial
        | false => exact renameStack_rewrite_calls ok b oldRef newRef pr.1 h1 h2 h3 h4 h5

/-- The steps of `upgradeStack` for a legacy stack: the checkpoint is read;
without a project in it nothing else is called; with a project the old stack
is locked, and neither a lock nor a read of a checkpoint follows. -/
theorem upgradeStack_steps (b : localBackend) (newStore : projectReferenceStore)
    (old : localBackendReference) (hold : old.project = []) :
    ∃ k : Except GoError apitype.CheckpointV3 → Prog (Option GoError),
      b.upgradeStack newStore old = .call (.getCheckpoint old) k ∧
      (∀ err, k (.error err) = .ret (some err)) ∧
      (∀ chk, localBackend.upgradeStack.project chk = [] →
        k (.ok chk) = .ret (some (.new "no project found".toList))) ∧
      ∀ chk, localBackend.upgradeStack.project chk ≠ [] →
        ∃ k2 : Option GoError → Prog (Option GoError),
          k (.ok chk) = .call (.Lock (.filestate old)) k2 ∧
          ∀ r, (k2 r).Calls (fun c => (∀ o, c ≠ .getCheckpoint o) ∧ ∀ o, c ≠ .Lock o) := by
  unfold localBackend.upgradeStack
  have hp : ¬ old.project ≠ [] := by simp [hold]
  simp only [hp, if_false]
  refine ⟨_, rfl, fun _ => rfl, fun chk hc => ?_, fun chk hc => ?_⟩
  · simp only [hc, if_true]
  · simp only [hc, if_false]
    obtain ⟨k0, hk0, hcalls⟩ := renameStack_after_lock
      (fun c => (∀ o, c ≠ .getCheckpoint o) ∧ ∀ o, c ≠ .Lock o) b old
      (newStore.newReference (localBackend.upgradeStack.project chk) old.name)
      (by simp) (by simp) (by simp) (by simp) (by simp) (by simp) (by simp) (by simp) (by simp)
    rw [hk0]
    refine ⟨_, rfl, fun r => ?_⟩
    refine Prog.Calls.bind_ok _ _ _ (hcalls r) (fun a => ?_)
    cases a <;> trivial

theorem locked_sum (trace : List Event) :
    (trace.map (fun e : Event =>
      match e with
      | ⟨.getCheckpoint old, .ok chk⟩ =>
        if localBackend.upgradeStack.project chk = [] then
          ({old} : Multiset localBackendReference) else 0
      | ⟨.getCheckpoint old, .error _⟩ => {old}
      | ⟨.Lock (.filestate old), _⟩ => {old}
      | _ => 0)).sum + (checkpointsWithProject trace : Multiset localBackendReference)
      = (checkpointReads trace : Multiset localBackendReference) + (locked trace : Multiset _) := by
  induction trace with
  | nil => rfl
  | cons e rest ih =>
    simp only [List.map_cons, List.sum_cons, checkpointsWithProject, checkpointReads, locked,
      List.filterMap_cons] at ih ⊢
    obtain ⟨c, r⟩ := e
    cases c
    case getCheckpoint old =>
      cases r with
      | error err =>
        simp only [← Multiset.cons_coe, ← Multiset.singleton_add]
        rw [add_assoc, ih, add_assoc]
      | ok chk =>
        by_cases hp : localBackend.upgradeStack.project chk = []
        · simp only [hp, if_true, ← Multiset.cons_coe, ← Multiset.singleton_add]
          rw [add_assoc, ih, add_assoc]
        · simp only [hp, if_false, ← Multiset.cons_coe, ← Multiset.singleton_add, zero_add]
          rw [add_assoc, ← ih]
          exact add_left_comm _ _ _
    case Lock ref =>
      cases ref with
      | filestate old =>
        simp only [← Multiset.cons_coe, ← Multiset.singleton_add]
        rw [add_assoc, ih, add_left_comm]
      | foreign name =>
        simp only [zero_add]
        exact ih
    all_goals
      simp only [zero_add]
      exact ih

theorem upgrade_orderly_of_plain (old : localBackendReference) (rest : Prog (Option GoError))
    (h : rest.Calls Call.plain) :
    (Upgrade.Worker.upgrading old rest).Orderly ∧ (Upgrade.Worker.upgrading old rest).owed = 0 := by
  cases rest with
  | ret a => exact ⟨trivial, rfl⟩
  | gopanic msg => exact ⟨trivial, rfl⟩
  | call c k =>
    cases c
    case getCheckpoint o => exact absurd rfl (h.1.1 o)
    case Lock ref => exact absurd rfl (h.1.2 ref)
    all_goals exact ⟨h, rfl⟩

/-- When the workers of `Upgrade` have returned, the stacks that were locked
are the stacks whose checkpoint named a project, each once. -/
theorem upgrade_pool_locked {σ : Type} (W : World σ) (b : localBackend)
    (newStore : projectReferenceStore) (olds : List localBackendReference)
    (hold : ∀ old ∈ olds, old.project = []) (numWorkers : Nat)
    (hworkers : numWorkers = 0 → olds = []) (fuel : Nat) (s : σ) (fin : Upgrade.Pool)
    (hout : ((Upgrade.pool b newStore olds fuel
      ⟨0, 0, List.replicate numWorkers .claiming⟩).run W s).out = .done fin) :
    (locked ((Upgrade.pool b newStore olds fuel
        ⟨0, 0, List.replicate numWorkers .claiming⟩).run W s).trace).Perm
      (checkpointsWithProject ((Upgrade.pool b newStore olds fuel
        ⟨0, 0, List.replicate numWorkers .claiming⟩).run W s).trace) := by
  have hreads := (upgrade_pool_reads W b newStore olds hold numWorkers hworkers fuel s fin hout).1
  have hex0 : (Upgrade.Worker.exited ∈ List.replicate numWorkers Upgrade.Worker.claiming ∨
      List.replicate numWorkers Upgrade.Worker.claiming = []) → olds.length ≤ 0 := by
    rintro (h | h)
    · have := List.eq_of_mem_replicate h
      cases this
    · have hz : numWorkers = 0 := by
        have := congrArg List.length h
        simpa using this
      rw [hworkers hz]
      exact Nat.le_refl _
  have h := @upgrade_pool_account σ (Multiset localBackendReference) _ W b newStore olds
    (fun e : Event =>
      match e with
      | ⟨.getCheckpoint old, .ok chk⟩ =>
        if localBackend.upgradeStack.project chk = [] then
          ({old} : Multiset localBackendReference) else 0
      | ⟨.getCheckpoint old, .error _⟩ => {old}
      | ⟨.Lock (.filestate old), _⟩ => {old}
      | _ => 0)
    Upgrade.Worker.owed (fun old => {old}) (fun _ => 0) Upgrade.Worker.Orderly
    (fun _ _ => rfl) rfl rfl trivial trivial
    (by
      intro old ho
      obtain ⟨k, hk, herr, hnp, hp⟩ := upgradeStack_steps b newStore old (hold old ho)
      rw [hk]
      refine ⟨⟨rfl, fun err => ?_, fun chk hc => ?_, hp⟩, rfl⟩
      · rw [herr]
        trivial
      · rw [hnp chk hc]
        trivial)
    (by
      intro old c k hg r
      cases c
      case getCheckpoint o =>
        obtain ⟨rfl, herr, hnp, hp⟩ := hg
        cases r with
        | error err =>
          obtain ⟨h1, h2⟩ := upgrade_orderly_of_plain o _ (herr err)
          refine ⟨h1, ?_⟩
          rw [h2]
          rfl
        | ok chk =>
          by_cases hc : localBackend.upgradeStack.project chk = []
          · obtain ⟨h1, h2⟩ := upgrade_orderly_of_plain o _ (hnp chk hc)
            refine ⟨h1, ?_⟩
            rw [h2]
            simp only [hc, if_true, add_zero]
            rfl
          · obtain ⟨k2, hk2, hplain⟩ := hp chk hc
            rw [hk2]
            refine ⟨⟨rfl, hplain⟩, ?_⟩
            simp only [hc, if_false, zero_add]
            rfl
      case Lock ref =>
        obtain ⟨rfl, hplain⟩ := hg
        obtain ⟨h1, h2⟩ := upgrade_orderly_of_plain old _ (hplain r)
        refine ⟨h1, ?_⟩
        rw [h2]
        rfl
      all_goals
        obtain ⟨h1, h2⟩ := upgrade_orderly_of_plain old _ (hg.2 r)
        refine ⟨h1, ?_⟩
        rw [h2]
        rfl)
    (fun _ _ _ => rfl) (fun _ _ _ => rfl) fuel s ⟨0, 0, List.replicate numWorkers .claiming⟩
    (by
      intro w hw
      rw [List.eq_of_mem_replicate hw]
      trivial)
    hex0 fin hout
  simp only [add_zero, zero_add, List.drop_zero] at h
  have hz : (List.map Upgrade.Worker.owed
      (List.replicate numWorkers Upgrade.Worker.claiming)).sum = 0 := by
    apply List.sum_eq_zero
    intro x hx
    obtain ⟨w, hw, rfl⟩ := List.mem_map.1 hx
    rw [List.eq_of_mem_replicate hw]
    rfl
  rw [hz, zero_add, sum_map_singleton] at h
  have hsum := locked_sum ((Upgrade.pool b newStore olds fuel
    ⟨0, 0, List.replicate numWorkers .claiming⟩).run W s).trace
  rw [h, Multiset.coe_eq_coe.2 hreads] at hsum
  exact Multiset.coe_eq_coe.1 (add_left_cancel hsum).symm

/-- A successful run of `Upgrade` in which `runtime.GOMAXPROCS` answers a
positive number: the checkpoints read are those of the listed legacy stacks,
each once; every stack is counted as upgraded or warned about; the stacks
locked are those whose checkpoint named a project; and the scheduler only ever
chooses among at least one and at most `min procs (len olds)` workers. -/
theorem upgrade_account {σ : Type} (W : World σ) (s : σ) (b : localBackend)
    (hmeta : (⟨.metaWriteTo ⟨1⟩, none⟩ : Event) ∈ (b.Upgrade.run W s).trace) (procs : Nat)
    (hprocs : (⟨.GOMAXPROCS, procs⟩ : Event) ∈ (b.Upgrade.run W s).trace) (hpos : 0 < procs) :
    ∃ (bk : Bucket) (olds : List localBackendReference) (upgraded : Nat),
      (⟨.bucket, bk⟩ : Event) ∈ (b.Upgrade.run W s).trace ∧
      (newLegacyReferenceStore bk).ListReferences = .ok olds ∧
      (⟨.diag .Infoerrf (.upgraded upgraded), ()⟩ : Event) ∈ (b.Upgrade.run W s).trace ∧
      (checkpointReads (b.Upgrade.run W s).trace).Perm olds ∧
      skipWarnings (b.Upgrade.run W s).trace + upgraded = olds.length ∧
      (locked (b.Upgrade.run W s).trace).Perm (checkpointsWithProject (b.Upgrade.run W s).trace) ∧
      ∀ n r, (⟨.sched n, r⟩ : Event) ∈ (b.Upgrade.run W s).trace →
        0 < n ∧ n ≤ procs ∧ n ≤ olds.length := by
  obtain ⟨bk, olds, procs2, s3, fin, hl, hold, hpool, htrace, _⟩ := upgrade_run W s b hmeta
  have hfoot := upgrade_pool_footprint W b
    (newProjectReferenceStore b.bucket (fun _ => b.currentProject)) olds
    (fun c => c ≠ .GOMAXPROCS ∧ c ≠ .bucket ∧ (∀ m, c ≠ .diag .Infoerrf m) ∧
      ∀ n, c = .sched n → 0 < n ∧ n ≤ (if olds.length < procs2 then olds.length else procs2))
    (if olds.length < procs2 then olds.length else procs2)
    (fun n h1 h2 => ⟨by simp, by simp, by simp, fun m hm => by cases hm; exact ⟨h1, h2⟩⟩)
    (fun _ _ => ⟨by simp, by simp, by simp, by simp⟩)
    (by
      intro old ho
      obtain ⟨k, hk, _, _, hc⟩ := upgradeStack_eq_call b _ old (hold old ho)
      rw [hk]
      exact ⟨⟨by simp, by simp, by simp, by simp⟩,
        hc _ (by simp) (by simp) (by simp) (by simp) (by simp) (by simp) (by simp) (by simp)
          (by simp)⟩)
    (Upgrade.stepBound olds.length (if olds.length < procs2 then olds.length else procs2)) s3
    ⟨0, 0, List.replicate (if olds.length < procs2 then olds.length else procs2) .claiming⟩
    (by simp)
    (by
      intro old rest h
      have := List.eq_of_mem_replicate h
      cases this)
  have hp2 : procs = procs2 := by
    rw [htrace] at hprocs
    simp only [List.mem_cons, List.mem_append, List.not_mem_nil, or_false] at hprocs
    rcases hprocs with h | h | h | h | h
    · cases h
    · cases h
    · cases h
      rfl
    · exact absurd rfl (hfoot _ h).1
    · cases h
  subst hp2
  have hworkers : (if olds.length < procs then olds.length else procs) = 0 → olds = [] := by
    intro h
    split at h
    · exact List.length_eq_zero.1 h
    · omega
  obtain ⟨hreads, hskip⟩ := upgrade_pool_reads W b _ olds hold _ hworkers _ s3 fin hpool
  have hlocked := upgrade_pool_locked W b _ olds hold _ hworkers _ s3 fin hpool
  refine ⟨bk, olds, fin.upgraded, ?_, hl, ?_, ?_, ?_, ?_, ?_⟩
  · rw [htrace]
    exact List.mem_cons_self _ _
  · rw [htrace]
    exact List.Mem.tail _ (List.Mem.tail _ (List.Mem.tail _
      (List.mem_append_right _ (List.mem_singleton.2 rfl))))
  · rw [htrace]
    simpa [checkpointReads, List.filterMap_cons, List.filterMap_append] using hreads
  · rw [htrace]
    simpa [skipWarnings, List.filter_cons, List.filter_append] using hskip
  · rw [htrace]
    simpa [locked, checkpointsWithProject, List.filterMap_cons, List.filterMap_append]
      using hlocked
  · intro n r h
    rw [htrace] at h
    simp only [List.mem_cons, List.mem_append, List.not_mem_nil, or_false] at h
    rcases h with h | h | h | h | h
    · cases h
    · cases h
    · cases h
    · have := (hfoot _ h).2.2.2 n rfl
      constructor
      · exact this.1
      · have h2 := this.2
        split at h2 <;> constructor <;> omega
    · cases h

theorem mem_checkpointReads (trace : List Event) (old : localBackendReference)
    (h : old ∈ checkpointReads trace) : ∃ r, (⟨.getCheckpoint old, r⟩ : Event) ∈ trace := by
  unfold checkpointReads at h
  obtain ⟨e, he, hsome⟩ := List.mem_filterMap.1 h
  obtain ⟨c, r⟩ := e
  cases c
  case getCheckpoint o =>
    simp only [Option.some.injEq] at hsome
    subst hsome
    exact ⟨r, he⟩
  all_goals cases hsome

/-- C24: once the legacy stacks are listed and the metadata file is written
(the write answers no error), `Upgrade` returns no error and the backend with
the project-scoped store as its store, in every world: whatever the reads of
the checkpoints, the locks, the renames and the scheduler answer.  And when
`runtime.GOMAXPROCS` answers a positive number, `upgradeStack` is started for
every listed stack (its checkpoint is read), whatever happens to the other
stacks, and every listed stack ends in a warning or in the count reported at
the end. -/
theorem upgrade_item_failures_not_fatal {σ : Type} (W : World σ) (s : σ) (b : localBackend)
    (hmeta : (⟨.metaWriteTo ⟨1⟩, none⟩ : Event) ∈ (b.Upgrade.run W s).trace) :
    (b.Upgrade.run W s).out
      = .done (none,
        { b with store := .project (newProjectReferenceStore b.bucket fun _ => b.currentProject) })
    ∧ ∀ procs, (⟨.GOMAXPROCS, procs⟩ : Event) ∈ (b.Upgrade.run W s).trace → 0 < procs →
      ∃ (bk : Bucket) (olds : List localBackendReference) (upgraded : Nat),
        (⟨.bucket, bk⟩ : Event) ∈ (b.Upgrade.run W s).trace ∧
        (newLegacyReferenceStore bk).ListReferences = .ok olds ∧
        (∀ old ∈ olds, ∃ r, (⟨.getCheckpoint old, r⟩ : Event) ∈ (b.Upgrade.run W s).trace) ∧
        (⟨.diag .Infoerrf (.upgraded upgraded), ()⟩ : Event) ∈ (b.Upgrade.run W s).trace ∧
        skipWarnings (b.Upgrade.run W s).trace + upgraded = olds.length := by
  constructor
  · obtain ⟨_, _, _, _, _, _, _, _, _, hout⟩ := upgrade_run W s b hmeta
    exact hout
  · intro procs hprocs hpos
    obtain ⟨bk, olds, upgraded, hb, hl, hrep, hreads, hskip, _, _⟩ :=
      upgrade_account W s b hmeta procs hprocs hpos
    exact ⟨bk, olds, upgraded, hb, hl,
      fun old ho => mem_checkpointReads _ old (hreads.symm.subset ho), hrep, hskip⟩

theorem upgrade_item_failures_not_fatal_witness :
    (⟨.metaWriteTo ⟨1⟩, none⟩ : Event)
        ∈ (exampleBackend.Upgrade.run exampleBrokenUpgradeWorld ()).trace ∧
      (exampleBackend.Upgrade.run exampleBrokenUpgradeWorld ()).out
        = .done (none, { exampleBackend with
            store := .project (newProjectReferenceStore exampleBackend.bucket
              fun _ => exampleBackend.currentProject) }) ∧
      ∃ (bk : Bucket) (olds : List localBackendReference) (upgraded : Nat),
        (⟨.bucket, bk⟩ : Event) ∈ (exampleBackend.Upgrade.run exampleBrokenUpgradeWorld ()).trace ∧
        (newLegacyReferenceStore bk).ListReferences = .ok olds ∧
        (∀ old ∈ olds, ∃ r, (⟨.getCheckpoint old, r⟩ : Event)
          ∈ (exampleBackend.Upgrade.run exampleBrokenUpgradeWorld ()).trace) ∧
        (⟨.diag .Infoerrf (.upgraded upgraded), ()⟩ : Event)
          ∈ (exampleBackend.Upgrade.run exampleBrokenUpgradeWorld ()).trace ∧
        skipWarnings (exampleBackend.Upgrade.run exampleBrokenUpgradeWorld ()).trace + upgraded
          = olds.length :=
  ⟨List.Mem.tail _ (List.Mem.head _),
    (upgrade_item_failures_not_fatal exampleBrokenUpgradeWorld () exampleBackend
      (List.Mem.tail _ (List.Mem.head _))).1,
    (upgrade_item_failures_not_fatal exampleBrokenUpgradeWorld () exampleBackend
      (List.Mem.tail _ (List.Mem.head _))).2 8
      (List.Mem.tail _ (List.Mem.tail _ (List.Mem.head _))) (by decide)⟩

/-- The upgrade example in which no checkpoint can be read: both stacks are
tried and skipped, zero stacks are reported as upgraded, and `Upgrade` returns
no error. -/
theorem upgrade_broken_example :
    (checkpointReads (exampleBackend.Upgrade.run exampleBrokenUpgradeWorld ()).trace).map
        (fun r => r.name) = ["a".toList, "b".toList] ∧
      skipWarnings (exampleBackend.Upgrade.run exampleBrokenUpgradeWorld ()).trace = 2 ∧
      locked (exampleBackend.Upgrade.run exampleBrokenUpgradeWorld ()).trace = [] ∧
      ((exampleBackend.Upgrade.run exampleBrokenUpgradeWorld ()).trace.getLast?).map (fun e => e.c)
        = some (.diag .Infoerrf (.upgraded 0)) ∧
      (exampleBackend.Upgrade.run exampleBrokenUpgradeWorld ()).out
        = .done (none, { exampleBackend with
            store := .project (newProjectReferenceStore exampleBackend.bucket
              fun _ => exampleBackend.currentProject) }) := by
  refine ⟨?_, ?_, ?_, ?_, ?_⟩ <;> rfl

/-! ## The backend: what the workers of `Upgrade` write -/

theorem sum_set_add {M : Type} [AddCommMonoid M] (l : List M) (j : Nat) (m x : M)
    (h : l.get? j = some m) : ∃ A, l.sum = A + m ∧ (l.set j x).sum = A + x := by
  obtain ⟨A, h1, h2⟩ := sum_map_set (fun y : M => y) l j m x h
  simp only [List.map_id_fun', id_eq] at h1 h2
  exact ⟨A, h1, h2⟩

/-- The ledger of one step of a running worker.  Every worker has a pending
amount, events have a credit and a debit; a step that is a call either keeps
credit plus pending equal to debit plus pending, or, when the event is a
failure, drops something. -/
theorem upgrade_step_ledger {σ M : Type} [AddCommMonoid M] (W : World σ) (s : σ)
    (b : localBackend) (newStore : projectReferenceStore) (olds : List localBackendReference)
    (credit debit : Event → M) (fails : Event → Bool) (Inv : Upgrade.Worker → M → Prop)
    (hclaim : Inv .claiming 0) (hexit : Inv .exited 0)
    (hzero : ∀ m, Inv .claiming m → m = 0)
    (hstart : ∀ old ∈ olds, Inv (.upgrading old (b.upgradeStack newStore old)) 0)
    (hcall : ∀ old c k m, Inv (.upgrading old (.call c k)) m → ∀ r,
      ∃ m2 d, Inv (.upgrading old (k r)) m2 ∧
        credit ⟨c, r⟩ + m = debit ⟨c, r⟩ + m2 + d ∧ (fails ⟨c, r⟩ = false → d = 0))
    (hret : ∀ old res m, Inv (.upgrading old (.ret res)) m → m = 0)
    (hwarn : ∀ old err, credit ⟨.diag .Warningf (.skippingStack old err), ()⟩ = 0 ∧
      debit ⟨.diag .Warningf (.skippingStack old err), ()⟩ = 0)
    (j : Nat) (st : Upgrade.Pool) (pending : List M)
    (hinv : List.Forall₂ Inv st.workers pending)
    (w : Upgrade.Worker) (hw : st.workers.get? j = some w) (hlive : w.live = true)
    (st2 : Upgrade.Pool)
    (hout : ((Upgrade.step b newStore olds j st).run W s).out = .done st2) :
    ∃ (pending2 : List M) (d : M), List.Forall₂ Inv st2.workers pending2 ∧
      (((Upgrade.step b newStore olds j st).run W s).trace.map credit).sum + pending.sum
        = (((Upgrade.step b newStore olds j st).run W s).trace.map debit).sum
          + pending2.sum + d ∧
      ((∀ e ∈ ((Upgrade.step b newStore olds j st).run W s).trace, fails e = false) → d = 0) := by
  obtain ⟨m, hm, hwm⟩ := forall2_get_some hinv j w hw
  unfold Upgrade.step at hout ⊢
  rw [hw] at hout ⊢
  cases w with
  | exited => cases hlive
  | claiming =>
    have hm0 := hzero m hwm
    subst hm0
    simp only [] at hout ⊢
    cases hget : olds.get? st.nextIdx with
    | none =>
      rw [hget] at hout
      simp only [Prog.run] at hout ⊢
      cases hout
      obtain ⟨A, h1, h2⟩ := sum_set_add pending j 0 0 hm
      refine ⟨pending.set j 0, 0, forall2_set hinv j _ _ hexit, ?_, fun _ => rfl⟩
      simp only [List.map_nil, List.sum_nil, zero_add, add_zero]
      rw [h1, h2]
    | some old =>
      rw [hget] at hout
      simp only [Prog.run] at hout ⊢
      cases hout
      obtain ⟨A, h1, h2⟩ := sum_set_add pending j 0 0 hm
      refine ⟨pending.set j 0, 0, forall2_set hinv j _ _ (hstart old (List.get?_mem hget)), ?_,
        fun _ => rfl⟩
      simp only [List.map_nil, List.sum_nil, zero_add, add_zero]
      rw [h1, h2]
  | upgrading old rest =>
    simp only [] at hout ⊢
    cases rest with
    | ret a =>
      have hm0 := hret old a m hwm
      subst hm0
      obtain ⟨A, h1, h2⟩ := sum_set_add pending j 0 0 hm
      cases a with
      | none =>
        simp only [Prog.run] at hout ⊢
        cases hout
        refine ⟨pending.set j 0, 0, forall2_set hinv j _ _ hclaim, ?_, fun _ => rfl⟩
        simp only [List.map_nil, List.sum_nil, zero_add, add_zero]
        rw [h1, h2]
      | some err =>
        simp only [Prog.run] at hout ⊢
        cases hout
        refine ⟨pending.set j 0, 0, forall2_set hinv j _ _ hclaim, ?_, fun _ => rfl⟩
        simp only [List.map_cons, List.map_nil, List.sum_cons, List.sum_nil, add_zero,
          (hwarn old err).1, (hwarn old err).2, zero_add]
        rw [h1, h2]
    | gopanic msg =>
      simp only [Prog.run] at hout
      cases hout
    | call c k =>
      simp only [Prog.run] at hout ⊢
      cases hout
      obtain ⟨m2, d, hi2, heq, hd⟩ := hcall old c k m hwm (W.respond c s).1
      obtain ⟨A, h1, h2⟩ := sum_set_add pending j m m2 hm
      refine ⟨pending.set j m2, d, forall2_set hinv j _ _ hi2, ?_, fun h => ?_⟩
      · simp only [List.map_cons, List.map_nil, List.sum_cons, List.sum_nil, add_zero]
        rw [h1, h2]
        calc credit ⟨c, (W.respond c s).1⟩ + (A + m)
            = A + (credit ⟨c, (W.respond c s).1⟩ + m) := by abel
          _ = A + (debit ⟨c, (W.respond c s).1⟩ + m2 + d) := by rw [heq]
          _ = debit ⟨c, (W.respond c s).1⟩ + (A + m2) + d := by abel
      · exact hd (h _ (List.mem_singleton.2 rfl))

/-- The ledger of the workers of `Upgrade`: when the pool returns, the credit
of its events plus what was pending is the debit of its events plus what was
dropped, and nothing was dropped unless an event was a failure. -/
theorem upgrade_pool_ledger {σ M : Type} [AddCommMonoid M] (W : World σ)
    (b : localBackend) (newStore : projectReferenceStore) (olds : List localBackendReference)
    (credit debit : Event → M) (fails : Event → Bool) (Inv : Upgrade.Worker → M → Prop)
    (hsched : ∀ n r, credit ⟨.sched n, r⟩ = 0 ∧ debit ⟨.sched n, r⟩ = 0)
    (hclaim : Inv .claiming 0) (hexit : Inv .exited 0)
    (hzero : ∀ m, Inv .claiming m → m = 0) (hzero2 : ∀ m, Inv .exited m → m = 0)
    (hstart : ∀ old ∈ olds, Inv (.upgrading old (b.upgradeStack newStore old)) 0)
    (hcall : ∀ old c k m, Inv (.upgrading old (.call c k)) m → ∀ r,
      ∃ m2 d, Inv (.upgrading old (k r)) m2 ∧
        credit ⟨c, r⟩ + m = debit ⟨c, r⟩ + m2 + d ∧ (fails ⟨c, r⟩ = false → d = 0))
    (hret : ∀ old res m, Inv (.upgrading old (.ret res)) m → m = 0)
    (hwarn : ∀ old err, credit ⟨.diag .Warningf (.skippingStack old err), ()⟩ = 0 ∧
      debit ⟨.diag .Warningf (.skippingStack old err), ()⟩ = 0) :
    ∀ (fuel : Nat) (s : σ) (st : Upgrade.Pool) (pending : List M),
      List.Forall₂ Inv st.workers pending →
      ∀ fin, ((Upgrade.pool b newStore olds fuel st).run W s).out = .done fin →
        ∃ D, (((Upgrade.pool b newStore olds fuel st).run W s).trace.map credit).sum
              + pending.sum
            = (((Upgrade.pool b newStore olds fuel st).run W s).trace.map debit).sum + D ∧
          ((∀ e ∈ ((Upgrade.pool b newStore olds fuel st).run W s).trace, fails e = false) →
            D = 0) := by
  have hend : ∀ (st : Upgrade.Pool) (pending : List M), st.live = [] →
      List.Forall₂ Inv st.workers pending → pending.sum = 0 := by
    intro st pending hl hinv
    have hall : ∀ w ∈ st.workers, w = .exited := by
      intro w hw
      obtain ⟨n, hn⟩ := List.get?_of_mem hw
      exact upgrade_live_nil st hl n w hn
    clear hl
    generalize st.workers = ws at hinv hall
    induction hinv with
    | nil => rfl
    | @cons a m l1 l2 hab _ ih =>
      have ha := hall a (List.mem_cons_self _ _)
      subst ha
      rw [List.sum_cons, hzero2 m hab, zero_add]
      exact ih (fun w hw => hall w (List.mem_cons_of_mem _ hw))
  intro fuel
  induction fuel with
  | zero =>
    intro s st pending hinv fin hout
    unfold Upgrade.pool at hout ⊢
    by_cases hl : st.live = []
    · simp only [hl, if_true, Prog.run] at hout ⊢
      refine ⟨0, ?_, fun _ => rfl⟩
      simp only [List.map_nil, List.sum_nil, zero_add, add_zero]
      exact hend st pending hl hinv
    · simp only [hl, if_false, Prog.run] at hout
      cases hout
  | succ fuel ih =>
    intro s st pending hinv fin hout
    unfold Upgrade.pool at hout ⊢
    cases hl : st.live with
    | nil =>
      rw [hl] at hout
      simp only [Prog.run] at hout ⊢
      refine ⟨0, ?_, fun _ => rfl⟩
      simp only [List.map_nil, List.sum_nil, zero_add, add_zero]
      exact hend st pending hl hinv
    | cons i rest =>
      rw [hl] at hout
      simp only [Prog.run, Prog.run_bind] at hout ⊢
      obtain ⟨w, hw, hwl⟩ := upgrade_live_mem st _ (by
        rw [hl]
        exact upgrade_pick_mem i rest (W.respond (.sched (rest.length + 1)) s).1)
      cases hso : ((Upgrade.step b newStore olds
          ((i :: rest).getD ((W.respond (.sched (rest.length + 1)) s).1 % (rest.length + 1)) i)
          st).run W (W.respond (.sched (rest.length + 1)) s).2).out with
      | panicked msg =>
        rw [hso] at hout
        cases hout
      | done st2 =>
        obtain ⟨pending2, d, hinv2, hacc, hd⟩ := upgrade_step_ledger W
          (W.respond (.sched (rest.length + 1)) s).2 b newStore olds credit debit fails Inv
          hclaim hexit hzero hstart hcall hret hwarn _ st pending hinv w hw hwl st2 hso
        rw [hso] at hout
        simp only [] at hout ⊢
        obtain ⟨D, hih, hD⟩ := ih _ st2 pending2 hinv2 fin hout
        refine ⟨D + d, ?_, fun h => ?_⟩
        · simp only [List.map_cons, List.map_append, List.sum_cons, List.sum_append,
            (hsched _ _).1, (hsched _ _).2, zero_add]
          generalize (List.map credit _).sum = c1 at hacc hih ⊢
          generalize (List.map credit _).sum = c2 at hih ⊢
          generalize (List.map debit _).sum = d1 at hacc hih ⊢
          generalize (List.map debit _).sum = d2 at hih ⊢
          calc c1 + c2 + pending.sum = c2 + (c1 + pending.sum) := by abel
            _ = c2 + (d1 + pending2.sum + d) := by rw [hacc]
            _ = d1 + (c2 + pending2.sum) + d := by abel
            _ = d1 + (d2 + D) + d := by rw [hih]
            _ = d1 + d2 + (D + d) := by abel
        · have h1 : d = 0 := hd (fun e he => h e
            (List.mem_cons_of_mem _ (List.mem_append_left _ he)))
          have h2 : D = 0 := hD (fun e he => h e
            (List.mem_cons_of_mem _ (List.mem_append_right _ he)))
          rw [h1, h2, add_zero]

theorem event_aside (newStore : projectReferenceStore) (c : Call) (r : c.Resp) (h : c.aside) :
    Event.target newStore ⟨c, r⟩ = none ∧ Event.saved ⟨c, r⟩ = none := by
  cases c <;> first
    | exact ⟨rfl, rfl⟩
    | exact absurd rfl (h.1 _)
    | exact absurd rfl (h.2 _ _)

theorem Prog.Saves.bind_saves {α β : Type} (new : localBackendReference) (p : Prog α)
    (f : α → Prog β) (hf : ∀ a, (f a).Calls Call.aside) (hp : p.Saves new) :
    (p.bind f).Saves new := by
  induction p with
  | ret a => exact absurd hp id
  | gopanic msg => exact absurd hp id
  | call c k ih =>
    rcases hp with ⟨hs, hk⟩ | ⟨ha, hk⟩
    · exact Or.inl ⟨hs, fun r => Prog.Calls.bind_ok _ _ _ (hk r) hf⟩
    · exact Or.inr ⟨ha, fun r => ⟨fun h => ih r ((hk r).1 h),
        fun h => Prog.Calls.bind_ok _ _ _ ((hk r).2 h) hf⟩⟩

theorem Prog.Saves.deferred_saves {α : Type} (new : localBackendReference) (p : Prog α)
    (cleanup : Prog Unit) (hc : cleanup.Calls Call.aside) (hp : p.Saves new) :
    (p.deferred cleanup).Saves new := by
  induction p with
  | ret a => exact absurd hp id
  | gopanic msg => exact absurd hp id
  | call c k ih =>
    rcases hp with ⟨hs, hk⟩ | ⟨ha, hk⟩
    · exact Or.inl ⟨hs, fun r => Prog.Calls.deferred _ _ _ (hk r) hc⟩
    · exact Or.inr ⟨ha, fun r => ⟨fun h => ih r ((hk r).1 h),
        fun h => Prog.Calls.deferred _ _ _ ((hk r).2 h) hc⟩⟩

/-- The end of `renameStack` is on its way to the save under the new name. -/
theorem renameStack_save_saves (b : localBackend) (oldRef newRef : localBackendReference)
    (snap : Option deploy.Snapshot) :
    (localBackend.renameStack.save b oldRef newRef snap).Saves newRef := by
  unfold localBackend.renameStack.save
  refine Or.inl ⟨⟨_, rfl⟩, fun r => ?_⟩
  cases r with
  | error err => trivial
  | ok file =>
    exact ⟨by simp [Call.aside], fun _ => ⟨by simp [Call.aside], fun _ =>
      ⟨by simp [Call.aside], fun _ => trivial⟩⟩⟩

/-- `renameStack` is on its way to the save under the new name: unless the
lock, the load, the check of the destination or the rewrite of the URNs fails,
it saves the stack under the new name, once. -/
theorem renameStack_saves (b : localBackend) (oldRef newRef : localBackendReference) :
    (b.renameStack oldRef newRef).Saves newRef := by
  unfold localBackend.renameStack
  refine Or.inr ⟨by simp [Call.aside], fun lockErr => ?_⟩
  cases lockErr with
  | some err => exact ⟨fun h => (by cases h), fun _ => trivial⟩
  | none =>
    refine ⟨fun _ => ?_, fun h => (by cases h)⟩
    refine Prog.Saves.deferred_saves _ _ _ ⟨by simp [Call.aside], fun _ => trivial⟩ ?_
    refine Or.inr ⟨by simp [Call.aside], fun got => ?_⟩
    cases got with
    | error err => exact ⟨fun h => (by cases h), fun _ => trivial⟩
    | ok pr =>
      refine ⟨fun _ => ?_, fun h => (by cases h)⟩
      refine Or.inr ⟨by simp [Call.aside], fun newPath => ⟨fun _ => ?_, fun h => (by cases h)⟩⟩
      refine Or.inr ⟨by simp [Call.aside], fun hasExisting => ?_⟩
      cases hasExisting with
      | error err => exact ⟨fun h => (by cases h), fun _ => trivial⟩
      | ok found =>
        cases found with
        | true => exact ⟨fun h => (by cases h), fun _ => trivial⟩
        | false =>
          refine ⟨fun _ => ?_, fun h => (by cases h)⟩
          simp only []
          unfold localBackend.renameStack.rewrite
          cases pr.1 with
          | none => exact renameStack_save_saves b oldRef newRef none
          | some sn =>
            refine Or.inr ⟨by simp [Call.aside], fun renamed => ?_⟩
            obtain ⟨rerr, rsn⟩ := renamed
            cases rerr with
            | some err => exact ⟨fun h => (by cases h), fun _ => trivial⟩
            | none => exact ⟨fun _ => renameStack_save_saves b oldRef newRef _, fun h => (by cases h)⟩

/-- A worker that starts `upgradeStack` for a legacy stack has nothing to
write yet: the answer of the read of the checkpoint decides. -/
theorem upgradeStack_owes (b : localBackend) (newStore : projectReferenceStore)
    (old : localBackendReference) (hold : old.project = []) :
    Upgrade.Worker.Owes newStore (.upgrading old (b.upgradeStack newStore old)) 0 := by
  unfold localBackend.upgradeStack
  have hp : ¬ old.project ≠ [] := by simp [hold]
  simp only [hp, if_false]
  refine Or.inr (Or.inl ⟨rfl, _, rfl, fun got => ?_⟩)
  cases got with
  | error err => trivial
  | ok chk =>
    obtain ⟨latest⟩ := chk
    cases latest with
    | none => trivial
    | some sn =>
      obtain ⟨resources⟩ := sn
      cases resources with
      | nil => trivial
      | cons res rest =>
        by_cases hproj : res.URN.Project = []
        · simp only [spec.migrationTarget, localBackend.upgradeStack.project, hproj, if_true]
          trivial
        · simp only [spec.migrationTarget, localBackend.upgradeStack.project, hproj, if_false]
          refine Prog.Saves.bind_saves _ _ _ (fun a => ?_) (renameStack_saves b _ _)
          cases a <;> trivial

theorem sum_filterMap_singleton {α β : Type} (f : α → Option β) (l : List α) :
    (l.map (fun a => ((f a).elim 0 (fun x => {x}) : Multiset β))).sum
      = (l.filterMap f : Multiset β) := by
  induction l with
  | nil => rfl
  | cons a rest ih =>
    simp only [List.map_cons, List.sum_cons, ih, List.filterMap_cons]
    cases f a with
    | none => simp only [Option.elim, zero_add]
    | some x => simp only [Option.elim, Multiset.singleton_add, Multiset.cons_coe]

/-- What the workers of `Upgrade` write: when the pool returns, every
reference that was written is the migration target of a stack whose checkpoint
was read, each target at most once; and when no step made a rename fail, the
references written are exactly the migration targets, each once. -/
theorem upgrade_pool_written {σ : Type} (W : World σ) (b : localBackend)
    (newStore : projectReferenceStore) (olds : List localBackendReference)
    (hold : ∀ old ∈ olds, old.project = []) (numWorkers : Nat) (fuel : Nat) (s : σ)
    (fin : Upgrade.Pool)
    (hout : ((Upgrade.pool b newStore olds fuel
      ⟨0, 0, List.replicate numWorkers .claiming⟩).run W s).out = .done fin) :
    (written ((Upgrade.pool b newStore olds fuel
        ⟨0, 0, List.replicate numWorkers .claiming⟩).run W s).trace).Subperm
        (migratable newStore ((Upgrade.pool b newStore olds fuel
          ⟨0, 0, List.replicate numWorkers .claiming⟩).run W s).trace) ∧
      ((∀ e ∈ ((Upgrade.pool b newStore olds fuel
          ⟨0, 0, List.replicate numWorkers .claiming⟩).run W s).trace,
          e.failsRename = false) →
        (written ((Upgrade.pool b newStore olds fuel
          ⟨0, 0, List.replicate numWorkers .claiming⟩).run W s).trace).Perm
          (migratable newStore ((Upgrade.pool b newStore olds fuel
            ⟨0, 0, List.replicate numWorkers .claiming⟩).run W s).trace)) := by
  have hplain : ∀ (old : localBackendReference) (rest : Prog (Option GoError)),
      rest.Calls Call.aside → Upgrade.Worker.Owes newStore (.upgrading old rest) 0 :=
    fun old rest h => Or.inl ⟨rfl, h⟩
  have hrep : ∀ n : Nat, List.Forall₂ (Upgrade.Worker.Owes newStore)
      (List.replicate n Upgrade.Worker.claiming) (List.replicate n 0) := by
    intro n
    induction n with
    | zero => exact List.Forall₂.nil
    | succ n ih => exact List.Forall₂.cons rfl ih
  have h := @upgrade_pool_ledger σ (Multiset localBackendReference) _ W b newStore olds
    (fun e => (Event.target newStore e).elim 0 (fun x => {x}))
    (fun e => (Event.saved e).elim 0 (fun x => {x}))
    Event.failsRename (Upgrade.Worker.Owes newStore)
    (fun _ _ => ⟨rfl, rfl⟩) rfl rfl (fun _ h => h) (fun _ h => h)
    (fun old ho => upgradeStack_owes b newStore old (hold old ho))
    (by
      intro old c k m hinv r
      rcases hinv with ⟨hm, hc⟩ | ⟨hm, k0, hk, hall⟩ | ⟨new, hm, hs⟩
      · subst hm
        obtain ⟨h1, h2⟩ := event_aside newStore c r hc.1
        refine ⟨0, 0, hplain old _ (hc.2 r), ?_, fun _ => rfl⟩
        simp only [h1, h2, Option.elim, add_zero]
      · subst hm
        cases hk
        have hr := hall r
        have hdeb : Event.saved ⟨.getCheckpoint old, r⟩ = none := rfl
        have hcred : Event.target newStore ⟨.getCheckpoint old, r⟩
            = spec.migrationTarget newStore old r := rfl
        cases hmt : spec.migrationTarget newStore old r with
        | none =>
          rw [hmt] at hr
          refine ⟨0, 0, hplain old _ hr, ?_, fun _ => rfl⟩
          simp only [hdeb, hcred, hmt, Option.elim, add_zero]
        | some new =>
          rw [hmt] at hr
          refine ⟨{new}, 0, Or.inr (Or.inr ⟨new, rfl, hr⟩), ?_, fun _ => rfl⟩
          simp only [hdeb, hcred, hmt, Option.elim, add_zero, zero_add]
      · subst hm
        rcases hs with ⟨⟨snap, hc⟩, hk⟩ | ⟨ha, hk⟩
        · subst hc
          have hcred : Event.target newStore ⟨.saveStack new snap, r⟩ = none := rfl
          cases r with
          | error err =>
            refine ⟨0, {new}, hplain old _ (hk _), ?_, fun h => (by cases h)⟩
            have hdeb : Event.saved ⟨.saveStack new snap, .error err⟩ = none := rfl
            simp only [hdeb, hcred, Option.elim, add_zero, zero_add]
          | ok file =>
            refine ⟨0, 0, hplain old _ (hk _), ?_, fun _ => rfl⟩
            have hdeb : Event.saved ⟨.saveStack new snap, .ok file⟩ = some new := rfl
            simp only [hdeb, hcred, Option.elim, add_zero, zero_add]
        · obtain ⟨h1, h2⟩ := event_aside newStore c r ha
          cases hf : Event.failsRename ⟨c, r⟩ with
          | false =>
            refine ⟨{new}, 0, Or.inr (Or.inr ⟨new, rfl, (hk r).1 hf⟩), ?_, fun _ => rfl⟩
            simp only [h1, h2, Option.elim, add_zero, zero_add]
          | true =>
            refine ⟨0, {new}, hplain old _ ((hk r).2 hf), ?_, fun h => (by cases h)⟩
            simp only [h1, h2, Option.elim, add_zero, zero_add])
    (by
      intro old res m hinv
      rcases hinv with ⟨hm, _⟩ | ⟨hm, _⟩ | ⟨new, _, hs⟩
      · exact hm
      · exact hm
      · exact absurd hs id)
    (fun _ _ => ⟨rfl, rfl⟩) fuel s ⟨0, 0, List.replicate numWorkers .claiming⟩
    (List.replicate numWorkers 0)
    (hrep numWorkers) fin hout
  obtain ⟨D, hsum, hD⟩ := h
  rw [sum_filterMap_singleton, sum_filterMap_singleton] at hsum
  have hz : (List.replicate numWorkers (0 : Multiset localBackendReference)).sum = 0 := by
    simp
  rw [hz, add_zero] at hsum
  constructor
  · apply Multiset.coe_le.1
    unfold written migratable
    rw [hsum]
    exact Multiset.le_add_right _ _
  · intro hno
    have hD0 := hD hno
    rw [hD0, add_zero] at hsum
    exact (Multiset.coe_eq_coe.1 hsum).symm

/-- C26 as stated fails: two legacy stacks `a` and `b`, each with a resource
of the project `proj`, and the lock of each is held by someone else.  `Upgrade`
runs to completion and returns no error, each stack is claimed and its
checkpoint read once, both have a migration target, and both are skipped with
a warning: nothing is written under the project-scoped store, and zero stacks
are reported as upgraded. -/
theorem upgrade_refused_locks_writes_nothing :
    (exampleBackend.Upgrade.run exampleRefusedLocksWorld ()).out
        = .done (none, { exampleBackend with
            store := .project (newProjectReferenceStore exampleBackend.bucket
              fun _ => exampleBackend.currentProject) }) ∧
      (checkpointReads (exampleBackend.Upgrade.run exampleRefusedLocksWorld ()).trace).map
        (fun r => r.name) = ["a".toList, "b".toList] ∧
      (migratable (newProjectReferenceStore exampleBackend.bucket
          fun _ => exampleBackend.currentProject)
        (exampleBackend.Upgrade.run exampleRefusedLocksWorld ()).trace).map
        (fun r => (r.project, r.name))
        = [("proj".toList, "a".toList), ("proj".toList, "b".toList)] ∧
      written (exampleBackend.Upgrade.run exampleRefusedLocksWorld ()).trace = [] ∧
      (∀ e ∈ (exampleBackend.Upgrade.run exampleRefusedLocksWorld ()).trace,
        ∀ ref snap, e.c ≠ .saveStack ref snap) ∧
      skipWarnings (exampleBackend.Upgrade.run exampleRefusedLocksWorld ()).trace = 2 ∧
      ((exampleBackend.Upgrade.run exampleRefusedLocksWorld ()).trace.getLast?).map (fun e => e.c)
        = some (.diag .Infoerrf (.upgraded 0)) := by
  refine ⟨by rfl, by rfl, by rfl, by rfl, ?_, by rfl, by rfl⟩
  intro e he ref snap hc
  have hw : ((exampleBackend.Upgrade.run exampleRefusedLocksWorld ()).trace.filter
      (fun e => match e.c with
        | .saveStack _ _ => true
        | _ => false)) = [] := by rfl
  have : e ∈ ((exampleBackend.Upgrade.run exampleRefusedLocksWorld ()).trace.filter
      (fun e => match e.c with
        | .saveStack _ _ => true
        | _ => false)) := by
    rw [List.mem_filter]
    refine ⟨he, ?_⟩
    rw [hc]
  rw [hw] at this
  cases this

/-- C26, amended: in a run of `Upgrade` that gets as far as the workers (the
legacy stacks are listed, the metadata file is written) and in which
`runtime.GOMAXPROCS` answers a positive number, whatever that number is and
whatever the scheduler picks: `Upgrade` returns no error and the backend with
the project-scoped store; the scheduler only ever chooses among at least one
and at most `min procs N` running workers (so no worker runs when `N = 0`);
the checkpoints read are those of the `N` listed stacks, each exactly once
(`upgradeStack` starts by reading the checkpoint of its stack); each stack
ends in a warning or in the count reported at the end.  The references under
which a checkpoint is written are migration targets of stacks that were read
(the project-scoped reference with the project named by the URN of the first
resource and the name of the stack), each at most once; and when no step of a
rename fails, they are exactly the migration targets, each exactly once. -/
theorem upgrade_claims_each_stack_once {σ : Type} (W : World σ) (s : σ) (b : localBackend)
    (hmeta : (⟨.metaWriteTo ⟨1⟩, none⟩ : Event) ∈ (b.Upgrade.run W s).trace) (procs : Nat)
    (hprocs : (⟨.GOMAXPROCS, procs⟩ : Event) ∈ (b.Upgrade.run W s).trace) (hpos : 0 < procs) :
    ∃ (bk : Bucket) (olds : List localBackendReference) (upgraded : Nat),
      (⟨.bucket, bk⟩ : Event) ∈ (b.Upgrade.run W s).trace ∧
      (newLegacyReferenceStore bk).ListReferences = .ok olds ∧
      (b.Upgrade.run W s).out
        = .done (none, { b with
            store := .project (newProjectReferenceStore b.bucket fun _ => b.currentProject) }) ∧
      (∀ n r, (⟨.sched n, r⟩ : Event) ∈ (b.Upgrade.run W s).trace →
        0 < n ∧ n ≤ procs ∧ n ≤ olds.length) ∧
      (checkpointReads (b.Upgrade.run W s).trace).Perm olds ∧
      (⟨.diag .Infoerrf (.upgraded upgraded), ()⟩ : Event) ∈ (b.Upgrade.run W s).trace ∧
      skipWarnings (b.Upgrade.run W s).trace + upgraded = olds.length ∧
      (written (b.Upgrade.run W s).trace).Subperm
        (migratable (newProjectReferenceStore b.bucket fun _ => b.currentProject)
          (b.Upgrade.run W s).trace) ∧
      ((∀ e ∈ (b.Upgrade.run W s).trace, e.failsRename = false) →
        (written (b.Upgrade.run W s).trace).Perm
          (migratable (newProjectReferenceStore b.bucket fun _ => b.currentProject)
            (b.Upgrade.run W s).trace)) := by
  obtain ⟨bk, olds, upgraded, hb, hl, hrep, hreads, hskip, _, hsched⟩ :=
    upgrade_account W s b hmeta procs hprocs hpos
  obtain ⟨bk2, olds2, procs2, s3, fin, hl2, hold, hpool, htrace, hout⟩ := upgrade_run W s b hmeta
  obtain ⟨hsub, hperm⟩ := upgrade_pool_written W b
    (newProjectReferenceStore b.bucket fun _ => b.currentProject) olds2 hold _ _ s3 fin hpool
  have hw : written (b.Upgrade.run W s).trace
      = written ((Upgrade.pool b (newProjectReferenceStore b.bucket (fun _ => b.currentProject))
          olds2
          (Upgrade.stepBound olds2.length (if olds2.length < procs2 then olds2.length else procs2))
          ⟨0, 0, List.replicate (if olds2.length < procs2 then olds2.length else procs2)
            .claiming⟩).run W s3).trace := by
    rw [htrace]
    simp [written, List.filterMap_cons, List.filterMap_append, Event.saved]
  have hm : migratable (newProjectReferenceStore b.bucket fun _ => b.currentProject)
        (b.Upgrade.run W s).trace
      = migratable (newProjectReferenceStore b.bucket fun _ => b.currentProject)
        ((Upgrade.pool b (newProjectReferenceStore b.bucket (fun _ => b.currentProject))
          olds2
          (Upgrade.stepBound olds2.length (if olds2.length < procs2 then olds2.length else procs2))
          ⟨0, 0, List.replicate (if olds2.length < procs2 then olds2.length else procs2)
            .claiming⟩).run W s3).trace := by
    rw [htrace]
    simp [migratable, List.filterMap_cons, List.filterMap_append, Event.target]
  refine ⟨bk, olds, upgraded, hb, hl, hout, hsched, hreads, hrep, hskip, ?_, fun hno => ?_⟩
  · rw [hw, hm]
    exact hsub
  · rw [hw, hm]
    apply hperm
    intro e he
    apply hno
    rw [htrace]
    exact List.Mem.tail _ (List.Mem.tail _ (List.Mem.tail _ (List.mem_append_left _ he)))

theorem upgrade_claims_each_stack_once_witness :
    (⟨.metaWriteTo ⟨1⟩, none⟩ : Event) ∈ (exampleBackend.Upgrade.run exampleUpgradeWorld 0).trace ∧
      (⟨.GOMAXPROCS, 8⟩ : Event) ∈ (exampleBackend.Upgrade.run exampleUpgradeWorld 0).trace ∧
      0 < 8 ∧
      (∀ e ∈ (exampleBackend.Upgrade.run exampleUpgradeWorld 0).trace, e.failsRename = false) ∧
      ∃ (bk : Bucket) (olds : List localBackendReference) (upgraded : Nat),
        (⟨.bucket, bk⟩ : Event) ∈ (exampleBackend.Upgrade.run exampleUpgradeWorld 0).trace ∧
        (newLegacyReferenceStore bk).ListReferences = .ok olds ∧
        (exampleBackend.Upgrade.run exampleUpgradeWorld 0).out
          = .done (none, { exampleBackend with
              store := .project (newProjectReferenceStore exampleBackend.bucket
                fun _ => exampleBackend.currentProject) }) ∧
        (∀ n r, (⟨.sched n, r⟩ : Event) ∈ (exampleBackend.Upgrade.run exampleUpgradeWorld 0).trace →
          0 < n ∧ n ≤ 8 ∧ n ≤ olds.length) ∧
        (checkpointReads (exampleBackend.Upgrade.run exampleUpgradeWorld 0).trace).Perm olds ∧
        (⟨.diag .Infoerrf (.upgraded upgraded), ()⟩ : Event)
          ∈ (exampleBackend.Upgrade.run exampleUpgradeWorld 0).trace ∧
        skipWarnings (exampleBackend.Upgrade.run exampleUpgradeWorld 0).trace + upgraded
          = olds.length ∧
        (written (exampleBackend.Upgrade.run exampleUpgradeWorld 0).trace).Subperm
          (migratable (newProjectReferenceStore exampleBackend.bucket
              fun _ => exampleBackend.currentProject)
            (exampleBackend.Upgrade.run exampleUpgradeWorld 0).trace) ∧
        (written (exampleBackend.Upgrade.run exampleUpgradeWorld 0).trace).Perm
          (migratable (newProjectReferenceStore exampleBackend.bucket
              fun _ => exampleBackend.currentProject)
            (exampleBackend.Upgrade.run exampleUpgradeWorld 0).trace) :=
  ⟨List.Mem.tail _ (List.Mem.head _), List.Mem.tail _ (List.Mem.tail _ (List.Mem.head _)),
    by decide,
    fun e he => by
      have hall : (exampleBackend.Upgrade.run exampleUpgradeWorld 0).trace.all
          (fun e => !e.failsRename) = true := by rfl
      simpa using List.all_eq_true.1 hall e he,
    match upgrade_claims_each_stack_once exampleUpgradeWorld 0 exampleBackend
      (List.Mem.tail _ (List.Mem.head _)) 8
      (List.Mem.tail _ (List.Mem.tail _ (List.Mem.head _))) (by decide) with
    | ⟨bk, olds, upgraded, h1, h2, h3, h4, h5, h6, h7, h8, h9⟩ =>
      ⟨bk, olds, upgraded, h1, h2, h3, h4, h5, h6, h7, h8,
        h9 (fun e he => by
          have hall : (exampleBackend.Upgrade.run exampleUpgradeWorld 0).trace.all
              (fun e => !e.failsRename) = true := by rfl
          simpa using List.all_eq_true.1 hall e he)⟩⟩

/-- The upgrade example with two workers that take turns: the stack `a`, whose
checkpoint names the project `proj`, is locked and written under the
project-scoped reference `proj/a`; the stack `b`, without a snapshot, is read
and skipped; no step of a rename fails; one stack is reported as upgraded. -/
theorem upgrade_example :
    (checkpointReads (exampleBackend.Upgrade.run exampleUpgradeWorld 0).trace).map
        (fun r => r.name) = ["a".toList, "b".toList] ∧
      (locked (exampleBackend.Upgrade.run exampleUpgradeWorld 0).trace).map (fun r => r.name)
        = ["a".toList] ∧
      (migratable (newProjectReferenceStore exampleBackend.bucket
          fun _ => exampleBackend.currentProject)
        (exampleBackend.Upgrade.run exampleUpgradeWorld 0).trace).map
        (fun r => (r.project, r.name)) = [("proj".toList, "a".toList)] ∧
      (written (exampleBackend.Upgrade.run exampleUpgradeWorld 0).trace).map
        (fun r => (r.project, r.name)) = [("proj".toList, "a".toList)] ∧
      (exampleBackend.Upgrade.run exampleUpgradeWorld 0).trace.all
        (fun e => !e.failsRename) = true ∧
      skipWarnings (exampleBackend.Upgrade.run exampleUpgradeWorld 0).trace = 1 ∧
      ((exampleBackend.Upgrade.run exampleUpgradeWorld 0).trace.getLast?).map (fun e => e.c)
        = some (.diag .Infoerrf (.upgraded 1)) := by
  refine ⟨?_, ?_, ?_, ?_, ?_, ?_, ?_⟩ <;> rfl
